import Mathlib

/-!
# libnn: connectivity model

A shallow embedding of the connectivity part of libnn (`Connector.h`,
`Neuron.h`, `NeuralNetwork::connect` of `libnn.cc`).

* A `NeuronBase *` is an `Option Nat`: `none` is the null pointer and `some a`
  is the address `a`, an index into the heap of neurons (`Graph`).
* `std::vector<T>::operator[]` with an index that is not below `size ()` has no
  defined behaviour; so has a call through a pointer that addresses no neuron.
  Both are the outcome `Outcome.undefined`.
* The member functions of `Neuron` call each other recursively through the
  peer pointers; the embedding recurses on a fuel argument, and
  `Outcome.outOfFuel` says that the fuel did not suffice.
-/

namespace Libnn

/-! ## Connector.h -/

/-- Connector of `Connector.h`: the peer pointer `neuron` and the index `nth`
of the peer slot. -/
structure Connector where
  neuron : Option Nat
  nth : Nat
deriving DecidableEq, Repr

namespace Connector

/-- The constructor `Connector () : neuron (0), nth (0)`. -/
def new : Connector := ⟨none, 0⟩

/-- The member `connect (n, i)`: `neuron = n; nth = i;`. -/
def connect (_c : Connector) (n : Option Nat) (i : Nat) : Connector := ⟨n, i⟩

/-- The member `disconnect ()`: `neuron = 0; nth = 0;`. -/
def disconnect (_c : Connector) : Connector := ⟨none, 0⟩

/-- The member `get_neuron ()`. -/
def get_neuron (c : Connector) : Option Nat := c.neuron

/-- The member `get_nth ()`. -/
def get_nth (c : Connector) : Nat := c.nth

/-- The member `is_connected ()`: `neuron != 0`. -/
def is_connected (c : Connector) : Bool := c.neuron != none

end Connector

/-! ## std::vector bookkeeping used by Neuron.h -/

/-- Capacity after `std::vector::reserve (n)`: storage is reallocated only when
`n` exceeds the present capacity. -/
def vector_reserve (capacity n : Nat) : Nat := if n > capacity then n else capacity

/-- Capacity after `std::vector::push_back` on a vector of `size` elements: a
full vector reallocates to twice its size, and to one element when empty (the
growth of the GNU implementation). -/
def vector_push_back_capacity (size capacity : Nat) : Nat :=
  if size = capacity then size + max size 1 else capacity

/-! ## NeuronBase.h and Neuron.h: the data -/

/-- The data members of `NeuronBase` (`flags`, `neuron_id`) and of `Neuron`
(`dendrites`, `synapses`); the two capacity fields are `capacity ()` of the two
vectors. -/
structure Neuron where
  flags : Nat
  neuron_id : Nat
  dendrites : List Connector
  synapses : List Connector
  dendrites_capacity : Nat
  synapses_capacity : Nat
deriving DecidableEq, Repr

namespace Neuron

/-- The member `n_synapses ()`: `synapses.size ()`. -/
def n_synapses (me : Neuron) : Nat := me.synapses.length

/-- The member `n_dendrites ()`: `dendrites.size ()`. -/
def n_dendrites (me : Neuron) : Nat := me.dendrites.length

/-- The member `add_dendrite (DendriteType d)`. -/
def add_dendrite_with (me : Neuron) (d : Connector) : Neuron :=
  let l := me.dendrites.length
  let capacity :=
    if l = 0 then vector_reserve me.dendrites_capacity 64
    else if l = me.dendrites_capacity then vector_reserve me.dendrites_capacity (l + (l >>> 1))
    else me.dendrites_capacity
  { me with
    dendrites := me.dendrites ++ [d]
    dendrites_capacity := vector_push_back_capacity l capacity }

/-- The member `add_synapse (SynapseType s)`. -/
def add_synapse_with (me : Neuron) (s : Connector) : Neuron :=
  let l := me.synapses.length
  let capacity :=
    if l = 0 then vector_reserve me.synapses_capacity 64
    else if l = me.synapses_capacity then vector_reserve me.synapses_capacity (l + (l >>> 1))
    else me.synapses_capacity
  { me with
    synapses := me.synapses ++ [s]
    synapses_capacity := vector_push_back_capacity l capacity }

/-- The member `add_dendrite ()`: `add_dendrite (DendriteType ())`. -/
def add_dendrite (me : Neuron) : Neuron := me.add_dendrite_with Connector.new

/-- The member `add_synapse ()`: `add_synapse (SynapseType ())`. -/
def add_synapse (me : Neuron) : Neuron := me.add_synapse_with Connector.new

end Neuron

/-! ## The heap of neurons -/

/-- The neurons that exist, by address. -/
abbrev Graph := List Neuron

/-- Result of a member function that updates the graph. -/
inductive Outcome where
  | done (g : Graph)
  | undefined
  | outOfFuel
deriving DecidableEq, Repr

namespace Graph

/-- Outbound slot `i` of the neuron at address `a`, when both exist. -/
def synapse (g : Graph) (a i : Nat) : Option Connector :=
  match g[a]? with
  | none => none
  | some me => me.synapses[i]?

/-- Inbound slot `i` of the neuron at address `a`, when both exist. -/
def dendrite (g : Graph) (a i : Nat) : Option Connector :=
  match g[a]? with
  | none => none
  | some me => me.dendrites[i]?

/-- The store `synapses[i] = c` in the neuron at address `a`. -/
def setSynapse (g : Graph) (a i : Nat) (c : Connector) : Graph :=
  match g[a]? with
  | none => g
  | some me => g.set a { me with synapses := me.synapses.set i c }

/-- The store `dendrites[i] = c` in the neuron at address `a`. -/
def setDendrite (g : Graph) (a i : Nat) (c : Connector) : Graph :=
  match g[a]? with
  | none => g
  | some me => g.set a { me with dendrites := me.dendrites.set i c }

end Graph

/-! ## Neuron.h: disconnect_synapse and disconnect_dendrite -/

mutual

/-- The member `disconnect_synapse (nth_synapse)` of the neuron at address
`self`. -/
def disconnect_synapse : Nat → Graph → Nat → Nat → Outcome
  | 0, _, _, _ => Outcome.outOfFuel
  | fuel + 1, g, self, nth_synapse =>
    match g[self]? with
    | none => Outcome.undefined
    | some me =>
      if nth_synapse > me.synapses.length then Outcome.done g
      else
        match me.synapses[nth_synapse]? with
        | none => Outcome.undefined
        | some s =>
          if s.is_connected then
            let n := s.get_neuron
            let dendrite := s.get_nth
            let g1 := g.setSynapse self nth_synapse s.disconnect
            match n with
            | none => Outcome.undefined
            | some p => disconnect_dendrite fuel g1 p dendrite
          else Outcome.done g
termination_by structural fuel => fuel

/-- The member `disconnect_dendrite (kth_dendrite)` of the neuron at address
`self`. -/
def disconnect_dendrite : Nat → Graph → Nat → Nat → Outcome
  | 0, _, _, _ => Outcome.outOfFuel
  | fuel + 1, g, self, kth_dendrite =>
    match g[self]? with
    | none => Outcome.undefined
    | some me =>
      if kth_dendrite > me.dendrites.length then Outcome.done g
      else
        match me.dendrites[kth_dendrite]? with
        | none => Outcome.undefined
        | some d =>
          if d.is_connected then
            let n := d.get_neuron
            let synapse := d.get_nth
            let g1 := g.setDendrite self kth_dendrite d.disconnect
            match n with
            | none => Outcome.undefined
            | some p => disconnect_synapse fuel g1 p synapse
          else Outcome.done g
termination_by structural fuel => fuel

end

/-! ## Neuron.h: connect_synapse and connect_dendrite -/

mutual

/-- The member `connect_synapse (nth_synapse, n, kth_dendrite)` of the neuron at
address `self`. -/
def connect_synapse : Nat → Graph → Nat → Nat → Option Nat → Nat → Outcome
  | 0, _, _, _, _, _ => Outcome.outOfFuel
  | fuel + 1, g, self, nth_synapse, n, kth_dendrite =>
    match g[self]? with
    | none => Outcome.undefined
    | some me =>
      match n with
      | none => Outcome.done g
      | some p =>
        match me.synapses[nth_synapse]? with
        | none => Outcome.undefined
        | some s =>
          if s.get_neuron = some p then Outcome.done g
          else
            match disconnect_synapse fuel g self nth_synapse with
            | Outcome.done g1 =>
              match g1.synapse self nth_synapse with
              | none => Outcome.undefined
              | some s1 =>
                let g2 := g1.setSynapse self nth_synapse (s1.connect (some p) kth_dendrite)
                connect_dendrite fuel g2 p kth_dendrite (some self) nth_synapse
            | other => other
termination_by structural fuel => fuel

/-- The member `connect_dendrite (kth_dendrite, n, nth_synapse)` of the neuron at
address `self`. -/
def connect_dendrite : Nat → Graph → Nat → Nat → Option Nat → Nat → Outcome
  | 0, _, _, _, _, _ => Outcome.outOfFuel
  | fuel + 1, g, self, kth_dendrite, n, nth_synapse =>
    match g[self]? with
    | none => Outcome.undefined
    | some me =>
      match n with
      | none => Outcome.done g
      | some p =>
        match me.dendrites[kth_dendrite]? with
        | none => Outcome.undefined
        | some d =>
          if d.get_neuron = some p then Outcome.done g
          else
            match disconnect_dendrite fuel g self kth_dendrite with
            | Outcome.done g1 =>
              match g1.dendrite self kth_dendrite with
              | none => Outcome.undefined
              | some d1 =>
                let g2 := g1.setDendrite self kth_dendrite (d1.connect (some p) nth_synapse)
                connect_synapse fuel g2 p nth_synapse (some self) kth_dendrite
            | other => other
termination_by structural fuel => fuel

end

/-! ## libnn.cc: NeuralNetwork::connect -/

/-- The member `NeuralNetwork::connect (a, synapse, b, dendrite)`:
`a->connect_synapse (synapse, b, dendrite)`. -/
def NeuralNetwork.connect (fuel : Nat) (g : Graph) (a : Option Nat) (synapse : Nat)
    (b : Option Nat) (dendrite : Nat) : Outcome :=
  match a with
  | none => Outcome.undefined
  | some p => connect_synapse fuel g p synapse b dendrite

/-- A neuron as the constructor `Neuron (n_dendrites, n_synapses)` leaves its
two vectors. -/
def Neuron.mk0 (id n_dendrites n_synapses : Nat) : Neuron :=
  { flags := 0, neuron_id := id,
    dendrites := List.replicate n_dendrites Connector.new,
    synapses := List.replicate n_synapses Connector.new,
    dendrites_capacity := n_dendrites, synapses_capacity := n_synapses }


/-! ## Graph states -/

namespace Graph

/-- Number of outbound slots of the neuron at address `a`; no neuron, no slot. -/
def n_synapses (g : Graph) (a : Nat) : Nat :=
  match g[a]? with
  | none => 0
  | some me => me.n_synapses

/-- Number of inbound slots of the neuron at address `a`; no neuron, no slot. -/
def n_dendrites (g : Graph) (a : Nat) : Nat :=
  match g[a]? with
  | none => 0
  | some me => me.n_dendrites

end Graph

/-- Reciprocity: outbound slot `s` of `a` references `(b, d)` exactly when inbound
slot `d` of `b` references `(a, s)`. -/
def Reciprocal (g : Graph) : Prop :=
  (∀ a s b d, g.synapse a s = some ⟨some b, d⟩ → g.dendrite b d = some ⟨some a, s⟩) ∧
  (∀ b d a s, g.dendrite b d = some ⟨some a, s⟩ → g.synapse a s = some ⟨some b, d⟩)

/-- Reciprocity with every quantifier bounded by the size of the graph, for
evaluation. -/
def ReciprocalBounded (g : Graph) : Prop :=
  (∀ a, a < g.length → ∀ s, s < g.n_synapses a → ∀ c ∈ g.synapse a s, ∀ b ∈ c.neuron,
    g.dendrite b c.nth = some ⟨some a, s⟩) ∧
  (∀ b, b < g.length → ∀ d, d < g.n_dendrites b → ∀ c ∈ g.dendrite b d, ∀ a ∈ c.neuron,
    g.synapse a c.nth = some ⟨some b, d⟩)

instance (g : Graph) : Decidable (ReciprocalBounded g) := by
  unfold ReciprocalBounded
  infer_instance

/-- Every reference of a connected slot addresses an existing slot of the
opposite collection of an existing neuron. -/
def WellFormed (g : Graph) : Prop :=
  (∀ a s c b, g.synapse a s = some c → c.neuron = some b → (g.dendrite b c.nth).isSome) ∧
  (∀ b d c a, g.dendrite b d = some c → c.neuron = some a → (g.synapse a c.nth).isSome)

/-- Well-formedness with every quantifier bounded by the size of the graph, for
evaluation. -/
def WellFormedBounded (g : Graph) : Prop :=
  (∀ a, a < g.length → ∀ s, s < g.n_synapses a → ∀ c ∈ g.synapse a s, ∀ b ∈ c.neuron,
    (g.dendrite b c.nth).isSome) ∧
  (∀ b, b < g.length → ∀ d, d < g.n_dendrites b → ∀ c ∈ g.dendrite b d, ∀ a ∈ c.neuron,
    (g.synapse a c.nth).isSome)

instance (g : Graph) : Decidable (WellFormedBounded g) := by
  unfold WellFormedBounded
  infer_instance

/-- Every slot of every neuron is unconnected. -/
def Unwired (g : Graph) : Prop :=
  ∀ me ∈ g, (∀ c ∈ me.dendrites, c.is_connected = false) ∧
    (∀ c ∈ me.synapses, c.is_connected = false)

instance (g : Graph) : Decidable (Unwired g) := by
  unfold Unwired
  infer_instance

/-- The graph states obtained from a population with all slots unconnected by
`NeuralNetwork::connect`, `disconnect_synapse` and `disconnect_dendrite` calls on
existing neurons with slot indices in range. -/
inductive Reachable : Graph → Prop where
  | unwired (g : Graph) : Unwired g → Reachable g
  | connect (fuel : Nat) (g g' : Graph) (A s B d : Nat) : Reachable g →
      s < g.n_synapses A → d < g.n_dendrites B →
      NeuralNetwork.connect fuel g (some A) s (some B) d = Outcome.done g' → Reachable g'
  | disconnect_synapse (fuel : Nat) (g g' : Graph) (A s : Nat) : Reachable g →
      s < g.n_synapses A →
      disconnect_synapse fuel g A s = Outcome.done g' → Reachable g'
  | disconnect_dendrite (fuel : Nat) (g g' : Graph) (B d : Nat) : Reachable g →
      d < g.n_dendrites B →
      disconnect_dendrite fuel g B d = Outcome.done g' → Reachable g'

/-- One for a connected slot, zero for an unconnected one. -/
def Connector.weight (c : Connector) : Nat := if c.is_connected then 1 else 0

/-- Number of connected slots of a neuron, inbound and outbound. -/
def Neuron.connCount (me : Neuron) : Nat :=
  (me.synapses.map Connector.weight).sum + (me.dendrites.map Connector.weight).sum

/-- Number of connected slots of the graph. -/
def Graph.connCount (g : Graph) : Nat := (g.map Neuron.connCount).sum

/-- The state `g'` is `g` with some slots disconnected: every slot of `g'` is the
slot of `g` or is an existing slot of `g` that `Connector::disconnect` has cleared. -/
def Cleared (g g' : Graph) : Prop :=
  (∀ a i, g'.synapse a i = g.synapse a i ∨
    (g'.synapse a i = some Connector.new ∧ (g.synapse a i).isSome)) ∧
  (∀ a i, g'.dendrite a i = g.dendrite a i ∨
    (g'.dendrite a i = some Connector.new ∧ (g.dendrite a i).isSome))

/-! ## Sample populations -/

/-- Neuron 0 with one inbound and two outbound slots, neuron 1 with one slot of
each kind, nothing connected. -/
def twoNeurons : Graph := [Neuron.mk0 0 1 2, Neuron.mk0 1 1 1]

/-- The population `twoNeurons` after `connect (0, 0, 1, 0)`. -/
def twoNeuronsLinked : Graph :=
  [{ Neuron.mk0 0 1 2 with synapses := [⟨some 1, 0⟩, ⟨none, 0⟩] },
   { Neuron.mk0 1 1 1 with dendrites := [⟨some 0, 0⟩] }]

/-- The population `twoNeuronsLinked` after `connect (0, 1, 1, 0)`. -/
def twoNeuronsSkewed : Graph :=
  [{ Neuron.mk0 0 1 2 with synapses := [⟨some 1, 0⟩, ⟨some 1, 0⟩] },
   { Neuron.mk0 1 1 1 with dendrites := [⟨some 0, 0⟩] }]

/-- Three neurons with one slot of each kind: outbound slot 0 of neuron 0 is linked to
inbound slot 0 of neuron 2, and outbound slot 0 of neuron 2 to inbound slot 0 of
neuron 1. -/
def threeNeurons : Graph :=
  [{ Neuron.mk0 0 1 1 with synapses := [⟨some 2, 0⟩] },
   { Neuron.mk0 1 1 1 with dendrites := [⟨some 2, 0⟩] },
   { Neuron.mk0 2 1 1 with dendrites := [⟨some 0, 0⟩], synapses := [⟨some 1, 0⟩] }]

/-! ## Connector.h: ConnectorIterator -/

/-- ConnectorIterator of `Connector.h`: the referenced container and the position
`itr` in it; `container.end ()` is the position `container.length`. A pointer to an
element is the position of the element. -/
structure ConnectorIterator (α : Type) where
  container : List α
  itr : Nat
deriving DecidableEq, Repr

namespace ConnectorIterator

/-- The constructor `ConnectorIterator (Container & c)`: `itr = container.begin ()`. -/
def over {α : Type} (c : List α) : ConnectorIterator α := ⟨c, 0⟩

/-- The member `null ()`. -/
def null : Option Nat := none

/-- The member `first ()`. -/
def first {α : Type} (it : ConnectorIterator α) : ConnectorIterator α × Option Nat :=
  let it1 := { it with itr := 0 }
  if it1.itr = it1.container.length then (it1, null) else (it1, some it1.itr)

/-- The member `next ()`; incrementing the end position is not defined. -/
def next {α : Type} (it : ConnectorIterator α) : Option (ConnectorIterator α × Option Nat) :=
  if it.itr < it.container.length then
    let it1 := { it with itr := it.itr + 1 }
    if it1.itr = it1.container.length then some (it1, null) else some (it1, some it1.itr)
  else none

/-- The member `numof ()`. -/
def numof {α : Type} (it : ConnectorIterator α) : Nat := it.container.length

/-- The element a yielded pointer addresses. -/
def deref {α : Type} (it : ConnectorIterator α) (p : Nat) : Option α := it.container[p]?

/-- The pointers the loop `for (x = cur; x != null (); x = next ())` passes through,
from the pointer `cur` on; `none` when `next ()` is not defined or the fuel runs out. -/
def yields {α : Type} : Nat → ConnectorIterator α → Option Nat → Option (List Nat)
  | _, _, none => some []
  | 0, _, some _ => none
  | fuel + 1, it, some p =>
    match it.next with
    | none => none
    | some (it1, q) => (yields fuel it1 q).map (fun l => p :: l)

/-- The pointers yielded by `first ()` and then `next ()` up to the null sentinel. -/
def traverse {α : Type} (fuel : Nat) (it : ConnectorIterator α) : Option (List Nat) :=
  yields fuel it.first.1 it.first.2

end ConnectorIterator

/-! ## NeuronBase.h: the identity counter -/

/-- The constructor `NeuronBase ()` on the static `__uint32_t neuron_counter`:
`neuron_id = neuron_counter; neuron_counter++;`. The result is the identity given and
the counter afterwards. -/
def NeuronBase.construct (neuron_counter : Nat) : Nat × Nat :=
  (neuron_counter, (neuron_counter + 1) % 2 ^ 32)

/-- A construction or a destruction of a neuron. -/
inductive Lifecycle where
  | construct
  | destroy
deriving DecidableEq, Repr

/-- The identities given to the neurons constructed by a sequence of constructions and
destructions, in creation order, from a counter value; `~NeuronBase () {}` leaves the
counter alone. -/
def assign_ids : Nat → List Lifecycle → List Nat
  | _, [] => []
  | c, Lifecycle.construct :: es =>
    (NeuronBase.construct c).1 :: assign_ids (NeuronBase.construct c).2 es
  | c, Lifecycle.destroy :: es => assign_ids c es

/-- Number of constructions in a sequence of constructions and destructions. -/
def constructions (es : List Lifecycle) : Nat := es.count Lifecycle.construct

/-! ## NeuronBase.h: the queue flags -/

/-- The macro `NN_FLAG_IN_QUEUE_ALREADY`. -/
def NN_FLAG_IN_QUEUE_ALREADY : Nat := 0b0000000000000001

/-- The macro `NN_FLAG_IN_BPQUE_ALREADY`. -/
def NN_FLAG_IN_BPQUE_ALREADY : Nat := 0b0000000000000010

/-- The macro `NN_FLAG_DO_BCK_PROPAGATE`. -/
def NN_FLAG_DO_BCK_PROPAGATE : Nat := 0b0000000000000100

namespace Neuron

/-- The member `in_update_queue_already ()`: `flags & NN_FLAG_IN_QUEUE_ALREADY`. -/
def in_update_queue_already (me : Neuron) : Bool :=
  me.flags &&& NN_FLAG_IN_QUEUE_ALREADY != 0

/-- The member `set_in_update_queue (v)` on the `__uint16_t flags`:
`flags |= NN_FLAG_IN_QUEUE_ALREADY` or `flags &= ~NN_FLAG_IN_QUEUE_ALREADY`. -/
def set_in_update_queue (me : Neuron) (v : Bool) : Neuron :=
  if v then { me with flags := me.flags ||| NN_FLAG_IN_QUEUE_ALREADY }
  else { me with flags := me.flags &&& (0xFFFF ^^^ NN_FLAG_IN_QUEUE_ALREADY) }

/-- The member `in_bp_update_queue_already ()`: `flags & NN_FLAG_IN_BPQUE_ALREADY`. -/
def in_bp_update_queue_already (me : Neuron) : Bool :=
  me.flags &&& NN_FLAG_IN_BPQUE_ALREADY != 0

/-- The member `set_in_bp_update_queue (v)` on the `__uint16_t flags`:
`flags |= NN_FLAG_IN_BPQUE_ALREADY` or `flags &= ~NN_FLAG_IN_BPQUE_ALREADY`. -/
def set_in_bp_update_queue (me : Neuron) (v : Bool) : Neuron :=
  if v then { me with flags := me.flags ||| NN_FLAG_IN_BPQUE_ALREADY }
  else { me with flags := me.flags &&& (0xFFFF ^^^ NN_FLAG_IN_BPQUE_ALREADY) }

end Neuron

/-! ## libnn.h: the data of NeuralNetwork -/

/-- The data members of `NeuralNetwork`, together with the heap of neurons its
pointers address and the static `NeuronBase::neuron_counter`. The vector `neurons`
and the four queues hold addresses; `propagator_store` is present by its size only. -/
structure NeuralNetwork where
  heap : Graph
  neuron_counter : Nat
  neurons : List Nat
  current_queue : List Nat
  next_queue : List Nat
  bp_current_queue : List Nat
  bp_next_queue : List Nat
  propagator_store_size : Nat
deriving DecidableEq, Repr

/-- A neuron factory (`NeuronFactoryBase`), by what the neurons it creates answer to
`sizeof_propagator ()`. -/
structure NeuronFactory where
  sizeof_propagator : Nat
deriving DecidableEq, Repr

namespace NeuralNetwork

/-- The constructor `NeuralNetwork ()`, in a program that has constructed no neuron
yet: four empty queues, no propagator store. -/
def new : NeuralNetwork :=
  { heap := [], neuron_counter := 0, neurons := [], current_queue := [], next_queue := [],
    bp_current_queue := [], bp_next_queue := [], propagator_store_size := 0 }

/-- The member `add_to_update_queue (n)`; `none` when `n` addresses no neuron. -/
def add_to_update_queue (nn : NeuralNetwork) (n : Nat) : Option NeuralNetwork :=
  match nn.heap[n]? with
  | none => none
  | some me =>
    if !me.in_update_queue_already then
      some { nn with
        next_queue := nn.next_queue ++ [n]
        heap := nn.heap.set n (me.set_in_update_queue true) }
    else some nn

/-- The member `add_to_bp_update_queue (n)`; `none` when `n` addresses no neuron. -/
def add_to_bp_update_queue (nn : NeuralNetwork) (n : Nat) : Option NeuralNetwork :=
  match nn.heap[n]? with
  | none => none
  | some me =>
    if !me.in_bp_update_queue_already then
      some { nn with
        bp_next_queue := nn.bp_next_queue ++ [n]
        heap := nn.heap.set n (me.set_in_bp_update_queue true) }
    else some nn

/-- The member `swap_update_queues ()`: the queues exchange and the new next queue
is cleared. -/
def swap_update_queues (nn : NeuralNetwork) : NeuralNetwork :=
  { nn with current_queue := nn.next_queue, next_queue := [] }

/-- The member `swap_bp_update_queues ()`. -/
def swap_bp_update_queues (nn : NeuralNetwork) : NeuralNetwork :=
  { nn with bp_current_queue := nn.bp_next_queue, bp_next_queue := [] }

/-- The member `create_neuron (factory, n_dendrites, n_synapses)`: the factory
constructs `new Neuron (n_dendrites, n_synapses)` at the next free address. -/
def create_neuron (nn : NeuralNetwork) (factory : NeuronFactory)
    (n_dendrites n_synapses : Nat) : NeuralNetwork :=
  let made := NeuronBase.construct nn.neuron_counter
  let neuron := nn.heap.length
  let propagator_size := factory.sizeof_propagator
  { nn with
    heap := nn.heap ++ [Neuron.mk0 made.1 n_dendrites n_synapses]
    neuron_counter := made.2
    neurons := nn.neurons ++ [neuron]
    propagator_store_size :=
      if propagator_size > nn.propagator_store_size then propagator_size
      else nn.propagator_store_size }

/-- The member `connect (a, synapse, b, dendrite)` on the heap of the network. -/
def connect_neurons (fuel : Nat) (nn : NeuralNetwork) (a : Option Nat) (synapse : Nat)
    (b : Option Nat) (dendrite : Nat) : Option NeuralNetwork :=
  match NeuralNetwork.connect fuel nn.heap a synapse b dendrite with
  | Outcome.done g => some { nn with heap := g }
  | _ => none

/-- The loop of `start ()`: `remaining` times `add_to_update_queue` of
`neurons[rand () % neurons.size ()]`, the calls of `rand ()` returning `rand k`,
`rand (k + 1)`, ... -/
def seed (rand : Nat → Nat) : NeuralNetwork → Nat → Nat → Option NeuralNetwork
  | nn, _, 0 => some nn
  | nn, k, remaining + 1 =>
    match nn.neurons[rand k % nn.neurons.length]? with
    | none => none
    | some n =>
      match nn.add_to_update_queue n with
      | none => none
      | some nn1 => seed rand nn1 (k + 1) remaining

/-- The member `start ()`, the calls of `rand ()` returning `rand 0`, `rand 1`, ...;
`none` when the node set is empty (a remainder by zero) or a pointer addresses no
neuron. -/
def start (rand : Nat → Nat) (nn : NeuralNetwork) : Option NeuralNetwork :=
  if nn.neurons.length = 0 then none
  else
    match seed rand nn 1 (rand 0 % nn.neurons.length) with
    | none => none
    | some nn1 => some nn1.swap_update_queues

/-- The member `is_firing ()`. -/
def is_firing (nn : NeuralNetwork) : Bool :=
  !(nn.current_queue.isEmpty && nn.bp_current_queue.isEmpty)

/-- The member `neurons_count ()`. -/
def neurons_count (nn : NeuralNetwork) : Nat := nn.neurons.length

/-- The member `neurons_firing_count ()`. -/
def neurons_firing_count (nn : NeuralNetwork) : Nat := nn.current_queue.length

/-- The member `neurons_backpropagating_count ()`. -/
def neurons_backpropagating_count (nn : NeuralNetwork) : Nat := nn.bp_current_queue.length

end NeuralNetwork

/-! ## NeuronFunctor.h: Propagator, over the user's functors -/

/-- The user-supplied computation, as transitions of the user's data `U` (the neuron
states, the dendrite states and the members of the functors): what
`Propagator::operator ()` and `Propagator::backpropagate ()` of the neuron at an
address compute, the node functor's `should_backpropagate`, and the predicates
`process_output` of an outbound slot and `process_feedback` of an inbound slot of a
neuron. None of them can reach the queues, the flags or the connectors. -/
structure Strategy (U : Type) where
  activate : U → Graph → Nat → U × Bool
  feedback : U → Graph → Nat → U × Bool
  should_backpropagate : U → Nat → U × Bool
  process_output : U → Nat → Nat → U × Bool
  process_feedback : U → Nat → Nat → U × Bool

/-- The members `dendrites` and `synapses` of a `Propagator`, and the address of the
neuron whose state it refers to. -/
structure Propagator where
  neuron : Nat
  dendrites : ConnectorIterator Connector
  synapses : ConnectorIterator Connector
deriving DecidableEq, Repr

/-- The member `Neuron::propagator (ptr)` of the neuron at address `self`: a
`Propagator` over `get_dendrites ()`, `get_synapses ()` and `get_state ()`. -/
def Neuron.propagator (me : Neuron) (self : Nat) : Propagator :=
  { neuron := self
    dendrites := ConnectorIterator.over me.dendrites
    synapses := ConnectorIterator.over me.synapses }

namespace Propagator

/-- The loop shared by `first_synapse ()` and `next_synapse ()`, from the pointer `s`
on: `for (...; s != synapses.null (); s = synapses.next ())` returning
`s->get_neuron ()` at the first connected slot whose `process_output` holds, and 0
past the last slot. -/
def seek_synapse {U : Type} (S : Strategy U) :
    Nat → U → Propagator → Option Nat → Option (U × Propagator × Option Nat)
  | _, u, p, none => some (u, p, none)
  | 0, _, _, some _ => none
  | fuel + 1, u, p, some s =>
    match p.synapses.deref s with
    | none => none
    | some c =>
      if c.is_connected then
        let r := S.process_output u p.neuron s
        if r.2 then some (r.1, p, c.get_neuron)
        else
          match p.synapses.next with
          | none => none
          | some (it, s1) => seek_synapse S fuel r.1 { p with synapses := it } s1
      else
        match p.synapses.next with
        | none => none
        | some (it, s1) => seek_synapse S fuel u { p with synapses := it } s1

/-- The member `first_synapse ()`. -/
def first_synapse {U : Type} (S : Strategy U) (u : U) (p : Propagator) :
    Option (U × Propagator × Option Nat) :=
  seek_synapse S (p.synapses.numof + 1) u { p with synapses := p.synapses.first.1 }
    p.synapses.first.2

/-- The member `next_synapse ()`. -/
def next_synapse {U : Type} (S : Strategy U) (u : U) (p : Propagator) :
    Option (U × Propagator × Option Nat) :=
  match p.synapses.next with
  | none => none
  | some (it, s) => seek_synapse S (p.synapses.numof + 1) u { p with synapses := it } s

/-- The loop shared by `first_dendrite ()` and `next_dendrite ()`, from the pointer
`d` on. -/
def seek_dendrite {U : Type} (S : Strategy U) :
    Nat → U → Propagator → Option Nat → Option (U × Propagator × Option Nat)
  | _, u, p, none => some (u, p, none)
  | 0, _, _, some _ => none
  | fuel + 1, u, p, some d =>
    match p.dendrites.deref d with
    | none => none
    | some c =>
      if c.is_connected then
        let r := S.process_feedback u p.neuron d
        if r.2 then some (r.1, p, c.get_neuron)
        else
          match p.dendrites.next with
          | none => none
          | some (it, d1) => seek_dendrite S fuel r.1 { p with dendrites := it } d1
      else
        match p.dendrites.next with
        | none => none
        | some (it, d1) => seek_dendrite S fuel u { p with dendrites := it } d1

/-- The member `first_dendrite ()`. -/
def first_dendrite {U : Type} (S : Strategy U) (u : U) (p : Propagator) :
    Option (U × Propagator × Option Nat) :=
  seek_dendrite S (p.dendrites.numof + 1) u { p with dendrites := p.dendrites.first.1 }
    p.dendrites.first.2

/-- The member `next_dendrite ()`. -/
def next_dendrite {U : Type} (S : Strategy U) (u : U) (p : Propagator) :
    Option (U × Propagator × Option Nat) :=
  match p.dendrites.next with
  | none => none
  | some (it, d) => seek_dendrite S (p.dendrites.numof + 1) u { p with dendrites := it } d

end Propagator

/-! ## libnn.cc: NeuralNetwork::run -/

/-- One neuron taken from a current queue by `run ()`: its address, the result of its
activation, and the peers yielded by `first_synapse ()`/`next_synapse ()` and by
`first_dendrite ()`/`next_dendrite ()` in the loops that followed. -/
structure Visit where
  neuron : Nat
  fired : Bool
  peers : List Nat
  back_peers : List Nat
deriving DecidableEq, Repr

/-- What a call of `run ()` leaves: the user's data, the network, and the neurons
visited in the forward and in the backward pass, in order. -/
structure RunResult (U : Type) where
  user : U
  net : NeuralNetwork
  forward : List Visit
  backward : List Visit

namespace NeuralNetwork

/-- The loop `for (...; n != p.null (); n = p.next_synapse ()) add_to_update_queue (n);`
from the pointer `n` on; the list holds the pointers passed to
`add_to_update_queue`. -/
def fire_synapses {U : Type} (S : Strategy U) :
    Nat → U → NeuralNetwork → Propagator → Option Nat →
      Option (U × NeuralNetwork × Propagator × List Nat)
  | _, u, nn, p, none => some (u, nn, p, [])
  | 0, _, _, _, some _ => none
  | fuel + 1, u, nn, p, some n =>
    match nn.add_to_update_queue n with
    | none => none
    | some nn1 =>
      match p.next_synapse S u with
      | none => none
      | some (u1, p1, n1) =>
        match fire_synapses S fuel u1 nn1 p1 n1 with
        | none => none
        | some (u2, nn2, p2, l) => some (u2, nn2, p2, n :: l)

/-- The loop `for (...; n != p.null (); n = p.next_dendrite ()) add_to_bp_update_queue (n);`
from the pointer `n` on; the list holds the pointers passed to
`add_to_bp_update_queue`. -/
def fire_dendrites {U : Type} (S : Strategy U) :
    Nat → U → NeuralNetwork → Propagator → Option Nat →
      Option (U × NeuralNetwork × Propagator × List Nat)
  | _, u, nn, p, none => some (u, nn, p, [])
  | 0, _, _, _, some _ => none
  | fuel + 1, u, nn, p, some n =>
    match nn.add_to_bp_update_queue n with
    | none => none
    | some nn1 =>
      match p.next_dendrite S u with
      | none => none
      | some (u1, p1, n1) =>
        match fire_dendrites S fuel u1 nn1 p1 n1 with
        | none => none
        | some (u2, nn2, p2, l) => some (u2, nn2, p2, n :: l)

/-- The first loop of `run ()` over the neurons of the current queue that are still
to be taken. -/
def forward_pass {U : Type} (S : Strategy U) :
    U → NeuralNetwork → List Nat → Option (U × NeuralNetwork × List Visit)
  | u, nn, [] => some (u, nn, [])
  | u, nn, i :: rest =>
    match nn.heap[i]? with
    | none => none
    | some neuron =>
      let nn1 := { nn with heap := nn.heap.set i (neuron.set_in_update_queue false) }
      let p := neuron.propagator i
      let a := S.activate u nn1.heap i
      if a.2 then
        match p.first_synapse S a.1 with
        | none => none
        | some (u1, p1, n) =>
          match fire_synapses S (p1.synapses.numof + 1) u1 nn1 p1 n with
          | none => none
          | some (u2, nn2, p2, peers) =>
            let b := S.should_backpropagate u2 i
            if b.2 then
              match p2.first_dendrite S b.1 with
              | none => none
              | some (u3, p3, m) =>
                match fire_dendrites S (p3.dendrites.numof + 1) u3 nn2 p3 m with
                | none => none
                | some (u4, nn4, _, back) =>
                  match forward_pass S u4 nn4 rest with
                  | none => none
                  | some (u5, nn5, visits) => some (u5, nn5, ⟨i, true, peers, back⟩ :: visits)
            else
              match forward_pass S b.1 nn2 rest with
              | none => none
              | some (u5, nn5, visits) => some (u5, nn5, ⟨i, true, peers, []⟩ :: visits)
      else
        match forward_pass S a.1 nn1 rest with
        | none => none
        | some (u5, nn5, visits) => some (u5, nn5, ⟨i, false, [], []⟩ :: visits)

/-- The second loop of `run ()` over the neurons of the backward current queue that
are still to be taken. -/
def backward_pass {U : Type} (S : Strategy U) :
    U → NeuralNetwork → List Nat → Option (U × NeuralNetwork × List Visit)
  | u, nn, [] => some (u, nn, [])
  | u, nn, i :: rest =>
    match nn.heap[i]? with
    | none => none
    | some neuron =>
      let nn1 := { nn with heap := nn.heap.set i (neuron.set_in_bp_update_queue false) }
      let p := neuron.propagator i
      let a := S.feedback u nn1.heap i
      if a.2 then
        match p.first_dendrite S a.1 with
        | none => none
        | some (u1, p1, m) =>
          match fire_dendrites S (p1.dendrites.numof + 1) u1 nn1 p1 m with
          | none => none
          | some (u2, nn2, _, back) =>
            match backward_pass S u2 nn2 rest with
            | none => none
            | some (u3, nn3, visits) => some (u3, nn3, ⟨i, true, [], back⟩ :: visits)
      else
        match backward_pass S a.1 nn1 rest with
        | none => none
        | some (u3, nn3, visits) => some (u3, nn3, ⟨i, false, [], []⟩ :: visits)

/-- The first block of `run ()`: when the current queue is not empty, the forward
pass and then `swap_update_queues ()`. -/
def run_forward {U : Type} (S : Strategy U) (u : U) (nn : NeuralNetwork) :
    Option (U × NeuralNetwork × List Visit) :=
  if nn.current_queue.length ≠ 0 then
    match forward_pass S u nn nn.current_queue with
    | none => none
    | some (u1, nn1, visits) => some (u1, nn1.swap_update_queues, visits)
  else some (u, nn, [])

/-- The second block of `run ()`: when the backward current queue is not empty, the
backward pass and then `swap_bp_update_queues ()`. -/
def run_backward {U : Type} (S : Strategy U) (u : U) (nn : NeuralNetwork) :
    Option (U × NeuralNetwork × List Visit) :=
  if nn.bp_current_queue.length ≠ 0 then
    match backward_pass S u nn nn.bp_current_queue with
    | none => none
    | some (u1, nn1, visits) => some (u1, nn1.swap_bp_update_queues, visits)
  else some (u, nn, [])

/-- The member `run ()`; `none` when a pointer met on the way addresses no neuron. -/
def run {U : Type} (S : Strategy U) (u : U) (nn : NeuralNetwork) : Option (RunResult U) :=
  match run_forward S u nn with
  | none => none
  | some (u1, nn1, forward) =>
    match run_backward S u1 nn1 with
    | none => none
    | some (u2, nn2, backward) => some ⟨u2, nn2, forward, backward⟩

end NeuralNetwork

/-! ## Scheduler states -/

namespace NeuralNetwork

/-- The forward-queued flag of the neuron at address `x`; no neuron, no flag. -/
def forward_flag (nn : NeuralNetwork) (x : Nat) : Bool :=
  match nn.heap[x]? with
  | none => false
  | some me => me.in_update_queue_already

/-- The backward-queued flag of the neuron at address `x`; no neuron, no flag. -/
def backward_flag (nn : NeuralNetwork) (x : Nat) : Bool :=
  match nn.heap[x]? with
  | none => false
  | some me => me.in_bp_update_queue_already

end NeuralNetwork

/-- The scheduler states reached from a newly constructed `NeuralNetwork` by
`create_neuron`, `connect`, `start`, `run`, `add_to_update_queue` and
`add_to_bp_update_queue`, with any factory, random draws and strategy. -/
inductive Scheduled : NeuralNetwork → Prop where
  | new : Scheduled NeuralNetwork.new
  | create_neuron (nn : NeuralNetwork) (factory : NeuronFactory) (d s : Nat) :
      Scheduled nn → Scheduled (nn.create_neuron factory d s)
  | connect (fuel : Nat) (nn nn' : NeuralNetwork) (a : Option Nat) (s : Nat) (b : Option Nat)
      (d : Nat) : Scheduled nn → nn.connect_neurons fuel a s b d = some nn' → Scheduled nn'
  | start (rand : Nat → Nat) (nn nn' : NeuralNetwork) :
      Scheduled nn → nn.start rand = some nn' → Scheduled nn'
  | run {U : Type} (S : Strategy U) (u : U) (nn : NeuralNetwork) (r : RunResult U) :
      Scheduled nn → NeuralNetwork.run S u nn = some r → Scheduled r.net
  | add_to_update_queue (nn nn' : NeuralNetwork) (n : Nat) :
      Scheduled nn → nn.add_to_update_queue n = some nn' → Scheduled nn'
  | add_to_bp_update_queue (nn nn' : NeuralNetwork) (n : Nat) :
      Scheduled nn → nn.add_to_bp_update_queue n = some nn' → Scheduled nn'

/-- The queue discipline while the forward pass of `run ()` still has the neurons
`rest` of the current queue to take: `rest`, the next queue and the backward next
queue hold no neuron twice, every neuron in `rest` or in the next queue has its
forward-queued flag set and none is in both, every neuron in the backward next queue
has its backward-queued flag set, and the backward current queue is empty. -/
def PassInvariant (nn : NeuralNetwork) (rest : List Nat) : Prop :=
  rest.Nodup ∧ nn.next_queue.Nodup ∧ nn.bp_next_queue.Nodup ∧
  (∀ x ∈ rest, nn.forward_flag x = true) ∧
  (∀ x ∈ nn.next_queue, nn.forward_flag x = true) ∧
  (∀ x ∈ rest, x ∉ nn.next_queue) ∧
  (∀ x ∈ nn.bp_next_queue, nn.backward_flag x = true) ∧
  nn.bp_current_queue = []

/-- The queue discipline between calls. -/
def QueueInvariant (nn : NeuralNetwork) : Prop := PassInvariant nn nn.current_queue

/-! ## Sample networks -/

/-- A strategy without data in which every activation reports a change and every
predicate holds. -/
def alwaysStrategy : Strategy Unit :=
  { activate := fun u _ _ => (u, true)
    feedback := fun u _ _ => (u, true)
    should_backpropagate := fun u _ => (u, true)
    process_output := fun u _ _ => (u, true)
    process_feedback := fun u _ _ => (u, true) }

/-- A factory of neurons whose propagator takes 8 bytes. -/
def sampleFactory : NeuronFactory := ⟨8⟩

/-- Two neurons with one slot of each kind, created by `create_neuron` in a new
network. -/
def twoCreated : NeuralNetwork :=
  (NeuralNetwork.new.create_neuron sampleFactory 1 1).create_neuron sampleFactory 1 1

/-- Three neurons with one slot of each kind, created by `create_neuron` in a new
network. -/
def threeCreated : NeuralNetwork :=
  ((NeuralNetwork.new.create_neuron sampleFactory 1 1).create_neuron sampleFactory 1 1).create_neuron
    sampleFactory 1 1

/-- Draws of `rand ()` for `start ()`: the first is 1, all later ones are 0. -/
def drawOneThenZero (k : Nat) : Nat := if k = 0 then 1 else 0

/-- Draws of `rand ()` that are all 1. -/
def drawOnes (_k : Nat) : Nat := 1

/-- Draws of `rand ()` that are all 0. -/
def drawZeros (_k : Nat) : Nat := 0

/-- The connectors of every neuron of the heap, by address: what the flags are not. -/
def Graph.wiring (g : Graph) : List (List Connector × List Connector) :=
  g.map (fun me => (me.dendrites, me.synapses))

/-! ## The queue operations of a pass, without the strategy -/

namespace NeuralNetwork

/-- The calls `add_to_update_queue (n)` for the pointers `n` of a list, in order. -/
def enqueue_all : NeuralNetwork → List Nat → Option NeuralNetwork
  | nn, [] => some nn
  | nn, n :: l =>
    match nn.add_to_update_queue n with
    | none => none
    | some nn1 => enqueue_all nn1 l

/-- The calls `add_to_bp_update_queue (n)` for the pointers `n` of a list, in order. -/
def enqueue_all_bp : NeuralNetwork → List Nat → Option NeuralNetwork
  | nn, [] => some nn
  | nn, n :: l =>
    match nn.add_to_bp_update_queue n with
    | none => none
    | some nn1 => enqueue_all_bp nn1 l

/-- What the forward pass does to the network for one visit: the forward-queued flag
of the neuron is cleared, then the yielded peers are enqueued. -/
def replay_visit (nn : NeuralNetwork) (v : Visit) : Option NeuralNetwork :=
  match nn.heap[v.neuron]? with
  | none => none
  | some neuron =>
    match enqueue_all { nn with heap := nn.heap.set v.neuron (neuron.set_in_update_queue false) }
        v.peers with
    | none => none
    | some nn1 => enqueue_all_bp nn1 v.back_peers

/-- What the forward pass does to the network for a list of visits. -/
def replay : NeuralNetwork → List Visit → Option NeuralNetwork
  | nn, [] => some nn
  | nn, v :: vs =>
    match replay_visit nn v with
    | none => none
    | some nn1 => replay nn1 vs

end NeuralNetwork

/-- The network `twoCreated` after `start ()` with all draws 1: neuron 1 is seeded. -/
def twoSeeded : NeuralNetwork := (twoCreated.start drawOnes).getD twoCreated

/-- Every pointer held by a connected slot addresses a neuron of the heap. -/
def PeersExist (g : Graph) : Prop :=
  ∀ me ∈ g, (∀ c ∈ me.synapses, ∀ b ∈ c.neuron, b < g.length) ∧
    (∀ c ∈ me.dendrites, ∀ b ∈ c.neuron, b < g.length)

instance (g : Graph) : Decidable (PeersExist g) := by
  unfold PeersExist
  infer_instance

/-- Every pointer that `run ()` follows addresses a neuron: those in the two current
queues and those held by connected slots. -/
def NeuralNetwork.Valid (nn : NeuralNetwork) : Prop :=
  PeersExist nn.heap ∧ (∀ x ∈ nn.current_queue, x < nn.heap.length) ∧
    (∀ x ∈ nn.bp_current_queue, x < nn.heap.length)

instance (nn : NeuralNetwork) : Decidable nn.Valid := by
  unfold NeuralNetwork.Valid
  infer_instance

/-- Every neuron whose forward-queued flag is set is in the forward current queue or
in the forward next queue. -/
def NeuralNetwork.FlagsQueued (nn : NeuralNetwork) : Prop :=
  ∀ x, x < nn.heap.length → nn.forward_flag x = true →
    x ∈ nn.current_queue ∨ x ∈ nn.next_queue

instance (nn : NeuralNetwork) : Decidable nn.FlagsQueued := by
  unfold NeuralNetwork.FlagsQueued
  infer_instance

/-- Draws of `rand ()` for `start ()`: the first is 2, the later ones are 0, 1, 2, ... -/
def drawTwoThenCount (k : Nat) : Nat := if k = 0 then 2 else k - 1

/-- The network `threeCreated` with outbound slot 0 of neuron 0 connected to inbound
slot 0 of neuron 1, after `start ()` with the draws `drawTwoThenCount`: neurons 0 and
1 are seeded, in this order. -/
def pairSeeded : NeuralNetwork :=
  (((threeCreated.connect_neurons 3 (some 0) 0 (some 1) 0).getD threeCreated).start
    drawTwoThenCount).getD threeCreated

/-- A newly populated scheduler: at least one node, every node of the node set
addresses a neuron, the four queues are empty and no neuron has its forward-queued or
backward-queued flag set. -/
def NeuralNetwork.NewlyPopulated (nn : NeuralNetwork) : Prop :=
  nn.neurons ≠ [] ∧ (∀ x ∈ nn.neurons, x < nn.heap.length) ∧
  nn.current_queue = [] ∧ nn.next_queue = [] ∧
  nn.bp_current_queue = [] ∧ nn.bp_next_queue = [] ∧
  (∀ me ∈ nn.heap, me.in_update_queue_already = false ∧ me.in_bp_update_queue_already = false)

instance (nn : NeuralNetwork) : Decidable nn.NewlyPopulated := by
  unfold NeuralNetwork.NewlyPopulated
  infer_instance

/-- The nodes `neurons[rand () % neurons.size ()]` picked by `count` rounds of the
loop of `start ()`, the calls of `rand ()` returning `rand k`, `rand (k + 1)`, ... -/
def picks (rand : Nat → Nat) (nodes : List Nat) (k count : Nat) : List Nat :=
  (List.range count).filterMap (fun i => nodes[rand (k + i) % nodes.length]?)

/-- The nodes drawn by `start ()`: the first call of `rand ()` gives the number of
rounds, the later ones the nodes. -/
def NeuralNetwork.drawn (rand : Nat → Nat) (nn : NeuralNetwork) : List Nat :=
  picks rand nn.neurons 1 (rand 0 % nn.neurons.length)

/-- The network `threeCreated` wired as the chain 0 -> 1 -> 2 (outbound slot 0 of
neuron 0 to inbound slot 0 of neuron 1, outbound slot 0 of neuron 1 to inbound slot 0
of neuron 2), after `start ()` with the draws `drawOneThenZero`: neuron 0 alone is
seeded. -/
def chainSeeded : NeuralNetwork :=
  ((((threeCreated.connect_neurons 3 (some 0) 0 (some 1) 0).getD threeCreated).connect_neurons 3
    (some 1) 0 (some 2) 0).getD threeCreated).start drawOneThenZero |>.getD threeCreated

/-- A finite sequence of `create_neuron (factory, n_dendrites, n_synapses)` calls, in
order. -/
def NeuralNetwork.create_neurons (nn : NeuralNetwork) :
    List (NeuronFactory × Nat × Nat) → NeuralNetwork
  | [] => nn
  | (factory, d, s) :: calls => (nn.create_neuron factory d s).create_neurons calls

/-- The largest of a list of sizes, 0 for the empty list. -/
def largest (sizes : List Nat) : Nat := sizes.foldr max 0

/-- The scheduler states reached from the state `nn0` by `create_neuron`, `connect`,
`start`, `run`, `add_to_update_queue` and `add_to_bp_update_queue`, with any factory,
random draws and strategy. -/
inductive Later (nn0 : NeuralNetwork) : NeuralNetwork → Prop where
  | now : Later nn0 nn0
  | create_neuron (nn : NeuralNetwork) (factory : NeuronFactory) (d s : Nat) :
      Later nn0 nn → Later nn0 (nn.create_neuron factory d s)
  | connect (fuel : Nat) (nn nn' : NeuralNetwork) (a : Option Nat) (s : Nat) (b : Option Nat)
      (d : Nat) : Later nn0 nn → nn.connect_neurons fuel a s b d = some nn' → Later nn0 nn'
  | start (rand : Nat → Nat) (nn nn' : NeuralNetwork) :
      Later nn0 nn → nn.start rand = some nn' → Later nn0 nn'
  | run {U : Type} (S : Strategy U) (u : U) (nn : NeuralNetwork) (r : RunResult U) :
      Later nn0 nn → NeuralNetwork.run S u nn = some r → Later nn0 r.net
  | add_to_update_queue (nn nn' : NeuralNetwork) (n : Nat) :
      Later nn0 nn → nn.add_to_update_queue n = some nn' → Later nn0 nn'
  | add_to_bp_update_queue (nn nn' : NeuralNetwork) (n : Nat) :
      Later nn0 nn → nn.add_to_bp_update_queue n = some nn' → Later nn0 nn'

/-- The network `twoCreated` with outbound slot 0 of neuron 0 connected to inbound
slot 0 of neuron 1, after `start ()` has seeded neuron 1. -/
def linkedSeeded : NeuralNetwork :=
  (((twoCreated.connect_neurons 3 (some 0) 0 (some 1) 0).getD twoCreated).start
    drawOnes).getD twoCreated

/-- What one `run ()` with the strategy `alwaysStrategy` leaves of `linkedSeeded`:
neuron 1 has asked for feedback to neuron 0. -/
def feedbackPending : RunResult Unit :=
  (NeuralNetwork.run alwaysStrategy () linkedSeeded).getD ⟨(), linkedSeeded, [], []⟩

namespace Propagator

/-- The loop `for (n = p.first_synapse (); n != p.null (); n = p.next_synapse ())` from
the reference `n` on: the references it passes through, in order. -/
def fan_out {U : Type} (S : Strategy U) :
    Nat → U → Propagator → Option Nat → Option (U × Propagator × List Nat)
  | _, u, p, none => some (u, p, [])
  | 0, _, _, some _ => none
  | fuel + 1, u, p, some n =>
    match p.next_synapse S u with
    | none => none
    | some (u1, p1, n1) =>
      match fan_out S fuel u1 p1 n1 with
      | none => none
      | some (u2, p2, l) => some (u2, p2, n :: l)

/-- The references returned by `first_synapse ()` and then by `next_synapse ()` up to
the first null. -/
def synapse_peers {U : Type} (S : Strategy U) (fuel : Nat) (u : U) (p : Propagator) :
    Option (U × Propagator × List Nat) :=
  match p.first_synapse S u with
  | none => none
  | some (u1, p1, n) => fan_out S fuel u1 p1 n

end Propagator

/-- The scan of the outbound slots `cs`, the first of them at position `i`, up to the
first connected slot whose `process_output` holds: the user's data afterwards, the
position reached and the peer of that slot (the number of slots and no peer when there
is none). -/
def next_active {U : Type} (S : Strategy U) (self : Nat) :
    U → Nat → List Connector → U × Nat × Option Nat
  | u, i, [] => (u, i, none)
  | u, i, c :: cs =>
    if c.is_connected then
      if (S.process_output u self i).2 then ((S.process_output u self i).1, i, c.get_neuron)
      else next_active S self (S.process_output u self i).1 (i + 1) cs
    else next_active S self u (i + 1) cs

/-- Modelled from the spec: the outbound slots `cs` of the neuron `self`, the first of
them at position `i`, taken in ascending order; `process_output` is asked for every
connected slot, and the slot contributes its position and its peer when the answer is
true. The result is the user's data afterwards and the contributions in order. -/
def active_slots {U : Type} (S : Strategy U) (self : Nat) :
    U → Nat → List Connector → U × List (Nat × Nat)
  | u, _, [] => (u, [])
  | u, i, c :: cs =>
    match c.neuron with
    | none => active_slots S self u (i + 1) cs
    | some b =>
      if (S.process_output u self i).2 then
        ((active_slots S self (S.process_output u self i).1 (i + 1) cs).1,
          (i, b) :: (active_slots S self (S.process_output u self i).1 (i + 1) cs).2)
      else active_slots S self (S.process_output u self i).1 (i + 1) cs

/-- Modelled from the spec: the peers of the outbound slots that are connected and for
which `process_output` returns true, in ascending slot order. -/
def active_peers {U : Type} (S : Strategy U) (self : Nat) (u : U) (cs : List Connector) :
    U × List Nat :=
  ((active_slots S self u 0 cs).1, (active_slots S self u 0 cs).2.map Prod.snd)

/-- A number of `run ()` calls one after the other, each on what the one before has
left. -/
def NeuralNetwork.run_times {U : Type} (S : Strategy U) :
    Nat → U → NeuralNetwork → Option (U × NeuralNetwork)
  | 0, u, nn => some (u, nn)
  | k + 1, u, nn =>
    match NeuralNetwork.run S u nn with
    | none => none
    | some r => run_times S k r.user r.net

/-- Activity can circulate in the set `R` of neurons: every pointer that `run ()`
follows addresses a neuron, the backward current queue is empty, every neuron of `R`
has a connected outbound slot whose peer is in `R`, no neuron of `R` has its
forward-queued flag set while being in neither forward queue, and a neuron of `R` is
in the forward current queue. -/
def NeuralNetwork.Circulating (R : Nat → Prop) (nn : NeuralNetwork) : Prop :=
  PeersExist nn.heap ∧ (∀ x ∈ nn.current_queue, x < nn.heap.length) ∧
  (∀ x ∈ nn.next_queue, x < nn.heap.length) ∧ nn.bp_current_queue = [] ∧
  (∀ x, R x → nn.forward_flag x = true → x ∈ nn.current_queue ∨ x ∈ nn.next_queue) ∧
  (∀ x, R x → ∃ cs y, (nn.heap[x]?).map Neuron.synapses = some cs ∧ R y ∧
    y ∈ cs.filterMap Connector.neuron) ∧
  (∃ x ∈ nn.current_queue, R x)

/-- The network `twoCreated` with outbound slot 0 of neuron 1 connected to its own
inbound slot 0, after `start ()` has seeded neuron 1. -/
def loopSeeded : NeuralNetwork :=
  (((twoCreated.connect_neurons 3 (some 1) 0 (some 1) 0).getD twoCreated).start
    drawOnes).getD twoCreated

/-- The network `twoCreated` wired as the ring 0 -> 1 -> 0. -/
def ringCreated : NeuralNetwork :=
  (((twoCreated.connect_neurons 3 (some 0) 0 (some 1) 0).getD twoCreated).connect_neurons 3
    (some 1) 0 (some 0) 0).getD twoCreated

/-- Draws of `rand ()` for `start ()`: the first is 2, the later ones are 1, 0, 0, ... -/
def drawTwoThenDown (k : Nat) : Nat := if k = 0 then 2 else 2 - k

/-- The network of `pairSeeded` seeded in the other order: neuron 1, then neuron 0. -/
def pairSeededReversed : NeuralNetwork :=
  (((threeCreated.connect_neurons 3 (some 0) 0 (some 1) 0).getD threeCreated).start
    drawTwoThenDown).getD threeCreated

/-- The network `threeCreated` with outbound slot 0 of neuron 0 connected to inbound
slot 0 of neuron 2, after `start ()` has seeded neurons 0 and 1, in this order. -/
def sideSeeded : NeuralNetwork :=
  (((threeCreated.connect_neurons 3 (some 0) 0 (some 2) 0).getD threeCreated).start
    drawTwoThenCount).getD threeCreated

/-- The network of `sideSeeded` seeded in the other order: neuron 1, then neuron 0. -/
def sideSeededReversed : NeuralNetwork :=
  (((threeCreated.connect_neurons 3 (some 0) 0 (some 2) 0).getD threeCreated).start
    drawTwoThenDown).getD threeCreated

/-- No neuron of the forward current queue has a connected outbound slot whose peer is
another neuron of the forward current queue. -/
def NeuralNetwork.QueueUnlinked (nn : NeuralNetwork) : Prop :=
  ∀ y ∈ nn.current_queue, ∀ x ∈ nn.current_queue, x ≠ y →
    ∀ me ∈ nn.heap[y]?, x ∉ me.synapses.filterMap Connector.neuron

instance (nn : NeuralNetwork) : Decidable nn.QueueUnlinked := by
  unfold NeuralNetwork.QueueUnlinked
  infer_instance

/-! ## libnn.cc: ncounter and neuron_pool -/

/-- `struct ncounter` of `libnn.cc`: the pointer to a neuron and the number `k` of its
dendrites or synapses that are not yet connected, an `unsigned int`. -/
structure ncounter where
  neuron : Nat
  k : Nat
deriving DecidableEq, Repr

namespace ncounter

/-- The member `operator ++ ()`: `k++`, modulo 2^32. -/
def incr (c : ncounter) : ncounter := { c with k := (c.k + 1) % 2 ^ 32 }

/-- The member `operator -- ()`: `k--`, modulo 2^32. -/
def decr (c : ncounter) : ncounter := { c with k := (c.k + 2 ^ 32 - 1) % 2 ^ 32 }

/-- The member `operator == (v)`. -/
def eq (c : ncounter) (v : Nat) : Bool := c.k == v

end ncounter

/-- `struct neuron_pool` of `libnn.cc`: the array `pool` (its length is the number of
entries allocated) and the two `unsigned int` counts. -/
structure neuron_pool where
  pool : List ncounter
  n_neurons : Nat
  n_available : Nat
deriving DecidableEq, Repr

namespace neuron_pool

/-- The constructor `neuron_pool (n)`: both counts are `n` and the array has `n`
entries, whose content is not yet set (here: zero). -/
def new (n : Nat) : neuron_pool := ⟨List.replicate n ⟨0, 0⟩, n, n⟩

/-- The member `operator [] (i)`; an index outside the array is not defined. -/
def get (p : neuron_pool) (i : Nat) : Option ncounter := p.pool[i]?

/-- The assignment `pool[i] = c`; an index outside the array is not defined. -/
def put (p : neuron_pool) (i : Nat) (c : ncounter) : Option neuron_pool :=
  if i < p.pool.length then some { p with pool := p.pool.set i c } else none

/-- The member `delete_neuron (i)`: `n_available--; pool[i] = pool[n_available];`. -/
def delete_neuron (p : neuron_pool) (i : Nat) : Option neuron_pool :=
  let p1 := { p with n_available := (p.n_available + 2 ^ 32 - 1) % 2 ^ 32 }
  match p1.get p1.n_available with
  | none => none
  | some c => p1.put i c

/-- The entries available for making connections: the first `n_available` ones. -/
def available (p : neuron_pool) : List ncounter := p.pool.take p.n_available

end neuron_pool

/-- A pool of three neurons with 2, 1 and 3 free slots. -/
def samplePool : neuron_pool := ⟨[⟨0, 2⟩, ⟨1, 1⟩, ⟨2, 3⟩], 3, 3⟩

/-! ## libnn.cc: generate_random_core_neurons -/

/-- The function `swap (x1, x2)` of `libnn.cc`: the two values exchanged. -/
def swap (x1 x2 : Nat) : Nat × Nat := (x2, x1)

namespace NeuralNetwork

/-- The loop of `generate_random_core_neurons` for `remaining` more neurons, the calls
of `rand ()` returning `rand k`, `rand (k + 1)`, ...; the arithmetic is that of
`unsigned int`, and a remainder by zero is not defined. -/
def generate_loop (rand : Nat → Nat) (factory : NeuronFactory)
    (min_dendrites md min_synapses ms : Nat) : Nat → Nat → NeuralNetwork → Option NeuralNetwork
  | 0, _, nn => some nn
  | remaining + 1, k, nn =>
    if md = 0 then none
    else
      let d := (min_dendrites + rand k % md) % 2 ^ 32
      if ms = 0 then none
      else
        let s := (min_synapses + rand (k + 1) % ms) % 2 ^ 32
        generate_loop rand factory min_dendrites md min_synapses ms remaining (k + 2)
          (nn.create_neuron factory d s)

/-- The member `generate_random_core_neurons (factory, n_neurons, min_dendrites,
max_dendrites, min_synapses, max_synapses)` on `unsigned int` parameters. -/
def generate_random_core_neurons (rand : Nat → Nat) (nn : NeuralNetwork)
    (factory : NeuronFactory) (n_neurons min_dendrites max_dendrites min_synapses
      max_synapses : Nat) : Option NeuralNetwork :=
  let synapses := if min_synapses > max_synapses then swap min_synapses max_synapses
    else (min_synapses, max_synapses)
  let dendrites := if min_dendrites > max_dendrites then swap min_dendrites max_dendrites
    else (min_dendrites, max_dendrites)
  let ms := (synapses.2 + 2 ^ 32 - synapses.1 + 1) % 2 ^ 32
  let md := (dendrites.2 + 2 ^ 32 - dendrites.1 + 1) % 2 ^ 32
  generate_loop rand factory dendrites.1 md synapses.1 ms n_neurons 0 nn

end NeuralNetwork

/-! ## NeuronFunctor.h: Propagator::operator () -/

/-- The user's functors met by a forward activation, as transitions of the user's data
`U` (neuron states, dendrite states, members of the functors), with signals of type
`Sig`: `SynapseFunctor::propagate` of an outbound slot of a neuron,
`DendriteFunctor::process_input` and `DendriteFunctor::propagate` of an inbound slot
of a neuron, and `NeuronFunctor::process_input` (with the index it is passed) and
`NeuronFunctor::propagate` of a neuron. -/
structure Functors (U Sig : Type) where
  synapse_propagate : U → Nat → Nat → U × Sig
  dendrite_process_input : U → Nat → Nat → Sig → U × Bool
  dendrite_propagate : U → Nat → Nat → U × Sig
  process_input : U → Nat → Nat → Sig → U
  propagate : U → Nat → U × Bool

/-- A call of the node strategy made by `Propagator::operator ()`:
`process_input (idx, d->get_state (), ...)` for the dendrite `d` at position `slot`,
or `propagate (neuron_state)`. -/
inductive NodeCall where
  | process_input (idx slot : Nat)
  | propagate
deriving DecidableEq, Repr

namespace Propagator

/-- The loop of `operator ()` from the pointer `d` on, with the counter `i`:
`DendriteBase::process_input` pulls the signal with
`source->propagate (get_nth (), &store)`, which reads `synapses[nth]` of the source,
and asks the dendrite functor; when it accepts, the node functor's `process_input` is
called with `i`, the state of `d` and `d->propagate (neuron_state)`. -/
def activate_from {U Sig : Type} (F : Functors U Sig) (g : Graph) :
    Nat → U → Propagator → Option Nat → Nat → Option (U × Propagator × List NodeCall)
  | _, u, p, none, _ => some (u, p, [])
  | 0, _, _, some _, _ => none
  | fuel + 1, u, p, some d, i =>
    match p.dendrites.deref d with
    | none => none
    | some c =>
      if c.is_connected then
        match c.get_neuron with
        | none => none
        | some source =>
          match g.synapse source c.get_nth with
          | none => none
          | some _ =>
            let a := F.synapse_propagate u source c.get_nth
            let b := F.dendrite_process_input a.1 p.neuron d a.2
            if b.2 then
              let e := F.dendrite_propagate b.1 p.neuron d
              let u3 := F.process_input e.1 p.neuron i e.2
              match p.dendrites.next with
              | none => none
              | some (it, d1) =>
                match activate_from F g fuel u3 { p with dendrites := it } d1 (i + 1) with
                | none => none
                | some (u4, p4, calls) => some (u4, p4, NodeCall.process_input i d :: calls)
            else
              match p.dendrites.next with
              | none => none
              | some (it, d1) => activate_from F g fuel b.1 { p with dendrites := it } d1 (i + 1)
      else
        match p.dendrites.next with
        | none => none
        | some (it, d1) => activate_from F g fuel u { p with dendrites := it } d1 (i + 1)

/-- The member `operator () ()`: the loop over the dendrites from `first ()` with the
counter at 0, then `neuron_functor.propagate (neuron_state)`, whose result is
returned. The calls of the node strategy are listed in order. -/
def call {U Sig : Type} (F : Functors U Sig) (g : Graph) (fuel : Nat) (u : U)
    (p : Propagator) : Option (U × Propagator × Bool × List NodeCall) :=
  match activate_from F g fuel u { p with dendrites := p.dendrites.first.1 }
      p.dendrites.first.2 0 with
  | none => none
  | some (u1, p1, calls) =>
    some ((F.propagate u1 p.neuron).1, p1, (F.propagate u1 p.neuron).2,
      calls ++ [NodeCall.propagate])

end Propagator

/-- Modelled from the spec: the inbound slots `cs` of the neuron `self`, the first of
them at position `i`, visited in ascending order. A connected slot pulls the value of
the outbound slot `nth` of its peer and feeds it to the inbound strategy's
`process_input`; when that returns true the node strategy's `process_input` is called
with the position of the slot and the possibly reprocessed value. The result is the
user's data afterwards and the positions passed to the node strategy, in order. -/
def accepted_inputs {U Sig : Type} (F : Functors U Sig) (self : Nat) :
    U → Nat → List Connector → U × List Nat
  | u, _, [] => (u, [])
  | u, i, c :: cs =>
    match c.neuron with
    | none => accepted_inputs F self u (i + 1) cs
    | some source =>
      let a := F.synapse_propagate u source c.nth
      let b := F.dendrite_process_input a.1 self i a.2
      if b.2 then
        let e := F.dendrite_propagate b.1 self i
        let t := accepted_inputs F self (F.process_input e.1 self i e.2) (i + 1) cs
        (t.1, i :: t.2)
      else accepted_inputs F self b.1 (i + 1) cs

/-- Modelled from the spec: the forward activation of the neuron `self` with the
inbound slots `cs`: the node strategy's `process_input` for the accepted slots, then
its `propagate` exactly once, whose boolean result is the outcome. -/
def forward_activation {U Sig : Type} (F : Functors U Sig) (self : Nat) (u : U)
    (cs : List Connector) : U × Bool × List NodeCall :=
  let t := accepted_inputs F self u 0 cs
  ((F.propagate t.1 self).1, (F.propagate t.1 self).2,
    t.2.map (fun i => NodeCall.process_input i i) ++ [NodeCall.propagate])

/-- Functors over a counter as the user's data: every signal is the counter, every
dendrite accepts, and every call counts. -/
def countingFunctors : Functors Nat Nat :=
  { synapse_propagate := fun u _ _ => (u + 1, u)
    dendrite_process_input := fun u _ _ _ => (u + 1, true)
    dendrite_propagate := fun u _ _ => (u + 1, u)
    process_input := fun u _ _ _ => u + 1
    propagate := fun u _ => (u + 1, true) }

/-- A propagator of neuron 1 with three inbound slots: slot 0 references outbound slot
0 of neuron 0, slot 1 is unconnected, slot 2 references outbound slot 1 of neuron 0. -/
def sampleInbound : Propagator :=
  ⟨1, ConnectorIterator.over [⟨some 0, 0⟩, ⟨none, 0⟩, ⟨some 0, 1⟩], ConnectorIterator.over []⟩

/-! ## libnn.cc: make_randomly_connected_network -/

namespace Graph

/-- Number of connected outbound slots of the graph. -/
def connected_synapses (g : Graph) : Nat :=
  (g.map (fun me => (me.synapses.map Connector.weight).sum)).sum

/-- Number of connected inbound slots of the graph. -/
def connected_dendrites (g : Graph) : Nat :=
  (g.map (fun me => (me.dendrites.map Connector.weight).sum)).sum

/-- Number of outbound slots of the graph. -/
def total_synapses (g : Graph) : Nat := (g.map Neuron.n_synapses).sum

/-- Number of inbound slots of the graph. -/
def total_dendrites (g : Graph) : Nat := (g.map Neuron.n_dendrites).sum

end Graph

namespace NeuralNetwork

/-- The loop of `make_randomly_connected_network` that fills the two pools, for the
neurons of the node set that are still to come, the next at index `i`: the counts of
dendrites and synapses are stored as `unsigned int` and added to the `unsigned long`
totals. -/
def fill_pools (g : Graph) :
    List Nat → Nat → neuron_pool → neuron_pool → Nat → Nat →
      Option (neuron_pool × neuron_pool × Nat × Nat)
  | [], _, dendrites_pool, synapses_pool, n_dendrites, n_synapses =>
    some (dendrites_pool, synapses_pool, n_dendrites, n_synapses)
  | n :: rest, i, dendrites_pool, synapses_pool, n_dendrites, n_synapses =>
    match g[n]? with
    | none => none
    | some me =>
      let d := me.n_dendrites % 2 ^ 32
      let s := me.n_synapses % 2 ^ 32
      match dendrites_pool.put i ⟨n, d⟩ with
      | none => none
      | some dendrites_pool1 =>
        match synapses_pool.put i ⟨n, s⟩ with
        | none => none
        | some synapses_pool1 =>
          fill_pools g rest (i + 1) dendrites_pool1 synapses_pool1
            ((n_dendrites + d) % 2 ^ 64) ((n_synapses + s) % 2 ^ 64)

/-- What `if (pool[i] == 0) pool.delete_neuron (i);` leaves of a pool. -/
def retire_if_zero (p : neuron_pool) (i : Nat) : Option neuron_pool :=
  match p.get i with
  | none => none
  | some c => if c.eq 0 then p.delete_neuron i else some p

/-- The wiring loop of `make_randomly_connected_network` with `remaining` iterations
to go before its counter reaches `n_dendrites`, the calls of `rand ()` returning
`rand k`, `rand (k + 1)`, ...; `fuel` is the fuel of each `connect`. -/
def wire (rand : Nat → Nat) (fuel : Nat) :
    Nat → Nat → Graph → neuron_pool → neuron_pool → Option (Graph × neuron_pool × neuron_pool)
  | 0, _, g, dendrites_pool, synapses_pool => some (g, dendrites_pool, synapses_pool)
  | remaining + 1, k, g, dendrites_pool, synapses_pool =>
    if dendrites_pool.n_available = 0 ∨ synapses_pool.n_available = 0 then
      some (g, dendrites_pool, synapses_pool)
    else
      let i_d := rand k % dendrites_pool.n_available
      let i_s := rand (k + 1) % synapses_pool.n_available
      match synapses_pool.get i_s with
      | none => none
      | some cs =>
        match dendrites_pool.get i_d with
        | none => none
        | some cd =>
          match synapses_pool.put i_s cs.decr with
          | none => none
          | some synapses_pool1 =>
            match dendrites_pool.put i_d cd.decr with
            | none => none
            | some dendrites_pool1 =>
              match NeuralNetwork.connect fuel g (some cs.neuron) cs.decr.k (some cd.neuron)
                  cd.decr.k with
              | Outcome.done g1 =>
                match retire_if_zero synapses_pool1 i_s with
                | none => none
                | some synapses_pool2 =>
                  match retire_if_zero dendrites_pool1 i_d with
                  | none => none
                  | some dendrites_pool2 =>
                    wire rand fuel remaining (k + 2) g1 dendrites_pool2 synapses_pool2
              | _ => none

/-- The member `make_randomly_connected_network ()`: the network afterwards and the
two pools as the wiring loop leaves them (dendrites, then synapses). -/
def make_randomly_connected_network (rand : Nat → Nat) (fuel : Nat) (nn : NeuralNetwork) :
    Option (NeuralNetwork × neuron_pool × neuron_pool) :=
  let n := nn.neurons.length % 2 ^ 32
  match fill_pools nn.heap nn.neurons 0 (neuron_pool.new n) (neuron_pool.new n) 0 0 with
  | none => none
  | some (dendrites_pool, synapses_pool, n_dendrites, _) =>
    match wire rand fuel n_dendrites 0 nn.heap dendrites_pool synapses_pool with
    | none => none
    | some (g, dendrites_pool1, synapses_pool1) =>
      some ({ nn with heap := g }, dendrites_pool1, synapses_pool1)

/-- A population ready for wiring: the node set lists every neuron of the heap once,
in order of creation; every neuron has at least one inbound and one outbound slot; no
slot is connected; and the number of neurons and the numbers of slots of each neuron
are values of `unsigned int`. -/
def Population (nn : NeuralNetwork) : Prop :=
  nn.neurons = List.range nn.heap.length ∧ nn.heap.length < 2 ^ 32 ∧ Unwired nn.heap ∧
  ∀ me ∈ nn.heap, (1 ≤ me.n_dendrites ∧ me.n_dendrites < 2 ^ 32) ∧
    (1 ≤ me.n_synapses ∧ me.n_synapses < 2 ^ 32)

instance (nn : NeuralNetwork) : Decidable nn.Population := by
  unfold Population
  infer_instance

end NeuralNetwork

/-- The entries `l` account for the unconnected slots `slot` (the inbound or the
outbound ones) of the graph `g`: they name different neurons, each has a count `k` of
at least one such that the slots below `k` of its neuron are unconnected, and every
unconnected slot is below the count of the entry of its neuron. -/
def SlotsAccounted (slot : Graph → Nat → Nat → Option Connector) (g : Graph)
    (l : List ncounter) : Prop :=
  (l.map ncounter.neuron).Nodup ∧
  (∀ e ∈ l, 1 ≤ e.k ∧ e.k < 2 ^ 32 ∧
    ∀ j, j < e.k → ∃ c, slot g e.neuron j = some c ∧ c.is_connected = false) ∧
  (∀ x j c, slot g x j = some c → c.is_connected = false →
    ∃ e ∈ l, e.neuron = x ∧ j < e.k)

/-- The state of a pool during the wiring loop: the available entries are within the
array and account for the unconnected slots. -/
def PoolInv (slot : Graph → Nat → Nat → Option Connector) (g : Graph) (p : neuron_pool) :
    Prop :=
  p.n_available ≤ p.pool.length ∧ p.pool.length < 2 ^ 32 ∧
  SlotsAccounted slot g p.available

/-- Two neurons created by `create_neuron` in a new network: neuron 0 with two inbound
slots and one outbound slot, neuron 1 with one slot of each kind. -/
def unevenCreated : NeuralNetwork :=
  (NeuralNetwork.new.create_neuron sampleFactory 2 1).create_neuron sampleFactory 1 1

/-- The member `create_neuron (factory)` of `libnn.cc`, whose body is empty: the network
afterwards and the calls of `factory.create` made, each by its two arguments. -/
def NeuralNetwork.create_neuron_only (nn : NeuralNetwork) (_factory : NeuronFactory) :
    NeuralNetwork × List (Nat × Nat) :=
  (nn, [])

/-- One neuron created by `create_neuron` in a new network and then enqueued by
`add_to_update_queue`: the forward next queue holds it. -/
def oneQueued : NeuralNetwork :=
  ((NeuralNetwork.new.create_neuron sampleFactory 1 1).add_to_update_queue 0).getD
    NeuralNetwork.new

/-- The argument of the `reserve` call that `add_dendrite (d)` and `add_synapse (s)` make
before `push_back`, for a vector of `l` elements and the given capacity: 64 when the
vector is empty, `l + (l >> 1)` when it is full, and no call otherwise. -/
def Neuron.reserve_request (l capacity : Nat) : Option Nat :=
  if l = 0 then some 64
  else if l = capacity then some (l + (l >>> 1))
  else none

/-- Two neurons created by `create_neuron` in a new network: neuron 0 with one inbound
and three outbound slots, neuron 1 with two inbound slots and one outbound slot. -/
def mixedCreated : NeuralNetwork :=
  (NeuralNetwork.new.create_neuron sampleFactory 1 3).create_neuron sampleFactory 2 1

/-- One call of `connect` by the wiring loop of `make_randomly_connected_network`: the
graph and the two pools at the top of the iteration, the entries `synapses_pool[i_s]`
and `dendrites_pool[i_d]` before they are decremented, and the four arguments of the
call. -/
structure WireCall where
  graph : Graph
  dendrites_pool : neuron_pool
  synapses_pool : neuron_pool
  synapses_entry : ncounter
  dendrites_entry : ncounter
  a : Nat
  synapse : Nat
  b : Nat
  dendrite : Nat
deriving DecidableEq, Repr

/-- How the wiring loop ends: it is left with a graph and the two pools; or a call of
`connect` gives no graph (it is not defined, or the fuel is used up); or a pool is
indexed outside its array. -/
inductive WireEnd where
  | finished (g : Graph) (dendrites_pool synapses_pool : neuron_pool)
  | not_connected
  | outside_pool
deriving DecidableEq, Repr

namespace NeuralNetwork

/-- The wiring loop of `make_randomly_connected_network` as `wire`, recording every
call of `connect` it makes, in order, and how the loop ends. -/
def wire_trace (rand : Nat → Nat) (fuel : Nat) :
    Nat → Nat → Graph → neuron_pool → neuron_pool → List WireCall × WireEnd
  | 0, _, g, dendrites_pool, synapses_pool =>
    ([], WireEnd.finished g dendrites_pool synapses_pool)
  | remaining + 1, k, g, dendrites_pool, synapses_pool =>
    if dendrites_pool.n_available = 0 ∨ synapses_pool.n_available = 0 then
      ([], WireEnd.finished g dendrites_pool synapses_pool)
    else
      let i_d := rand k % dendrites_pool.n_available
      let i_s := rand (k + 1) % synapses_pool.n_available
      match synapses_pool.get i_s with
      | none => ([], WireEnd.outside_pool)
      | some cs =>
        match dendrites_pool.get i_d with
        | none => ([], WireEnd.outside_pool)
        | some cd =>
          match synapses_pool.put i_s cs.decr with
          | none => ([], WireEnd.outside_pool)
          | some synapses_pool1 =>
            match dendrites_pool.put i_d cd.decr with
            | none => ([], WireEnd.outside_pool)
            | some dendrites_pool1 =>
              let call : WireCall :=
                ⟨g, dendrites_pool, synapses_pool, cs, cd, cs.neuron, cs.decr.k, cd.neuron,
                  cd.decr.k⟩
              match NeuralNetwork.connect fuel g (some cs.neuron) cs.decr.k (some cd.neuron)
                  cd.decr.k with
              | Outcome.done g1 =>
                match retire_if_zero synapses_pool1 i_s with
                | none => ([call], WireEnd.outside_pool)
                | some synapses_pool2 =>
                  match retire_if_zero dendrites_pool1 i_d with
                  | none => ([call], WireEnd.outside_pool)
                  | some dendrites_pool2 =>
                    let rest := wire_trace rand fuel remaining (k + 2) g1 dendrites_pool2
                      synapses_pool2
                    (call :: rest.1, rest.2)
              | _ => ([call], WireEnd.not_connected)

/-- The member `make_randomly_connected_network ()`, by the calls of `connect` it makes
and the end of its wiring loop; `none` when filling the pools is not defined. -/
def make_randomly_connected_network_trace (rand : Nat → Nat) (fuel : Nat)
    (nn : NeuralNetwork) : Option (List WireCall × WireEnd) :=
  let n := nn.neurons.length % 2 ^ 32
  match fill_pools nn.heap nn.neurons 0 (neuron_pool.new n) (neuron_pool.new n) 0 0 with
  | none => none
  | some (dendrites_pool, synapses_pool, n_dendrites, _) =>
    some (wire_trace rand fuel n_dendrites 0 nn.heap dendrites_pool synapses_pool)

end NeuralNetwork

/-- A call of `connect` by the wiring loop is within bounds: at the top of its
iteration every available entry of either pool has a count of at least 1; the two
entries drawn are available ones; the neurons passed are those of the two entries; each
slot index passed is the count of its entry less one, so no decrement wraps; and each
slot index is below the number of slots of the neuron it addresses. -/
def WireCall.Safe (c : WireCall) : Prop :=
  (∀ e ∈ c.dendrites_pool.available, 1 ≤ e.k) ∧
  (∀ e ∈ c.synapses_pool.available, 1 ≤ e.k) ∧
  c.synapses_entry ∈ c.synapses_pool.available ∧
  c.dendrites_entry ∈ c.dendrites_pool.available ∧
  c.a = c.synapses_entry.neuron ∧ c.b = c.dendrites_entry.neuron ∧
  c.synapse + 1 = c.synapses_entry.k ∧ c.dendrite + 1 = c.dendrites_entry.k ∧
  c.synapses_entry.decr.k = c.synapse ∧ c.dendrites_entry.decr.k = c.dendrite ∧
  c.synapse < c.graph.n_synapses c.a ∧ c.dendrite < c.graph.n_dendrites c.b

instance (c : WireCall) : Decidable c.Safe := by
  unfold WireCall.Safe
  infer_instance

/-- A population as `make_randomly_connected_network` expects it, whatever its slots
are connected to: the node set lists every neuron of the heap once, in order of
creation; every neuron has at least one inbound and one outbound slot; and the number
of neurons and the numbers of slots of each neuron are values of `unsigned int`. -/
def NeuralNetwork.Populated (nn : NeuralNetwork) : Prop :=
  nn.neurons = List.range nn.heap.length ∧ nn.heap.length < 2 ^ 32 ∧
  ∀ me ∈ nn.heap, (1 ≤ me.n_dendrites ∧ me.n_dendrites < 2 ^ 32) ∧
    (1 ≤ me.n_synapses ∧ me.n_synapses < 2 ^ 32)

instance (nn : NeuralNetwork) : Decidable nn.Populated := by
  unfold NeuralNetwork.Populated
  infer_instance

/-- The network `twoCreated` with outbound slot 0 of neuron 0 connected to inbound slot
0 of neuron 1: a population part of whose slots are connected already. -/
def linkedCreated : NeuralNetwork :=
  (twoCreated.connect_neurons 3 (some 0) 0 (some 1) 0).getD twoCreated

/-! ## Slot lookup after a store -/

namespace Graph

theorem getElem?_set_node (g : Graph) (a a' : Nat) (x : Neuron) :
    (g.set a x)[a']? = if a = a' then (g[a']?).map (fun _ => x) else g[a']? := by
  rw [List.getElem?_set']
  rfl

theorem synapse_setSynapse (g : Graph) (a i : Nat) (c : Connector) (a' i' : Nat) :
    (g.setSynapse a i c).synapse a' i' =
      if a' = a ∧ i' = i then (g.synapse a i).map (fun _ => c) else g.synapse a' i' := by
  unfold setSynapse synapse
  cases hg : g[a]? with
  | none =>
    by_cases h : a' = a ∧ i' = i
    · obtain ⟨rfl, rfl⟩ := h
      simp [hg]
    · simp [h]
  | some me =>
    by_cases ha : a' = a
    · subst ha
      by_cases hi : i' = i
      · subst hi
        simp [hg, getElem?_set_node, List.getElem?_set']
        rfl
      · simp [hg, hi, getElem?_set_node, List.getElem?_set', Ne.symm hi]
    · simp [ha, getElem?_set_node, Ne.symm ha]

theorem dendrite_setDendrite (g : Graph) (a i : Nat) (c : Connector) (a' i' : Nat) :
    (g.setDendrite a i c).dendrite a' i' =
      if a' = a ∧ i' = i then (g.dendrite a i).map (fun _ => c) else g.dendrite a' i' := by
  unfold setDendrite dendrite
  cases hg : g[a]? with
  | none =>
    by_cases h : a' = a ∧ i' = i
    · obtain ⟨rfl, rfl⟩ := h
      simp [hg]
    · simp [h]
  | some me =>
    by_cases ha : a' = a
    · subst ha
      by_cases hi : i' = i
      · subst hi
        simp [hg, getElem?_set_node, List.getElem?_set']
        rfl
      · simp [hg, hi, getElem?_set_node, List.getElem?_set', Ne.symm hi]
    · simp [ha, getElem?_set_node, Ne.symm ha]

@[simp] theorem dendrite_setSynapse (g : Graph) (a i : Nat) (c : Connector) (a' i' : Nat) :
    (g.setSynapse a i c).dendrite a' i' = g.dendrite a' i' := by
  unfold setSynapse dendrite
  cases hg : g[a]? with
  | none => rfl
  | some me =>
    by_cases ha : a' = a
    · subst ha
      simp [hg, getElem?_set_node]
    · simp [ha, getElem?_set_node, Ne.symm ha]

@[simp] theorem synapse_setDendrite (g : Graph) (a i : Nat) (c : Connector) (a' i' : Nat) :
    (g.setDendrite a i c).synapse a' i' = g.synapse a' i' := by
  unfold setDendrite synapse
  cases hg : g[a]? with
  | none => rfl
  | some me =>
    by_cases ha : a' = a
    · subst ha
      simp [hg, getElem?_set_node]
    · simp [ha, getElem?_set_node, Ne.symm ha]

theorem synapse_eq_some {g : Graph} {a i : Nat} {c : Connector} (h : g.synapse a i = some c) :
    ∃ me, g[a]? = some me ∧ me.synapses[i]? = some c := by
  unfold synapse at h
  cases hg : g[a]? with
  | none => simp [hg] at h
  | some me => exact ⟨me, rfl, by simpa [hg] using h⟩

theorem dendrite_eq_some {g : Graph} {a i : Nat} {c : Connector} (h : g.dendrite a i = some c) :
    ∃ me, g[a]? = some me ∧ me.dendrites[i]? = some c := by
  unfold dendrite at h
  cases hg : g[a]? with
  | none => simp [hg] at h
  | some me => exact ⟨me, rfl, by simpa [hg] using h⟩

end Graph

/-! ## Deciding reciprocity and well-formedness -/

theorem Graph.synapse_lt {g : Graph} {a i : Nat} {c : Connector} (h : g.synapse a i = some c) :
    a < g.length ∧ i < g.n_synapses a := by
  obtain ⟨me, hg, hs⟩ := Graph.synapse_eq_some h
  refine ⟨(List.getElem?_eq_some.mp hg).1, ?_⟩
  simpa [Graph.n_synapses, hg, Neuron.n_synapses] using (List.getElem?_eq_some.mp hs).1

theorem Graph.dendrite_lt {g : Graph} {a i : Nat} {c : Connector} (h : g.dendrite a i = some c) :
    a < g.length ∧ i < g.n_dendrites a := by
  obtain ⟨me, hg, hs⟩ := Graph.dendrite_eq_some h
  refine ⟨(List.getElem?_eq_some.mp hg).1, ?_⟩
  simpa [Graph.n_dendrites, hg, Neuron.n_dendrites] using (List.getElem?_eq_some.mp hs).1

theorem Graph.synapse_isSome_of_lt {g : Graph} {a i : Nat} (h : i < g.n_synapses a) :
    ∃ c, g.synapse a i = some c := by
  unfold Graph.n_synapses at h
  unfold Graph.synapse
  cases hg : g[a]? with
  | none => simp [hg] at h
  | some me =>
    simp only [hg, Neuron.n_synapses] at h
    exact ⟨me.synapses[i], by simp [h]⟩

theorem Graph.dendrite_isSome_of_lt {g : Graph} {a i : Nat} (h : i < g.n_dendrites a) :
    ∃ c, g.dendrite a i = some c := by
  unfold Graph.n_dendrites at h
  unfold Graph.dendrite
  cases hg : g[a]? with
  | none => simp [hg] at h
  | some me =>
    simp only [hg, Neuron.n_dendrites] at h
    exact ⟨me.dendrites[i], by simp [h]⟩

theorem Connector.eq_mk_of_neuron {c : Connector} {b : Nat} (h : c.neuron = some b) :
    c = ⟨some b, c.nth⟩ := by
  cases c
  simp_all

theorem reciprocal_iff_bounded (g : Graph) : Reciprocal g ↔ ReciprocalBounded g := by
  constructor
  · intro h
    refine ⟨fun a _ s _ c hc b hb => ?_, fun b _ d _ c hc a ha => ?_⟩
    · have hc' : g.synapse a s = some c := hc
      rw [Connector.eq_mk_of_neuron (Option.mem_def.mp hb)] at hc'
      exact h.1 a s b c.nth hc'
    · have hc' : g.dendrite b d = some c := hc
      rw [Connector.eq_mk_of_neuron (Option.mem_def.mp ha)] at hc'
      exact h.2 b d a c.nth hc'
  · intro h
    refine ⟨fun a s b d hs => ?_, fun b d a s hd => ?_⟩
    · exact h.1 a (Graph.synapse_lt hs).1 s (Graph.synapse_lt hs).2 _ hs b rfl
    · exact h.2 b (Graph.dendrite_lt hd).1 d (Graph.dendrite_lt hd).2 _ hd a rfl

theorem wellFormed_iff_bounded (g : Graph) : WellFormed g ↔ WellFormedBounded g := by
  constructor
  · intro h
    exact ⟨fun a _ s _ c hc b hb => h.1 a s c b hc hb, fun b _ d _ c hc a ha => h.2 b d c a hc ha⟩
  · intro h
    refine ⟨fun a s c b hs hb => ?_, fun b d c a hd ha => ?_⟩
    · exact h.1 a (Graph.synapse_lt hs).1 s (Graph.synapse_lt hs).2 c hs b hb
    · exact h.2 b (Graph.dendrite_lt hd).1 d (Graph.dendrite_lt hd).2 c hd a ha

/-! ## One step of each member function -/

theorem disconnect_synapse_free {g : Graph} {a i : Nat} {c : Connector} (fuel : Nat)
    (h : g.synapse a i = some c) (hc : c.neuron = none) :
    disconnect_synapse (fuel + 1) g a i = Outcome.done g := by
  obtain ⟨me, hg, hs⟩ := Graph.synapse_eq_some h
  have hlt : i < me.synapses.length := (List.getElem?_eq_some.mp hs).1
  simp [disconnect_synapse, hg, hs, Nat.not_lt.mpr (Nat.le_of_lt hlt), Connector.is_connected, hc]

theorem disconnect_synapse_connected {g : Graph} {a i : Nat} {c : Connector} {p : Nat}
    (fuel : Nat) (h : g.synapse a i = some c) (hc : c.neuron = some p) :
    disconnect_synapse (fuel + 1) g a i =
      disconnect_dendrite fuel (g.setSynapse a i Connector.new) p c.nth := by
  obtain ⟨me, hg, hs⟩ := Graph.synapse_eq_some h
  have hlt : i < me.synapses.length := (List.getElem?_eq_some.mp hs).1
  simp [disconnect_synapse, hg, hs, Nat.not_lt.mpr (Nat.le_of_lt hlt), Connector.is_connected, hc,
    Connector.get_neuron, Connector.get_nth, Connector.disconnect, Connector.new]

theorem disconnect_dendrite_free {g : Graph} {a i : Nat} {c : Connector} (fuel : Nat)
    (h : g.dendrite a i = some c) (hc : c.neuron = none) :
    disconnect_dendrite (fuel + 1) g a i = Outcome.done g := by
  obtain ⟨me, hg, hs⟩ := Graph.dendrite_eq_some h
  have hlt : i < me.dendrites.length := (List.getElem?_eq_some.mp hs).1
  simp [disconnect_dendrite, hg, hs, Nat.not_lt.mpr (Nat.le_of_lt hlt), Connector.is_connected, hc]

theorem disconnect_dendrite_connected {g : Graph} {a i : Nat} {c : Connector} {p : Nat}
    (fuel : Nat) (h : g.dendrite a i = some c) (hc : c.neuron = some p) :
    disconnect_dendrite (fuel + 1) g a i =
      disconnect_synapse fuel (g.setDendrite a i Connector.new) p c.nth := by
  obtain ⟨me, hg, hs⟩ := Graph.dendrite_eq_some h
  have hlt : i < me.dendrites.length := (List.getElem?_eq_some.mp hs).1
  simp [disconnect_dendrite, hg, hs, Nat.not_lt.mpr (Nat.le_of_lt hlt), Connector.is_connected, hc,
    Connector.get_neuron, Connector.get_nth, Connector.disconnect, Connector.new]

theorem connect_synapse_null {g : Graph} {a : Nat} {me : Neuron} (fuel i k : Nat)
    (hg : g[a]? = some me) : connect_synapse (fuel + 1) g a i none k = Outcome.done g := by
  simp [connect_synapse, hg]

theorem connect_synapse_same {g : Graph} {a i : Nat} {c : Connector} {p : Nat} (fuel k : Nat)
    (h : g.synapse a i = some c) (hc : c.neuron = some p) :
    connect_synapse (fuel + 1) g a i (some p) k = Outcome.done g := by
  obtain ⟨me, hg, hs⟩ := Graph.synapse_eq_some h
  simp [connect_synapse, hg, hs, Connector.get_neuron, hc]

theorem connect_synapse_step {g g1 : Graph} {a i : Nat} {c c1 : Connector} {p : Nat}
    (fuel k : Nat) (h : g.synapse a i = some c) (hc : c.neuron ≠ some p)
    (hd : disconnect_synapse fuel g a i = Outcome.done g1) (h1 : g1.synapse a i = some c1) :
    connect_synapse (fuel + 1) g a i (some p) k =
      connect_dendrite fuel (g1.setSynapse a i ⟨some p, k⟩) p k (some a) i := by
  obtain ⟨me, hg, hs⟩ := Graph.synapse_eq_some h
  simp [connect_synapse, hg, hs, Connector.get_neuron, hc, hd, h1, Connector.connect]

theorem connect_dendrite_same {g : Graph} {a i : Nat} {c : Connector} {p : Nat} (fuel k : Nat)
    (h : g.dendrite a i = some c) (hc : c.neuron = some p) :
    connect_dendrite (fuel + 1) g a i (some p) k = Outcome.done g := by
  obtain ⟨me, hg, hs⟩ := Graph.dendrite_eq_some h
  simp [connect_dendrite, hg, hs, Connector.get_neuron, hc]

theorem connect_dendrite_step {g g1 : Graph} {a i : Nat} {c c1 : Connector} {p : Nat}
    (fuel k : Nat) (h : g.dendrite a i = some c) (hc : c.neuron ≠ some p)
    (hd : disconnect_dendrite fuel g a i = Outcome.done g1) (h1 : g1.dendrite a i = some c1) :
    connect_dendrite (fuel + 1) g a i (some p) k =
      connect_synapse fuel (g1.setDendrite a i ⟨some p, k⟩) p k (some a) i := by
  obtain ⟨me, hg, hs⟩ := Graph.dendrite_eq_some h
  simp [connect_dendrite, hg, hs, Connector.get_neuron, hc, hd, h1, Connector.connect]

theorem Connector.neuron_of_not_connected {c : Connector} (h : c.is_connected = false) :
    c.neuron = none := by
  simpa [Connector.is_connected] using h

/-! ## Connecting two free slots -/

/-- C2: when outbound slot `s` of `A` and inbound slot `d` of `B` both exist and are
unconnected, `NeuralNetwork::connect (A, s, B, d)` returns (with any fuel from 3 on),
afterwards outbound slot `s` of `A` references `(B, d)` and inbound slot `d` of `B`
references `(A, s)`, and every other slot of every node is as before. -/
theorem connect_free_slots (g : Graph) (A s B d : Nat) (cs cd : Connector) (fuel : Nat)
    (hfuel : 3 ≤ fuel)
    (hs : g.synapse A s = some cs) (hsfree : cs.is_connected = false)
    (hd : g.dendrite B d = some cd) (hdfree : cd.is_connected = false) :
    ∃ g', NeuralNetwork.connect fuel g (some A) s (some B) d = Outcome.done g' ∧
      g'.synapse A s = some ⟨some B, d⟩ ∧ g'.dendrite B d = some ⟨some A, s⟩ ∧
      (∀ a i, (a, i) ≠ (A, s) → g'.synapse a i = g.synapse a i) ∧
      (∀ a i, (a, i) ≠ (B, d) → g'.dendrite a i = g.dendrite a i) := by
  obtain ⟨f, rfl⟩ : ∃ f, fuel = f + 3 := ⟨fuel - 3, by omega⟩
  have hsn := Connector.neuron_of_not_connected hsfree
  have hdn := Connector.neuron_of_not_connected hdfree
  refine ⟨(g.setSynapse A s ⟨some B, d⟩).setDendrite B d ⟨some A, s⟩, ?_, ?_, ?_, ?_, ?_⟩
  · have h2 : (g.setSynapse A s ⟨some B, d⟩).dendrite B d = some cd := by simp [hd]
    have h3 : ((g.setSynapse A s ⟨some B, d⟩).setDendrite B d ⟨some A, s⟩).synapse A s
        = some ⟨some B, d⟩ := by simp [Graph.synapse_setSynapse, hs]
    unfold NeuralNetwork.connect
    simp only []
    rw [connect_synapse_step (f + 2) d hs (by simp [hsn]) (disconnect_synapse_free (f + 1) hs hsn) hs,
      connect_dendrite_step (f + 1) s h2 (by simp [hdn]) (disconnect_dendrite_free f h2 hdn) h2,
      connect_synapse_same f d h3 rfl]
  · simp [Graph.synapse_setSynapse, hs]
  · simp [Graph.dendrite_setDendrite, hd]
  · intro a i hne
    have : ¬ (a = A ∧ i = s) := fun h => hne (by rw [h.1, h.2])
    simp [Graph.synapse_setSynapse, this]
  · intro a i hne
    have : ¬ (a = B ∧ i = d) := fun h => hne (by rw [h.1, h.2])
    simp [Graph.dendrite_setDendrite, this]

/-- Witness of C2 on `twoNeurons`: `connect (0, 0, 1, 0)` with fuel 3. -/
theorem connect_free_slots_witness :
    (twoNeurons.synapse 0 0 = some Connector.new ∧
      twoNeurons.dendrite 1 0 = some Connector.new) ∧
    ∃ g', NeuralNetwork.connect 3 twoNeurons (some 0) 0 (some 1) 0 = Outcome.done g' ∧
      g'.synapse 0 0 = some ⟨some 1, 0⟩ ∧ g'.dendrite 1 0 = some ⟨some 0, 0⟩ ∧
      (∀ a i, (a, i) ≠ (0, 0) → g'.synapse a i = twoNeurons.synapse a i) ∧
      (∀ a i, (a, i) ≠ (1, 0) → g'.dendrite a i = twoNeurons.dendrite a i) :=
  ⟨by decide, connect_free_slots twoNeurons 0 0 1 0 Connector.new Connector.new 3
    (by decide) (by decide) (by decide) (by decide) (by decide)⟩

/-! ## Disconnecting a linked pair of slots -/

theorem Graph.ne_slot {a i A s : Nat} (h : (a, i) ≠ (A, s)) : ¬ (a = A ∧ i = s) :=
  fun hh => h (by rw [hh.1, hh.2])

/-- C3: in a graph state satisfying reciprocity in which outbound slot `s` of `A`
references `(B, d)`, `disconnect_synapse (s)` on `A` and equally
`disconnect_dendrite (d)` on `B` return (with any fuel from 3 on) a state in which
both slots are unconnected and every other slot is as before; and in any state,
disconnecting an existing slot that is unconnected returns the state as it was. -/
theorem disconnect_clears_both (g : Graph) (A s B d fuel : Nat) (hfuel : 3 ≤ fuel)
    (hr : Reciprocal g) (h : g.synapse A s = some ⟨some B, d⟩) :
    (∃ g', disconnect_synapse fuel g A s = Outcome.done g' ∧
      g'.synapse A s = some Connector.new ∧ g'.dendrite B d = some Connector.new ∧
      (∀ a i, (a, i) ≠ (A, s) → g'.synapse a i = g.synapse a i) ∧
      (∀ a i, (a, i) ≠ (B, d) → g'.dendrite a i = g.dendrite a i)) ∧
    (∃ g', disconnect_dendrite fuel g B d = Outcome.done g' ∧
      g'.synapse A s = some Connector.new ∧ g'.dendrite B d = some Connector.new ∧
      (∀ a i, (a, i) ≠ (A, s) → g'.synapse a i = g.synapse a i) ∧
      (∀ a i, (a, i) ≠ (B, d) → g'.dendrite a i = g.dendrite a i)) ∧
    (∀ a i c, g.synapse a i = some c → c.is_connected = false →
      disconnect_synapse fuel g a i = Outcome.done g) ∧
    (∀ a i c, g.dendrite a i = some c → c.is_connected = false →
      disconnect_dendrite fuel g a i = Outcome.done g) := by
  obtain ⟨f, rfl⟩ : ∃ f, fuel = f + 3 := ⟨fuel - 3, by omega⟩
  have hd : g.dendrite B d = some ⟨some A, s⟩ := hr.1 A s B d h
  refine ⟨⟨(g.setSynapse A s Connector.new).setDendrite B d Connector.new, ?_, ?_, ?_, ?_, ?_⟩,
    ⟨(g.setDendrite B d Connector.new).setSynapse A s Connector.new, ?_, ?_, ?_, ?_, ?_⟩, ?_, ?_⟩
  · have h1 : (g.setSynapse A s Connector.new).dendrite B d = some ⟨some A, s⟩ := by simp [hd]
    have h2 : ((g.setSynapse A s Connector.new).setDendrite B d Connector.new).synapse A s
        = some Connector.new := by simp [Graph.synapse_setSynapse, h]
    rw [disconnect_synapse_connected (f + 2) h rfl, disconnect_dendrite_connected (f + 1) h1 rfl,
      disconnect_synapse_free f h2 rfl]
  · simp [Graph.synapse_setSynapse, h]
  · simp [Graph.dendrite_setDendrite, hd]
  · intro a i hne
    simp [Graph.synapse_setSynapse, Graph.ne_slot hne]
  · intro a i hne
    simp [Graph.dendrite_setDendrite, Graph.ne_slot hne]
  · have h1 : (g.setDendrite B d Connector.new).synapse A s = some ⟨some B, d⟩ := by simp [h]
    have h2 : ((g.setDendrite B d Connector.new).setSynapse A s Connector.new).dendrite B d
        = some Connector.new := by simp [Graph.dendrite_setDendrite, hd]
    rw [disconnect_dendrite_connected (f + 2) hd rfl, disconnect_synapse_connected (f + 1) h1 rfl,
      disconnect_dendrite_free f h2 rfl]
  · simp [Graph.synapse_setSynapse, h]
  · simp [Graph.dendrite_setDendrite, hd]
  · intro a i hne
    simp [Graph.synapse_setSynapse, Graph.ne_slot hne]
  · intro a i hne
    simp [Graph.dendrite_setDendrite, Graph.ne_slot hne]
  · intro a i c hc hfree
    exact disconnect_synapse_free (f + 2) hc (Connector.neuron_of_not_connected hfree)
  · intro a i c hc hfree
    exact disconnect_dendrite_free (f + 2) hc (Connector.neuron_of_not_connected hfree)

/-- Witness of C3 on `twoNeuronsLinked`, where outbound slot 0 of neuron 0 references
`(1, 0)`: `disconnect_synapse (0)` on neuron 0 clears both slots. -/
theorem disconnect_clears_both_witness :
    (Reciprocal twoNeuronsLinked ∧ twoNeuronsLinked.synapse 0 0 = some ⟨some 1, 0⟩) ∧
    ∃ g', disconnect_synapse 3 twoNeuronsLinked 0 0 = Outcome.done g' ∧
      g'.synapse 0 0 = some Connector.new ∧ g'.dendrite 1 0 = some Connector.new ∧
      (∀ a i, (a, i) ≠ (0, 0) → g'.synapse a i = twoNeuronsLinked.synapse a i) ∧
      (∀ a i, (a, i) ≠ (1, 0) → g'.dendrite a i = twoNeuronsLinked.dendrite a i) :=
  ⟨⟨(reciprocal_iff_bounded _).mpr (by decide), by decide⟩,
    (disconnect_clears_both twoNeuronsLinked 0 0 1 0 3 (by decide)
      ((reciprocal_iff_bounded _).mpr (by decide)) (by decide)).1⟩

/-! ## Connecting two occupied slots -/

/-- C5: in a graph state satisfying reciprocity in which outbound slot `s` of `A`
references `(C, c)` with `C ≠ B` and inbound slot `d` of `B` references `(E, e)` with
`E ≠ A`, `NeuralNetwork::connect (A, s, B, d)` returns (with any fuel from 5 on) a
state in which inbound slot `c` of `C` and outbound slot `e` of `E` are unconnected,
outbound slot `s` of `A` references `(B, d)`, inbound slot `d` of `B` references
`(A, s)`, and every other slot is as before. -/
theorem connect_replaces_occupants (g : Graph) (A s B d C c E e fuel : Nat) (hfuel : 5 ≤ fuel)
    (hr : Reciprocal g)
    (hs : g.synapse A s = some ⟨some C, c⟩) (hCB : C ≠ B)
    (hd : g.dendrite B d = some ⟨some E, e⟩) (hEA : E ≠ A) :
    ∃ g', NeuralNetwork.connect fuel g (some A) s (some B) d = Outcome.done g' ∧
      g'.dendrite C c = some Connector.new ∧ g'.synapse E e = some Connector.new ∧
      g'.synapse A s = some ⟨some B, d⟩ ∧ g'.dendrite B d = some ⟨some A, s⟩ ∧
      (∀ a i, (a, i) ≠ (A, s) → (a, i) ≠ (E, e) → g'.synapse a i = g.synapse a i) ∧
      (∀ a i, (a, i) ≠ (B, d) → (a, i) ≠ (C, c) → g'.dendrite a i = g.dendrite a i) := by
  obtain ⟨f, rfl⟩ : ∃ f, fuel = f + 5 := ⟨fuel - 5, by omega⟩
  have hCc : g.dendrite C c = some ⟨some A, s⟩ := hr.1 A s C c hs
  have hEe : g.synapse E e = some ⟨some B, d⟩ := hr.2 B d E e hd
  have hAE : ¬ (A = E ∧ s = e) := fun h => hEA h.1.symm
  have hEA2 : ¬ (E = A ∧ e = s) := fun h => hEA h.1
  have hBC : ¬ (B = C ∧ d = c) := fun h => hCB h.1.symm
  have hCB2 : ¬ (C = B ∧ c = d) := fun h => hCB h.1
  -- the states passed through
  have e2d : disconnect_synapse (f + 4) g A s =
      Outcome.done ((g.setSynapse A s Connector.new).setDendrite C c Connector.new) := by
    have h1 : (g.setSynapse A s Connector.new).dendrite C c = some ⟨some A, s⟩ := by simp [hCc]
    have h2 : ((g.setSynapse A s Connector.new).setDendrite C c Connector.new).synapse A s
        = some Connector.new := by simp [Graph.synapse_setSynapse, hs]
    rw [disconnect_synapse_connected (f + 3) hs rfl, disconnect_dendrite_connected (f + 2) h1 rfl,
      disconnect_synapse_free (f + 1) h2 rfl]
  have e2s : ((g.setSynapse A s Connector.new).setDendrite C c Connector.new).synapse A s
      = some Connector.new := by simp [Graph.synapse_setSynapse, hs]
  generalize hg3 : (((g.setSynapse A s Connector.new).setDendrite C c Connector.new).setSynapse
    A s ⟨some B, d⟩) = g3 at *
  have g3s : ∀ a i, g3.synapse a i =
      if a = A ∧ i = s then some ⟨some B, d⟩ else g.synapse a i := by
    intro a i
    subst hg3
    by_cases h : a = A ∧ i = s
    · obtain ⟨rfl, rfl⟩ := h
      simp [Graph.synapse_setSynapse, hs]
    · simp [Graph.synapse_setSynapse, h]
  have g3d : ∀ a i, g3.dendrite a i =
      if a = C ∧ i = c then some Connector.new else g.dendrite a i := by
    intro a i
    subst hg3
    by_cases h : a = C ∧ i = c
    · obtain ⟨rfl, rfl⟩ := h
      simp [Graph.dendrite_setDendrite, hCc]
    · simp [Graph.dendrite_setDendrite, h]
  have h3d : g3.dendrite B d = some ⟨some E, e⟩ := by rw [g3d, if_neg hBC, hd]
  have e5 : disconnect_dendrite (f + 3) g3 B d =
      Outcome.done ((g3.setDendrite B d Connector.new).setSynapse E e Connector.new) := by
    have h1 : (g3.setDendrite B d Connector.new).synapse E e = some ⟨some B, d⟩ := by
      simp [g3s, hEA2, hEe]
    have h2 : ((g3.setDendrite B d Connector.new).setSynapse E e Connector.new).dendrite B d
        = some Connector.new := by simp [Graph.dendrite_setDendrite, h3d]
    rw [disconnect_dendrite_connected (f + 2) h3d rfl, disconnect_synapse_connected (f + 1) h1 rfl,
      disconnect_dendrite_free f h2 rfl]
  have e5d : ((g3.setDendrite B d Connector.new).setSynapse E e Connector.new).dendrite B d
      = some Connector.new := by simp [Graph.dendrite_setDendrite, h3d]
  refine ⟨((g3.setDendrite B d Connector.new).setSynapse E e Connector.new).setDendrite B d
    ⟨some A, s⟩, ?_, ?_, ?_, ?_, ?_, ?_, ?_⟩
  · have h6 : (((g3.setDendrite B d Connector.new).setSynapse E e Connector.new).setDendrite B d
        ⟨some A, s⟩).synapse A s = some ⟨some B, d⟩ := by
      simp [Graph.synapse_setSynapse, hAE, g3s]
    unfold NeuralNetwork.connect
    simp only []
    rw [connect_synapse_step (f + 4) d hs (by simp [hCB]) e2d e2s, hg3,
      connect_dendrite_step (f + 3) s h3d (by simp [hEA]) e5 e5d,
      connect_synapse_same (f + 2) d h6 rfl]
  · simp [Graph.dendrite_setDendrite, hCB2, g3d]
  · simp [Graph.synapse_setSynapse, g3s, hEA2, hEe]
  · simp [Graph.synapse_setSynapse, hAE, g3s]
  · simp [Graph.dendrite_setDendrite, h3d]
  · intro a i h1 h2
    simp [Graph.synapse_setSynapse, Graph.ne_slot h1, Graph.ne_slot h2, g3s]
  · intro a i h1 h2
    simp [Graph.dendrite_setDendrite, Graph.ne_slot h1, Graph.ne_slot h2, g3d]

/-- Witness of C5 on `threeNeurons`: `connect (0, 0, 1, 0)` frees both slots of neuron 2
and links neuron 0 to neuron 1. -/
theorem connect_replaces_occupants_witness :
    (Reciprocal threeNeurons ∧ threeNeurons.synapse 0 0 = some ⟨some 2, 0⟩ ∧
      threeNeurons.dendrite 1 0 = some ⟨some 2, 0⟩) ∧
    ∃ g', NeuralNetwork.connect 5 threeNeurons (some 0) 0 (some 1) 0 = Outcome.done g' ∧
      g'.dendrite 2 0 = some Connector.new ∧ g'.synapse 2 0 = some Connector.new ∧
      g'.synapse 0 0 = some ⟨some 1, 0⟩ ∧ g'.dendrite 1 0 = some ⟨some 0, 0⟩ ∧
      (∀ a i, (a, i) ≠ (0, 0) → (a, i) ≠ (2, 0) → g'.synapse a i = threeNeurons.synapse a i) ∧
      (∀ a i, (a, i) ≠ (1, 0) → (a, i) ≠ (2, 0) →
        g'.dendrite a i = threeNeurons.dendrite a i) :=
  ⟨⟨(reciprocal_iff_bounded _).mpr (by decide), by decide, by decide⟩,
    connect_replaces_occupants threeNeurons 0 0 1 0 2 0 2 0 5 (by decide)
      ((reciprocal_iff_bounded _).mpr (by decide)) (by decide) (by decide) (by decide)
      (by decide)⟩

/-! ## Connects that change nothing -/

/-- C6: when outbound slot `s` of `A` already references neuron `B`, at whatever inbound
index `k`, `NeuralNetwork::connect (A, s, B, d)` returns the graph as it was, for every
inbound index `d`, also one different from `k`. -/
theorem connect_same_peer (g : Graph) (A s B k d fuel : Nat) (hfuel : 1 ≤ fuel)
    (h : g.synapse A s = some ⟨some B, k⟩) :
    NeuralNetwork.connect fuel g (some A) s (some B) d = Outcome.done g := by
  obtain ⟨f, rfl⟩ : ∃ f, fuel = f + 1 := ⟨fuel - 1, by omega⟩
  exact connect_synapse_same f d h rfl

/-- Witness of C6 on `twoNeuronsLinked`: outbound slot 0 of neuron 0 references `(1, 0)`,
and `connect (0, 0, 1, 5)` changes nothing. -/
theorem connect_same_peer_witness :
    twoNeuronsLinked.synapse 0 0 = some ⟨some 1, 0⟩ ∧
    NeuralNetwork.connect 1 twoNeuronsLinked (some 0) 0 (some 1) 5 =
      Outcome.done twoNeuronsLinked :=
  ⟨by decide, connect_same_peer twoNeuronsLinked 0 0 1 0 5 1 (by decide) (by decide)⟩

/-- C7: for an existing neuron `A` and an outbound index `s` in range,
`NeuralNetwork::connect (A, s, 0, d)` with a null peer returns the graph as it was,
whatever slot `s` of `A` held. -/
theorem connect_null_peer (g : Graph) (A s d fuel : Nat) (hfuel : 1 ≤ fuel)
    (hs : s < g.n_synapses A) :
    NeuralNetwork.connect fuel g (some A) s none d = Outcome.done g := by
  obtain ⟨f, rfl⟩ : ∃ f, fuel = f + 1 := ⟨fuel - 1, by omega⟩
  obtain ⟨c, hc⟩ := Graph.synapse_isSome_of_lt hs
  obtain ⟨me, hg, _⟩ := Graph.synapse_eq_some hc
  exact connect_synapse_null f s d hg

/-- Witness of C7 on `twoNeuronsLinked`: `connect (0, 0, 0, 0)` with a null peer leaves
the connected outbound slot 0 of neuron 0 as it is. -/
theorem connect_null_peer_witness :
    0 < twoNeuronsLinked.n_synapses 0 ∧
    NeuralNetwork.connect 1 twoNeuronsLinked (some 0) 0 none 0 =
      Outcome.done twoNeuronsLinked :=
  ⟨by decide, connect_null_peer twoNeuronsLinked 0 0 0 1 (by decide) (by decide)⟩

/-! ## Slot indices out of range -/

/-- C8: on neuron 1 of `twoNeurons`, which has one slot of each kind,
`disconnect_synapse (1)` and `disconnect_dendrite (1)` pass the guard
`nth > size ()` and index the vector at its size; only from index 2 on do they
return without reading a slot. -/
theorem disconnect_at_size_reads_slot :
    disconnect_synapse 1 twoNeurons 1 1 = Outcome.undefined ∧
    disconnect_dendrite 1 twoNeurons 1 1 = Outcome.undefined ∧
    disconnect_synapse 1 twoNeurons 1 2 = Outcome.done twoNeurons ∧
    disconnect_dendrite 1 twoNeurons 1 2 = Outcome.done twoNeurons := by
  decide

/-- C9: on `twoNeurons`, where neuron 1 has one outbound slot and neuron 0 one inbound
slot, `NeuralNetwork::connect (1, 1, 0, 0)` and `connect (1, 7, 0, 0)` index the
outbound vector of neuron 1 out of range, and `connect (1, 0, 0, 1)` indexes the
inbound vector of neuron 0 out of range after outbound slot 0 of neuron 1 is
overwritten. -/
theorem connect_out_of_range_reads_slot :
    NeuralNetwork.connect 5 twoNeurons (some 1) 1 (some 0) 0 = Outcome.undefined ∧
    NeuralNetwork.connect 5 twoNeurons (some 1) 7 (some 0) 0 = Outcome.undefined ∧
    NeuralNetwork.connect 5 twoNeurons (some 1) 0 (some 0) 1 = Outcome.undefined := by
  decide

/-! ## Appending a slot -/

/-- C10: `add_dendrite ()` increases `n_dendrites ()` by one, the new slot is at the
index equal to the old size and is unconnected, every slot that existed keeps its index
and content, and the outbound collection is unchanged; `add_synapse ()` likewise
with the two collections exchanged. -/
theorem add_slot_appends (me : Neuron) :
    (me.add_dendrite.n_dendrites = me.n_dendrites + 1 ∧
      me.add_dendrite.dendrites[me.n_dendrites]? = some Connector.new ∧
      Connector.new.is_connected = false ∧
      (∀ i, i < me.n_dendrites → me.add_dendrite.dendrites[i]? = me.dendrites[i]?) ∧
      me.add_dendrite.synapses = me.synapses) ∧
    (me.add_synapse.n_synapses = me.n_synapses + 1 ∧
      me.add_synapse.synapses[me.n_synapses]? = some Connector.new ∧
      Connector.new.is_connected = false ∧
      (∀ i, i < me.n_synapses → me.add_synapse.synapses[i]? = me.synapses[i]?) ∧
      me.add_synapse.dendrites = me.dendrites) := by
  refine ⟨⟨?_, ?_, rfl, ?_, rfl⟩, ⟨?_, ?_, rfl, ?_, rfl⟩⟩
  · simp [Neuron.add_dendrite, Neuron.add_dendrite_with, Neuron.n_dendrites]
  · simp [Neuron.add_dendrite, Neuron.add_dendrite_with, Neuron.n_dendrites]
  · intro i hi
    simp only [Neuron.n_dendrites] at hi
    simp [Neuron.add_dendrite, Neuron.add_dendrite_with, List.getElem?_append_left hi]
  · simp [Neuron.add_synapse, Neuron.add_synapse_with, Neuron.n_synapses]
  · simp [Neuron.add_synapse, Neuron.add_synapse_with, Neuron.n_synapses]
  · intro i hi
    simp only [Neuron.n_synapses] at hi
    simp [Neuron.add_synapse, Neuron.add_synapse_with, List.getElem?_append_left hi]

/-! ## Reciprocity of reachable states -/

/-- C1: the state `twoNeuronsSkewed`, reached from the unconnected population
`twoNeurons` by `connect (0, 0, 1, 0)` and then `connect (0, 1, 1, 0)`, breaks
reciprocity: outbound slot 1 of neuron 0 references `(1, 0)` while inbound slot 0 of
neuron 1 references `(0, 0)`. -/
theorem reachable_not_reciprocal :
    Reachable twoNeuronsSkewed ∧ ¬ Reciprocal twoNeuronsSkewed ∧
    twoNeuronsSkewed.synapse 0 1 = some ⟨some 1, 0⟩ ∧
    twoNeuronsSkewed.dendrite 1 0 = some ⟨some 0, 0⟩ := by
  refine ⟨?_, ?_, rfl, rfl⟩
  · have h0 : Reachable twoNeurons := Reachable.unwired _ (by decide)
    have h1 : Reachable twoNeuronsLinked :=
      Reachable.connect 3 twoNeurons _ 0 0 1 0 h0 (by decide) (by decide) (by decide)
    exact Reachable.connect 2 twoNeuronsLinked _ 0 1 1 0 h1 (by decide) (by decide) (by decide)
  · intro h
    exact absurd ((reciprocal_iff_bounded _).mp h) (by decide)

/-! ## The disconnect cascade returns -/

theorem List.sum_map_set_add {α : Type} (f : α → Nat) (x : α) :
    ∀ (l : List α) (i : Nat) (y : α), l[i]? = some y →
      ((l.set i x).map f).sum + f y = (l.map f).sum + f x := by
  intro l
  induction l with
  | nil => intro i y h; simp at h
  | cons z t ih =>
    intro i y h
    cases i with
    | zero =>
      simp at h
      subst h
      simp [List.set]
      omega
    | succ j =>
      simp only [List.getElem?_cons_succ] at h
      have := ih j y h
      simp only [List.set, List.map_cons, List.sum_cons]
      omega

theorem Graph.connCount_setSynapse {g : Graph} {a i : Nat} {c0 : Connector} (c : Connector)
    (h : g.synapse a i = some c0) :
    (g.setSynapse a i c).connCount + c0.weight = g.connCount + c.weight := by
  obtain ⟨me, hg, hs⟩ := Graph.synapse_eq_some h
  have h1 := List.sum_map_set_add Neuron.connCount
    { me with synapses := me.synapses.set i c } g a me hg
  have h2 := List.sum_map_set_add Connector.weight c me.synapses i c0 hs
  simp only [Graph.connCount, Graph.setSynapse, hg, Neuron.connCount] at h1 ⊢
  omega

theorem Graph.connCount_setDendrite {g : Graph} {a i : Nat} {c0 : Connector} (c : Connector)
    (h : g.dendrite a i = some c0) :
    (g.setDendrite a i c).connCount + c0.weight = g.connCount + c.weight := by
  obtain ⟨me, hg, hs⟩ := Graph.dendrite_eq_some h
  have h1 := List.sum_map_set_add Neuron.connCount
    { me with dendrites := me.dendrites.set i c } g a me hg
  have h2 := List.sum_map_set_add Connector.weight c me.dendrites i c0 hs
  simp only [Graph.connCount, Graph.setDendrite, hg, Neuron.connCount] at h1 ⊢
  omega

theorem Connector.weight_of_neuron {c : Connector} {p : Nat} (h : c.neuron = some p) :
    c.weight = 1 := by
  simp [Connector.weight, Connector.is_connected, h]

theorem Connector.weight_new : Connector.new.weight = 0 := rfl

theorem Connector.weight_le_one (c : Connector) : c.weight ≤ 1 := by
  unfold Connector.weight
  split <;> omega

theorem cleared_refl (g : Graph) : Cleared g g :=
  ⟨fun _ _ => Or.inl rfl, fun _ _ => Or.inl rfl⟩

theorem cleared_trans {g g1 g2 : Graph} (h1 : Cleared g g1) (h2 : Cleared g1 g2) :
    Cleared g g2 := by
  refine ⟨fun a i => ?_, fun a i => ?_⟩
  · rcases h2.1 a i with e2 | ⟨e2, s2⟩
    · rcases h1.1 a i with e1 | ⟨e1, s1⟩
      · exact Or.inl (e2.trans e1)
      · exact Or.inr ⟨e2.trans e1, s1⟩
    · rcases h1.1 a i with e1 | ⟨_, s1⟩
      · exact Or.inr ⟨e2, e1 ▸ s2⟩
      · exact Or.inr ⟨e2, s1⟩
  · rcases h2.2 a i with e2 | ⟨e2, s2⟩
    · rcases h1.2 a i with e1 | ⟨e1, s1⟩
      · exact Or.inl (e2.trans e1)
      · exact Or.inr ⟨e2.trans e1, s1⟩
    · rcases h1.2 a i with e1 | ⟨_, s1⟩
      · exact Or.inr ⟨e2, e1 ▸ s2⟩
      · exact Or.inr ⟨e2, s1⟩

theorem cleared_setSynapse (g : Graph) (a i : Nat) :
    Cleared g (g.setSynapse a i Connector.new) := by
  refine ⟨fun a' i' => ?_, fun a' i' => Or.inl (by simp)⟩
  rw [Graph.synapse_setSynapse]
  by_cases h : a' = a ∧ i' = i
  · obtain ⟨rfl, rfl⟩ := h
    cases hc : g.synapse a' i' with
    | none => exact Or.inl (by simp)
    | some c => exact Or.inr (by simp)
  · exact Or.inl (by simp [h])

theorem cleared_setDendrite (g : Graph) (a i : Nat) :
    Cleared g (g.setDendrite a i Connector.new) := by
  refine ⟨fun a' i' => Or.inl (by simp), fun a' i' => ?_⟩
  rw [Graph.dendrite_setDendrite]
  by_cases h : a' = a ∧ i' = i
  · obtain ⟨rfl, rfl⟩ := h
    cases hc : g.dendrite a' i' with
    | none => exact Or.inl (by simp)
    | some c => exact Or.inr (by simp)
  · exact Or.inl (by simp [h])

theorem cleared_synapse_isSome {g g' : Graph} (h : Cleared g g') (a i : Nat) :
    (g'.synapse a i).isSome = (g.synapse a i).isSome := by
  rcases h.1 a i with e | ⟨e, s⟩
  · rw [e]
  · rw [e, s]
    rfl

theorem cleared_dendrite_isSome {g g' : Graph} (h : Cleared g g') (a i : Nat) :
    (g'.dendrite a i).isSome = (g.dendrite a i).isSome := by
  rcases h.2 a i with e | ⟨e, s⟩
  · rw [e]
  · rw [e, s]
    rfl

theorem cleared_wellFormed {g g' : Graph} (hwf : WellFormed g) (h : Cleared g g') :
    WellFormed g' := by
  refine ⟨fun a s c b hc hb => ?_, fun b d c a hc ha => ?_⟩
  · rcases h.1 a s with e | ⟨e, _⟩
    · rw [cleared_dendrite_isSome h]
      exact hwf.1 a s c b (e ▸ hc) hb
    · rw [hc] at e
      cases e
      cases hb
  · rcases h.2 b d with e | ⟨e, _⟩
    · rw [cleared_synapse_isSome h]
      exact hwf.2 b d c a (e ▸ hc) ha
    · rw [hc] at e
      cases e
      cases ha

theorem Graph.lt_n_synapses_iff {g : Graph} {a i : Nat} :
    i < g.n_synapses a ↔ (g.synapse a i).isSome = true := by
  constructor
  · intro h
    obtain ⟨c, hc⟩ := Graph.synapse_isSome_of_lt h
    simp [hc]
  · intro h
    obtain ⟨c, hc⟩ := Option.isSome_iff_exists.mp h
    exact (Graph.synapse_lt hc).2

theorem Graph.lt_n_dendrites_iff {g : Graph} {a i : Nat} :
    i < g.n_dendrites a ↔ (g.dendrite a i).isSome = true := by
  constructor
  · intro h
    obtain ⟨c, hc⟩ := Graph.dendrite_isSome_of_lt h
    simp [hc]
  · intro h
    obtain ⟨c, hc⟩ := Option.isSome_iff_exists.mp h
    exact (Graph.dendrite_lt hc).2

/-- In a well-formed graph `disconnect_synapse` and `disconnect_dendrite` on an existing
slot return once the fuel exceeds the number of connected slots; the result is the
graph with some slots cleared. -/
theorem disconnect_returns : ∀ (fuel : Nat) (g : Graph), WellFormed g → g.connCount < fuel →
    (∀ a i, i < g.n_synapses a → ∃ g', disconnect_synapse fuel g a i = Outcome.done g' ∧
      Cleared g g' ∧ g'.connCount ≤ g.connCount) ∧
    (∀ a i, i < g.n_dendrites a → ∃ g', disconnect_dendrite fuel g a i = Outcome.done g' ∧
      Cleared g g' ∧ g'.connCount ≤ g.connCount) := by
  intro fuel
  induction fuel with
  | zero => intro g _ h; omega
  | succ f ih =>
    intro g hwf hfuel
    refine ⟨fun a i hi => ?_, fun a i hi => ?_⟩
    · obtain ⟨c, hc⟩ := Graph.synapse_isSome_of_lt hi
      cases hn : c.neuron with
      | none => exact ⟨g, disconnect_synapse_free f hc hn, cleared_refl g, Nat.le_refl _⟩
      | some p =>
        have hcl := cleared_setSynapse g a i
        have hcnt := Graph.connCount_setSynapse Connector.new hc
        rw [Connector.weight_of_neuron hn, Connector.weight_new] at hcnt
        have hp : c.nth < (g.setSynapse a i Connector.new).n_dendrites p := by
          rw [Graph.lt_n_dendrites_iff, cleared_dendrite_isSome hcl]
          exact hwf.1 a i c p hc hn
        obtain ⟨g', hg', hcl', hcnt'⟩ :=
          (ih _ (cleared_wellFormed hwf hcl) (by omega)).2 p c.nth hp
        exact ⟨g', by rw [disconnect_synapse_connected f hc hn, hg'], cleared_trans hcl hcl', by omega⟩
    · obtain ⟨c, hc⟩ := Graph.dendrite_isSome_of_lt hi
      cases hn : c.neuron with
      | none => exact ⟨g, disconnect_dendrite_free f hc hn, cleared_refl g, Nat.le_refl _⟩
      | some p =>
        have hcl := cleared_setDendrite g a i
        have hcnt := Graph.connCount_setDendrite Connector.new hc
        rw [Connector.weight_of_neuron hn, Connector.weight_new] at hcnt
        have hp : c.nth < (g.setDendrite a i Connector.new).n_synapses p := by
          rw [Graph.lt_n_synapses_iff, cleared_synapse_isSome hcl]
          exact hwf.2 a i c p hc hn
        obtain ⟨g', hg', hcl', hcnt'⟩ :=
          (ih _ (cleared_wellFormed hwf hcl) (by omega)).1 p c.nth hp
        exact ⟨g', by rw [disconnect_dendrite_connected f hc hn, hg'], cleared_trans hcl hcl', by omega⟩

/-! ## Connect returns, and connecting twice is connecting once -/

theorem wellFormed_setSynapse {g : Graph} (hwf : WellFormed g) (a i b k : Nat)
    (hb : (g.dendrite b k).isSome = true) : WellFormed (g.setSynapse a i ⟨some b, k⟩) := by
  refine ⟨fun a' s c p hc hp => ?_, fun b' d' c p hc hp => ?_⟩
  · rw [Graph.dendrite_setSynapse]
    rw [Graph.synapse_setSynapse] at hc
    by_cases h : a' = a ∧ s = i
    · rw [if_pos h] at hc
      cases ho : g.synapse a i with
      | none => simp [ho] at hc
      | some c0 =>
        simp [ho] at hc
        subst hc
        cases hp
        exact hb
    · rw [if_neg h] at hc
      exact hwf.1 a' s c p hc hp
  · rw [Graph.dendrite_setSynapse] at hc
    have := hwf.2 b' d' c p hc hp
    rw [Graph.synapse_setSynapse]
    by_cases h : p = a ∧ c.nth = i
    · rw [if_pos h]
      rw [h.1, h.2] at this
      simpa using this
    · rw [if_neg h]
      exact this

/-- In a well-formed graph `connect_synapse` on existing slots returns once the fuel
exceeds the number of connected slots by four, and outbound slot `s` of `A` then
references neuron `B`. -/
theorem connect_returns (g : Graph) (A s B d fuel : Nat) (hwf : WellFormed g)
    (hs : s < g.n_synapses A) (hd : d < g.n_dendrites B) (hfuel : g.connCount + 4 ≤ fuel) :
    ∃ g', connect_synapse fuel g A s (some B) d = Outcome.done g' ∧
      ∃ c, g'.synapse A s = some c ∧ c.neuron = some B := by
  obtain ⟨F, rfl⟩ : ∃ F, fuel = F + 4 := ⟨fuel - 4, by omega⟩
  obtain ⟨c, hc⟩ := Graph.synapse_isSome_of_lt hs
  by_cases hcB : c.neuron = some B
  · exact ⟨g, connect_synapse_same (F + 3) d hc hcB, c, hc, hcB⟩
  obtain ⟨g1, e1, cl1, cnt1⟩ := (disconnect_returns (F + 3) g hwf (by omega)).1 A s hs
  obtain ⟨c1, hc1⟩ : ∃ c1, g1.synapse A s = some c1 :=
    Option.isSome_iff_exists.mp (by rw [cleared_synapse_isSome cl1, hc]; rfl)
  have hd1 : (g1.dendrite B d).isSome = true := by
    rw [cleared_dendrite_isSome cl1]
    exact Graph.lt_n_dendrites_iff.mp hd
  have step1 := connect_synapse_step (F + 3) d hc hcB e1 hc1
  have cnt2 := Graph.connCount_setSynapse (⟨some B, d⟩ : Connector) hc1
  rw [Connector.weight_of_neuron (rfl : (⟨some B, d⟩ : Connector).neuron = some B)] at cnt2
  have hwf2 := wellFormed_setSynapse (cleared_wellFormed hwf cl1) A s B d hd1
  have h2s : (g1.setSynapse A s ⟨some B, d⟩).synapse A s = some ⟨some B, d⟩ := by
    simp [Graph.synapse_setSynapse, hc1]
  have h2d : ((g1.setSynapse A s ⟨some B, d⟩).dendrite B d).isSome = true := by
    simpa using hd1
  generalize g1.setSynapse A s ⟨some B, d⟩ = g2 at step1 cnt2 hwf2 h2s h2d
  obtain ⟨cd, hcd⟩ := Option.isSome_iff_exists.mp h2d
  by_cases hcdA : cd.neuron = some A
  · exact ⟨g2, by rw [step1, connect_dendrite_same (F + 2) s hcd hcdA], _, h2s, rfl⟩
  have hc1w := Connector.weight_le_one c1
  obtain ⟨g3, e3, cl3, _⟩ :=
    (disconnect_returns (F + 2) g2 hwf2 (by omega)).2 B d (Graph.lt_n_dendrites_iff.mpr h2d)
  obtain ⟨c3, hc3⟩ : ∃ c3, g3.dendrite B d = some c3 :=
    Option.isSome_iff_exists.mp (by rw [cleared_dendrite_isSome cl3, hcd]; rfl)
  have step2 := connect_dendrite_step (F + 2) s hcd hcdA e3 hc3
  have h4d : (g3.setDendrite B d ⟨some A, s⟩).dendrite B d = some ⟨some A, s⟩ := by
    simp [Graph.dendrite_setDendrite, hc3]
  have h4s : (g3.setDendrite B d ⟨some A, s⟩).synapse A s = g3.synapse A s := by simp
  generalize g3.setDendrite B d ⟨some A, s⟩ = g4 at step2 h4d h4s
  rcases cl3.1 A s with e | ⟨e, _⟩
  · rw [e, h2s] at h4s
    exact ⟨g4, by rw [step1, step2, connect_synapse_same (F + 1) d h4s rfl], _, h4s, rfl⟩
  · rw [e] at h4s
    have hne : Connector.new.neuron ≠ some B := by simp [Connector.new]
    have step3 := connect_synapse_step (F + 1) d h4s hne
      (disconnect_synapse_free F h4s rfl) h4s
    have h5d : (g4.setSynapse A s ⟨some B, d⟩).dendrite B d = some ⟨some A, s⟩ := by
      simpa using h4d
    refine ⟨g4.setSynapse A s ⟨some B, d⟩, ?_, ⟨some B, d⟩, ?_, rfl⟩
    · rw [step1, step2, step3, connect_dendrite_same F s h5d rfl]
    · simp [Graph.synapse_setSynapse, h4s]

/-- Whenever `connect_synapse` returns, outbound slot `s` of `A` references neuron `B`;
whenever `connect_dendrite` returns, it has changed nothing or outbound slot `s` of `A`
references `B`. -/
theorem connect_done_peer : ∀ (fuel : Nat),
    (∀ (g g' : Graph) (A s B d : Nat), connect_synapse fuel g A s (some B) d = Outcome.done g' →
      ∃ c, g'.synapse A s = some c ∧ c.neuron = some B) ∧
    (∀ (g g' : Graph) (A s B d : Nat), connect_dendrite fuel g B d (some A) s = Outcome.done g' →
      g' = g ∨ ∃ c, g'.synapse A s = some c ∧ c.neuron = some B) := by
  intro fuel
  induction fuel with
  | zero =>
    exact ⟨fun g g' A s B d h => by simp [connect_synapse] at h,
      fun g g' A s B d h => by simp [connect_dendrite] at h⟩
  | succ f ih =>
    refine ⟨fun g g' A s B d h => ?_, fun g g' A s B d h => ?_⟩
    · cases hc : g.synapse A s with
      | none =>
        exfalso
        unfold Graph.synapse at hc
        simp only [connect_synapse] at h
        cases hg : g[A]? with
        | none => simp [hg] at h
        | some me =>
          simp only [hg] at hc
          simp only [hg, hc] at h
          cases h
      | some c =>
        by_cases hcB : c.neuron = some B
        · rw [connect_synapse_same f d hc hcB] at h
          cases h
          exact ⟨c, hc, hcB⟩
        · obtain ⟨me, hg, hs⟩ := Graph.synapse_eq_some hc
          cases e1 : disconnect_synapse f g A s with
          | undefined => simp [connect_synapse, hg, hs, Connector.get_neuron, hcB, e1] at h
          | outOfFuel => simp [connect_synapse, hg, hs, Connector.get_neuron, hcB, e1] at h
          | done g1 =>
            cases hc1 : g1.synapse A s with
            | none => simp [connect_synapse, hg, hs, Connector.get_neuron, hcB, e1, hc1] at h
            | some c1 =>
              rw [connect_synapse_step f d hc hcB e1 hc1] at h
              rcases ih.2 _ g' A s B d h with e | e
              · subst e
                exact ⟨⟨some B, d⟩, by simp [Graph.synapse_setSynapse, hc1], rfl⟩
              · exact e
    · cases hc : g.dendrite B d with
      | none =>
        exfalso
        unfold Graph.dendrite at hc
        simp only [connect_dendrite] at h
        cases hg : g[B]? with
        | none => simp [hg] at h
        | some me =>
          simp only [hg] at hc
          simp only [hg, hc] at h
          cases h
      | some c =>
        by_cases hcA : c.neuron = some A
        · rw [connect_dendrite_same f s hc hcA] at h
          cases h
          exact Or.inl rfl
        · obtain ⟨me, hg, hs⟩ := Graph.dendrite_eq_some hc
          cases e1 : disconnect_dendrite f g B d with
          | undefined => simp [connect_dendrite, hg, hs, Connector.get_neuron, hcA, e1] at h
          | outOfFuel => simp [connect_dendrite, hg, hs, Connector.get_neuron, hcA, e1] at h
          | done g1 =>
            cases hc1 : g1.dendrite B d with
            | none => simp [connect_dendrite, hg, hs, Connector.get_neuron, hcA, e1, hc1] at h
            | some c1 =>
              rw [connect_dendrite_step f s hc hcA e1 hc1] at h
              exact Or.inr (ih.1 _ g' A s B d h)

/-- C4: in a well-formed graph, for existing neurons `A` and `B` and slot indices in
range, `NeuralNetwork::connect (A, s, B, d)` returns once the fuel exceeds the number of
connected slots by four, and calling it again on the result returns that result
unchanged; and in any graph state whatever, well-formed or not, whenever the first
call returns a graph, the second call returns that same graph. -/
theorem connect_idempotent (g : Graph) (A s B d fuel : Nat) (hwf : WellFormed g)
    (hs : s < g.n_synapses A) (hd : d < g.n_dendrites B) (hfuel : g.connCount + 4 ≤ fuel) :
    (∃ g', NeuralNetwork.connect fuel g (some A) s (some B) d = Outcome.done g' ∧
      NeuralNetwork.connect fuel g' (some A) s (some B) d = Outcome.done g') ∧
    (∀ (h h' : Graph) (f : Nat),
      NeuralNetwork.connect f h (some A) s (some B) d = Outcome.done h' →
      NeuralNetwork.connect f h' (some A) s (some B) d = Outcome.done h') := by
  constructor
  · obtain ⟨g', h, c, hc, hcB⟩ := connect_returns g A s B d fuel hwf hs hd hfuel
    obtain ⟨f, rfl⟩ : ∃ f, fuel = f + 1 := ⟨fuel - 1, by omega⟩
    exact ⟨g', h, connect_synapse_same f d hc hcB⟩
  · intro h h' f hf
    obtain ⟨c, hc, hcB⟩ := (connect_done_peer f).1 h h' A s B d hf
    cases f with
    | zero => simp [NeuralNetwork.connect, connect_synapse] at hf
    | succ f => exact connect_synapse_same f d hc hcB

/-- Witness of C4 on `twoNeuronsLinked`: `connect (0, 1, 1, 0)` with fuel 6 returns, and
returns the same graph when called again. -/
theorem connect_idempotent_witness :
    (WellFormed twoNeuronsLinked ∧ 1 < twoNeuronsLinked.n_synapses 0 ∧
      0 < twoNeuronsLinked.n_dendrites 1 ∧ twoNeuronsLinked.connCount + 4 ≤ 6) ∧
    ∃ g', NeuralNetwork.connect 6 twoNeuronsLinked (some 0) 1 (some 1) 0 = Outcome.done g' ∧
      NeuralNetwork.connect 6 g' (some 0) 1 (some 1) 0 = Outcome.done g' :=
  ⟨⟨(wellFormed_iff_bounded _).mpr (by decide), by decide, by decide, by decide⟩,
    (connect_idempotent twoNeuronsLinked 0 1 1 0 6 ((wellFormed_iff_bounded _).mpr (by decide))
      (by decide) (by decide) (by decide)).1⟩

/-! ## ConnectorIterator: first and next pass through the whole container -/

theorem ConnectorIterator.yields_from {α : Type} : ∀ (fuel : Nat) (c : List α) (i : Nat),
    i < c.length → c.length - i ≤ fuel →
    ConnectorIterator.yields fuel ⟨c, i⟩ (some i) = some (List.range' i (c.length - i)) := by
  intro fuel
  induction fuel with
  | zero => intro c i h1 h2; omega
  | succ f ih =>
    intro c i h1 h2
    by_cases hlast : i + 1 = c.length
    · have hone : c.length - i = 1 := by omega
      simp [ConnectorIterator.yields, ConnectorIterator.next, h1, hlast, hone,
        ConnectorIterator.null]
    · have hrec := ih c (i + 1) (by omega) (by omega)
      have hlen : c.length - i = (c.length - (i + 1)) + 1 := by omega
      simp [ConnectorIterator.yields, ConnectorIterator.next, h1, hlast, hrec]
      rw [hlen, List.range'_succ]

/-- C11: on a container of `n` elements, whatever position the iterator was left at,
`first ()` followed by `next ()` up to the null sentinel yields the pointers to the
elements at positions `0, 1, ..., n - 1` in that order and then the sentinel (with any
fuel from `n` on); these are `numof () = n` pointers, the pointer at position `i`
addresses element `i`, and `first ()` returns the sentinel exactly when `n = 0`. -/
theorem iterator_yields_all {α : Type} (c : List α) (itr0 k : Nat) :
    ConnectorIterator.traverse (c.length + k) ⟨c, itr0⟩ = some (List.range c.length) ∧
    (List.range c.length).length = ConnectorIterator.numof (⟨c, itr0⟩ : ConnectorIterator α) ∧
    (List.range c.length).map (ConnectorIterator.deref ⟨c, itr0⟩) = c.map some ∧
    (((⟨c, itr0⟩ : ConnectorIterator α).first.2 = ConnectorIterator.null) ↔ c.length = 0) := by
  refine ⟨?_, by simp [ConnectorIterator.numof], ?_, ?_⟩
  · unfold ConnectorIterator.traverse ConnectorIterator.first
    by_cases h0 : 0 = c.length
    · have hc : c = [] := List.length_eq_zero.mp h0.symm
      subst hc
      cases k <;> simp [ConnectorIterator.yields, ConnectorIterator.null]
    · have h := ConnectorIterator.yields_from (c.length + k) c 0 (by omega) (by omega)
      simp only [h0, if_false]
      rw [h, List.range_eq_range']
      simp
  · apply List.ext_getElem?
    intro i
    by_cases hi : i < c.length
    · simp [ConnectorIterator.deref, hi, List.getElem?_range]
    · simp [ConnectorIterator.deref, hi, List.getElem?_eq_none (Nat.le_of_not_lt hi)]
      omega
  · unfold ConnectorIterator.first
    by_cases h0 : 0 = c.length
    · have hc : c = [] := List.length_eq_zero.mp h0.symm
      subst hc
      simp [ConnectorIterator.null]
    · have h1 : c.length ≠ 0 := fun h => h0 h.symm
      simp [h0, h1, ConnectorIterator.null]

/-! ## Neuron identities -/

theorem assign_ids_eq : ∀ (es : List Lifecycle) (c : Nat), c < 2 ^ 32 →
    assign_ids c es = (List.range (constructions es)).map (fun k => (c + k) % 2 ^ 32) := by
  intro es
  induction es with
  | nil => intro c _; simp [assign_ids, constructions]
  | cons e es ih =>
    intro c hc
    cases e with
    | construct =>
      have hcount : constructions (Lifecycle.construct :: es) = constructions es + 1 := by
        simp [constructions]
      rw [hcount, List.range_succ_eq_map]
      simp only [assign_ids, NeuronBase.construct, List.map_cons, List.map_map]
      rw [ih _ (Nat.mod_lt _ (by norm_num))]
      congr 1
      · exact (Nat.mod_eq_of_lt (by simpa using hc)).symm
      · apply List.map_congr_left
        intro k _
        simp only [Function.comp, Nat.succ_eq_add_one]
        rw [Nat.mod_add_mod]
        congr 1
        omega
    | destroy =>
      have hcount : constructions (Lifecycle.destroy :: es) = constructions es := by
        simp [constructions]
      rw [hcount]
      simp only [assign_ids]
      exact ih c hc

/-- C12, as the code has it: for every sequence of constructions and destructions
with at most `2 ^ 32` constructions, starting from `neuron_counter = 0`, the
identities given are `0, 1, 2, ...` in creation order, so a neuron constructed later
has an identity strictly greater than every neuron constructed earlier and no two
neurons share an identity. -/
theorem ids_increasing_before_wrap (es : List Lifecycle) (h : constructions es ≤ 2 ^ 32) :
    assign_ids 0 es = List.range (constructions es) ∧
    (assign_ids 0 es).Pairwise (fun a b => a < b) ∧ (assign_ids 0 es).Nodup := by
  have hids : assign_ids 0 es = List.range (constructions es) := by
    rw [assign_ids_eq es 0 (by norm_num)]
    conv_rhs => rw [← List.map_id (List.range (constructions es))]
    apply List.map_congr_left
    intro k hk
    have hk' : k < constructions es := List.mem_range.mp hk
    simp only [Nat.zero_add, id]
    exact Nat.mod_eq_of_lt (by omega)
  refine ⟨hids, ?_, ?_⟩
  · rw [hids]
    exact List.pairwise_lt_range _
  · rw [hids]
    exact List.nodup_range _

/-- Witness of C12 as amended: three constructions with a destruction in between
get the identities 0, 1, 2. -/
theorem ids_increasing_before_wrap_witness :
    constructions [Lifecycle.construct, Lifecycle.construct, Lifecycle.destroy,
      Lifecycle.construct] ≤ 2 ^ 32 ∧
    assign_ids 0 [Lifecycle.construct, Lifecycle.construct, Lifecycle.destroy,
      Lifecycle.construct] = List.range 3 :=
  ⟨by decide, (ids_increasing_before_wrap [Lifecycle.construct, Lifecycle.construct,
    Lifecycle.destroy, Lifecycle.construct] (by decide)).1⟩

/-- C12 fails as stated: after `2 ^ 32` constructions the counter is 0 again, and of
`2 ^ 32 + 1` neurons constructed in a row the last gets the identity 0 of the first;
the identities are neither increasing nor distinct. -/
theorem id_reused_after_wrap :
    (assign_ids 0 (List.replicate (2 ^ 32 + 1) Lifecycle.construct))[0]? = some 0 ∧
    (assign_ids 0 (List.replicate (2 ^ 32 + 1) Lifecycle.construct))[2 ^ 32]? = some 0 ∧
    ¬ (assign_ids 0 (List.replicate (2 ^ 32 + 1) Lifecycle.construct)).Pairwise
      (fun a b => a < b) ∧
    ¬ (assign_ids 0 (List.replicate (2 ^ 32 + 1) Lifecycle.construct)).Nodup := by
  have hcount : constructions (List.replicate (2 ^ 32 + 1) Lifecycle.construct) = 2 ^ 32 + 1 := by
    simp only [constructions, List.count_replicate_self]
  have hids := assign_ids_eq (List.replicate (2 ^ 32 + 1) Lifecycle.construct) 0 (by norm_num)
  rw [hcount] at hids
  have h0 : (assign_ids 0 (List.replicate (2 ^ 32 + 1) Lifecycle.construct))[0]? = some 0 := by
    rw [hids, List.getElem?_map, List.getElem?_range (by norm_num)]
    rfl
  have h1 : (assign_ids 0 (List.replicate (2 ^ 32 + 1) Lifecycle.construct))[2 ^ 32]? = some 0 := by
    rw [hids, List.getElem?_map, List.getElem?_range (by norm_num)]
    simp
  refine ⟨h0, h1, ?_, ?_⟩
  · intro hp
    obtain ⟨hlt0, e0⟩ := List.getElem?_eq_some.mp h0
    obtain ⟨hlt1, e1⟩ := List.getElem?_eq_some.mp h1
    have := List.pairwise_iff_getElem.mp hp 0 (2 ^ 32) hlt0 hlt1 (by norm_num)
    rw [e0, e1] at this
    exact absurd this (by decide)
  · intro hp
    obtain ⟨hlt0, e0⟩ := List.getElem?_eq_some.mp h0
    obtain ⟨hlt1, e1⟩ := List.getElem?_eq_some.mp h1
    have := List.pairwise_iff_getElem.mp hp 0 (2 ^ 32) hlt0 hlt1 (by norm_num)
    rw [e0, e1] at this
    exact this rfl

/-! ## The queue flags are the two low bits -/

theorem and_two_pow_ne_zero (x i : Nat) : (x &&& 2 ^ i != 0) = x.testBit i := by
  rw [Nat.and_two_pow]
  cases x.testBit i <;> simp

theorem Neuron.forward_flag_bit (me : Neuron) :
    me.in_update_queue_already = me.flags.testBit 0 := by
  have h := and_two_pow_ne_zero me.flags 0
  simpa [Neuron.in_update_queue_already, NN_FLAG_IN_QUEUE_ALREADY] using h

theorem Neuron.backward_flag_bit (me : Neuron) :
    me.in_bp_update_queue_already = me.flags.testBit 1 := by
  have h := and_two_pow_ne_zero me.flags 1
  simpa [Neuron.in_bp_update_queue_already, NN_FLAG_IN_BPQUE_ALREADY] using h

theorem Neuron.forward_flag_set (me : Neuron) (v : Bool) :
    (me.set_in_update_queue v).in_update_queue_already = v := by
  rw [Neuron.forward_flag_bit]
  cases v
  · have h : Nat.testBit 65534 0 = false := by decide
    simp [Neuron.set_in_update_queue, NN_FLAG_IN_QUEUE_ALREADY, Nat.testBit_and, h]
  · have h : Nat.testBit 1 0 = true := by decide
    simp [Neuron.set_in_update_queue, NN_FLAG_IN_QUEUE_ALREADY, Nat.testBit_or, h]

theorem Neuron.backward_flag_kept (me : Neuron) (v : Bool) :
    (me.set_in_update_queue v).in_bp_update_queue_already = me.in_bp_update_queue_already := by
  rw [Neuron.backward_flag_bit, Neuron.backward_flag_bit]
  cases v
  · have h : Nat.testBit 65534 1 = true := by decide
    simp [Neuron.set_in_update_queue, NN_FLAG_IN_QUEUE_ALREADY, Nat.testBit_and, h]
  · have h : Nat.testBit 1 1 = false := by decide
    simp [Neuron.set_in_update_queue, NN_FLAG_IN_QUEUE_ALREADY, Nat.testBit_or, h]

theorem Neuron.backward_flag_set (me : Neuron) (v : Bool) :
    (me.set_in_bp_update_queue v).in_bp_update_queue_already = v := by
  rw [Neuron.backward_flag_bit]
  cases v
  · have h : Nat.testBit 65533 1 = false := by decide
    simp [Neuron.set_in_bp_update_queue, NN_FLAG_IN_BPQUE_ALREADY, Nat.testBit_and, h]
  · have h : Nat.testBit 2 1 = true := by decide
    simp [Neuron.set_in_bp_update_queue, NN_FLAG_IN_BPQUE_ALREADY, Nat.testBit_or, h]

theorem Neuron.forward_flag_kept (me : Neuron) (v : Bool) :
    (me.set_in_bp_update_queue v).in_update_queue_already = me.in_update_queue_already := by
  rw [Neuron.forward_flag_bit, Neuron.forward_flag_bit]
  cases v
  · have h : Nat.testBit 65533 0 = true := by decide
    simp [Neuron.set_in_bp_update_queue, NN_FLAG_IN_BPQUE_ALREADY, Nat.testBit_and, h]
  · have h : Nat.testBit 2 0 = false := by decide
    simp [Neuron.set_in_bp_update_queue, NN_FLAG_IN_BPQUE_ALREADY, Nat.testBit_or, h]

theorem Neuron.wiring_set_forward (me : Neuron) (v : Bool) :
    (me.set_in_update_queue v).dendrites = me.dendrites ∧
    (me.set_in_update_queue v).synapses = me.synapses := by
  cases v <;> simp [Neuron.set_in_update_queue]

theorem Neuron.wiring_set_backward (me : Neuron) (v : Bool) :
    (me.set_in_bp_update_queue v).dendrites = me.dendrites ∧
    (me.set_in_bp_update_queue v).synapses = me.synapses := by
  cases v <;> simp [Neuron.set_in_bp_update_queue]

/-! ## What the queue operations change -/

theorem List.set_of_getElem? {α : Type} {l : List α} {i : Nat} {a : α} (h : l[i]? = some a) :
    l.set i a = l := by
  apply List.ext_getElem?
  intro j
  rw [List.getElem?_set]
  by_cases hij : i = j
  · subst hij
    simp [h, (List.getElem?_eq_some.mp h).1]
  · simp [hij]

theorem Graph.wiring_set {g : Graph} {n : Nat} {me me' : Neuron} (h : g[n]? = some me)
    (hd : me'.dendrites = me.dendrites) (hs : me'.synapses = me.synapses) :
    Graph.wiring (g.set n me') = g.wiring := by
  unfold Graph.wiring
  rw [List.map_set, hd, hs]
  apply List.set_of_getElem?
  simp [List.getElem?_map, h]

theorem Graph.wiring_length {g g' : Graph} (h : g'.wiring = g.wiring) : g'.length = g.length := by
  have := congrArg List.length h
  simpa [Graph.wiring] using this

theorem Graph.wiring_getElem? {g g' : Graph} (h : g'.wiring = g.wiring) {x : Nat} {me' : Neuron}
    (hx : g'[x]? = some me') :
    ∃ me, g[x]? = some me ∧ me'.dendrites = me.dendrites ∧ me'.synapses = me.synapses := by
  have h1 : g'.wiring[x]? = some (me'.dendrites, me'.synapses) := by
    simp [Graph.wiring, List.getElem?_map, hx]
  rw [h] at h1
  simp only [Graph.wiring, List.getElem?_map] at h1
  cases hg : g[x]? with
  | none => simp [hg] at h1
  | some me =>
    simp [hg] at h1
    exact ⟨me, rfl, h1.1.symm, h1.2.symm⟩

theorem NeuralNetwork.forward_flag_of_set {nn nn' : NeuralNetwork} {n : Nat} {me' : Neuron}
    (h : nn'.heap = nn.heap.set n me') (hn : n < nn.heap.length) (x : Nat) :
    nn'.forward_flag x = if x = n then me'.in_update_queue_already else nn.forward_flag x := by
  unfold NeuralNetwork.forward_flag
  rw [h, List.getElem?_set]
  by_cases hx : n = x
  · subst hx
    simp [hn]
  · simp [hx, Ne.symm hx]

theorem NeuralNetwork.backward_flag_of_set {nn nn' : NeuralNetwork} {n : Nat} {me' : Neuron}
    (h : nn'.heap = nn.heap.set n me') (hn : n < nn.heap.length) (x : Nat) :
    nn'.backward_flag x = if x = n then me'.in_bp_update_queue_already else nn.backward_flag x := by
  unfold NeuralNetwork.backward_flag
  rw [h, List.getElem?_set]
  by_cases hx : n = x
  · subst hx
    simp [hn]
  · simp [hx, Ne.symm hx]

theorem NeuralNetwork.forward_flag_valid {nn : NeuralNetwork} {x : Nat}
    (h : nn.forward_flag x = true) : x < nn.heap.length := by
  unfold NeuralNetwork.forward_flag at h
  cases hg : nn.heap[x]? with
  | none => simp [hg] at h
  | some me => exact (List.getElem?_eq_some.mp hg).1

/-- Everything `add_to_update_queue (n)` does. -/
theorem add_to_update_queue_effect {nn nn' : NeuralNetwork} {n : Nat}
    (h : nn.add_to_update_queue n = some nn') :
    n < nn.heap.length ∧ nn'.current_queue = nn.current_queue ∧
    nn'.bp_current_queue = nn.bp_current_queue ∧ nn'.bp_next_queue = nn.bp_next_queue ∧
    nn'.neurons = nn.neurons ∧ nn'.heap.wiring = nn.heap.wiring ∧
    (∀ x, nn'.backward_flag x = nn.backward_flag x) ∧
    (∀ x, nn'.forward_flag x = (decide (x = n) || nn.forward_flag x)) ∧
    nn'.next_queue = (if nn.forward_flag n then nn.next_queue else nn.next_queue ++ [n]) := by
  unfold NeuralNetwork.add_to_update_queue at h
  cases hg : nn.heap[n]? with
  | none => simp [hg] at h
  | some me =>
    have hn : n < nn.heap.length := (List.getElem?_eq_some.mp hg).1
    have hf : nn.forward_flag n = me.in_update_queue_already := by
      simp [NeuralNetwork.forward_flag, hg]
    simp only [hg] at h
    cases hq : me.in_update_queue_already with
    | true =>
      simp [hq] at h
      subst h
      refine ⟨hn, rfl, rfl, rfl, rfl, rfl, fun _ => rfl, fun x => ?_, by simp [hf, hq]⟩
      by_cases hx : x = n
      · subst hx
        simp [hf, hq]
      · simp [hx]
    | false =>
      simp [hq] at h
      subst h
      refine ⟨hn, rfl, rfl, rfl, rfl, ?_, fun x => ?_, fun x => ?_, by simp [hf, hq]⟩
      · exact Graph.wiring_set hg (Neuron.wiring_set_forward me true).1
          (Neuron.wiring_set_forward me true).2
      · rw [NeuralNetwork.backward_flag_of_set rfl hn]
        by_cases hx : x = n
        · subst hx
          simp [Neuron.backward_flag_kept, NeuralNetwork.backward_flag, hg]
        · simp [hx]
      · rw [NeuralNetwork.forward_flag_of_set rfl hn]
        by_cases hx : x = n
        · subst hx
          simp [Neuron.forward_flag_set]
        · simp [hx]

/-- Everything `add_to_bp_update_queue (n)` does. -/
theorem add_to_bp_update_queue_effect {nn nn' : NeuralNetwork} {n : Nat}
    (h : nn.add_to_bp_update_queue n = some nn') :
    n < nn.heap.length ∧ nn'.current_queue = nn.current_queue ∧
    nn'.bp_current_queue = nn.bp_current_queue ∧ nn'.next_queue = nn.next_queue ∧
    nn'.neurons = nn.neurons ∧ nn'.heap.wiring = nn.heap.wiring ∧
    (∀ x, nn'.forward_flag x = nn.forward_flag x) ∧
    (∀ x, nn'.backward_flag x = (decide (x = n) || nn.backward_flag x)) ∧
    nn'.bp_next_queue =
      (if nn.backward_flag n then nn.bp_next_queue else nn.bp_next_queue ++ [n]) := by
  unfold NeuralNetwork.add_to_bp_update_queue at h
  cases hg : nn.heap[n]? with
  | none => simp [hg] at h
  | some me =>
    have hn : n < nn.heap.length := (List.getElem?_eq_some.mp hg).1
    have hf : nn.backward_flag n = me.in_bp_update_queue_already := by
      simp [NeuralNetwork.backward_flag, hg]
    simp only [hg] at h
    cases hq : me.in_bp_update_queue_already with
    | true =>
      simp [hq] at h
      subst h
      refine ⟨hn, rfl, rfl, rfl, rfl, rfl, fun _ => rfl, fun x => ?_, by simp [hf, hq]⟩
      by_cases hx : x = n
      · subst hx
        simp [hf, hq]
      · simp [hx]
    | false =>
      simp [hq] at h
      subst h
      refine ⟨hn, rfl, rfl, rfl, rfl, ?_, fun x => ?_, fun x => ?_, by simp [hf, hq]⟩
      · exact Graph.wiring_set hg (Neuron.wiring_set_backward me true).1
          (Neuron.wiring_set_backward me true).2
      · rw [NeuralNetwork.forward_flag_of_set rfl hn]
        by_cases hx : x = n
        · subst hx
          simp [Neuron.forward_flag_kept, NeuralNetwork.forward_flag, hg]
        · simp [hx]
      · rw [NeuralNetwork.backward_flag_of_set rfl hn]
        by_cases hx : x = n
        · subst hx
          simp [Neuron.backward_flag_set]
        · simp [hx]

/-! ## A pass is the replay of its visits -/

theorem fire_synapses_enqueues {U : Type} (S : Strategy U) : ∀ (fuel : Nat) (u : U)
    (nn : NeuralNetwork) (p : Propagator) (n : Option Nat) (u' : U) (nn' : NeuralNetwork)
    (p' : Propagator) (l : List Nat),
    NeuralNetwork.fire_synapses S fuel u nn p n = some (u', nn', p', l) →
    nn.enqueue_all l = some nn' := by
  intro fuel
  induction fuel with
  | zero =>
    intro u nn p n u' nn' p' l h
    cases n with
    | none =>
      simp [NeuralNetwork.fire_synapses] at h
      obtain ⟨_, rfl, _, rfl⟩ := h
      rfl
    | some n => simp [NeuralNetwork.fire_synapses] at h
  | succ f ih =>
    intro u nn p n u' nn' p' l h
    cases n with
    | none =>
      simp [NeuralNetwork.fire_synapses] at h
      obtain ⟨_, rfl, _, rfl⟩ := h
      rfl
    | some n =>
      simp only [NeuralNetwork.fire_synapses] at h
      cases h1 : nn.add_to_update_queue n with
      | none => simp [h1] at h
      | some nn1 =>
        simp only [h1] at h
        cases h2 : p.next_synapse S u with
        | none => simp [h2] at h
        | some t =>
          obtain ⟨u1, p1, n1⟩ := t
          simp only [h2] at h
          cases h3 : NeuralNetwork.fire_synapses S f u1 nn1 p1 n1 with
          | none => simp [h3] at h
          | some o =>
            obtain ⟨u2, nn2, p2, l2⟩ := o
            simp only [h3, Option.some.injEq, Prod.mk.injEq] at h
            obtain ⟨_, rfl, _, rfl⟩ := h
            simp [NeuralNetwork.enqueue_all, h1, ih _ _ _ _ _ _ _ _ h3]

theorem fire_dendrites_enqueues {U : Type} (S : Strategy U) : ∀ (fuel : Nat) (u : U)
    (nn : NeuralNetwork) (p : Propagator) (n : Option Nat) (u' : U) (nn' : NeuralNetwork)
    (p' : Propagator) (l : List Nat),
    NeuralNetwork.fire_dendrites S fuel u nn p n = some (u', nn', p', l) →
    nn.enqueue_all_bp l = some nn' := by
  intro fuel
  induction fuel with
  | zero =>
    intro u nn p n u' nn' p' l h
    cases n with
    | none =>
      simp [NeuralNetwork.fire_dendrites] at h
      obtain ⟨_, rfl, _, rfl⟩ := h
      rfl
    | some n => simp [NeuralNetwork.fire_dendrites] at h
  | succ f ih =>
    intro u nn p n u' nn' p' l h
    cases n with
    | none =>
      simp [NeuralNetwork.fire_dendrites] at h
      obtain ⟨_, rfl, _, rfl⟩ := h
      rfl
    | some n =>
      simp only [NeuralNetwork.fire_dendrites] at h
      cases h1 : nn.add_to_bp_update_queue n with
      | none => simp [h1] at h
      | some nn1 =>
        simp only [h1] at h
        cases h2 : p.next_dendrite S u with
        | none => simp [h2] at h
        | some t =>
          obtain ⟨u1, p1, n1⟩ := t
          simp only [h2] at h
          cases h3 : NeuralNetwork.fire_dendrites S f u1 nn1 p1 n1 with
          | none => simp [h3] at h
          | some o =>
            obtain ⟨u2, nn2, p2, l2⟩ := o
            simp only [h3, Option.some.injEq, Prod.mk.injEq] at h
            obtain ⟨_, rfl, _, rfl⟩ := h
            simp [NeuralNetwork.enqueue_all_bp, h1, ih _ _ _ _ _ _ _ _ h3]

theorem forward_pass_replays {U : Type} (S : Strategy U) : ∀ (rest : List Nat) (u : U)
    (nn : NeuralNetwork) (u' : U) (nn' : NeuralNetwork) (visits : List Visit),
    NeuralNetwork.forward_pass S u nn rest = some (u', nn', visits) →
    visits.map Visit.neuron = rest ∧ nn.replay visits = some nn' ∧
    (∀ v ∈ visits, v.fired = false → v.peers = [] ∧ v.back_peers = []) := by
  intro rest
  induction rest with
  | nil =>
    intro u nn u' nn' visits h
    simp [NeuralNetwork.forward_pass] at h
    obtain ⟨_, rfl, rfl⟩ := h
    simp [NeuralNetwork.replay]
  | cons i rest ih =>
    intro u nn u' nn' visits h
    simp only [NeuralNetwork.forward_pass] at h
    cases hg : nn.heap[i]? with
    | none => simp [hg] at h
    | some neuron =>
      simp only [hg] at h
      cases ha : (S.activate u (nn.heap.set i (neuron.set_in_update_queue false)) i).2 with
      | false =>
        simp only [ha, Bool.false_eq_true, if_false] at h
        cases hr : NeuralNetwork.forward_pass S
            (S.activate u (nn.heap.set i (neuron.set_in_update_queue false)) i).1
            { nn with heap := nn.heap.set i (neuron.set_in_update_queue false) } rest with
        | none => simp [hr] at h
        | some o =>
          obtain ⟨u5, nn5, vs⟩ := o
          simp only [hr, Option.some.injEq, Prod.mk.injEq] at h
          obtain ⟨_, rfl, rfl⟩ := h
          obtain ⟨h1, h2, h3⟩ := ih _ _ _ _ _ hr
          refine ⟨by simp [h1], ?_, ?_⟩
          · simp [NeuralNetwork.replay, NeuralNetwork.replay_visit, hg,
              NeuralNetwork.enqueue_all, NeuralNetwork.enqueue_all_bp, h2]
          · intro v hv hf
            rcases List.mem_cons.mp hv with rfl | hv
            · exact ⟨rfl, rfl⟩
            · exact h3 v hv hf
      | true =>
        simp only [ha, if_true] at h
        cases h1 : (neuron.propagator i).first_synapse S
            (S.activate u (nn.heap.set i (neuron.set_in_update_queue false)) i).1 with
        | none => simp [h1] at h
        | some t1 =>
          obtain ⟨u1, p1, n⟩ := t1
          simp only [h1] at h
          cases h2 : NeuralNetwork.fire_synapses S (p1.synapses.numof + 1) u1
              { nn with heap := nn.heap.set i (neuron.set_in_update_queue false) } p1 n with
          | none => simp [h2] at h
          | some t2 =>
            obtain ⟨u2, nn2, p2, peers⟩ := t2
            simp only [h2] at h
            have e2 := fire_synapses_enqueues S _ _ _ _ _ _ _ _ _ h2
            cases hb : (S.should_backpropagate u2 i).2 with
            | false =>
              simp only [hb, Bool.false_eq_true, if_false] at h
              cases hr : NeuralNetwork.forward_pass S (S.should_backpropagate u2 i).1 nn2 rest with
              | none => simp [hr] at h
              | some o =>
                obtain ⟨u5, nn5, vs⟩ := o
                simp only [hr, Option.some.injEq, Prod.mk.injEq] at h
                obtain ⟨_, rfl, rfl⟩ := h
                obtain ⟨k1, k2, k3⟩ := ih _ _ _ _ _ hr
                refine ⟨by simp [k1], ?_, ?_⟩
                · simp [NeuralNetwork.replay, NeuralNetwork.replay_visit, hg, e2,
                    NeuralNetwork.enqueue_all_bp, k2]
                · intro v hv hf
                  rcases List.mem_cons.mp hv with rfl | hv
                  · simp at hf
                  · exact k3 v hv hf
            | true =>
              simp only [hb, if_true] at h
              cases h3 : p2.first_dendrite S (S.should_backpropagate u2 i).1 with
              | none => simp [h3] at h
              | some t3 =>
                obtain ⟨u3, p3, m⟩ := t3
                simp only [h3] at h
                cases h4 : NeuralNetwork.fire_dendrites S (p3.dendrites.numof + 1) u3 nn2 p3 m with
                | none => simp [h4] at h
                | some t4 =>
                  obtain ⟨u4, nn4, p4, back⟩ := t4
                  simp only [h4] at h
                  have e4 := fire_dendrites_enqueues S _ _ _ _ _ _ _ _ _ h4
                  cases hr : NeuralNetwork.forward_pass S u4 nn4 rest with
                  | none => simp [hr] at h
                  | some o =>
                    obtain ⟨u5, nn5, vs⟩ := o
                    simp only [hr, Option.some.injEq, Prod.mk.injEq] at h
                    obtain ⟨_, rfl, rfl⟩ := h
                    obtain ⟨k1, k2, k3⟩ := ih _ _ _ _ _ hr
                    refine ⟨by simp [k1], ?_, ?_⟩
                    · simp [NeuralNetwork.replay, NeuralNetwork.replay_visit, hg, e2, e4, k2]
                    · intro v hv hf
                      rcases List.mem_cons.mp hv with rfl | hv
                      · simp at hf
                      · exact k3 v hv hf

/-! ## The queue discipline is kept -/

theorem passInvariant_add {nn nn' : NeuralNetwork} {n : Nat} {rest : List Nat}
    (h : nn.add_to_update_queue n = some nn') (hinv : PassInvariant nn rest) :
    PassInvariant nn' rest := by
  obtain ⟨_, _, hbc, hbn, _, _, hbf, hff, hnext⟩ := add_to_update_queue_effect h
  obtain ⟨i1, i2, i3, i4, i5, i6, i7, i8⟩ := hinv
  cases hf : nn.forward_flag n with
  | true =>
    rw [hf] at hnext
    simp only [if_true] at hnext
    refine ⟨i1, hnext ▸ i2, hbn ▸ i3, ?_, ?_, ?_, ?_, hbc ▸ i8⟩
    · intro x hx
      simp [hff, i4 x hx]
    · intro x hx
      rw [hnext] at hx
      simp [hff, i5 x hx]
    · intro x hx
      rw [hnext]
      exact i6 x hx
    · intro x hx
      rw [hbn] at hx
      rw [hbf]
      exact i7 x hx
  | false =>
    rw [hf] at hnext
    simp only [Bool.false_eq_true, if_false] at hnext
    have hn1 : n ∉ nn.next_queue := fun hm => by
      have := i5 n hm
      rw [hf] at this
      cases this
    have hn2 : n ∉ rest := fun hm => by
      have := i4 n hm
      rw [hf] at this
      cases this
    refine ⟨i1, ?_, hbn ▸ i3, ?_, ?_, ?_, ?_, hbc ▸ i8⟩
    · rw [hnext]
      exact List.nodup_append.mpr ⟨i2, List.nodup_singleton n, by
        intro a ha hb
        rw [List.mem_singleton.mp hb] at ha
        exact hn1 ha⟩
    · intro x hx
      simp [hff, i4 x hx]
    · intro x hx
      rw [hnext] at hx
      rcases List.mem_append.mp hx with hx | hx
      · simp [hff, i5 x hx]
      · simp [hff, List.mem_singleton.mp hx]
    · intro x hx hx2
      rw [hnext] at hx2
      rcases List.mem_append.mp hx2 with hx2 | hx2
      · exact i6 x hx hx2
      · rw [List.mem_singleton.mp hx2] at hx
        exact hn2 hx
    · intro x hx
      rw [hbn] at hx
      rw [hbf]
      exact i7 x hx

theorem passInvariant_add_bp {nn nn' : NeuralNetwork} {n : Nat} {rest : List Nat}
    (h : nn.add_to_bp_update_queue n = some nn') (hinv : PassInvariant nn rest) :
    PassInvariant nn' rest := by
  obtain ⟨_, _, hbc, hnq, _, _, hff, hbf, hnext⟩ := add_to_bp_update_queue_effect h
  obtain ⟨i1, i2, i3, i4, i5, i6, i7, i8⟩ := hinv
  have k4 : ∀ x ∈ rest, nn'.forward_flag x = true := fun x hx => by rw [hff]; exact i4 x hx
  have k5 : ∀ x ∈ nn'.next_queue, nn'.forward_flag x = true := fun x hx => by
    rw [hnq] at hx
    rw [hff]
    exact i5 x hx
  have k6 : ∀ x ∈ rest, x ∉ nn'.next_queue := fun x hx => by rw [hnq]; exact i6 x hx
  cases hf : nn.backward_flag n with
  | true =>
    rw [hf] at hnext
    simp only [if_true] at hnext
    refine ⟨i1, hnq ▸ i2, hnext ▸ i3, k4, k5, k6, ?_, hbc ▸ i8⟩
    intro x hx
    rw [hnext] at hx
    simp [hbf, i7 x hx]
  | false =>
    rw [hf] at hnext
    simp only [Bool.false_eq_true, if_false] at hnext
    have hn1 : n ∉ nn.bp_next_queue := fun hm => by
      have := i7 n hm
      rw [hf] at this
      cases this
    refine ⟨i1, hnq ▸ i2, ?_, k4, k5, k6, ?_, hbc ▸ i8⟩
    · rw [hnext]
      exact List.nodup_append.mpr ⟨i3, List.nodup_singleton n, by
        intro a ha hb
        rw [List.mem_singleton.mp hb] at ha
        exact hn1 ha⟩
    · intro x hx
      rw [hnext] at hx
      rcases List.mem_append.mp hx with hx | hx
      · simp [hbf, i7 x hx]
      · simp [hbf, List.mem_singleton.mp hx]

theorem passInvariant_enqueue_all : ∀ (l : List Nat) (nn nn' : NeuralNetwork) (rest : List Nat),
    nn.enqueue_all l = some nn' → PassInvariant nn rest → PassInvariant nn' rest := by
  intro l
  induction l with
  | nil =>
    intro nn nn' rest h hinv
    simp [NeuralNetwork.enqueue_all] at h
    exact h ▸ hinv
  | cons n l ih =>
    intro nn nn' rest h hinv
    simp only [NeuralNetwork.enqueue_all] at h
    cases h1 : nn.add_to_update_queue n with
    | none => simp [h1] at h
    | some nn1 =>
      simp only [h1] at h
      exact ih _ _ _ h (passInvariant_add h1 hinv)

theorem passInvariant_enqueue_all_bp : ∀ (l : List Nat) (nn nn' : NeuralNetwork)
    (rest : List Nat),
    nn.enqueue_all_bp l = some nn' → PassInvariant nn rest → PassInvariant nn' rest := by
  intro l
  induction l with
  | nil =>
    intro nn nn' rest h hinv
    simp [NeuralNetwork.enqueue_all_bp] at h
    exact h ▸ hinv
  | cons n l ih =>
    intro nn nn' rest h hinv
    simp only [NeuralNetwork.enqueue_all_bp] at h
    cases h1 : nn.add_to_bp_update_queue n with
    | none => simp [h1] at h
    | some nn1 =>
      simp only [h1] at h
      exact ih _ _ _ h (passInvariant_add_bp h1 hinv)

theorem passInvariant_clear {nn : NeuralNetwork} {i : Nat} {me : Neuron} {rest : List Nat}
    (hg : nn.heap[i]? = some me) (hinv : PassInvariant nn (i :: rest)) :
    PassInvariant { nn with heap := nn.heap.set i (me.set_in_update_queue false) } rest := by
  obtain ⟨i1, i2, i3, i4, i5, i6, i7, i8⟩ := hinv
  have hn : i < nn.heap.length := (List.getElem?_eq_some.mp hg).1
  have hi1 : i ∉ rest := (List.nodup_cons.mp i1).1
  have hi2 : i ∉ nn.next_queue := i6 i (List.mem_cons_self i rest)
  refine ⟨(List.nodup_cons.mp i1).2, i2, i3, ?_, ?_, ?_, ?_, i8⟩
  · intro x hx
    rw [NeuralNetwork.forward_flag_of_set rfl hn]
    have : x ≠ i := fun e => hi1 (e ▸ hx)
    simp [this, i4 x (List.mem_cons_of_mem i hx)]
  · intro x hx
    rw [NeuralNetwork.forward_flag_of_set rfl hn]
    have hx' : x ∈ nn.next_queue := hx
    have : x ≠ i := fun e => hi2 (e ▸ hx')
    simp [this, i5 x hx']
  · intro x hx
    exact i6 x (List.mem_cons_of_mem i hx)
  · intro x hx
    rw [NeuralNetwork.backward_flag_of_set rfl hn]
    have hx' : x ∈ nn.bp_next_queue := hx
    by_cases e : x = i
    · subst e
      simp only [if_true, Neuron.backward_flag_kept]
      have := i7 x hx'
      simpa [NeuralNetwork.backward_flag, hg] using this
    · simp [e, i7 x hx']

theorem passInvariant_replay : ∀ (visits : List Visit) (nn nn' : NeuralNetwork),
    nn.replay visits = some nn' → PassInvariant nn (visits.map Visit.neuron) →
    PassInvariant nn' [] := by
  intro visits
  induction visits with
  | nil =>
    intro nn nn' h hinv
    simp [NeuralNetwork.replay] at h
    exact h ▸ hinv
  | cons v vs ih =>
    intro nn nn' h hinv
    simp only [NeuralNetwork.replay] at h
    cases h1 : nn.replay_visit v with
    | none => simp [h1] at h
    | some nn1 =>
      simp only [h1] at h
      apply ih _ _ h
      unfold NeuralNetwork.replay_visit at h1
      cases hg : nn.heap[v.neuron]? with
      | none => simp [hg] at h1
      | some me =>
        simp only [hg] at h1
        cases h2 : NeuralNetwork.enqueue_all
            { nn with heap := nn.heap.set v.neuron (me.set_in_update_queue false) } v.peers with
        | none => simp [h2] at h1
        | some nn2 =>
          simp only [h2] at h1
          exact passInvariant_enqueue_all_bp _ _ _ _ h1
            (passInvariant_enqueue_all _ _ _ _ h2 (passInvariant_clear hg hinv))

/-! ## Connect and disconnect leave the flags alone -/

theorem Graph.flags_setSynapse (g : Graph) (a i : Nat) (c : Connector) (x : Nat) :
    ((g.setSynapse a i c)[x]?).map Neuron.flags = (g[x]?).map Neuron.flags := by
  unfold Graph.setSynapse
  cases hg : g[a]? with
  | none => rfl
  | some me =>
    simp only [Graph.getElem?_set_node]
    by_cases hx : a = x
    · subst hx
      simp [hg]
    · simp [hx]

theorem Graph.flags_setDendrite (g : Graph) (a i : Nat) (c : Connector) (x : Nat) :
    ((g.setDendrite a i c)[x]?).map Neuron.flags = (g[x]?).map Neuron.flags := by
  unfold Graph.setDendrite
  cases hg : g[a]? with
  | none => rfl
  | some me =>
    simp only [Graph.getElem?_set_node]
    by_cases hx : a = x
    · subst hx
      simp [hg]
    · simp [hx]

theorem disconnect_keeps_flags : ∀ (fuel : Nat),
    (∀ (g g' : Graph) (a i : Nat), disconnect_synapse fuel g a i = Outcome.done g' →
      ∀ x : Nat, (g'[x]?).map Neuron.flags = (g[x]?).map Neuron.flags) ∧
    (∀ (g g' : Graph) (a i : Nat), disconnect_dendrite fuel g a i = Outcome.done g' →
      ∀ x : Nat, (g'[x]?).map Neuron.flags = (g[x]?).map Neuron.flags) := by
  intro fuel
  induction fuel with
  | zero =>
    exact ⟨fun g g' a i h => by simp [disconnect_synapse] at h,
      fun g g' a i h => by simp [disconnect_dendrite] at h⟩
  | succ f ih =>
    refine ⟨fun g g' a i h x => ?_, fun g g' a i h x => ?_⟩
    · simp only [disconnect_synapse] at h
      cases hg : g[a]? with
      | none => simp [hg] at h
      | some me =>
        simp only [hg] at h
        by_cases hgt : i > me.synapses.length
        · simp only [hgt, if_true, Outcome.done.injEq] at h
          rw [h]
        · simp only [hgt, if_false] at h
          cases hs : me.synapses[i]? with
          | none => simp [hs] at h
          | some c =>
            simp only [hs] at h
            cases hc : c.is_connected with
            | false =>
              simp only [hc, Bool.false_eq_true, if_false, Outcome.done.injEq] at h
              rw [h]
            | true =>
              simp only [hc, if_true] at h
              cases hn : c.get_neuron with
              | none => simp [hn] at h
              | some p =>
                simp only [hn] at h
                rw [ih.2 _ _ _ _ h x, Graph.flags_setSynapse]
    · simp only [disconnect_dendrite] at h
      cases hg : g[a]? with
      | none => simp [hg] at h
      | some me =>
        simp only [hg] at h
        by_cases hgt : i > me.dendrites.length
        · simp only [hgt, if_true, Outcome.done.injEq] at h
          rw [h]
        · simp only [hgt, if_false] at h
          cases hs : me.dendrites[i]? with
          | none => simp [hs] at h
          | some c =>
            simp only [hs] at h
            cases hc : c.is_connected with
            | false =>
              simp only [hc, Bool.false_eq_true, if_false, Outcome.done.injEq] at h
              rw [h]
            | true =>
              simp only [hc, if_true] at h
              cases hn : c.get_neuron with
              | none => simp [hn] at h
              | some p =>
                simp only [hn] at h
                rw [ih.1 _ _ _ _ h x, Graph.flags_setDendrite]

theorem connect_keeps_flags : ∀ (fuel : Nat),
    (∀ (g g' : Graph) (a i : Nat) (n : Option Nat) (k : Nat),
      connect_synapse fuel g a i n k = Outcome.done g' →
      ∀ x : Nat, (g'[x]?).map Neuron.flags = (g[x]?).map Neuron.flags) ∧
    (∀ (g g' : Graph) (a i : Nat) (n : Option Nat) (k : Nat),
      connect_dendrite fuel g a i n k = Outcome.done g' →
      ∀ x : Nat, (g'[x]?).map Neuron.flags = (g[x]?).map Neuron.flags) := by
  intro fuel
  induction fuel with
  | zero =>
    exact ⟨fun g g' a i n k h => by simp [connect_synapse] at h,
      fun g g' a i n k h => by simp [connect_dendrite] at h⟩
  | succ f ih =>
    refine ⟨fun g g' a i n k h x => ?_, fun g g' a i n k h x => ?_⟩
    · simp only [connect_synapse] at h
      cases hg : g[a]? with
      | none => simp [hg] at h
      | some me =>
        simp only [hg] at h
        cases n with
        | none =>
          simp only [Outcome.done.injEq] at h
          rw [h]
        | some p =>
          simp only at h
          cases hs : me.synapses[i]? with
          | none => simp [hs] at h
          | some c =>
            simp only [hs] at h
            by_cases hc : c.get_neuron = some p
            · simp only [hc, if_true, Outcome.done.injEq] at h
              rw [h]
            · simp only [hc, if_false] at h
              cases hd : disconnect_synapse f g a i with
              | undefined => simp [hd] at h
              | outOfFuel => simp [hd] at h
              | done g1 =>
                simp only [hd] at h
                cases h1 : g1.synapse a i with
                | none => simp [h1] at h
                | some c1 =>
                  simp only [h1] at h
                  rw [ih.2 _ _ _ _ _ _ h x, Graph.flags_setSynapse,
                    (disconnect_keeps_flags f).1 _ _ _ _ hd x]
    · simp only [connect_dendrite] at h
      cases hg : g[a]? with
      | none => simp [hg] at h
      | some me =>
        simp only [hg] at h
        cases n with
        | none =>
          simp only [Outcome.done.injEq] at h
          rw [h]
        | some p =>
          simp only at h
          cases hs : me.dendrites[i]? with
          | none => simp [hs] at h
          | some c =>
            simp only [hs] at h
            by_cases hc : c.get_neuron = some p
            · simp only [hc, if_true, Outcome.done.injEq] at h
              rw [h]
            · simp only [hc, if_false] at h
              cases hd : disconnect_dendrite f g a i with
              | undefined => simp [hd] at h
              | outOfFuel => simp [hd] at h
              | done g1 =>
                simp only [hd] at h
                cases h1 : g1.dendrite a i with
                | none => simp [h1] at h
                | some c1 =>
                  simp only [h1] at h
                  rw [ih.1 _ _ _ _ _ _ h x, Graph.flags_setDendrite,
                    (disconnect_keeps_flags f).2 _ _ _ _ hd x]

/-! ## Every operation keeps the queue discipline -/

theorem flags_congr {nn nn' : NeuralNetwork}
    (h : ∀ x : Nat, (nn'.heap[x]?).map Neuron.flags = (nn.heap[x]?).map Neuron.flags) :
    (∀ x, nn'.forward_flag x = nn.forward_flag x) ∧
    (∀ x, nn'.backward_flag x = nn.backward_flag x) := by
  refine ⟨fun x => ?_, fun x => ?_⟩
  · have hx := h x
    unfold NeuralNetwork.forward_flag
    cases h1 : nn'.heap[x]? with
    | none =>
      cases h2 : nn.heap[x]? with
      | none => rfl
      | some me => simp [h1, h2] at hx
    | some me' =>
      cases h2 : nn.heap[x]? with
      | none => simp [h1, h2] at hx
      | some me =>
        simp [h1, h2] at hx
        simp [Neuron.in_update_queue_already, hx]
  · have hx := h x
    unfold NeuralNetwork.backward_flag
    cases h1 : nn'.heap[x]? with
    | none =>
      cases h2 : nn.heap[x]? with
      | none => rfl
      | some me => simp [h1, h2] at hx
    | some me' =>
      cases h2 : nn.heap[x]? with
      | none => simp [h1, h2] at hx
      | some me =>
        simp [h1, h2] at hx
        simp [Neuron.in_bp_update_queue_already, hx]

theorem passInvariant_congr {nn nn' : NeuralNetwork} {rest : List Nat}
    (hq : nn'.next_queue = nn.next_queue) (hb : nn'.bp_next_queue = nn.bp_next_queue)
    (hbc : nn'.bp_current_queue = nn.bp_current_queue)
    (hf : ∀ x, nn'.forward_flag x = nn.forward_flag x)
    (hbf : ∀ x, nn'.backward_flag x = nn.backward_flag x) (hinv : PassInvariant nn rest) :
    PassInvariant nn' rest := by
  obtain ⟨i1, i2, i3, i4, i5, i6, i7, i8⟩ := hinv
  refine ⟨i1, hq ▸ i2, hb ▸ i3, fun x hx => by rw [hf]; exact i4 x hx, fun x hx => ?_,
    fun x hx => by rw [hq]; exact i6 x hx, fun x hx => ?_, by rw [hbc]; exact i8⟩
  · rw [hq] at hx
    rw [hf]
    exact i5 x hx
  · rw [hb] at hx
    rw [hbf]
    exact i7 x hx

theorem queueInvariant_new : QueueInvariant NeuralNetwork.new := by
  simp [QueueInvariant, PassInvariant, NeuralNetwork.new]

theorem create_neuron_flags (nn : NeuralNetwork) (factory : NeuronFactory) (d s : Nat) :
    (∀ x, (nn.create_neuron factory d s).forward_flag x = nn.forward_flag x) ∧
    (∀ x, (nn.create_neuron factory d s).backward_flag x = nn.backward_flag x) := by
  refine ⟨fun x => ?_, fun x => ?_⟩
  · simp only [NeuralNetwork.forward_flag, NeuralNetwork.create_neuron]
    by_cases hx : x < nn.heap.length
    · rw [List.getElem?_append_left hx]
    · rw [List.getElem?_eq_none (Nat.le_of_not_lt hx)]
      by_cases hx2 : x = nn.heap.length
      · subst hx2
        simp [Neuron.mk0, Neuron.in_update_queue_already]
      · rw [List.getElem?_eq_none (by simp; omega)]
  · simp only [NeuralNetwork.backward_flag, NeuralNetwork.create_neuron]
    by_cases hx : x < nn.heap.length
    · rw [List.getElem?_append_left hx]
    · rw [List.getElem?_eq_none (Nat.le_of_not_lt hx)]
      by_cases hx2 : x = nn.heap.length
      · subst hx2
        simp [Neuron.mk0, Neuron.in_bp_update_queue_already]
      · rw [List.getElem?_eq_none (by simp; omega)]

theorem queueInvariant_create_neuron {nn : NeuralNetwork} (factory : NeuronFactory) (d s : Nat)
    (hinv : QueueInvariant nn) : QueueInvariant (nn.create_neuron factory d s) :=
  @passInvariant_congr nn (nn.create_neuron factory d s) nn.current_queue rfl rfl rfl
    (create_neuron_flags nn factory d s).1 (create_neuron_flags nn factory d s).2 hinv

theorem queueInvariant_connect {nn nn' : NeuralNetwork} {fuel : Nat} {a b : Option Nat}
    {s d : Nat} (h : nn.connect_neurons fuel a s b d = some nn') (hinv : QueueInvariant nn) :
    QueueInvariant nn' := by
  unfold NeuralNetwork.connect_neurons at h
  cases hc : NeuralNetwork.connect fuel nn.heap a s b d with
  | undefined => simp [hc] at h
  | outOfFuel => simp [hc] at h
  | done g =>
    simp only [hc, Option.some.injEq] at h
    subst h
    cases a with
    | none => simp [NeuralNetwork.connect] at hc
    | some p =>
      have hfl := (connect_keeps_flags fuel).1 _ _ _ _ _ _ hc
      have hcg := @flags_congr nn { nn with heap := g } hfl
      exact @passInvariant_congr nn { nn with heap := g } nn.current_queue rfl rfl rfl
        hcg.1 hcg.2 hinv

theorem queueInvariant_swap {nn : NeuralNetwork} {rest : List Nat} (hinv : PassInvariant nn rest) :
    QueueInvariant nn.swap_update_queues := by
  obtain ⟨i1, i2, i3, i4, i5, i6, i7, i8⟩ := hinv
  unfold QueueInvariant PassInvariant
  refine ⟨i2, List.nodup_nil, i3, i5, ?_, ?_, i7, i8⟩
  · intro x hx
    simp [NeuralNetwork.swap_update_queues] at hx
  · intro x _ hx
    simp [NeuralNetwork.swap_update_queues] at hx

theorem passInvariant_seed (rand : Nat → Nat) : ∀ (remaining : Nat) (nn nn' : NeuralNetwork)
    (k : Nat) (rest : List Nat), NeuralNetwork.seed rand nn k remaining = some nn' →
    PassInvariant nn rest → PassInvariant nn' rest := by
  intro remaining
  induction remaining with
  | zero =>
    intro nn nn' k rest h hinv
    simp [NeuralNetwork.seed] at h
    exact h ▸ hinv
  | succ r ih =>
    intro nn nn' k rest h hinv
    simp only [NeuralNetwork.seed] at h
    cases h1 : nn.neurons[rand k % nn.neurons.length]? with
    | none => simp [h1] at h
    | some n =>
      simp only [h1] at h
      cases h2 : nn.add_to_update_queue n with
      | none => simp [h2] at h
      | some nn1 =>
        simp only [h2] at h
        exact ih _ _ _ _ h (passInvariant_add h2 hinv)

theorem queueInvariant_start {nn nn' : NeuralNetwork} {rand : Nat → Nat}
    (h : nn.start rand = some nn') (hinv : QueueInvariant nn) : QueueInvariant nn' := by
  unfold NeuralNetwork.start at h
  by_cases h0 : nn.neurons.length = 0
  · simp [h0] at h
  · simp only [h0, if_false] at h
    cases h1 : NeuralNetwork.seed rand nn 1 (rand 0 % nn.neurons.length) with
    | none => simp [h1] at h
    | some nn1 =>
      simp only [h1, Option.some.injEq] at h
      subst h
      exact queueInvariant_swap (passInvariant_seed rand _ _ _ _ _ h1 hinv)

theorem forward_pass_current {U : Type} (S : Strategy U) {u u' : U} {nn nn' : NeuralNetwork}
    {rest : List Nat} {visits : List Visit}
    (h : NeuralNetwork.forward_pass S u nn rest = some (u', nn', visits))
    (hinv : PassInvariant nn rest) : PassInvariant nn' [] := by
  obtain ⟨h1, h2, _⟩ := forward_pass_replays S _ _ _ _ _ _ h
  exact passInvariant_replay _ _ _ h2 (h1 ▸ hinv)

theorem queueInvariant_run {U : Type} (S : Strategy U) {u : U} {nn : NeuralNetwork}
    {r : RunResult U} (h : NeuralNetwork.run S u nn = some r) (hinv : QueueInvariant nn) :
    QueueInvariant r.net := by
  unfold NeuralNetwork.run at h
  cases h1 : NeuralNetwork.run_forward S u nn with
  | none => simp [h1] at h
  | some t =>
    obtain ⟨u1, nn1, fwd⟩ := t
    simp only [h1] at h
    have hinv1 : QueueInvariant nn1 := by
      unfold NeuralNetwork.run_forward at h1
      by_cases hc : nn.current_queue.length ≠ 0
      · rw [if_pos hc] at h1
        cases h2 : NeuralNetwork.forward_pass S u nn nn.current_queue with
        | none => simp [h2] at h1
        | some t2 =>
          obtain ⟨u2, nn2, v2⟩ := t2
          simp only [h2, Option.some.injEq, Prod.mk.injEq] at h1
          obtain ⟨_, rfl, _⟩ := h1
          exact queueInvariant_swap (forward_pass_current S h2 hinv)
      · rw [if_neg hc] at h1
        simp only [Option.some.injEq, Prod.mk.injEq] at h1
        obtain ⟨_, rfl, _⟩ := h1
        exact hinv
    have hbc : nn1.bp_current_queue = [] := hinv1.2.2.2.2.2.2.2
    simp only [NeuralNetwork.run_backward, hbc, List.length_nil, ne_eq, not_true_eq_false,
      if_false, Option.some.injEq] at h
    subst h
    exact hinv1

theorem queueInvariant_of_scheduled {nn : NeuralNetwork} (h : Scheduled nn) :
    QueueInvariant nn := by
  induction h with
  | new => exact queueInvariant_new
  | create_neuron nn factory d s _ ih => exact queueInvariant_create_neuron factory d s ih
  | connect fuel nn nn' a s b d _ hc ih => exact queueInvariant_connect hc ih
  | start rand nn nn' _ hs ih => exact queueInvariant_start hs ih
  | run S u nn r _ hr ih => exact queueInvariant_run S hr ih
  | add_to_update_queue nn nn' n _ ha ih =>
    have := passInvariant_add ha ih
    have hc := (add_to_update_queue_effect ha).2.1
    unfold QueueInvariant
    rw [hc]
    exact this
  | add_to_bp_update_queue nn nn' n _ ha ih =>
    have := passInvariant_add_bp ha ih
    have hc := (add_to_bp_update_queue_effect ha).2.1
    unfold QueueInvariant
    rw [hc]
    exact this

theorem add_to_update_queue_flagged {nn : NeuralNetwork} {n : Nat}
    (h : nn.forward_flag n = true) : nn.add_to_update_queue n = some nn := by
  unfold NeuralNetwork.forward_flag at h
  unfold NeuralNetwork.add_to_update_queue
  cases hg : nn.heap[n]? with
  | none => simp [hg] at h
  | some me =>
    simp only [hg] at h
    simp [h]

theorem add_to_bp_update_queue_flagged {nn : NeuralNetwork} {n : Nat}
    (h : nn.backward_flag n = true) : nn.add_to_bp_update_queue n = some nn := by
  unfold NeuralNetwork.backward_flag at h
  unfold NeuralNetwork.add_to_bp_update_queue
  cases hg : nn.heap[n]? with
  | none => simp [hg] at h
  | some me =>
    simp only [hg] at h
    simp [h]

/-- C13: in every scheduler state reached from a newly constructed `NeuralNetwork` by
`create_neuron`, `connect`, `start`, `run`, `add_to_update_queue` and
`add_to_bp_update_queue`, each of the four queues holds every neuron at most once;
and enqueuing the same neuron twice into the forward (or backward) next queue changes
nothing the second time, leaves at most one membership, and exactly one when the
neuron's flag was clear before. -/
theorem queues_hold_no_neuron_twice (nn : NeuralNetwork) (h : Scheduled nn) :
    (nn.current_queue.Nodup ∧ nn.next_queue.Nodup ∧ nn.bp_current_queue.Nodup ∧
      nn.bp_next_queue.Nodup) ∧
    (∀ n nn1 nn2, nn.add_to_update_queue n = some nn1 → nn1.add_to_update_queue n = some nn2 →
      nn2 = nn1 ∧ nn2.next_queue.count n ≤ 1 ∧
      (nn.forward_flag n = false → nn2.next_queue.count n = 1)) ∧
    (∀ n nn1 nn2, nn.add_to_bp_update_queue n = some nn1 →
      nn1.add_to_bp_update_queue n = some nn2 →
      nn2 = nn1 ∧ nn2.bp_next_queue.count n ≤ 1 ∧
      (nn.backward_flag n = false → nn2.bp_next_queue.count n = 1)) := by
  have hinv := queueInvariant_of_scheduled h
  refine ⟨⟨hinv.1, hinv.2.1, ?_, hinv.2.2.1⟩, ?_, ?_⟩
  · rw [hinv.2.2.2.2.2.2.2]
    exact List.nodup_nil
  · intro n nn1 nn2 h1 h2
    have e1 := add_to_update_queue_effect h1
    have hflag : nn1.forward_flag n = true := by simp [e1.2.2.2.2.2.2.2.1 n]
    rw [add_to_update_queue_flagged hflag] at h2
    cases h2
    have hnd : nn1.next_queue.Nodup := (passInvariant_add h1 hinv).2.1
    refine ⟨rfl, List.nodup_iff_count_le_one.mp hnd n, fun hclear => ?_⟩
    have hmem : n ∈ nn1.next_queue := by
      rw [e1.2.2.2.2.2.2.2.2, hclear]
      simp
    exact List.count_eq_one_of_mem hnd hmem
  · intro n nn1 nn2 h1 h2
    have e1 := add_to_bp_update_queue_effect h1
    have hflag : nn1.backward_flag n = true := by simp [e1.2.2.2.2.2.2.2.1 n]
    rw [add_to_bp_update_queue_flagged hflag] at h2
    cases h2
    have hnd : nn1.bp_next_queue.Nodup := (passInvariant_add_bp h1 hinv).2.2.1
    refine ⟨rfl, List.nodup_iff_count_le_one.mp hnd n, fun hclear => ?_⟩
    have hmem : n ∈ nn1.bp_next_queue := by
      rw [e1.2.2.2.2.2.2.2.2, hclear]
      simp
    exact List.count_eq_one_of_mem hnd hmem

/-- Witness of C13 on `twoSeeded`, the state after two `create_neuron` calls and a
`start ()` that seeds neuron 1. -/
theorem queues_hold_no_neuron_twice_witness :
    Scheduled twoSeeded ∧ twoSeeded.current_queue = [1] ∧
    (twoSeeded.current_queue.Nodup ∧ twoSeeded.next_queue.Nodup ∧
      twoSeeded.bp_current_queue.Nodup ∧ twoSeeded.bp_next_queue.Nodup) :=
  have hs : Scheduled twoSeeded :=
    Scheduled.start drawOnes twoCreated twoSeeded
      (Scheduled.create_neuron _ sampleFactory 1 1
        (Scheduled.create_neuron _ sampleFactory 1 1 Scheduled.new)) (by decide)
  ⟨hs, by decide, (queues_hold_no_neuron_twice twoSeeded hs).1⟩

/-! ## is_firing and the counts -/

/-- C19: `is_firing ()` is true exactly when the forward current queue or the
backward current queue is not empty; `neurons_firing_count ()` and
`neurons_backpropagating_count ()` are the lengths of those two queues and
`neurons_count ()` the length of the node set. -/
theorem is_firing_and_counts (nn : NeuralNetwork) :
    (nn.is_firing = true ↔ nn.current_queue ≠ [] ∨ nn.bp_current_queue ≠ []) ∧
    nn.neurons_firing_count = nn.current_queue.length ∧
    nn.neurons_backpropagating_count = nn.bp_current_queue.length ∧
    nn.neurons_count = nn.neurons.length := by
  refine ⟨?_, rfl, rfl, rfl⟩
  unfold NeuralNetwork.is_firing
  cases h1 : nn.current_queue <;> cases h2 : nn.bp_current_queue <;> simp

/-! ## Flags that outlive the queues -/

/-- C14: in the network `twoCreated`, `start ()` with all draws 1 seeds neuron 1; a
second `start ()` with all draws 0, called while the forward current queue holds
neuron 1, swaps the queues and clears the old current queue, and leaves neuron 1 with
its forward-queued flag set in neither forward queue; `add_to_update_queue` no longer
enqueues it. -/
theorem flag_set_in_no_queue_after_restart :
    ∃ n1 n2, twoCreated.start drawOnes = some n1 ∧ n1.current_queue = [1] ∧
      n1.start drawZeros = some n2 ∧ n2.forward_flag 1 = true ∧
      1 ∉ n2.current_queue ∧ 1 ∉ n2.next_queue ∧ n2.add_to_update_queue 1 = some n2 := by
  refine ⟨_, _, rfl, rfl, rfl, rfl, ?_, ?_, rfl⟩
  · decide
  · decide

/-- C18: in the network `twoCreated` with outbound slot 0 of neuron 0 connected to
inbound slot 0 of neuron 1, after `start ()` seeds neuron 1 and one `run ()` with the
strategy `alwaysStrategy`, `is_firing ()` is false while the backward next queue holds
neuron 0 and neuron 0 has its backward-queued flag set. -/
theorem not_firing_with_backward_pending :
    ∃ n1 n2 r, twoCreated.connect_neurons 3 (some 0) 0 (some 1) 0 = some n1 ∧
      n1.start drawOnes = some n2 ∧ n2.current_queue = [1] ∧
      NeuralNetwork.run alwaysStrategy () n2 = some r ∧
      r.net.is_firing = false ∧ r.net.current_queue = [] ∧ r.net.bp_current_queue = [] ∧
      r.net.bp_next_queue = [0] ∧ r.net.backward_flag 0 = true := by
  refine ⟨_, _, _, rfl, rfl, rfl, rfl, rfl, rfl, rfl, rfl, rfl⟩

/-! ## run returns when every pointer addresses a neuron -/

theorem peersExist_of_wiring {g g' : Graph} (h : Graph.wiring g' = Graph.wiring g)
    (hp : PeersExist g) : PeersExist g' := by
  intro me' hme'
  obtain ⟨x, hx⟩ := List.mem_iff_getElem?.mp hme'
  obtain ⟨me, hme, hd, hs⟩ := Graph.wiring_getElem? h hx
  have hmem : me ∈ g := List.mem_iff_getElem?.mpr ⟨x, hme⟩
  rw [hd, hs, Graph.wiring_length h]
  exact hp me hmem

theorem add_to_update_queue_returns {nn : NeuralNetwork} {n : Nat} (h : n < nn.heap.length) :
    ∃ nn', nn.add_to_update_queue n = some nn' := by
  unfold NeuralNetwork.add_to_update_queue
  rw [List.getElem?_eq_getElem h]
  simp only
  split
  · exact ⟨_, rfl⟩
  · exact ⟨_, rfl⟩

theorem add_to_bp_update_queue_returns {nn : NeuralNetwork} {n : Nat} (h : n < nn.heap.length) :
    ∃ nn', nn.add_to_bp_update_queue n = some nn' := by
  unfold NeuralNetwork.add_to_bp_update_queue
  rw [List.getElem?_eq_getElem h]
  simp only
  split
  · exact ⟨_, rfl⟩
  · exact ⟨_, rfl⟩

theorem seek_synapse_returns {U : Type} (S : Strategy U) : ∀ (fuel : Nat) (u : U)
    (p : Propagator) (s : Option Nat),
    (∀ i, s = some i → i < p.synapses.container.length ∧ p.synapses.itr = i ∧
      p.synapses.container.length - i ≤ fuel) →
    ∃ u' p' n, Propagator.seek_synapse S fuel u p s = some (u', p', n) ∧
      p'.neuron = p.neuron ∧ p'.dendrites = p.dendrites ∧
      p'.synapses.container = p.synapses.container ∧
      (∀ b, n = some b → p'.synapses.itr < p'.synapses.container.length ∧
        (∀ i, s = some i → i ≤ p'.synapses.itr) ∧
        ∃ c ∈ p.synapses.container, c.neuron = some b) := by
  intro fuel
  induction fuel with
  | zero =>
    intro u p s hs
    cases s with
    | none => exact ⟨u, p, none, by simp [Propagator.seek_synapse]⟩
    | some i =>
      have := hs i rfl
      omega
  | succ f ih =>
    intro u p s hs
    cases s with
    | none => exact ⟨u, p, none, by simp [Propagator.seek_synapse]⟩
    | some i =>
      obtain ⟨hlt, hitr, hfuel⟩ := hs i rfl
      have hderef : p.synapses.deref i = some p.synapses.container[i] := by
        simp [ConnectorIterator.deref, hlt]
      have hnext : p.synapses.next = some
          (({ p.synapses with itr := i + 1 } : ConnectorIterator Connector),
            if i + 1 = p.synapses.container.length then ConnectorIterator.null
            else some (i + 1)) := by
        unfold ConnectorIterator.next
        rw [hitr]
        simp only [hlt, if_true]
        split <;> rfl
      have hrec : ∀ u1, ∃ u' p' n, Propagator.seek_synapse S f u1
          { p with synapses := { p.synapses with itr := i + 1 } }
          (if i + 1 = p.synapses.container.length then ConnectorIterator.null
            else some (i + 1)) = some (u', p', n) ∧
          p'.neuron = p.neuron ∧ p'.dendrites = p.dendrites ∧
          p'.synapses.container = p.synapses.container ∧
          (∀ b, n = some b → p'.synapses.itr < p'.synapses.container.length ∧
            (∀ j, some i = some j → j ≤ p'.synapses.itr) ∧
            ∃ c ∈ p.synapses.container, c.neuron = some b) := by
        intro u1
        obtain ⟨u', p', n, h1, h2, h3, h4, h5⟩ := ih u1
          { p with synapses := { p.synapses with itr := i + 1 } }
          (if i + 1 = p.synapses.container.length then ConnectorIterator.null
            else some (i + 1)) (by
            intro j hj
            by_cases hl : i + 1 = p.synapses.container.length
            · simp [hl, ConnectorIterator.null] at hj
            · simp only [hl, if_false, Option.some.injEq] at hj
              subst hj
              have hlen : ({ p with synapses := { p.synapses with itr := i + 1 } } :
                  Propagator).synapses.container.length = p.synapses.container.length := rfl
              rw [hlen]
              exact ⟨by omega, rfl, by omega⟩)
        refine ⟨u', p', n, h1, h2, h3, h4, fun b hb => ?_⟩
        obtain ⟨k1, k2, k3⟩ := h5 b hb
        refine ⟨k1, fun j hj => ?_, k3⟩
        cases hj
        by_cases hl : i + 1 = p.synapses.container.length
        · simp [hl, ConnectorIterator.null] at h1
          cases f <;> simp [Propagator.seek_synapse] at h1 <;>
            (obtain ⟨_, _, rfl⟩ := h1; cases hb)
        · have := k2 (i + 1) (by simp [hl])
          omega
      simp only [Propagator.seek_synapse, hderef, hnext]
      cases hc : (p.synapses.container[i]).is_connected with
      | false =>
        simp only [Bool.false_eq_true, if_false]
        exact hrec u
      | true =>
        simp only [if_true]
        cases ho : (S.process_output u p.neuron i).2 with
        | false =>
          simp only [Bool.false_eq_true, if_false]
          exact hrec _
        | true =>
          simp only [if_true]
          refine ⟨_, p, _, rfl, rfl, rfl, rfl, fun b hb => ⟨by rw [hitr]; exact hlt,
            fun j hj => by cases hj; omega, p.synapses.container[i],
            List.getElem_mem _, hb⟩⟩

theorem seek_dendrite_returns {U : Type} (S : Strategy U) : ∀ (fuel : Nat) (u : U)
    (p : Propagator) (s : Option Nat),
    (∀ i, s = some i → i < p.dendrites.container.length ∧ p.dendrites.itr = i ∧
      p.dendrites.container.length - i ≤ fuel) →
    ∃ u' p' n, Propagator.seek_dendrite S fuel u p s = some (u', p', n) ∧
      p'.neuron = p.neuron ∧ p'.synapses = p.synapses ∧
      p'.dendrites.container = p.dendrites.container ∧
      (∀ b, n = some b → p'.dendrites.itr < p'.dendrites.container.length ∧
        (∀ i, s = some i → i ≤ p'.dendrites.itr) ∧
        ∃ c ∈ p.dendrites.container, c.neuron = some b) := by
  intro fuel
  induction fuel with
  | zero =>
    intro u p s hs
    cases s with
    | none => exact ⟨u, p, none, by simp [Propagator.seek_dendrite]⟩
    | some i =>
      have := hs i rfl
      omega
  | succ f ih =>
    intro u p s hs
    cases s with
    | none => exact ⟨u, p, none, by simp [Propagator.seek_dendrite]⟩
    | some i =>
      obtain ⟨hlt, hitr, hfuel⟩ := hs i rfl
      have hderef : p.dendrites.deref i = some p.dendrites.container[i] := by
        simp [ConnectorIterator.deref, hlt]
      have hnext : p.dendrites.next = some
          (({ p.dendrites with itr := i + 1 } : ConnectorIterator Connector),
            if i + 1 = p.dendrites.container.length then ConnectorIterator.null
            else some (i + 1)) := by
        unfold ConnectorIterator.next
        rw [hitr]
        simp only [hlt, if_true]
        split <;> rfl
      have hrec : ∀ u1, ∃ u' p' n, Propagator.seek_dendrite S f u1
          { p with dendrites := { p.dendrites with itr := i + 1 } }
          (if i + 1 = p.dendrites.container.length then ConnectorIterator.null
            else some (i + 1)) = some (u', p', n) ∧
          p'.neuron = p.neuron ∧ p'.synapses = p.synapses ∧
          p'.dendrites.container = p.dendrites.container ∧
          (∀ b, n = some b → p'.dendrites.itr < p'.dendrites.container.length ∧
            (∀ j, some i = some j → j ≤ p'.dendrites.itr) ∧
            ∃ c ∈ p.dendrites.container, c.neuron = some b) := by
        intro u1
        obtain ⟨u', p', n, h1, h2, h3, h4, h5⟩ := ih u1
          { p with dendrites := { p.dendrites with itr := i + 1 } }
          (if i + 1 = p.dendrites.container.length then ConnectorIterator.null
            else some (i + 1)) (by
            intro j hj
            by_cases hl : i + 1 = p.dendrites.container.length
            · simp [hl, ConnectorIterator.null] at hj
            · simp only [hl, if_false, Option.some.injEq] at hj
              subst hj
              have hlen : ({ p with dendrites := { p.dendrites with itr := i + 1 } } :
                  Propagator).dendrites.container.length = p.dendrites.container.length := rfl
              rw [hlen]
              exact ⟨by omega, rfl, by omega⟩)
        refine ⟨u', p', n, h1, h2, h3, h4, fun b hb => ?_⟩
        obtain ⟨k1, k2, k3⟩ := h5 b hb
        refine ⟨k1, fun j hj => ?_, k3⟩
        cases hj
        by_cases hl : i + 1 = p.dendrites.container.length
        · simp [hl, ConnectorIterator.null] at h1
          cases f <;> simp [Propagator.seek_dendrite] at h1 <;>
            (obtain ⟨_, _, rfl⟩ := h1; cases hb)
        · have := k2 (i + 1) (by simp [hl])
          omega
      simp only [Propagator.seek_dendrite, hderef, hnext]
      cases hc : (p.dendrites.container[i]).is_connected with
      | false =>
        simp only [Bool.false_eq_true, if_false]
        exact hrec u
      | true =>
        simp only [if_true]
        cases ho : (S.process_feedback u p.neuron i).2 with
        | false =>
          simp only [Bool.false_eq_true, if_false]
          exact hrec _
        | true =>
          simp only [if_true]
          refine ⟨_, p, _, rfl, rfl, rfl, rfl, fun b hb => ⟨by rw [hitr]; exact hlt,
            fun j hj => by cases hj; omega, p.dendrites.container[i],
            List.getElem_mem _, hb⟩⟩

theorem ConnectorIterator.first_fst {α : Type} (it : ConnectorIterator α) :
    it.first.1 = ⟨it.container, 0⟩ := by
  unfold ConnectorIterator.first
  by_cases h : 0 = it.container.length
  · simp [h]
  · simp [h]

theorem ConnectorIterator.first_snd {α : Type} (it : ConnectorIterator α) :
    it.first.2 = if 0 = it.container.length then none else some 0 := by
  unfold ConnectorIterator.first
  by_cases h : 0 = it.container.length
  · simp [h, ConnectorIterator.null]
  · simp [h]

theorem first_synapse_returns {U : Type} (S : Strategy U) (u : U) (p : Propagator) :
    ∃ u' p' n, p.first_synapse S u = some (u', p', n) ∧
      p'.neuron = p.neuron ∧ p'.dendrites = p.dendrites ∧
      p'.synapses.container = p.synapses.container ∧
      (∀ b, n = some b → p'.synapses.itr < p'.synapses.container.length ∧
        ∃ c ∈ p.synapses.container, c.neuron = some b) := by
  unfold Propagator.first_synapse
  obtain ⟨u', p', n, h1, h2, h3, h4, h5⟩ := seek_synapse_returns S (p.synapses.numof + 1) u
    { p with synapses := p.synapses.first.1 } p.synapses.first.2 (by
      intro i hi
      rw [ConnectorIterator.first_snd] at hi
      by_cases h0 : 0 = p.synapses.container.length
      · rw [if_pos h0] at hi
        cases hi
      · rw [if_neg h0] at hi
        cases hi
        rw [ConnectorIterator.first_fst]
        refine ⟨?_, rfl, ?_⟩
        · show 0 < p.synapses.container.length
          omega
        · show p.synapses.container.length - 0 ≤ p.synapses.container.length + 1
          omega)
  rw [ConnectorIterator.first_fst] at h2 h3 h4 h5
  exact ⟨u', p', n, h1, h2, h3, h4, fun b hb => ⟨(h5 b hb).1, (h5 b hb).2.2⟩⟩

theorem next_synapse_returns {U : Type} (S : Strategy U) (u : U) (p : Propagator)
    (hitr : p.synapses.itr < p.synapses.container.length) :
    ∃ u' p' n, p.next_synapse S u = some (u', p', n) ∧
      p'.neuron = p.neuron ∧ p'.dendrites = p.dendrites ∧
      p'.synapses.container = p.synapses.container ∧
      (∀ b, n = some b → p'.synapses.itr < p'.synapses.container.length ∧
        p.synapses.itr < p'.synapses.itr ∧
        ∃ c ∈ p.synapses.container, c.neuron = some b) := by
  unfold Propagator.next_synapse
  have hnext : p.synapses.next = some
      (({ p.synapses with itr := p.synapses.itr + 1 } : ConnectorIterator Connector),
        if p.synapses.itr + 1 = p.synapses.container.length then ConnectorIterator.null
        else some (p.synapses.itr + 1)) := by
    unfold ConnectorIterator.next
    simp only [hitr, if_true]
    split <;> rfl
  rw [hnext]
  simp only
  obtain ⟨u', p', n, h1, h2, h3, h4, h5⟩ := seek_synapse_returns S (p.synapses.numof + 1) u
    { p with synapses := { p.synapses with itr := p.synapses.itr + 1 } }
    (if p.synapses.itr + 1 = p.synapses.container.length then ConnectorIterator.null
      else some (p.synapses.itr + 1)) (by
      intro i hi
      by_cases hl : p.synapses.itr + 1 = p.synapses.container.length
      · rw [if_pos hl] at hi
        cases hi
      · rw [if_neg hl] at hi
        cases hi
        refine ⟨?_, rfl, ?_⟩
        · show p.synapses.itr + 1 < p.synapses.container.length
          omega
        · show p.synapses.container.length - (p.synapses.itr + 1) ≤
            p.synapses.container.length + 1
          omega)
  refine ⟨u', p', n, h1, h2, h3, h4, fun b hb => ?_⟩
  obtain ⟨k1, k2, k3⟩ := h5 b hb
  refine ⟨k1, ?_, k3⟩
  by_cases hl : p.synapses.itr + 1 = p.synapses.container.length
  · rw [if_pos hl] at h1
    simp [Propagator.seek_synapse, ConnectorIterator.null] at h1
    obtain ⟨_, _, rfl⟩ := h1
    cases hb
  · have := k2 (p.synapses.itr + 1) (by rw [if_neg hl])
    omega

theorem first_dendrite_returns {U : Type} (S : Strategy U) (u : U) (p : Propagator) :
    ∃ u' p' n, p.first_dendrite S u = some (u', p', n) ∧
      p'.neuron = p.neuron ∧ p'.synapses = p.synapses ∧
      p'.dendrites.container = p.dendrites.container ∧
      (∀ b, n = some b → p'.dendrites.itr < p'.dendrites.container.length ∧
        ∃ c ∈ p.dendrites.container, c.neuron = some b) := by
  unfold Propagator.first_dendrite
  obtain ⟨u', p', n, h1, h2, h3, h4, h5⟩ := seek_dendrite_returns S (p.dendrites.numof + 1) u
    { p with dendrites := p.dendrites.first.1 } p.dendrites.first.2 (by
      intro i hi
      rw [ConnectorIterator.first_snd] at hi
      by_cases h0 : 0 = p.dendrites.container.length
      · rw [if_pos h0] at hi
        cases hi
      · rw [if_neg h0] at hi
        cases hi
        rw [ConnectorIterator.first_fst]
        refine ⟨?_, rfl, ?_⟩
        · show 0 < p.dendrites.container.length
          omega
        · show p.dendrites.container.length - 0 ≤ p.dendrites.container.length + 1
          omega)
  rw [ConnectorIterator.first_fst] at h2 h3 h4 h5
  exact ⟨u', p', n, h1, h2, h3, h4, fun b hb => ⟨(h5 b hb).1, (h5 b hb).2.2⟩⟩

theorem next_dendrite_returns {U : Type} (S : Strategy U) (u : U) (p : Propagator)
    (hitr : p.dendrites.itr < p.dendrites.container.length) :
    ∃ u' p' n, p.next_dendrite S u = some (u', p', n) ∧
      p'.neuron = p.neuron ∧ p'.synapses = p.synapses ∧
      p'.dendrites.container = p.dendrites.container ∧
      (∀ b, n = some b → p'.dendrites.itr < p'.dendrites.container.length ∧
        p.dendrites.itr < p'.dendrites.itr ∧
        ∃ c ∈ p.dendrites.container, c.neuron = some b) := by
  unfold Propagator.next_dendrite
  have hnext : p.dendrites.next = some
      (({ p.dendrites with itr := p.dendrites.itr + 1 } : ConnectorIterator Connector),
        if p.dendrites.itr + 1 = p.dendrites.container.length then ConnectorIterator.null
        else some (p.dendrites.itr + 1)) := by
    unfold ConnectorIterator.next
    simp only [hitr, if_true]
    split <;> rfl
  rw [hnext]
  simp only
  obtain ⟨u', p', n, h1, h2, h3, h4, h5⟩ := seek_dendrite_returns S (p.dendrites.numof + 1) u
    { p with dendrites := { p.dendrites with itr := p.dendrites.itr + 1 } }
    (if p.dendrites.itr + 1 = p.dendrites.container.length then ConnectorIterator.null
      else some (p.dendrites.itr + 1)) (by
      intro i hi
      by_cases hl : p.dendrites.itr + 1 = p.dendrites.container.length
      · rw [if_pos hl] at hi
        cases hi
      · rw [if_neg hl] at hi
        cases hi
        refine ⟨?_, rfl, ?_⟩
        · show p.dendrites.itr + 1 < p.dendrites.container.length
          omega
        · show p.dendrites.container.length - (p.dendrites.itr + 1) ≤
            p.dendrites.container.length + 1
          omega)
  refine ⟨u', p', n, h1, h2, h3, h4, fun b hb => ?_⟩
  obtain ⟨k1, k2, k3⟩ := h5 b hb
  refine ⟨k1, ?_, k3⟩
  by_cases hl : p.dendrites.itr + 1 = p.dendrites.container.length
  · rw [if_pos hl] at h1
    simp [Propagator.seek_dendrite, ConnectorIterator.null] at h1
    obtain ⟨_, _, rfl⟩ := h1
    cases hb
  · have := k2 (p.dendrites.itr + 1) (by rw [if_neg hl])
    omega

theorem enqueue_all_frame : ∀ (l : List Nat) (nn nn' : NeuralNetwork),
    nn.enqueue_all l = some nn' →
    Graph.wiring nn'.heap = Graph.wiring nn.heap ∧ nn'.current_queue = nn.current_queue ∧
    nn'.bp_current_queue = nn.bp_current_queue ∧ nn'.bp_next_queue = nn.bp_next_queue ∧
    nn'.neurons = nn.neurons := by
  intro l
  induction l with
  | nil =>
    intro nn nn' h
    simp [NeuralNetwork.enqueue_all] at h
    subst h
    exact ⟨rfl, rfl, rfl, rfl, rfl⟩
  | cons n l ih =>
    intro nn nn' h
    simp only [NeuralNetwork.enqueue_all] at h
    cases h1 : nn.add_to_update_queue n with
    | none => simp [h1] at h
    | some nn1 =>
      simp only [h1] at h
      obtain ⟨_, e1, e2, e3, e4, e5, _⟩ := add_to_update_queue_effect h1
      obtain ⟨k1, k2, k3, k4, k5⟩ := ih _ _ h
      exact ⟨k1.trans e5, k2.trans e1, k3.trans e2, k4.trans e3, k5.trans e4⟩

theorem enqueue_all_bp_frame : ∀ (l : List Nat) (nn nn' : NeuralNetwork),
    nn.enqueue_all_bp l = some nn' →
    Graph.wiring nn'.heap = Graph.wiring nn.heap ∧ nn'.current_queue = nn.current_queue ∧
    nn'.bp_current_queue = nn.bp_current_queue ∧ nn'.next_queue = nn.next_queue ∧
    nn'.neurons = nn.neurons ∧ (∀ x, nn'.forward_flag x = nn.forward_flag x) := by
  intro l
  induction l with
  | nil =>
    intro nn nn' h
    simp [NeuralNetwork.enqueue_all_bp] at h
    subst h
    exact ⟨rfl, rfl, rfl, rfl, rfl, fun _ => rfl⟩
  | cons n l ih =>
    intro nn nn' h
    simp only [NeuralNetwork.enqueue_all_bp] at h
    cases h1 : nn.add_to_bp_update_queue n with
    | none => simp [h1] at h
    | some nn1 =>
      simp only [h1] at h
      obtain ⟨_, e1, e2, e3, e4, e5, e6, _⟩ := add_to_bp_update_queue_effect h1
      obtain ⟨k1, k2, k3, k4, k5, k6⟩ := ih _ _ h
      exact ⟨k1.trans e5, k2.trans e1, k3.trans e2, k4.trans e3, k5.trans e4,
        fun x => (k6 x).trans (e6 x)⟩

theorem fire_synapses_returns {U : Type} (S : Strategy U) : ∀ (fuel : Nat) (u : U)
    (nn : NeuralNetwork) (p : Propagator) (n : Option Nat),
    (∀ c ∈ p.synapses.container, ∀ b, c.neuron = some b → b < nn.heap.length) →
    (∀ b, n = some b → b < nn.heap.length ∧ p.synapses.itr < p.synapses.container.length ∧
      p.synapses.container.length - p.synapses.itr ≤ fuel) →
    ∃ u' nn' p' l, NeuralNetwork.fire_synapses S fuel u nn p n = some (u', nn', p', l) ∧
      p'.neuron = p.neuron ∧ p'.dendrites = p.dendrites := by
  intro fuel
  induction fuel with
  | zero =>
    intro u nn p n hc hn
    cases n with
    | none => exact ⟨u, nn, p, [], by simp [NeuralNetwork.fire_synapses]⟩
    | some b =>
      have := hn b rfl
      omega
  | succ f ih =>
    intro u nn p n hc hn
    cases n with
    | none => exact ⟨u, nn, p, [], by simp [NeuralNetwork.fire_synapses]⟩
    | some b =>
      obtain ⟨hb, hitr, hfuel⟩ := hn b rfl
      obtain ⟨nn1, h1⟩ := add_to_update_queue_returns hb
      have hlen : nn1.heap.length = nn.heap.length :=
        Graph.wiring_length (add_to_update_queue_effect h1).2.2.2.2.2.1
      obtain ⟨u1, p1, n1, h2, k1, k2, k3, k4⟩ := next_synapse_returns S u p hitr
      obtain ⟨u2, nn2, p2, l, h3, m1, m2⟩ := ih u1 nn1 p1 n1 (by
          intro c hcm b' hb'
          rw [k3] at hcm
          rw [hlen]
          exact hc c hcm b' hb') (by
          intro b' hb'
          obtain ⟨q1, q2, c, q3, q4⟩ := k4 b' hb'
          rw [hlen]
          refine ⟨hc c q3 b' q4, q1, ?_⟩
          rw [k3]
          omega)
      exact ⟨u2, nn2, p2, b :: l, by simp [NeuralNetwork.fire_synapses, h1, h2, h3],
        m1.trans k1, m2.trans k2⟩

theorem fire_dendrites_returns {U : Type} (S : Strategy U) : ∀ (fuel : Nat) (u : U)
    (nn : NeuralNetwork) (p : Propagator) (n : Option Nat),
    (∀ c ∈ p.dendrites.container, ∀ b, c.neuron = some b → b < nn.heap.length) →
    (∀ b, n = some b → b < nn.heap.length ∧ p.dendrites.itr < p.dendrites.container.length ∧
      p.dendrites.container.length - p.dendrites.itr ≤ fuel) →
    ∃ u' nn' p' l, NeuralNetwork.fire_dendrites S fuel u nn p n = some (u', nn', p', l) ∧
      p'.neuron = p.neuron ∧ p'.synapses = p.synapses := by
  intro fuel
  induction fuel with
  | zero =>
    intro u nn p n hc hn
    cases n with
    | none => exact ⟨u, nn, p, [], by simp [NeuralNetwork.fire_dendrites]⟩
    | some b =>
      have := hn b rfl
      omega
  | succ f ih =>
    intro u nn p n hc hn
    cases n with
    | none => exact ⟨u, nn, p, [], by simp [NeuralNetwork.fire_dendrites]⟩
    | some b =>
      obtain ⟨hb, hitr, hfuel⟩ := hn b rfl
      obtain ⟨nn1, h1⟩ := add_to_bp_update_queue_returns hb
      have hlen : nn1.heap.length = nn.heap.length :=
        Graph.wiring_length (add_to_bp_update_queue_effect h1).2.2.2.2.2.1
      obtain ⟨u1, p1, n1, h2, k1, k2, k3, k4⟩ := next_dendrite_returns S u p hitr
      obtain ⟨u2, nn2, p2, l, h3, m1, m2⟩ := ih u1 nn1 p1 n1 (by
          intro c hcm b' hb'
          rw [k3] at hcm
          rw [hlen]
          exact hc c hcm b' hb') (by
          intro b' hb'
          obtain ⟨q1, q2, c, q3, q4⟩ := k4 b' hb'
          rw [hlen]
          refine ⟨hc c q3 b' q4, q1, ?_⟩
          rw [k3]
          omega)
      exact ⟨u2, nn2, p2, b :: l, by simp [NeuralNetwork.fire_dendrites, h1, h2, h3],
        m1.trans k1, m2.trans k2⟩

theorem forward_pass_returns {U : Type} (S : Strategy U) : ∀ (rest : List Nat) (u : U)
    (nn : NeuralNetwork), PeersExist nn.heap → (∀ x ∈ rest, x < nn.heap.length) →
    ∃ u' nn' visits, NeuralNetwork.forward_pass S u nn rest = some (u', nn', visits) := by
  intro rest
  induction rest with
  | nil => intro u nn _ _; exact ⟨u, nn, [], rfl⟩
  | cons i rest ih =>
    intro u nn hpe hrest
    have hi : i < nn.heap.length := hrest i (List.mem_cons_self i rest)
    have hg : nn.heap[i]? = some nn.heap[i] := List.getElem?_eq_getElem hi
    generalize nn.heap[i] = neuron at hg
    have hmem : neuron ∈ nn.heap := List.mem_iff_getElem?.mpr ⟨i, hg⟩
    have hw1 : Graph.wiring (nn.heap.set i (neuron.set_in_update_queue false)) =
        Graph.wiring nn.heap :=
      Graph.wiring_set hg (Neuron.wiring_set_forward neuron false).1
        (Neuron.wiring_set_forward neuron false).2
    have hrest' : ∀ (g : Graph), Graph.wiring g = Graph.wiring nn.heap →
        ∀ x ∈ rest, x < g.length := by
      intro g hgw x hx
      rw [Graph.wiring_length hgw]
      exact hrest x (List.mem_cons_of_mem i hx)
    cases ha : (S.activate u (nn.heap.set i (neuron.set_in_update_queue false)) i).2 with
    | false =>
      obtain ⟨u5, nn5, vs, hr⟩ := ih
        (S.activate u (nn.heap.set i (neuron.set_in_update_queue false)) i).1
        { nn with heap := nn.heap.set i (neuron.set_in_update_queue false) }
        (peersExist_of_wiring hw1 hpe) (hrest' _ hw1)
      exact ⟨u5, nn5, ⟨i, false, [], []⟩ :: vs, by
        simp [NeuralNetwork.forward_pass, hg, ha, hr]⟩
    | true =>
      obtain ⟨u1, p1, n, h1, a1, a2, a3, a4⟩ := first_synapse_returns S
        (S.activate u (nn.heap.set i (neuron.set_in_update_queue false)) i).1
        (neuron.propagator i)
      have hlen1 : (nn.heap.set i (neuron.set_in_update_queue false)).length =
          nn.heap.length := Graph.wiring_length hw1
      obtain ⟨u2, nn2, p2, peers, h2, b1, b2⟩ := fire_synapses_returns S
        (p1.synapses.numof + 1) u1
        { nn with heap := nn.heap.set i (neuron.set_in_update_queue false) } p1 n (by
          intro c hc b hb
          rw [a3] at hc
          show b < (nn.heap.set i (neuron.set_in_update_queue false)).length
          rw [hlen1]
          exact (hpe neuron hmem).1 c hc b hb) (by
          intro b hb
          obtain ⟨q1, c, q2, q3⟩ := a4 b hb
          refine ⟨?_, q1, ?_⟩
          · show b < (nn.heap.set i (neuron.set_in_update_queue false)).length
            rw [hlen1]
            exact (hpe neuron hmem).1 c q2 b q3
          · simp only [ConnectorIterator.numof]
            omega)
      have hw2 : Graph.wiring nn2.heap = Graph.wiring nn.heap :=
        (enqueue_all_frame _ _ _ (fire_synapses_enqueues S _ _ _ _ _ _ _ _ _ h2)).1.trans hw1
      cases hb : (S.should_backpropagate u2 i).2 with
      | false =>
        obtain ⟨u5, nn5, vs, hr⟩ := ih (S.should_backpropagate u2 i).1 nn2
          (peersExist_of_wiring hw2 hpe) (hrest' _ hw2)
        exact ⟨u5, nn5, ⟨i, true, peers, []⟩ :: vs, by
          simp [NeuralNetwork.forward_pass, hg, ha, h1, h2, hb, hr]⟩
      | true =>
        obtain ⟨u3, p3, m, h3, c1, c2, c3, c4⟩ := first_dendrite_returns S
          (S.should_backpropagate u2 i).1 p2
        have hcont : p3.dendrites.container = neuron.dendrites := by
          rw [c3, b2, a2]
          rfl
        obtain ⟨u4, nn4, p4, back, h4, _, _⟩ := fire_dendrites_returns S
          (p3.dendrites.numof + 1) u3 nn2 p3 m (by
            intro c hc b hb'
            rw [hcont] at hc
            rw [Graph.wiring_length hw2]
            exact (hpe neuron hmem).2 c hc b hb') (by
            intro b hb'
            obtain ⟨q1, c, q2, q3⟩ := c4 b hb'
            refine ⟨?_, q1, ?_⟩
            · rw [Graph.wiring_length hw2]
              rw [b2, a2] at q2
              exact (hpe neuron hmem).2 c q2 b q3
            · simp only [ConnectorIterator.numof]
              omega)
        have hw4 : Graph.wiring nn4.heap = Graph.wiring nn.heap :=
          (enqueue_all_bp_frame _ _ _ (fire_dendrites_enqueues S _ _ _ _ _ _ _ _ _ h4)).1.trans hw2
        obtain ⟨u5, nn5, vs, hr⟩ := ih u4 nn4 (peersExist_of_wiring hw4 hpe) (hrest' _ hw4)
        exact ⟨u5, nn5, ⟨i, true, peers, back⟩ :: vs, by
          simp [NeuralNetwork.forward_pass, hg, ha, h1, h2, hb, h3, h4, hr]⟩

theorem backward_pass_frame {U : Type} (S : Strategy U) : ∀ (rest : List Nat) (u : U)
    (nn : NeuralNetwork) (u' : U) (nn' : NeuralNetwork) (visits : List Visit),
    NeuralNetwork.backward_pass S u nn rest = some (u', nn', visits) →
    nn'.current_queue = nn.current_queue ∧ nn'.next_queue = nn.next_queue ∧
    Graph.wiring nn'.heap = Graph.wiring nn.heap ∧
    (∀ x, nn'.forward_flag x = nn.forward_flag x) ∧ nn'.neurons = nn.neurons ∧
    visits.map Visit.neuron = rest := by
  intro rest
  induction rest with
  | nil =>
    intro u nn u' nn' visits h
    simp [NeuralNetwork.backward_pass] at h
    obtain ⟨_, rfl, rfl⟩ := h
    exact ⟨rfl, rfl, rfl, fun _ => rfl, rfl, rfl⟩
  | cons i rest ih =>
    intro u nn u' nn' visits h
    simp only [NeuralNetwork.backward_pass] at h
    cases hg : nn.heap[i]? with
    | none => simp [hg] at h
    | some neuron =>
      simp only [hg] at h
      have hi : i < nn.heap.length := (List.getElem?_eq_some.mp hg).1
      have hw1 : Graph.wiring (nn.heap.set i (neuron.set_in_bp_update_queue false)) =
          Graph.wiring nn.heap :=
        Graph.wiring_set hg (Neuron.wiring_set_backward neuron false).1
          (Neuron.wiring_set_backward neuron false).2
      have hf1 : ∀ x, NeuralNetwork.forward_flag
          { nn with heap := nn.heap.set i (neuron.set_in_bp_update_queue false) } x =
          nn.forward_flag x := by
        intro x
        rw [NeuralNetwork.forward_flag_of_set rfl hi]
        by_cases hx : x = i
        · subst hx
          simp [Neuron.forward_flag_kept, NeuralNetwork.forward_flag, hg]
        · simp [hx]
      cases ha : (S.feedback u (nn.heap.set i (neuron.set_in_bp_update_queue false)) i).2 with
      | false =>
        simp only [ha, Bool.false_eq_true, if_false] at h
        cases hr : NeuralNetwork.backward_pass S
            (S.feedback u (nn.heap.set i (neuron.set_in_bp_update_queue false)) i).1
            { nn with heap := nn.heap.set i (neuron.set_in_bp_update_queue false) } rest with
        | none => simp [hr] at h
        | some o =>
          obtain ⟨u3, nn3, vs⟩ := o
          simp only [hr, Option.some.injEq, Prod.mk.injEq] at h
          obtain ⟨_, rfl, rfl⟩ := h
          obtain ⟨k1, k2, k3, k4, k5, k6⟩ := ih _ _ _ _ _ hr
          exact ⟨k1, k2, k3.trans hw1, fun x => (k4 x).trans (hf1 x), k5, by simp [k6]⟩
      | true =>
        simp only [ha, if_true] at h
        cases h1 : (neuron.propagator i).first_dendrite S
            (S.feedback u (nn.heap.set i (neuron.set_in_bp_update_queue false)) i).1 with
        | none => simp [h1] at h
        | some t1 =>
          obtain ⟨u1, p1, m⟩ := t1
          simp only [h1] at h
          cases h2 : NeuralNetwork.fire_dendrites S (p1.dendrites.numof + 1) u1
              { nn with heap := nn.heap.set i (neuron.set_in_bp_update_queue false) } p1 m with
          | none => simp [h2] at h
          | some t2 =>
            obtain ⟨u2, nn2, p2, back⟩ := t2
            simp only [h2] at h
            obtain ⟨e1, e2, e3, e4, e5, e6⟩ :=
              enqueue_all_bp_frame _ _ _ (fire_dendrites_enqueues S _ _ _ _ _ _ _ _ _ h2)
            cases hr : NeuralNetwork.backward_pass S u2 nn2 rest with
            | none => simp [hr] at h
            | some o =>
              obtain ⟨u3, nn3, vs⟩ := o
              simp only [hr, Option.some.injEq, Prod.mk.injEq] at h
              obtain ⟨_, rfl, rfl⟩ := h
              obtain ⟨k1, k2, k3, k4, k5, k6⟩ := ih _ _ _ _ _ hr
              exact ⟨k1.trans e2, k2.trans e4, (k3.trans e1).trans hw1,
                fun x => ((k4 x).trans (e6 x)).trans (hf1 x), k5.trans e5, by simp [k6]⟩

theorem backward_pass_returns {U : Type} (S : Strategy U) : ∀ (rest : List Nat) (u : U)
    (nn : NeuralNetwork), PeersExist nn.heap → (∀ x ∈ rest, x < nn.heap.length) →
    ∃ u' nn' visits, NeuralNetwork.backward_pass S u nn rest = some (u', nn', visits) := by
  intro rest
  induction rest with
  | nil => intro u nn _ _; exact ⟨u, nn, [], rfl⟩
  | cons i rest ih =>
    intro u nn hpe hrest
    have hi : i < nn.heap.length := hrest i (List.mem_cons_self i rest)
    have hg : nn.heap[i]? = some nn.heap[i] := List.getElem?_eq_getElem hi
    generalize nn.heap[i] = neuron at hg
    have hmem : neuron ∈ nn.heap := List.mem_iff_getElem?.mpr ⟨i, hg⟩
    have hw1 : Graph.wiring (nn.heap.set i (neuron.set_in_bp_update_queue false)) =
        Graph.wiring nn.heap :=
      Graph.wiring_set hg (Neuron.wiring_set_backward neuron false).1
        (Neuron.wiring_set_backward neuron false).2
    have hrest' : ∀ (g : Graph), Graph.wiring g = Graph.wiring nn.heap →
        ∀ x ∈ rest, x < g.length := by
      intro g hgw x hx
      rw [Graph.wiring_length hgw]
      exact hrest x (List.mem_cons_of_mem i hx)
    have hlen1 : (nn.heap.set i (neuron.set_in_bp_update_queue false)).length =
        nn.heap.length := Graph.wiring_length hw1
    cases ha : (S.feedback u (nn.heap.set i (neuron.set_in_bp_update_queue false)) i).2 with
    | false =>
      obtain ⟨u5, nn5, vs, hr⟩ := ih
        (S.feedback u (nn.heap.set i (neuron.set_in_bp_update_queue false)) i).1
        { nn with heap := nn.heap.set i (neuron.set_in_bp_update_queue false) }
        (peersExist_of_wiring hw1 hpe) (hrest' _ hw1)
      exact ⟨u5, nn5, ⟨i, false, [], []⟩ :: vs, by
        simp [NeuralNetwork.backward_pass, hg, ha, hr]⟩
    | true =>
      obtain ⟨u1, p1, m, h1, a1, a2, a3, a4⟩ := first_dendrite_returns S
        (S.feedback u (nn.heap.set i (neuron.set_in_bp_update_queue false)) i).1
        (neuron.propagator i)
      obtain ⟨u2, nn2, p2, back, h2, _, _⟩ := fire_dendrites_returns S
        (p1.dendrites.numof + 1) u1
        { nn with heap := nn.heap.set i (neuron.set_in_bp_update_queue false) } p1 m (by
          intro c hc b hb
          rw [a3] at hc
          show b < (nn.heap.set i (neuron.set_in_bp_update_queue false)).length
          rw [hlen1]
          exact (hpe neuron hmem).2 c hc b hb) (by
          intro b hb
          obtain ⟨q1, c, q2, q3⟩ := a4 b hb
          refine ⟨?_, q1, ?_⟩
          · show b < (nn.heap.set i (neuron.set_in_bp_update_queue false)).length
            rw [hlen1]
            exact (hpe neuron hmem).2 c q2 b q3
          · simp only [ConnectorIterator.numof]
            omega)
      have hw2 : Graph.wiring nn2.heap = Graph.wiring nn.heap :=
        (enqueue_all_bp_frame _ _ _ (fire_dendrites_enqueues S _ _ _ _ _ _ _ _ _ h2)).1.trans hw1
      obtain ⟨u5, nn5, vs, hr⟩ := ih u2 nn2 (peersExist_of_wiring hw2 hpe) (hrest' _ hw2)
      exact ⟨u5, nn5, ⟨i, true, [], back⟩ :: vs, by
        simp [NeuralNetwork.backward_pass, hg, ha, h1, h2, hr]⟩

/-! ## What a forward pass adds to the next queue -/

theorem enqueue_all_effect : ∀ (l : List Nat) (nn nn' : NeuralNetwork),
    nn.enqueue_all l = some nn' →
    (∃ added, nn'.next_queue = nn.next_queue ++ added ∧ ∀ x ∈ added, x ∈ l) ∧
    (∀ x, nn'.forward_flag x = true → nn.forward_flag x = true ∨ x ∈ nn'.next_queue) ∧
    (∀ x ∈ l, nn'.forward_flag x = true) ∧
    (∀ x, nn.forward_flag x = true → nn'.forward_flag x = true) := by
  intro l
  induction l with
  | nil =>
    intro nn nn' h
    simp [NeuralNetwork.enqueue_all] at h
    subst h
    exact ⟨⟨[], by simp, by simp⟩, fun x hx => Or.inl hx, by simp, fun x hx => hx⟩
  | cons n l ih =>
    intro nn nn' h
    simp only [NeuralNetwork.enqueue_all] at h
    cases h1 : nn.add_to_update_queue n with
    | none => simp [h1] at h
    | some nn1 =>
      simp only [h1] at h
      obtain ⟨_, _, _, _, _, _, _, hff, hnext⟩ := add_to_update_queue_effect h1
      obtain ⟨⟨added, k1, k2⟩, k3, k4, k5⟩ := ih _ _ h
      have hsub : ∀ x, x ∈ nn1.next_queue → x ∈ nn'.next_queue := by
        intro x hx
        rw [k1]
        exact List.mem_append_left _ hx
      refine ⟨?_, ?_, ?_, ?_⟩
      · cases hf : nn.forward_flag n with
        | true =>
          rw [hf] at hnext
          simp only [if_true] at hnext
          exact ⟨added, by rw [k1, hnext], fun x hx => List.mem_cons_of_mem n (k2 x hx)⟩
        | false =>
          rw [hf] at hnext
          simp only [Bool.false_eq_true, if_false] at hnext
          refine ⟨n :: added, by rw [k1, hnext]; simp, fun x hx => ?_⟩
          rcases List.mem_cons.mp hx with rfl | hx
          · exact List.mem_cons_self _ _
          · exact List.mem_cons_of_mem n (k2 x hx)
      · intro x hx
        rcases k3 x hx with h3 | h3
        · rw [hff] at h3
          by_cases hxn : x = n
          · subst hxn
            cases hf : nn.forward_flag x with
            | true => exact Or.inl rfl
            | false =>
              right
              apply hsub
              rw [hnext, hf]
              simp
          · left
            simpa [hxn] using h3
        · exact Or.inr h3
      · intro x hx
        rcases List.mem_cons.mp hx with rfl | hx
        · exact k5 x (by simp [hff])
        · exact k4 x hx
      · intro x hx
        exact k5 x (by simp [hff, hx])

theorem replay_visit_effect {nn nn' : NeuralNetwork} {v : Visit}
    (h : nn.replay_visit v = some nn') :
    (∃ added, nn'.next_queue = nn.next_queue ++ added ∧ ∀ x ∈ added, x ∈ v.peers) ∧
    (∀ x, nn'.forward_flag x = true →
      (x ≠ v.neuron ∧ nn.forward_flag x = true) ∨ x ∈ nn'.next_queue) ∧
    (∀ x ∈ v.peers, nn'.forward_flag x = true) ∧
    Graph.wiring nn'.heap = Graph.wiring nn.heap ∧ nn'.current_queue = nn.current_queue ∧
    nn'.bp_current_queue = nn.bp_current_queue ∧ nn'.neurons = nn.neurons := by
  unfold NeuralNetwork.replay_visit at h
  cases hg : nn.heap[v.neuron]? with
  | none => simp [hg] at h
  | some me =>
    simp only [hg] at h
    have hi : v.neuron < nn.heap.length := (List.getElem?_eq_some.mp hg).1
    cases h2 : NeuralNetwork.enqueue_all
        { nn with heap := nn.heap.set v.neuron (me.set_in_update_queue false) } v.peers with
    | none => simp [h2] at h
    | some nn2 =>
      simp only [h2] at h
      obtain ⟨⟨added, k1, k2⟩, k3, k4, _⟩ := enqueue_all_effect _ _ _ h2
      obtain ⟨f1, f2, f3, f4, f5⟩ := enqueue_all_frame _ _ _ h2
      obtain ⟨b1, b2, b3, b4, b5, b6⟩ := enqueue_all_bp_frame _ _ _ h
      have hw1 : Graph.wiring (nn.heap.set v.neuron (me.set_in_update_queue false)) =
          Graph.wiring nn.heap :=
        Graph.wiring_set hg (Neuron.wiring_set_forward me false).1
          (Neuron.wiring_set_forward me false).2
      refine ⟨⟨added, by rw [b4, k1], k2⟩, ?_, ?_, (b1.trans f1).trans hw1, b2.trans f2,
        b3.trans f3, b5.trans f5⟩
      · intro x hx
        rw [b6] at hx
        rcases k3 x hx with h3 | h3
        · rw [NeuralNetwork.forward_flag_of_set rfl hi] at h3
          by_cases hxi : x = v.neuron
          · rw [if_pos hxi, Neuron.forward_flag_set] at h3
            cases h3
          · rw [if_neg hxi] at h3
            exact Or.inl ⟨hxi, h3⟩
        · exact Or.inr (by rw [b4]; exact h3)
      · intro x hx
        rw [b6]
        exact k4 x hx

theorem replay_frame : ∀ (visits : List Visit) (nn nn' : NeuralNetwork),
    nn.replay visits = some nn' →
    Graph.wiring nn'.heap = Graph.wiring nn.heap ∧ nn'.current_queue = nn.current_queue ∧
    nn'.bp_current_queue = nn.bp_current_queue ∧ nn'.neurons = nn.neurons ∧
    (∃ added, nn'.next_queue = nn.next_queue ++ added ∧
      ∀ x ∈ added, ∃ v ∈ visits, x ∈ v.peers) := by
  intro visits
  induction visits with
  | nil =>
    intro nn nn' h
    simp [NeuralNetwork.replay] at h
    subst h
    exact ⟨rfl, rfl, rfl, rfl, [], by simp, by simp⟩
  | cons v vs ih =>
    intro nn nn' h
    simp only [NeuralNetwork.replay] at h
    cases h1 : nn.replay_visit v with
    | none => simp [h1] at h
    | some nn1 =>
      simp only [h1] at h
      obtain ⟨⟨a1, e1, e2⟩, _, _, e3, e4, e5, e6⟩ := replay_visit_effect h1
      obtain ⟨k1, k2, k3, k4, a2, k5, k6⟩ := ih _ _ h
      refine ⟨k1.trans e3, k2.trans e4, k3.trans e5, k4.trans e6, a1 ++ a2, ?_, ?_⟩
      · rw [k5, e1, List.append_assoc]
      · intro x hx
        rcases List.mem_append.mp hx with hx | hx
        · exact ⟨v, List.mem_cons_self _ _, e2 x hx⟩
        · obtain ⟨w, hw, hxw⟩ := k6 x hx
          exact ⟨w, List.mem_cons_of_mem _ hw, hxw⟩

theorem run_backward_spec {U : Type} (S : Strategy U) (u : U) (nn : NeuralNetwork)
    (hpe : PeersExist nn.heap) (hq : ∀ x ∈ nn.bp_current_queue, x < nn.heap.length) :
    ∃ u' nn' visits, NeuralNetwork.run_backward S u nn = some (u', nn', visits) ∧
      nn'.current_queue = nn.current_queue ∧ nn'.next_queue = nn.next_queue ∧
      Graph.wiring nn'.heap = Graph.wiring nn.heap ∧
      (∀ x, nn'.forward_flag x = nn.forward_flag x) ∧
      (nn.bp_current_queue = [] → nn'.bp_current_queue = []) := by
  unfold NeuralNetwork.run_backward
  by_cases hc : nn.bp_current_queue.length ≠ 0
  · rw [if_pos hc]
    obtain ⟨u1, nn1, vs, h1⟩ := backward_pass_returns S nn.bp_current_queue u nn hpe hq
    obtain ⟨k1, k2, k3, k4, _, _⟩ := backward_pass_frame S _ _ _ _ _ _ h1
    exact ⟨u1, nn1.swap_bp_update_queues, vs, by simp [h1], k1, k2, k3, k4,
      fun he => absurd (by simp [he]) hc⟩
  · rw [if_neg hc]
    exact ⟨u, nn, [], rfl, rfl, rfl, rfl, fun _ => rfl, fun he => he⟩

/-- With every pointer addressing a neuron, `run ()` returns; its forward pass visits
the current queue in order, does to the network what the replay of its visits does,
and the new current queue is the next queue the pass has built. -/
theorem run_spec {U : Type} (S : Strategy U) (u : U) (nn : NeuralNetwork) (hv : nn.Valid) :
    ∃ r u1 nn1, NeuralNetwork.run S u nn = some r ∧
      NeuralNetwork.forward_pass S u nn nn.current_queue = some (u1, nn1, r.forward) ∧
      nn.replay r.forward = some nn1 ∧
      r.forward.map Visit.neuron = nn.current_queue ∧
      (∀ v ∈ r.forward, v.fired = false → v.peers = [] ∧ v.back_peers = []) ∧
      r.net.current_queue = (if nn.current_queue = [] then [] else nn1.next_queue) ∧
      r.net.next_queue = (if nn.current_queue = [] then nn.next_queue else []) ∧
      (∀ x, r.net.forward_flag x = nn1.forward_flag x) ∧
      Graph.wiring r.net.heap = Graph.wiring nn.heap ∧
      (nn.bp_current_queue = [] → r.net.bp_current_queue = []) := by
  obtain ⟨hpe, hcur, hbp⟩ := hv
  by_cases hc : nn.current_queue = []
  · have hlen : ¬ nn.current_queue.length ≠ 0 := by simp [hc]
    obtain ⟨u2, nn2, bvs, h2, k1, k2, k3, k4, k5⟩ := run_backward_spec S u nn hpe hbp
    refine ⟨⟨u2, nn2, [], bvs⟩, u, nn, ?_, ?_, rfl, by simp [hc], by simp, ?_, ?_, k4, k3, k5⟩
    · simp [NeuralNetwork.run, NeuralNetwork.run_forward, hc, h2]
    · rw [hc]
      rfl
    · rw [if_pos hc]
      show nn2.current_queue = []
      rw [k1, hc]
    · rw [if_pos hc]
      exact k2
  · have hlen : nn.current_queue.length ≠ 0 := by
      intro h0
      exact hc (List.length_eq_zero.mp h0)
    obtain ⟨u1, nn1, vs, h1⟩ := forward_pass_returns S nn.current_queue u nn hpe hcur
    obtain ⟨m1, m2, m3⟩ := forward_pass_replays S _ _ _ _ _ _ h1
    obtain ⟨f1, f2, f3, f4, _⟩ := replay_frame _ _ _ m2
    obtain ⟨u2, nn2, bvs, h2, k1, k2, k3, k4, k5⟩ := run_backward_spec S u1
      nn1.swap_update_queues (peersExist_of_wiring f1 hpe) (by
        intro x hx
        have hx' : x ∈ nn1.bp_current_queue := hx
        rw [f3] at hx'
        show x < nn1.heap.length
        rw [Graph.wiring_length f1]
        exact hbp x hx')
    refine ⟨⟨u2, nn2, vs, bvs⟩, u1, nn1, ?_, h1, m2, m1, m3, ?_, ?_, k4, k3.trans f1,
      fun he => k5 (f3.trans he)⟩
    · simp [NeuralNetwork.run, NeuralNetwork.run_forward, hlen, h1, h2]
    · rw [if_neg hc]
      show nn2.current_queue = nn1.next_queue
      rw [k1]
      rfl
    · rw [if_neg hc]
      show nn2.next_queue = []
      rw [k2]
      rfl


/-! ## Wave isolation -/

/-- Claim C15. In every scheduler state whose pointers address neurons and for every
strategy, `run ()` returns, and the neurons given a forward activation in that call
are, in order, exactly the forward current queue at the start of the call. The pass
leaves the forward current queue as it was and only appends to the forward next
queue, every appended neuron being a peer yielded in one of the visits; when the
current queue was not empty the swap then makes that next queue the current queue
of the state after the call and leaves the next queue empty, so that an enqueued
neuron is only visited by a later call; when it was empty, nothing is visited and
both forward queues stay as they were. -/
theorem wave_isolation {U : Type} (S : Strategy U) (u : U) (nn : NeuralNetwork)
    (hv : nn.Valid) :
    ∃ r u1 pass, NeuralNetwork.run S u nn = some r ∧
      NeuralNetwork.forward_pass S u nn nn.current_queue = some (u1, pass, r.forward) ∧
      r.forward.map Visit.neuron = nn.current_queue ∧
      pass.current_queue = nn.current_queue ∧
      (∃ added, pass.next_queue = nn.next_queue ++ added ∧
        ∀ x ∈ added, ∃ v ∈ r.forward, x ∈ v.peers) ∧
      (nn.current_queue ≠ [] →
        r.net.current_queue = pass.next_queue ∧ r.net.next_queue = []) ∧
      (nn.current_queue = [] →
        r.net.current_queue = [] ∧ r.net.next_queue = nn.next_queue) := by
  obtain ⟨r, u1, nn1, h1, h2, h3, h4, _, h6, h7, _, _⟩ := run_spec S u nn hv
  obtain ⟨_, f2, _, _, f5⟩ := replay_frame _ _ _ h3
  refine ⟨r, u1, nn1, h1, h2, h4, f2, f5, ?_, ?_⟩
  · intro hc
    rw [if_neg hc] at h6 h7
    exact ⟨h6, h7⟩
  · intro hc
    rw [if_pos hc] at h6 h7
    exact ⟨h6, h7⟩

theorem wave_isolation_witness :
    chainSeeded.Valid ∧
    ∃ r u1 pass, NeuralNetwork.run alwaysStrategy () chainSeeded = some r ∧
      NeuralNetwork.forward_pass alwaysStrategy () chainSeeded chainSeeded.current_queue =
        some (u1, pass, r.forward) ∧
      r.forward.map Visit.neuron = chainSeeded.current_queue ∧
      pass.current_queue = chainSeeded.current_queue ∧
      (∃ added, pass.next_queue = chainSeeded.next_queue ++ added ∧
        ∀ x ∈ added, ∃ v ∈ r.forward, x ∈ v.peers) ∧
      (chainSeeded.current_queue ≠ [] →
        r.net.current_queue = pass.next_queue ∧ r.net.next_queue = []) ∧
      (chainSeeded.current_queue = [] →
        r.net.current_queue = [] ∧ r.net.next_queue = chainSeeded.next_queue) :=
  ⟨by decide, wave_isolation alwaysStrategy () chainSeeded (by decide)⟩


/-! ## Where the yielded peers are at the end of the pass -/

theorem replay_peers : ∀ (visits : List Visit) (nn nn' : NeuralNetwork),
    nn.replay visits = some nn' →
    (∀ x, nn.forward_flag x = true → x ∈ visits.map Visit.neuron ∨ x ∈ nn.next_queue) →
    ∀ (k : Nat) (v : Visit), visits[k]? = some v → ∀ x ∈ v.peers,
      x ∈ nn'.next_queue ∨ x ∈ (visits.map Visit.neuron).drop (k + 1) := by
  intro visits
  induction visits with
  | nil =>
    intro nn nn' _ _ k v hk
    simp at hk
  | cons w ws ih =>
    intro nn nn' h hfl k v hk x hx
    simp only [NeuralNetwork.replay] at h
    cases h1 : nn.replay_visit w with
    | none => simp [h1] at h
    | some nn1 =>
      simp only [h1] at h
      obtain ⟨⟨added, ha, _⟩, e2, e3, _⟩ := replay_visit_effect h1
      obtain ⟨_, _, _, _, added', ha', _⟩ := replay_frame _ _ _ h
      have hfl1 : ∀ y, nn1.forward_flag y = true →
          y ∈ ws.map Visit.neuron ∨ y ∈ nn1.next_queue := by
        intro y hy
        rcases e2 y hy with ⟨hne, hold⟩ | hin
        · rcases hfl y hold with hm | hm
          · simp only [List.map_cons, List.mem_cons] at hm
            rcases hm with hm | hm
            · exact absurd hm hne
            · exact Or.inl hm
          · right
            rw [ha]
            exact List.mem_append_left _ hm
        · exact Or.inr hin
      cases k with
      | zero =>
        simp only [List.getElem?_cons_zero, Option.some.injEq] at hk
        subst hk
        rcases hfl1 x (e3 x hx) with hm | hm
        · right
          simpa using hm
        · left
          rw [ha']
          exact List.mem_append_left _ hm
      | succ k =>
        simp only [List.getElem?_cons_succ] at hk
        rcases ih nn1 nn' h hfl1 k v hk x hx with hm | hm
        · exact Or.inl hm
        · right
          simpa using hm

/-- Claim C17, as amended. In a scheduler state whose pointers address neurons and in
which every neuron with its forward-queued flag set is in the forward current or next
queue, `run ()` returns, and every peer yielded by the fan-out of a neuron visited in
its forward pass (the visit number `k`) is at the end of the pass a member of the
forward next queue, or was waiting in the forward current queue behind the visited
neuron; the forward next queue at the end of the pass is the forward current queue
after the swap. -/
theorem yielded_peer_enqueued_or_waiting {U : Type} (S : Strategy U) (u : U)
    (nn : NeuralNetwork) (hv : nn.Valid) (hfl : nn.FlagsQueued) :
    ∃ r u1 pass, NeuralNetwork.run S u nn = some r ∧
      NeuralNetwork.forward_pass S u nn nn.current_queue = some (u1, pass, r.forward) ∧
      (∀ (k : Nat) (v : Visit), r.forward[k]? = some v → ∀ x ∈ v.peers,
        x ∈ pass.next_queue ∨ x ∈ nn.current_queue.drop (k + 1)) ∧
      (∀ v ∈ r.forward, v.fired = false → v.peers = []) ∧
      (nn.current_queue ≠ [] → r.net.current_queue = pass.next_queue) := by
  obtain ⟨r, u1, nn1, h1, h2, h3, h4, h5, h6, _, _, _⟩ := run_spec S u nn hv
  refine ⟨r, u1, nn1, h1, h2, ?_, fun v hv' hf => (h5 v hv' hf).1, ?_⟩
  · have hp := replay_peers r.forward nn nn1 h3 (by
      intro x hx
      rw [h4]
      exact hfl x (NeuralNetwork.forward_flag_valid hx) hx)
    rw [h4] at hp
    exact hp
  · intro hc
    rw [if_neg hc] at h6
    exact h6

theorem yielded_peer_enqueued_or_waiting_witness :
    pairSeeded.Valid ∧ pairSeeded.FlagsQueued ∧
    ∃ r u1 pass, NeuralNetwork.run alwaysStrategy () pairSeeded = some r ∧
      NeuralNetwork.forward_pass alwaysStrategy () pairSeeded pairSeeded.current_queue =
        some (u1, pass, r.forward) ∧
      (∀ (k : Nat) (v : Visit), r.forward[k]? = some v → ∀ x ∈ v.peers,
        x ∈ pass.next_queue ∨ x ∈ pairSeeded.current_queue.drop (k + 1)) ∧
      (∀ v ∈ r.forward, v.fired = false → v.peers = []) ∧
      (pairSeeded.current_queue ≠ [] → r.net.current_queue = pass.next_queue) :=
  ⟨by decide, by decide,
    yielded_peer_enqueued_or_waiting alwaysStrategy () pairSeeded (by decide) (by decide)⟩

/-- Claim C17, as stated: in the network `threeCreated` with outbound slot 0 of neuron
0 connected to inbound slot 0 of neuron 1, `start ()` with the draws
`drawTwoThenCount` seeds neurons 0 and 1; in the `run ()` that follows with the
strategy `alwaysStrategy`, the activation of neuron 0 returns true and its fan-out
yields neuron 1, which is in neither forward queue at the end of the pass nor in the
forward current queue after the swap. -/
theorem yielded_peer_not_enqueued :
    ∃ n1 n2 r pass, threeCreated.connect_neurons 3 (some 0) 0 (some 1) 0 = some n1 ∧
      n1.start drawTwoThenCount = some n2 ∧ n2.current_queue = [0, 1] ∧
      NeuralNetwork.run alwaysStrategy () n2 = some r ∧
      NeuralNetwork.forward_pass alwaysStrategy () n2 n2.current_queue =
        some ((), pass, r.forward) ∧
      r.forward = [⟨0, true, [1], []⟩, ⟨1, true, [], [0]⟩] ∧
      1 ∉ pass.next_queue ∧ 1 ∉ r.net.current_queue := by
  refine ⟨_, _, _, _, rfl, rfl, rfl, rfl, rfl, rfl, ?_, ?_⟩
  · decide
  · decide


/-! ## start on a newly populated scheduler -/

theorem picks_succ (rand : Nat → Nat) (nodes : List Nat) (k count : Nat) :
    picks rand nodes k (count + 1) =
      (nodes[rand k % nodes.length]?).toList ++ picks rand nodes (k + 1) count := by
  unfold picks
  rw [List.range_succ_eq_map, List.filterMap_cons, List.filterMap_map]
  have hf : ((fun i => nodes[rand (k + i) % nodes.length]?) ∘ Nat.succ) =
      (fun i => nodes[rand (k + 1 + i) % nodes.length]?) := by
    funext i
    simp only [Function.comp, Nat.succ_eq_add_one]
    rw [show k + (i + 1) = k + 1 + i by omega]
  rw [hf]
  simp only [Nat.add_zero]
  cases nodes[rand k % nodes.length]? <;> simp

theorem seed_spec (rand : Nat → Nat) : ∀ (remaining : Nat) (nn : NeuralNetwork) (k : Nat),
    (∀ x ∈ nn.neurons, x < nn.heap.length) → nn.neurons ≠ [] →
    ∃ nn', NeuralNetwork.seed rand nn k remaining = some nn' ∧
      nn'.current_queue = nn.current_queue ∧
      (∀ x, nn'.forward_flag x = true ↔
        (nn.forward_flag x = true ∨ x ∈ picks rand nn.neurons k remaining)) ∧
      (∀ x, x ∈ nn'.next_queue ↔
        (x ∈ nn.next_queue ∨ (x ∈ picks rand nn.neurons k remaining ∧
          nn.forward_flag x = false))) ∧
      (∀ x ∈ picks rand nn.neurons k remaining, x ∈ nn.neurons) := by
  intro remaining
  induction remaining with
  | zero =>
    intro nn k _ _
    exact ⟨nn, rfl, rfl, by simp [picks], by simp [picks], by simp [picks]⟩
  | succ r ih =>
    intro nn k hval hne
    have hlen : 0 < nn.neurons.length := List.length_pos.mpr hne
    have hlt : rand k % nn.neurons.length < nn.neurons.length := Nat.mod_lt _ hlen
    have hget : nn.neurons[rand k % nn.neurons.length]? =
        some (nn.neurons[rand k % nn.neurons.length]) := List.getElem?_eq_getElem hlt
    generalize nn.neurons[rand k % nn.neurons.length] = n at hget
    have hmem : n ∈ nn.neurons := List.mem_iff_getElem?.mpr ⟨_, hget⟩
    obtain ⟨nn1, h1⟩ := @add_to_update_queue_returns nn n (hval n hmem)
    obtain ⟨_, e2, _, _, e5, e6, _, e8, e9⟩ := add_to_update_queue_effect h1
    obtain ⟨nn', h2, c1, c2, c3, c4⟩ := ih nn1 (k + 1) (by
      intro x hx
      rw [e5] at hx
      rw [Graph.wiring_length e6]
      exact hval x hx) (by rw [e5]; exact hne)
    rw [e5] at c2 c3 c4
    have hp : picks rand nn.neurons k (r + 1) = n :: picks rand nn.neurons (k + 1) r := by
      rw [picks_succ, hget]
      rfl
    refine ⟨nn', ?_, c1.trans e2, ?_, ?_, ?_⟩
    · simp only [NeuralNetwork.seed, hget, h1]
      exact h2
    · intro x
      rw [c2 x, e8 x, hp]
      simp only [Bool.or_eq_true, decide_eq_true_eq, List.mem_cons]
      tauto
    · intro x
      rw [c3 x, e9, e8 x, hp]
      by_cases hx : x = n
      · subst hx
        cases hf : nn.forward_flag x <;> simp [hf]
      · cases hf : nn.forward_flag n <;> simp [hx, List.mem_cons]
    · intro x hx
      rw [hp] at hx
      rcases List.mem_cons.mp hx with hx | hx
      · exact hx ▸ hmem
      · exact c4 x hx

theorem newlyPopulated_flags {nn : NeuralNetwork} (h : nn.NewlyPopulated) (x : Nat) :
    nn.forward_flag x = false := by
  unfold NeuralNetwork.forward_flag
  cases hx : nn.heap[x]? with
  | none => rfl
  | some me => exact (h.2.2.2.2.2.2 me (List.mem_iff_getElem?.mpr ⟨x, hx⟩)).1

/-- Claim C20. For every newly populated scheduler and every sequence of random draws
`start ()` returns, and afterwards the forward next queue is empty, the forward
current queue holds no neuron twice, its members are exactly the nodes drawn, all of
them members of the node set, and a neuron has its forward-queued flag set exactly
when it was drawn. -/
theorem start_seeds_drawn (rand : Nat → Nat) (nn : NeuralNetwork) (h : nn.NewlyPopulated) :
    ∃ nn', nn.start rand = some nn' ∧ nn'.next_queue = [] ∧ nn'.current_queue.Nodup ∧
      (∀ x, x ∈ nn'.current_queue ↔ x ∈ nn.drawn rand) ∧
      (∀ x ∈ nn'.current_queue, x ∈ nn.neurons) ∧
      (∀ x, nn'.forward_flag x = true ↔ x ∈ nn.drawn rand) := by
  obtain ⟨hne, hval, hc, hn, hbc, hbn, hfl⟩ := h
  have hflag := newlyPopulated_flags ⟨hne, hval, hc, hn, hbc, hbn, hfl⟩
  obtain ⟨nn1, h1, _, c2, c3, c4⟩ :=
    seed_spec rand (rand 0 % nn.neurons.length) nn 1 hval hne
  have hinv : PassInvariant nn [] := by
    refine ⟨List.nodup_nil, ?_, ?_, ?_, ?_, ?_, ?_, hbc⟩
    · rw [hn]
      exact List.nodup_nil
    · rw [hbn]
      exact List.nodup_nil
    · intro x hx
      simp at hx
    · intro x hx
      rw [hn] at hx
      simp at hx
    · intro x hx
      simp at hx
    · intro x hx
      rw [hbn] at hx
      simp at hx
  have hinv1 := passInvariant_seed rand _ _ _ _ _ h1 hinv
  have hmem : ∀ x, x ∈ nn1.next_queue ↔ x ∈ nn.drawn rand := by
    intro x
    rw [c3 x, hn]
    simp [hflag x, NeuralNetwork.drawn]
  have h0 : ¬ nn.neurons.length = 0 := by
    intro h0
    exact hne (List.length_eq_zero.mp h0)
  refine ⟨nn1.swap_update_queues, ?_, rfl, hinv1.2.1, hmem, ?_, ?_⟩
  · unfold NeuralNetwork.start
    rw [if_neg h0, h1]
  · intro x hx
    exact c4 x ((hmem x).mp hx)
  · intro x
    show nn1.forward_flag x = true ↔ x ∈ nn.drawn rand
    rw [c2 x]
    simp [hflag x, NeuralNetwork.drawn]

theorem start_seeds_drawn_witness :
    threeCreated.NewlyPopulated ∧ threeCreated.drawn drawTwoThenCount = [0, 1] ∧
    ∃ nn', threeCreated.start drawTwoThenCount = some nn' ∧ nn'.next_queue = [] ∧
      nn'.current_queue.Nodup ∧
      (∀ x, x ∈ nn'.current_queue ↔ x ∈ threeCreated.drawn drawTwoThenCount) ∧
      (∀ x ∈ nn'.current_queue, x ∈ threeCreated.neurons) ∧
      (∀ x, nn'.forward_flag x = true ↔ x ∈ threeCreated.drawn drawTwoThenCount) :=
  ⟨by decide, by decide, start_seeds_drawn drawTwoThenCount threeCreated (by decide)⟩


/-! ## A visit of a neuron with one outbound slot -/

theorem first_synapse_single {U : Type} (S : Strategy U)
    (hout : ∀ u a i, (S.process_output u a i).2 = true) (u : U) (p : Propagator)
    (c : Connector) (hp : p.synapses.container = [c]) :
    ∃ u1 p1, p.first_synapse S u = some (u1, p1, c.neuron) ∧
      p1.synapses.container = [c] ∧ (c.neuron ≠ none → p1.synapses.itr = 0) := by
  obtain ⟨n, nth⟩ := c
  obtain ⟨pn, pd, ⟨cont, itr⟩⟩ := p
  simp only at hp
  subst hp
  cases n with
  | none =>
    exact ⟨u, ⟨pn, pd, ⟨[⟨none, nth⟩], 1⟩⟩, by
      simp [Propagator.first_synapse, Propagator.seek_synapse, ConnectorIterator.first,
        ConnectorIterator.next, ConnectorIterator.deref, ConnectorIterator.numof,
        ConnectorIterator.null, Connector.is_connected], rfl, by simp⟩
  | some b =>
    exact ⟨(S.process_output u pn 0).1, ⟨pn, pd, ⟨[⟨some b, nth⟩], 0⟩⟩, by
      simp [Propagator.first_synapse, Propagator.seek_synapse, ConnectorIterator.first,
        ConnectorIterator.next, ConnectorIterator.deref, ConnectorIterator.numof,
        ConnectorIterator.null, Connector.is_connected, Connector.get_neuron, hout],
      rfl, fun _ => rfl⟩

theorem fire_synapses_single {U : Type} (S : Strategy U) (u : U) (nn : NeuralNetwork)
    (p : Propagator) (c : Connector) (hp : p.synapses.container = [c])
    (hi : c.neuron ≠ none → p.synapses.itr = 0) (fuel : Nat) {u' : U} {nn' : NeuralNetwork}
    {p' : Propagator} {l : List Nat}
    (h : NeuralNetwork.fire_synapses S (fuel + 2) u nn p c.neuron = some (u', nn', p', l)) :
    l = c.neuron.toList := by
  obtain ⟨n, nth⟩ := c
  obtain ⟨pn, pd, ⟨cont, itr⟩⟩ := p
  simp only at hp
  subst hp
  cases n with
  | none =>
    simp [NeuralNetwork.fire_synapses] at h
    simp [h.2.2.2]
  | some b =>
    have hi0 : itr = 0 := hi (by simp)
    subst hi0
    simp only [NeuralNetwork.fire_synapses] at h
    cases h1 : nn.add_to_update_queue b with
    | none => simp [h1] at h
    | some nn1 =>
      simp [h1, Propagator.next_synapse, Propagator.seek_synapse, ConnectorIterator.next,
        ConnectorIterator.null, NeuralNetwork.fire_synapses] at h
      simp [h.2.2.2]

theorem forward_pass_single {U : Type} (S : Strategy U)
    (hact : ∀ u g a, (S.activate u g a).2 = true)
    (hout : ∀ u a i, (S.process_output u a i).2 = true) {u : U} {nn : NeuralNetwork} {X : Nat}
    {me : Neuron} {c : Connector} (hme : nn.heap[X]? = some me) (hs : me.synapses = [c])
    {u' : U} {nn' : NeuralNetwork} {visits : List Visit}
    (h : NeuralNetwork.forward_pass S u nn [X] = some (u', nn', visits)) :
    ∃ back, visits = [⟨X, true, c.neuron.toList, back⟩] := by
  simp only [NeuralNetwork.forward_pass, hme, hact, if_true] at h
  obtain ⟨u1, p1, h1, hc1, hi1⟩ := first_synapse_single S hout
    (S.activate u (nn.heap.set X (me.set_in_update_queue false)) X).1 (me.propagator X) c
    (by simp [Neuron.propagator, ConnectorIterator.over, hs])
  simp only [h1] at h
  have hnum : p1.synapses.numof + 1 = 0 + 2 := by
    simp [ConnectorIterator.numof, hc1]
  rw [hnum] at h
  cases h2 : NeuralNetwork.fire_synapses S (0 + 2) u1
      { nn with heap := nn.heap.set X (me.set_in_update_queue false) } p1 c.neuron with
  | none => simp [h2] at h
  | some t =>
    obtain ⟨u2, nn2, p2, peers⟩ := t
    have hpeers := fire_synapses_single S _ _ _ c hc1 hi1 0 h2
    subst hpeers
    simp only [h2] at h
    split at h
    · cases h3 : p2.first_dendrite S (S.should_backpropagate u2 X).1 with
      | none => simp [h3] at h
      | some t3 =>
        obtain ⟨u3, p3, m⟩ := t3
        simp only [h3] at h
        cases h4 : NeuralNetwork.fire_dendrites S (p3.dendrites.numof + 1) u3 nn2 p3 m with
        | none => simp [h4] at h
        | some t4 =>
          obtain ⟨u4, nn4, p4, back⟩ := t4
          simp only [h4] at h
          simp only [NeuralNetwork.forward_pass, Option.some.injEq, Prod.mk.injEq] at h
          exact ⟨back, h.2.2.symm⟩
    · simp only [NeuralNetwork.forward_pass, Option.some.injEq, Prod.mk.injEq] at h
      exact ⟨[], h.2.2.symm⟩


theorem replay_single {nn nn1 : NeuralNetwork} {X : Nat} {me : Neuron} {c : Connector}
    {fired : Bool} {back : List Nat} (hme : nn.heap[X]? = some me)
    (hflag : ∀ b, c.neuron = some b → b ≠ X → nn.forward_flag b = false)
    (h : nn.replay [⟨X, fired, c.neuron.toList, back⟩] = some nn1) :
    nn1.next_queue = nn.next_queue ++ c.neuron.toList ∧
    (∀ x, nn1.forward_flag x = true →
      x ∈ c.neuron.toList ∨ (x ≠ X ∧ nn.forward_flag x = true)) := by
  have hX : X < nn.heap.length := (List.getElem?_eq_some.mp hme).1
  simp only [NeuralNetwork.replay, NeuralNetwork.replay_visit, hme] at h
  have hf0 := @NeuralNetwork.forward_flag_of_set nn
    { nn with heap := nn.heap.set X (me.set_in_update_queue false) } X
    (me.set_in_update_queue false) rfl hX
  simp only [Neuron.forward_flag_set] at hf0
  obtain ⟨n, nth⟩ := c
  cases n with
  | none =>
    simp only [Option.toList, NeuralNetwork.enqueue_all] at h
    cases h2 : NeuralNetwork.enqueue_all_bp
        { nn with heap := nn.heap.set X (me.set_in_update_queue false) } back with
    | none => simp [h2] at h
    | some nn2 =>
      simp only [h2, Option.some.injEq] at h
      subst h
      obtain ⟨_, _, _, f4, _, f6⟩ := enqueue_all_bp_frame _ _ _ h2
      refine ⟨?_, ?_⟩
      · rw [f4]
        simp
      · intro x hx
        rw [f6 x, hf0 x] at hx
        by_cases hxX : x = X
        · simp [hxX] at hx
        · rw [if_neg hxX] at hx
          exact Or.inr ⟨hxX, hx⟩
  | some b =>
    simp only [Option.toList, NeuralNetwork.enqueue_all] at h
    cases h1 : NeuralNetwork.add_to_update_queue
        { nn with heap := nn.heap.set X (me.set_in_update_queue false) } b with
    | none => simp [h1] at h
    | some nnA =>
      simp only [h1] at h
      cases h2 : NeuralNetwork.enqueue_all_bp nnA back with
      | none => simp [h2] at h
      | some nn2 =>
        simp only [h2, Option.some.injEq] at h
        subst h
        obtain ⟨_, _, _, f4, _, f6⟩ := enqueue_all_bp_frame _ _ _ h2
        obtain ⟨_, _, _, _, _, _, _, e8, e9⟩ := add_to_update_queue_effect h1
        have hb : NeuralNetwork.forward_flag
            { nn with heap := nn.heap.set X (me.set_in_update_queue false) } b = false := by
          rw [hf0 b]
          by_cases hbX : b = X
          · rw [if_pos hbX]
          · rw [if_neg hbX]
            exact hflag b rfl hbX
        refine ⟨?_, ?_⟩
        · rw [f4, e9, hb]
          rfl
        · intro x hx
          rw [f6 x, e8 x, hf0 x] at hx
          by_cases hxb : x = b
          · left
            simp [hxb]
          · right
            by_cases hxX : x = X
            · rw [if_pos hxX] at hx
              simp [hxb] at hx
            · rw [if_neg hxX] at hx
              simp [hxb] at hx
              exact ⟨hxX, hx⟩

/-- The call of `run ()` in a state whose forward current queue holds one neuron `X`
with a single outbound slot, with a strategy that always reports a change and always
marks outbound edges active: `X` is the neuron visited, and the forward current queue
afterwards holds the peer of the slot, or nothing when the slot is free. -/
theorem run_single {U : Type} (S : Strategy U)
    (hact : ∀ u g a, (S.activate u g a).2 = true)
    (hout : ∀ u a i, (S.process_output u a i).2 = true) (u : U) (nn : NeuralNetwork)
    (X : Nat) (me : Neuron) (c : Connector) (hme : nn.heap[X]? = some me)
    (hs : me.synapses = [c]) (hpe : PeersExist nn.heap) (hcur : nn.current_queue = [X])
    (hnext : nn.next_queue = []) (hbp : nn.bp_current_queue = [])
    (hflag : ∀ b, c.neuron = some b → b ≠ X → nn.forward_flag b = false) :
    ∃ r, NeuralNetwork.run S u nn = some r ∧ r.forward.map Visit.neuron = [X] ∧
      r.net.current_queue = c.neuron.toList ∧ r.net.next_queue = [] ∧
      r.net.bp_current_queue = [] ∧ Graph.wiring r.net.heap = Graph.wiring nn.heap ∧
      (∀ x, r.net.forward_flag x = true →
        x ∈ c.neuron.toList ∨ (x ≠ X ∧ nn.forward_flag x = true)) := by
  have hX : X < nn.heap.length := (List.getElem?_eq_some.mp hme).1
  have hv : nn.Valid := by
    refine ⟨hpe, ?_, ?_⟩
    · intro x hx
      rw [hcur] at hx
      rw [List.mem_singleton.mp hx]
      exact hX
    · intro x hx
      rw [hbp] at hx
      simp at hx
  obtain ⟨r, u1, nn1, h1, h2, h3, h4, _, h6, h7, h8, h9, h10⟩ := run_spec S u nn hv
  have hne : nn.current_queue ≠ [] := by simp [hcur]
  rw [if_neg hne] at h6 h7
  rw [hcur] at h2 h4
  obtain ⟨back, hvis⟩ := forward_pass_single S hact hout hme hs h2
  rw [hvis] at h3
  obtain ⟨q1, q2⟩ := replay_single hme hflag h3
  refine ⟨r, h1, h4, ?_, h7, h10 hbp, h9, ?_⟩
  · rw [h6, q1, hnext]
    rfl
  · intro x hx
    rw [h8 x] at hx
    exact q2 x hx


/-! ## A chain of three neurons -/

theorem synapses_of_wiring {g g' : Graph} (h : Graph.wiring g' = Graph.wiring g) (x : Nat) :
    (g'[x]?).map Neuron.synapses = (g[x]?).map Neuron.synapses := by
  have h1 : ((Graph.wiring g')[x]?).map Prod.snd = ((Graph.wiring g)[x]?).map Prod.snd := by
    rw [h]
  simpa [Graph.wiring, List.getElem?_map, Option.map_map, Function.comp] using h1

/-- Claim C16. Let the single outbound slot of `A` be wired to `B`, the single
outbound slot of `B` to `C`, and the single outbound slot of `C` be free; let the
forward current queue be `[A]`, the forward next queue and the backward current queue
empty, and the forward-queued flags of `B` and `C` clear. With a strategy whose
activation always reports a change and whose outbound predicate always holds, three
calls of `run ()` return; they visit `A`, then `B`, then `C`, one neuron per call, and
the forward current queue is `[B]` after the first, `[C]` after the second and empty
after the third; `B` and `C` are different neurons, so no call visits both. -/
theorem chain_wave_by_wave {U : Type} (S : Strategy U)
    (hact : ∀ u g a, (S.activate u g a).2 = true)
    (hout : ∀ u a i, (S.process_output u a i).2 = true) (u : U) (nn : NeuralNetwork)
    (A B C dB dC dN : Nat)
    (hA : (nn.heap[A]?).map Neuron.synapses = some [⟨some B, dB⟩])
    (hB : (nn.heap[B]?).map Neuron.synapses = some [⟨some C, dC⟩])
    (hC : (nn.heap[C]?).map Neuron.synapses = some [⟨none, dN⟩])
    (hpe : PeersExist nn.heap) (hcur : nn.current_queue = [A]) (hnext : nn.next_queue = [])
    (hbp : nn.bp_current_queue = [])
    (hfB : nn.forward_flag B = false) (hfC : nn.forward_flag C = false) :
    ∃ r1 r2 r3, NeuralNetwork.run S u nn = some r1 ∧
      NeuralNetwork.run S r1.user r1.net = some r2 ∧
      NeuralNetwork.run S r2.user r2.net = some r3 ∧
      r1.net.current_queue = [B] ∧ r2.net.current_queue = [C] ∧ r3.net.current_queue = [] ∧
      r1.forward.map Visit.neuron = [A] ∧ r2.forward.map Visit.neuron = [B] ∧
      r3.forward.map Visit.neuron = [C] ∧ B ≠ C ∧
      (∀ r ∈ [r1, r2, r3],
        ¬ (B ∈ r.forward.map Visit.neuron ∧ C ∈ r.forward.map Visit.neuron)) := by
  have hBC : B ≠ C := by
    intro e
    rw [e, hC] at hB
    simp at hB
  obtain ⟨a, hA1, hA2⟩ := Option.map_eq_some'.mp hA
  obtain ⟨r1, g1, v1, c1, n1, b1, w1, f1⟩ := run_single S hact hout u nn A a ⟨some B, dB⟩
    hA1 hA2 hpe hcur hnext hbp (fun b hb _ => by
      simp only [Option.some.injEq] at hb
      rw [← hb]
      exact hfB)
  have hB1 := (synapses_of_wiring w1 B).trans hB
  have hC1 := (synapses_of_wiring w1 C).trans hC
  obtain ⟨b, hB2, hB3⟩ := Option.map_eq_some'.mp hB1
  have hfC1 : r1.net.forward_flag C = false := by
    cases hf : r1.net.forward_flag C with
    | false => rfl
    | true =>
      rcases f1 C hf with hm | ⟨_, hm⟩
      · simp at hm
        exact absurd hm.symm hBC
      · rw [hfC] at hm
        cases hm
  obtain ⟨r2, g2, v2, c2, n2, b2, w2, _⟩ := run_single S hact hout r1.user r1.net B b
    ⟨some C, dC⟩ hB2 hB3 (peersExist_of_wiring w1 hpe) c1 n1 b1 (fun x hx _ => by
      simp only [Option.some.injEq] at hx
      rw [← hx]
      exact hfC1)
  have hC2 := (synapses_of_wiring w2 C).trans hC1
  obtain ⟨c, hC3, hC4⟩ := Option.map_eq_some'.mp hC2
  obtain ⟨r3, g3, v3, c3, _, _, _, _⟩ := run_single S hact hout r2.user r2.net C c
    ⟨none, dN⟩ hC3 hC4 (peersExist_of_wiring w2 (peersExist_of_wiring w1 hpe)) c2 n2 b2
    (fun x hx _ => by simp at hx)
  refine ⟨r1, r2, r3, g1, g2, g3, c1, c2, c3, v1, v2, v3, hBC, ?_⟩
  intro r hr
  simp only [List.mem_cons, List.mem_singleton, List.not_mem_nil, or_false] at hr
  have hAC : A ≠ C := by
    intro e
    rw [e, hC] at hA
    simp at hA
  have hAB : A ≠ B := by
    intro e
    rw [e, hB] at hA
    simp at hA
    exact hBC hA.1.symm
  rcases hr with hr | hr | hr
  · rw [hr, v1]
    simp [hAB.symm]
  · rw [hr, v2]
    simp [hBC.symm]
  · rw [hr, v3]
    simp [hBC]

theorem chain_wave_by_wave_witness :
    chainSeeded.current_queue = [0] ∧
    ∃ r1 r2 r3, NeuralNetwork.run alwaysStrategy () chainSeeded = some r1 ∧
      NeuralNetwork.run alwaysStrategy r1.user r1.net = some r2 ∧
      NeuralNetwork.run alwaysStrategy r2.user r2.net = some r3 ∧
      r1.net.current_queue = [1] ∧ r2.net.current_queue = [2] ∧ r3.net.current_queue = [] ∧
      r1.forward.map Visit.neuron = [0] ∧ r2.forward.map Visit.neuron = [1] ∧
      r3.forward.map Visit.neuron = [2] ∧ 1 ≠ 2 ∧
      (∀ r ∈ [r1, r2, r3],
        ¬ (1 ∈ r.forward.map Visit.neuron ∧ 2 ∈ r.forward.map Visit.neuron)) :=
  ⟨by decide, chain_wave_by_wave alwaysStrategy (fun _ _ _ => rfl) (fun _ _ _ => rfl) ()
    chainSeeded 0 1 2 0 0 0 (by decide) (by decide) (by decide) (by decide) (by decide)
    (by decide) (by decide) (by decide) (by decide)⟩


/-! ## The size of the propagator store -/

theorem create_neuron_store (nn : NeuralNetwork) (factory : NeuronFactory) (d s : Nat) :
    (nn.create_neuron factory d s).propagator_store_size =
      max factory.sizeof_propagator nn.propagator_store_size := by
  show (if factory.sizeof_propagator > nn.propagator_store_size then factory.sizeof_propagator
    else nn.propagator_store_size) = _
  split <;> omega

theorem create_neurons_store : ∀ (calls : List (NeuronFactory × Nat × Nat))
    (nn : NeuralNetwork), (nn.create_neurons calls).propagator_store_size =
      max nn.propagator_store_size (largest (calls.map (fun c => c.1.sizeof_propagator))) := by
  intro calls
  induction calls with
  | nil =>
    intro nn
    simp [NeuralNetwork.create_neurons, largest]
  | cons c cs ih =>
    intro nn
    obtain ⟨factory, d, s⟩ := c
    simp only [NeuralNetwork.create_neurons, List.map_cons]
    rw [ih, create_neuron_store]
    simp only [largest, List.foldr_cons]
    omega

theorem le_largest {sizes : List Nat} {x : Nat} (h : x ∈ sizes) : x ≤ largest sizes := by
  induction sizes with
  | nil => simp at h
  | cons y ys ih =>
    simp only [largest, List.foldr_cons]
    rcases List.mem_cons.mp h with h | h
    · omega
    · have := ih h
      simp only [largest] at this
      omega

/-- Claim C21. After any finite sequence of `create_neuron (factory, d, s)` calls on a
newly constructed network, `propagator_store_size` is the largest
`sizeof_propagator ()` of the neurons created so far, hence at least that of each of
them; a further `create_neuron` never decreases it, leaves it unchanged when the
new neuron's size does not exceed it, and sets it to the new neuron's size
otherwise. -/
theorem arena_is_largest (calls : List (NeuronFactory × Nat × Nat)) :
    (NeuralNetwork.new.create_neurons calls).propagator_store_size =
      largest (calls.map (fun c => c.1.sizeof_propagator)) ∧
    (∀ c ∈ calls, c.1.sizeof_propagator ≤
      (NeuralNetwork.new.create_neurons calls).propagator_store_size) ∧
    (∀ (nn : NeuralNetwork) (factory : NeuronFactory) (d s : Nat),
      nn.propagator_store_size ≤ (nn.create_neuron factory d s).propagator_store_size ∧
      (factory.sizeof_propagator ≤ nn.propagator_store_size →
        (nn.create_neuron factory d s).propagator_store_size = nn.propagator_store_size) ∧
      (nn.propagator_store_size < factory.sizeof_propagator →
        (nn.create_neuron factory d s).propagator_store_size = factory.sizeof_propagator)) := by
  have h0 : (NeuralNetwork.new.create_neurons calls).propagator_store_size =
      largest (calls.map (fun c => c.1.sizeof_propagator)) := by
    rw [create_neurons_store]
    show max 0 _ = _
    omega
  refine ⟨h0, ?_, ?_⟩
  · intro c hc
    rw [h0]
    exact le_largest (List.mem_map.mpr ⟨c, hc, rfl⟩)
  · intro nn factory d s
    rw [create_neuron_store]
    refine ⟨by omega, fun h => by omega, fun h => by omega⟩


/-! ## The backward current queue stays empty -/

theorem enqueue_all_bp_keeps : ∀ (l : List Nat) (nn nn' : NeuralNetwork),
    nn.enqueue_all_bp l = some nn' → ∀ x ∈ nn.bp_next_queue, x ∈ nn'.bp_next_queue := by
  intro l
  induction l with
  | nil =>
    intro nn nn' h x hx
    simp [NeuralNetwork.enqueue_all_bp] at h
    exact h ▸ hx
  | cons n l ih =>
    intro nn nn' h x hx
    simp only [NeuralNetwork.enqueue_all_bp] at h
    cases h1 : nn.add_to_bp_update_queue n with
    | none => simp [h1] at h
    | some nn1 =>
      simp only [h1] at h
      have e := (add_to_bp_update_queue_effect h1).2.2.2.2.2.2.2.2
      refine ih nn1 nn' h x ?_
      rw [e]
      split
      · exact hx
      · exact List.mem_append_left _ hx

theorem replay_keeps_bp : ∀ (visits : List Visit) (nn nn' : NeuralNetwork),
    nn.replay visits = some nn' → ∀ x ∈ nn.bp_next_queue, x ∈ nn'.bp_next_queue := by
  intro visits
  induction visits with
  | nil =>
    intro nn nn' h x hx
    simp [NeuralNetwork.replay] at h
    exact h ▸ hx
  | cons v vs ih =>
    intro nn nn' h x hx
    simp only [NeuralNetwork.replay] at h
    cases h1 : nn.replay_visit v with
    | none => simp [h1] at h
    | some nn1 =>
      simp only [h1] at h
      refine ih nn1 nn' h x ?_
      unfold NeuralNetwork.replay_visit at h1
      cases hg : nn.heap[v.neuron]? with
      | none => simp [hg] at h1
      | some me =>
        simp only [hg] at h1
        cases h2 : NeuralNetwork.enqueue_all
            { nn with heap := nn.heap.set v.neuron (me.set_in_update_queue false) } v.peers with
        | none => simp [h2] at h1
        | some nn2 =>
          simp only [h2] at h1
          have e := (enqueue_all_frame _ _ _ h2).2.2.2.1
          exact enqueue_all_bp_keeps _ _ _ h1 x (by rw [e]; exact hx)

theorem seed_keeps_bp (rand : Nat → Nat) : ∀ (remaining : Nat) (nn nn' : NeuralNetwork)
    (k : Nat), NeuralNetwork.seed rand nn k remaining = some nn' →
    nn'.bp_next_queue = nn.bp_next_queue := by
  intro remaining
  induction remaining with
  | zero =>
    intro nn nn' k h
    simp [NeuralNetwork.seed] at h
    rw [h]
  | succ r ih =>
    intro nn nn' k h
    simp only [NeuralNetwork.seed] at h
    cases h1 : nn.neurons[rand k % nn.neurons.length]? with
    | none => simp [h1] at h
    | some n =>
      simp only [h1] at h
      cases h2 : nn.add_to_update_queue n with
      | none => simp [h2] at h
      | some nn1 =>
        simp only [h2] at h
        rw [ih _ _ _ h, (add_to_update_queue_effect h2).2.2.2.1]

theorem start_keeps_bp {nn nn' : NeuralNetwork} {rand : Nat → Nat}
    (h : nn.start rand = some nn') : nn'.bp_next_queue = nn.bp_next_queue := by
  unfold NeuralNetwork.start at h
  by_cases h0 : nn.neurons.length = 0
  · simp [h0] at h
  · rw [if_neg h0] at h
    cases h1 : NeuralNetwork.seed rand nn 1 (rand 0 % nn.neurons.length) with
    | none => simp [h1] at h
    | some nn1 =>
      simp only [h1, Option.some.injEq] at h
      subst h
      exact seed_keeps_bp rand _ nn nn1 _ h1

theorem run_without_feedback {U : Type} (S : Strategy U) {u : U} {nn : NeuralNetwork}
    {r : RunResult U} (h : NeuralNetwork.run S u nn = some r)
    (hbp : nn.bp_current_queue = []) :
    r.backward = [] ∧ r.net.bp_current_queue = [] ∧
    ∀ x ∈ nn.bp_next_queue, x ∈ r.net.bp_next_queue := by
  unfold NeuralNetwork.run at h
  cases h1 : NeuralNetwork.run_forward S u nn with
  | none => simp [h1] at h
  | some t =>
    obtain ⟨u1, nn1, fwd⟩ := t
    simp only [h1] at h
    have hfw : nn1.bp_current_queue = [] ∧ ∀ x ∈ nn.bp_next_queue, x ∈ nn1.bp_next_queue := by
      unfold NeuralNetwork.run_forward at h1
      by_cases hc : nn.current_queue.length ≠ 0
      · rw [if_pos hc] at h1
        cases h2 : NeuralNetwork.forward_pass S u nn nn.current_queue with
        | none => simp [h2] at h1
        | some t2 =>
          obtain ⟨u2, nn2, vs⟩ := t2
          simp only [h2, Option.some.injEq, Prod.mk.injEq] at h1
          obtain ⟨_, rfl, _⟩ := h1
          obtain ⟨_, m2, _⟩ := forward_pass_replays S _ _ _ _ _ _ h2
          obtain ⟨_, _, f3, _⟩ := replay_frame _ _ _ m2
          exact ⟨f3.trans hbp, replay_keeps_bp _ nn nn2 m2⟩
      · rw [if_neg hc] at h1
        simp only [Option.some.injEq, Prod.mk.injEq] at h1
        obtain ⟨_, rfl, _⟩ := h1
        exact ⟨hbp, fun x hx => hx⟩
    have hlen : ¬ nn1.bp_current_queue.length ≠ 0 := by simp [hfw.1]
    simp only [NeuralNetwork.run_backward, if_neg hlen, Option.some.injEq] at h
    subst h
    exact ⟨rfl, hfw.1, hfw.2⟩

theorem scheduled_of_later {nn0 nn : NeuralNetwork} (h0 : Scheduled nn0) (h : Later nn0 nn) :
    Scheduled nn := by
  induction h with
  | now => exact h0
  | create_neuron nn factory d s _ ih => exact Scheduled.create_neuron nn factory d s ih
  | connect fuel nn nn' a s b d _ hc ih => exact Scheduled.connect fuel nn nn' a s b d ih hc
  | start rand nn nn' _ hs ih => exact Scheduled.start rand nn nn' ih hs
  | run S u nn r _ hr ih => exact Scheduled.run S u nn r ih hr
  | add_to_update_queue nn nn' n _ ha ih => exact Scheduled.add_to_update_queue nn nn' n ih ha
  | add_to_bp_update_queue nn nn' n _ ha ih =>
    exact Scheduled.add_to_bp_update_queue nn nn' n ih ha

theorem later_keeps_bp {nn0 nn : NeuralNetwork} (h0 : Scheduled nn0) (h : Later nn0 nn) :
    ∀ x ∈ nn0.bp_next_queue, x ∈ nn.bp_next_queue := by
  induction h with
  | now => exact fun x hx => hx
  | create_neuron nn factory d s _ ih => exact ih
  | connect fuel nn nn' a s b d _ hc ih =>
    unfold NeuralNetwork.connect_neurons at hc
    split at hc
    · simp only [Option.some.injEq] at hc
      subst hc
      exact ih
    · cases hc
  | start rand nn nn' _ hs ih =>
    rw [start_keeps_bp hs]
    exact ih
  | run S u nn r hl hr ih =>
    have hinv := queueInvariant_of_scheduled (scheduled_of_later h0 hl)
    have hk := (run_without_feedback S hr hinv.2.2.2.2.2.2.2).2.2
    exact fun x hx => hk x (ih x hx)
  | add_to_update_queue nn nn' n _ ha ih =>
    rw [(add_to_update_queue_effect ha).2.2.2.1]
    exact ih
  | add_to_bp_update_queue nn nn' n _ ha ih =>
    intro x hx
    rw [(add_to_bp_update_queue_effect ha).2.2.2.2.2.2.2.2]
    split
    · exact ih x hx
    · exact List.mem_append_left _ (ih x hx)

/-- Claim C26. In every scheduler state reached from a newly constructed
`NeuralNetwork` by `create_neuron`, `connect`, `start`, `run`, `add_to_update_queue`
and `add_to_bp_update_queue`, the backward current queue is empty and
`neurons_backpropagating_count ()` is 0; a `run ()` from such a state gives no neuron
a backward activation; and a neuron that is in the backward next queue is, in every
state reached later, still in the backward next queue with its backward-queued flag
set. -/
theorem backward_current_always_empty (nn0 : NeuralNetwork) (h0 : Scheduled nn0) :
    nn0.bp_current_queue = [] ∧ nn0.neurons_backpropagating_count = 0 ∧
    (∀ (U : Type) (S : Strategy U) (u : U) (r : RunResult U),
      NeuralNetwork.run S u nn0 = some r → r.backward = []) ∧
    (∀ nn, Later nn0 nn → ∀ x ∈ nn0.bp_next_queue,
      x ∈ nn.bp_next_queue ∧ nn.backward_flag x = true ∧ nn.bp_current_queue = []) := by
  have hinv := queueInvariant_of_scheduled h0
  have hbp := hinv.2.2.2.2.2.2.2
  refine ⟨hbp, ?_, ?_, ?_⟩
  · show nn0.bp_current_queue.length = 0
    rw [hbp]
    rfl
  · intro U S u r hr
    exact (run_without_feedback S hr hbp).1
  · intro nn hl x hx
    have hinv1 := queueInvariant_of_scheduled (scheduled_of_later h0 hl)
    have hx1 := later_keeps_bp h0 hl x hx
    exact ⟨hx1, hinv1.2.2.2.2.2.2.1 x hx1, hinv1.2.2.2.2.2.2.2⟩

theorem backward_current_always_empty_witness :
    Scheduled feedbackPending.net ∧ feedbackPending.net.bp_next_queue = [0] ∧
    feedbackPending.net.bp_current_queue = [] ∧
    feedbackPending.net.neurons_backpropagating_count = 0 ∧
    (∀ (U : Type) (S : Strategy U) (u : U) (r : RunResult U),
      NeuralNetwork.run S u feedbackPending.net = some r → r.backward = []) ∧
    (∀ nn, Later feedbackPending.net nn → ∀ x ∈ feedbackPending.net.bp_next_queue,
      x ∈ nn.bp_next_queue ∧ nn.backward_flag x = true ∧ nn.bp_current_queue = []) :=
  have hs : Scheduled feedbackPending.net :=
    Scheduled.run alwaysStrategy () linkedSeeded feedbackPending
      (Scheduled.start drawOnes _ linkedSeeded
        (Scheduled.connect 3 twoCreated _ (some 0) 0 (some 1) 0
          (Scheduled.create_neuron _ sampleFactory 1 1
            (Scheduled.create_neuron _ sampleFactory 1 1 Scheduled.new)) rfl) rfl) rfl
  ⟨hs, by decide, backward_current_always_empty feedbackPending.net hs⟩


/-! ## The fan-out of a propagator -/

theorem seek_synapse_scan {U : Type} (S : Strategy U) : ∀ (cs : List Connector) (fuel : Nat)
    (u : U) (p : Propagator) (s : Nat),
    p.synapses.container.drop s = cs → p.synapses.itr = s → cs.length < fuel →
    Propagator.seek_synapse S fuel u p
        (if s < p.synapses.container.length then some s else none) =
      some ((next_active S p.neuron u s cs).1,
        { p with synapses := ⟨p.synapses.container, (next_active S p.neuron u s cs).2.1⟩ },
        (next_active S p.neuron u s cs).2.2) := by
  intro cs
  induction cs with
  | nil =>
    intro fuel u p s hd hi _
    have hs : ¬ s < p.synapses.container.length := by
      intro hlt
      have := List.drop_eq_nil_iff.mp hd
      omega
    obtain ⟨pn, pd, ⟨cont, itr⟩⟩ := p
    simp only at hi
    subst hi
    rw [if_neg hs]
    cases fuel <;> simp [Propagator.seek_synapse, next_active]
  | cons c cs ih =>
    intro fuel u p s hd hi hf
    obtain ⟨pn, pd, ⟨cont, itr⟩⟩ := p
    simp only at hi hd
    subst hi
    have hs : itr < cont.length := by
      by_contra hge
      rw [List.drop_eq_nil_iff.mpr (Nat.le_of_not_lt hge)] at hd
      cases hd
    have hget : cont[itr]? = some c := by
      have := congrArg List.head? hd
      simpa [List.head?_drop] using this
    have hd1 : cont.drop (itr + 1) = cs := by
      have := congrArg List.tail hd
      simpa [List.tail_drop] using this
    obtain ⟨f, rfl⟩ : ∃ f, fuel = f + 1 := ⟨fuel - 1, by simp at hf; omega⟩
    have hf1 : cs.length < f := by simp at hf; omega
    have hnext : (if itr + 1 < cont.length then some (itr + 1) else none) =
        (if itr + 1 = cont.length then none else some (itr + 1)) := by
      by_cases he : itr + 1 = cont.length
      · rw [if_pos he, if_neg (by omega)]
      · rw [if_neg he, if_pos (by omega)]
    have hrec := fun (u1 : U) => ih f u1 ⟨pn, pd, ⟨cont, itr + 1⟩⟩ (itr + 1) hd1 rfl hf1
    simp only [hnext] at hrec
    simp only [if_pos hs, Propagator.seek_synapse, ConnectorIterator.deref, hget, next_active,
      ConnectorIterator.next, ConnectorIterator.null]
    by_cases he : itr + 1 = cont.length
    · simp only [if_pos he] at hrec ⊢
      by_cases hc : c.is_connected = true
      · simp only [hc, if_true]
        by_cases hr : (S.process_output u pn itr).2 = true
        · simp only [hr, if_true]
        · simp only [hr, if_false, Bool.false_eq_true]
          exact hrec _
      · simp only [hc, if_false, Bool.false_eq_true]
        exact hrec _
    · simp only [if_neg he] at hrec ⊢
      by_cases hc : c.is_connected = true
      · simp only [hc, if_true]
        by_cases hr : (S.process_output u pn itr).2 = true
        · simp only [hr, if_true]
        · simp only [hr, if_false, Bool.false_eq_true]
          exact hrec _
      · simp only [hc, if_false, Bool.false_eq_true]
        exact hrec _

theorem next_active_bound {U : Type} (S : Strategy U) (self : Nat) : ∀ (cs : List Connector)
    (u : U) (i : Nat), i ≤ (next_active S self u i cs).2.1 ∧
      (next_active S self u i cs).2.1 ≤ i + cs.length ∧
      (∀ b, (next_active S self u i cs).2.2 = some b →
        (next_active S self u i cs).2.1 < i + cs.length) := by
  intro cs
  induction cs with
  | nil =>
    intro u i
    simp [next_active]
  | cons c cs ih =>
    intro u i
    simp only [next_active, List.length_cons]
    by_cases hc : c.is_connected = true
    · simp only [hc, if_true]
      by_cases hr : (S.process_output u self i).2 = true
      · simp only [hr, if_true]
        refine ⟨Nat.le_refl _, by omega, fun _ _ => by omega⟩
      · simp only [hr, if_false, Bool.false_eq_true]
        obtain ⟨h1, h2, h3⟩ := ih (S.process_output u self i).1 (i + 1)
        exact ⟨by omega, by omega, fun b hb => by have := h3 b hb; omega⟩
    · simp only [hc, if_false, Bool.false_eq_true]
      obtain ⟨h1, h2, h3⟩ := ih u (i + 1)
      exact ⟨by omega, by omega, fun b hb => by have := h3 b hb; omega⟩

theorem active_slots_scan {U : Type} (S : Strategy U) (self : Nat) (cont : List Connector) :
    ∀ (cs : List Connector) (u : U) (s : Nat), cont.drop s = cs →
    active_slots S self u s cs =
      (match (next_active S self u s cs).2.2 with
       | none => ((next_active S self u s cs).1, [])
       | some b =>
         ((active_slots S self (next_active S self u s cs).1
            ((next_active S self u s cs).2.1 + 1)
            (cont.drop ((next_active S self u s cs).2.1 + 1))).1,
          ((next_active S self u s cs).2.1, b) ::
            (active_slots S self (next_active S self u s cs).1
              ((next_active S self u s cs).2.1 + 1)
              (cont.drop ((next_active S self u s cs).2.1 + 1))).2)) := by
  intro cs
  induction cs with
  | nil =>
    intro u s _
    simp [next_active, active_slots]
  | cons c cs ih =>
    intro u s hd
    have hd1 : cont.drop (s + 1) = cs := by
      have := congrArg List.tail hd
      simpa [List.tail_drop] using this
    obtain ⟨n, nth⟩ := c
    cases n with
    | none =>
      simp only [next_active, active_slots, Connector.is_connected]
      simpa using ih u (s + 1) hd1
    | some b =>
      by_cases hr : (S.process_output u self s).2 = true
      · simp [next_active, active_slots, Connector.is_connected, Connector.get_neuron, hr, hd1]
      · simp only [next_active, active_slots, Connector.is_connected, hr]
        simpa using ih (S.process_output u self s).1 (s + 1) hd1

theorem next_synapse_scan {U : Type} (S : Strategy U) (u : U) (pn : Nat)
    (pd : ConnectorIterator Connector) (cont : List Connector) (s : Nat)
    (hs : s < cont.length) :
    Propagator.next_synapse S u ⟨pn, pd, ⟨cont, s⟩⟩ =
      some ((next_active S pn u (s + 1) (cont.drop (s + 1))).1,
        ⟨pn, pd, ⟨cont, (next_active S pn u (s + 1) (cont.drop (s + 1))).2.1⟩⟩,
        (next_active S pn u (s + 1) (cont.drop (s + 1))).2.2) := by
  have h := seek_synapse_scan S (cont.drop (s + 1)) (cont.length + 1) u
    ⟨pn, pd, ⟨cont, s + 1⟩⟩ (s + 1) rfl rfl (by simp; omega)
  simp only [Propagator.next_synapse, ConnectorIterator.next, if_pos hs,
    ConnectorIterator.null, ConnectorIterator.numof]
  by_cases he : s + 1 = cont.length
  · rw [if_neg (by simp only; omega)] at h
    rw [if_pos he]
    exact h
  · rw [if_pos (by simp only; omega)] at h
    rw [if_neg he]
    exact h

theorem first_synapse_scan {U : Type} (S : Strategy U) (u : U) (p : Propagator) :
    p.first_synapse S u =
      some ((next_active S p.neuron u 0 p.synapses.container).1,
        ⟨p.neuron, p.dendrites,
          ⟨p.synapses.container, (next_active S p.neuron u 0 p.synapses.container).2.1⟩⟩,
        (next_active S p.neuron u 0 p.synapses.container).2.2) := by
  obtain ⟨pn, pd, ⟨cont, itr⟩⟩ := p
  have h := seek_synapse_scan S cont (cont.length + 1) u ⟨pn, pd, ⟨cont, 0⟩⟩ 0 rfl rfl
    (by omega)
  simp only [Propagator.first_synapse, ConnectorIterator.first_fst,
    ConnectorIterator.first_snd, ConnectorIterator.numof]
  by_cases he : 0 = cont.length
  · rw [if_neg (by simp only; omega)] at h
    rw [if_pos he]
    exact h
  · rw [if_pos (by simp only; omega)] at h
    rw [if_neg he]
    exact h

theorem fan_out_scan {U : Type} (S : Strategy U) (pn : Nat) (pd : ConnectorIterator Connector)
    (cont : List Connector) : ∀ (m : Nat) (u : U) (s f : Nat),
    cont.length - s ≤ m → s ≤ cont.length → m ≤ f →
    ∃ p', Propagator.fan_out S f (next_active S pn u s (cont.drop s)).1
        ⟨pn, pd, ⟨cont, (next_active S pn u s (cont.drop s)).2.1⟩⟩
        (next_active S pn u s (cont.drop s)).2.2 =
      some ((active_slots S pn u s (cont.drop s)).1, p',
        (active_slots S pn u s (cont.drop s)).2.map Prod.snd) ∧
      p'.neuron = pn ∧ p'.dendrites = pd ∧ p'.synapses.container = cont := by
  intro m
  induction m with
  | zero =>
    intro u s f hm hs _
    have hse : s = cont.length := by omega
    subst hse
    rw [List.drop_length]
    refine ⟨⟨pn, pd, ⟨cont, cont.length⟩⟩, ?_, rfl, rfl, rfl⟩
    cases f <;> simp [next_active, active_slots, Propagator.fan_out]
  | succ m ih =>
    intro u s f hm hs hf
    obtain ⟨b1, b2, b3⟩ := next_active_bound S pn (cont.drop s) u s
    rw [active_slots_scan S pn cont (cont.drop s) u s rfl]
    cases hn : (next_active S pn u s (cont.drop s)).2.2 with
    | none =>
      refine ⟨⟨pn, pd, ⟨cont, (next_active S pn u s (cont.drop s)).2.1⟩⟩, ?_, rfl, rfl, rfl⟩
      cases f <;> simp [Propagator.fan_out]
    | some b =>
      have hlt : (next_active S pn u s (cont.drop s)).2.1 < cont.length := by
        have := b3 b hn
        simp only [List.length_drop] at this
        omega
      obtain ⟨f1, rfl⟩ : ∃ f1, f = f1 + 1 := ⟨f - 1, by omega⟩
      obtain ⟨p', h1, h2, h3, h4⟩ := ih (next_active S pn u s (cont.drop s)).1
        ((next_active S pn u s (cont.drop s)).2.1 + 1) f1 (by omega) (by omega) (by omega)
      refine ⟨p', ?_, h2, h3, h4⟩
      simp only [Propagator.fan_out, next_synapse_scan S _ pn pd cont _ hlt, h1, List.map_cons]

theorem active_slots_sound {U : Type} (S : Strategy U) (self : Nat) (cont : List Connector) :
    ∀ (cs : List Connector) (u : U) (s : Nat), cont.drop s = cs →
    ∀ e ∈ (active_slots S self u s cs).2,
      s ≤ e.1 ∧ (∃ nth, cont[e.1]? = some ⟨some e.2, nth⟩) ∧
      ∃ v, (S.process_output v self e.1).2 = true := by
  intro cs
  induction cs with
  | nil =>
    intro u s _ e he
    simp [active_slots] at he
  | cons c cs ih =>
    intro u s hd e he
    have hget : cont[s]? = some c := by
      have := congrArg List.head? hd
      simpa [List.head?_drop] using this
    have hd1 : cont.drop (s + 1) = cs := by
      have := congrArg List.tail hd
      simpa [List.tail_drop] using this
    obtain ⟨n, nth⟩ := c
    cases n with
    | none =>
      simp only [active_slots] at he
      obtain ⟨h1, h2⟩ := ih u (s + 1) hd1 e he
      exact ⟨by omega, h2⟩
    | some b =>
      by_cases hr : (S.process_output u self s).2 = true
      · simp only [active_slots, hr, if_true, List.mem_cons] at he
        rcases he with he | he
        · subst he
          exact ⟨Nat.le_refl _, ⟨nth, hget⟩, u, hr⟩
        · obtain ⟨h1, h2⟩ := ih _ (s + 1) hd1 e he
          exact ⟨by omega, h2⟩
      · simp only [active_slots, hr, if_false, Bool.false_eq_true] at he
        obtain ⟨h1, h2⟩ := ih _ (s + 1) hd1 e he
        exact ⟨by omega, h2⟩

theorem active_slots_ascending {U : Type} (S : Strategy U) (self : Nat) :
    ∀ (cs : List Connector) (u : U) (s : Nat),
    ((active_slots S self u s cs).2.map Prod.fst).Pairwise (fun i j => i < j) := by
  intro cs
  induction cs with
  | nil =>
    intro u s
    simp [active_slots]
  | cons c cs ih =>
    intro u s
    obtain ⟨n, nth⟩ := c
    cases n with
    | none =>
      simp only [active_slots]
      exact ih u (s + 1)
    | some b =>
      by_cases hr : (S.process_output u self s).2 = true
      · simp only [active_slots, hr, if_true, List.map_cons, List.pairwise_cons]
        refine ⟨?_, ih _ (s + 1)⟩
        intro j hj
        obtain ⟨e, he, rfl⟩ := List.mem_map.mp hj
        have := (active_slots_sound S self (List.replicate (s + 1) ⟨none, 0⟩ ++ cs) cs _
          (s + 1) (by simp [List.drop_append]) e he).1
        omega
      · simp only [active_slots, hr, if_false, Bool.false_eq_true]
        exact ih _ (s + 1)

theorem active_slots_pure {U : Type} (S : Strategy U) (self : Nat) (act : Nat → Nat → Bool)
    (hpure : ∀ u a i, S.process_output u a i = (u, act a i)) (cont : List Connector) :
    ∀ (cs : List Connector) (u : U) (s : Nat), cont.drop s = cs →
    (active_slots S self u s cs).1 = u ∧
    ∀ i b, (i, b) ∈ (active_slots S self u s cs).2 ↔
      s ≤ i ∧ (∃ nth, cont[i]? = some ⟨some b, nth⟩) ∧ act self i = true := by
  intro cs
  induction cs with
  | nil =>
    intro u s hd
    refine ⟨rfl, fun i b => ?_⟩
    simp only [active_slots, List.not_mem_nil, false_iff]
    rintro ⟨h1, ⟨nth, h2⟩, _⟩
    have hlen := List.drop_eq_nil_iff.mp hd
    have := (List.getElem?_eq_some.mp h2).1
    omega
  | cons c cs ih =>
    intro u s hd
    have hget : cont[s]? = some c := by
      have := congrArg List.head? hd
      simpa [List.head?_drop] using this
    have hd1 : cont.drop (s + 1) = cs := by
      have := congrArg List.tail hd
      simpa [List.tail_drop] using this
    obtain ⟨ih1, ih2⟩ := ih u (s + 1) hd1
    have hsplit : ∀ i, s ≤ i ↔ i = s ∨ s + 1 ≤ i := fun i => by omega
    obtain ⟨n, nth⟩ := c
    cases n with
    | none =>
      simp only [active_slots]
      refine ⟨ih1, fun i b => ?_⟩
      rw [ih2 i b, hsplit i]
      constructor
      · rintro ⟨h1, h2⟩
        exact ⟨Or.inr h1, h2⟩
      · rintro ⟨h1 | h1, ⟨nth', h2⟩, h3⟩
        · subst h1
          rw [hget] at h2
          simp at h2
        · exact ⟨h1, ⟨nth', h2⟩, h3⟩
    | some b0 =>
      simp only [active_slots, hpure]
      by_cases hr : act self s = true
      · simp only [hr, if_true]
        refine ⟨ih1, fun i b => ?_⟩
        rw [List.mem_cons, ih2 i b, hsplit i]
        constructor
        · rintro (h | ⟨h1, h2⟩)
          · simp only [Prod.mk.injEq] at h
            obtain ⟨rfl, rfl⟩ := h
            exact ⟨Or.inl rfl, ⟨nth, hget⟩, hr⟩
          · exact ⟨Or.inr h1, h2⟩
        · rintro ⟨h1 | h1, ⟨nth', h2⟩, h3⟩
          · subst h1
            rw [hget] at h2
            simp only [Option.some.injEq, Connector.mk.injEq] at h2
            left
            rw [h2.1]
          · exact Or.inr ⟨h1, ⟨nth', h2⟩, h3⟩
      · simp only [hr, if_false, Bool.false_eq_true]
        refine ⟨ih1, fun i b => ?_⟩
        rw [ih2 i b, hsplit i]
        constructor
        · rintro ⟨h1, h2⟩
          exact ⟨Or.inr h1, h2⟩
        · rintro ⟨h1 | h1, ⟨nth', h2⟩, h3⟩
          · subst h1
            exact absurd h3 hr
          · exact ⟨h1, ⟨nth', h2⟩, h3⟩

theorem count_snd (l : List (Nat × Nat)) (b : Nat) :
    (l.map Prod.snd).count b = (l.filter (fun e => e.2 = b)).length := by
  induction l with
  | nil => rfl
  | cons e l ih =>
    by_cases he : e.2 = b
    · simp [he, ih]
    · simp [he, ih, List.count_cons]

/-- Claim C29. For every neuron, every strategy and every state of the user's data,
the references returned by `first_synapse ()` and then by `next_synapse ()` up to the
first null (with any fuel from the number of slots on) are the peers of the outbound
slots that are connected and for which `process_output` returned true, in ascending
slot order: the contributing slots have strictly ascending positions, each holds the
peer it contributes and `process_output` held for it; a peer is yielded as many times
as there are contributing slots that hold it; and when `process_output` is a
predicate `act` of the neuron and the slot alone, the contributing slots are exactly
the connected slots for which `act` holds. -/
theorem fan_out_yields_active_peers {U : Type} (S : Strategy U) (u : U) (p : Propagator)
    (k : Nat) :
    (∃ p', p.synapse_peers S (p.synapses.numof + k) u =
      some ((active_peers S p.neuron u p.synapses.container).1, p',
        (active_peers S p.neuron u p.synapses.container).2)) ∧
    ((active_slots S p.neuron u 0 p.synapses.container).2.map Prod.fst).Pairwise
      (fun i j => i < j) ∧
    (∀ e ∈ (active_slots S p.neuron u 0 p.synapses.container).2,
      (∃ nth, p.synapses.container[e.1]? = some ⟨some e.2, nth⟩) ∧
      ∃ v, (S.process_output v p.neuron e.1).2 = true) ∧
    (∀ b, (active_peers S p.neuron u p.synapses.container).2.count b =
      ((active_slots S p.neuron u 0 p.synapses.container).2.filter
        (fun e => e.2 = b)).length) ∧
    (∀ act : Nat → Nat → Bool, (∀ v a i, S.process_output v a i = (v, act a i)) →
      ∀ i b, (i, b) ∈ (active_slots S p.neuron u 0 p.synapses.container).2 ↔
        (∃ nth, p.synapses.container[i]? = some ⟨some b, nth⟩) ∧ act p.neuron i = true) := by
  refine ⟨?_, active_slots_ascending S _ _ _ _, ?_, ?_, ?_⟩
  · obtain ⟨p', h1, _⟩ := fan_out_scan S p.neuron p.dendrites p.synapses.container
      p.synapses.container.length u 0 (p.synapses.numof + k) (by omega) (by omega)
      (by simp [ConnectorIterator.numof])
    refine ⟨p', ?_⟩
    simp only [Propagator.synapse_peers, first_synapse_scan, active_peers]
    simpa using h1
  · intro e he
    exact (active_slots_sound S _ p.synapses.container _ u 0 rfl e he).2
  · intro b
    exact count_snd _ b
  · intro act hpure i b
    have h := (active_slots_pure S p.neuron act hpure p.synapses.container
      p.synapses.container u 0 (List.drop_zero _)).2 i b
    rw [h]
    simp


/-! ## The peers a visit yields -/

theorem fire_synapses_fan_out {U : Type} (S : Strategy U) : ∀ (fuel : Nat) (u : U)
    (nn : NeuralNetwork) (p : Propagator) (n : Option Nat) (u' : U) (nn' : NeuralNetwork)
    (p' : Propagator) (l : List Nat),
    NeuralNetwork.fire_synapses S fuel u nn p n = some (u', nn', p', l) →
    Propagator.fan_out S fuel u p n = some (u', p', l) := by
  intro fuel
  induction fuel with
  | zero =>
    intro u nn p n u' nn' p' l h
    cases n with
    | none =>
      simp [NeuralNetwork.fire_synapses] at h
      obtain ⟨rfl, _, rfl, rfl⟩ := h
      simp [Propagator.fan_out]
    | some b => simp [NeuralNetwork.fire_synapses] at h
  | succ f ih =>
    intro u nn p n u' nn' p' l h
    cases n with
    | none =>
      simp [NeuralNetwork.fire_synapses] at h
      obtain ⟨rfl, _, rfl, rfl⟩ := h
      simp [Propagator.fan_out]
    | some b =>
      simp only [NeuralNetwork.fire_synapses] at h
      cases h1 : nn.add_to_update_queue b with
      | none => simp [h1] at h
      | some nn1 =>
        simp only [h1] at h
        cases h2 : p.next_synapse S u with
        | none => simp [h2] at h
        | some t =>
          obtain ⟨u1, p1, n1⟩ := t
          simp only [h2] at h
          cases h3 : NeuralNetwork.fire_synapses S f u1 nn1 p1 n1 with
          | none => simp [h3] at h
          | some t3 =>
            obtain ⟨u2, nn2, p2, l2⟩ := t3
            simp only [h3, Option.some.injEq, Prod.mk.injEq] at h
            obtain ⟨rfl, rfl, rfl, rfl⟩ := h
            simp [Propagator.fan_out, h2, ih _ _ _ _ _ _ _ _ h3]

theorem propagator_peers {U : Type} (S : Strategy U) (u : U) (p : Propagator) {u1 : U}
    {p1 : Propagator} {n : Option Nat} (h1 : p.first_synapse S u = some (u1, p1, n))
    {u2 : U} {nn nn2 : NeuralNetwork} {p2 : Propagator} {peers : List Nat}
    (h2 : NeuralNetwork.fire_synapses S (p1.synapses.numof + 1) u1 nn p1 n =
      some (u2, nn2, p2, peers)) :
    peers = (active_peers S p.neuron u p.synapses.container).2 := by
  rw [first_synapse_scan] at h1
  simp only [Option.some.injEq, Prod.mk.injEq] at h1
  obtain ⟨rfl, rfl, rfl⟩ := h1
  have h3 := fire_synapses_fan_out S _ _ _ _ _ _ _ _ _ h2
  obtain ⟨p', h4, _⟩ := fan_out_scan S p.neuron p.dendrites p.synapses.container
    p.synapses.container.length u 0 (p.synapses.container.length + 1) (by omega) (by omega)
    (by omega)
  simp only [List.drop_zero, ConnectorIterator.numof] at h4 h3
  rw [h4] at h3
  simp only [Option.some.injEq, Prod.mk.injEq] at h3
  exact h3.2.2.symm

theorem active_slots_all {U : Type} (S : Strategy U)
    (hout : ∀ u a i, (S.process_output u a i).2 = true) (self : Nat) :
    ∀ (cs : List Connector) (u : U) (s : Nat),
    (active_slots S self u s cs).2.map Prod.snd = cs.filterMap Connector.neuron := by
  intro cs
  induction cs with
  | nil =>
    intro u s
    rfl
  | cons c cs ih =>
    intro u s
    obtain ⟨n, nth⟩ := c
    cases n with
    | none =>
      simp only [active_slots, List.filterMap_cons]
      exact ih u (s + 1)
    | some b =>
      simp only [active_slots, hout, if_true, List.map_cons, List.filterMap_cons, ih]

theorem forward_pass_peers {U : Type} (S : Strategy U)
    (hact : ∀ u g a, (S.activate u g a).2 = true)
    (hout : ∀ u a i, (S.process_output u a i).2 = true) : ∀ (rest : List Nat) (u : U)
    (nn : NeuralNetwork) (u' : U) (nn' : NeuralNetwork) (visits : List Visit),
    NeuralNetwork.forward_pass S u nn rest = some (u', nn', visits) →
    ∀ v ∈ visits, v.fired = true ∧
      ∃ me, nn.heap[v.neuron]? = some me ∧
        v.peers = me.synapses.filterMap Connector.neuron := by
  intro rest
  induction rest with
  | nil =>
    intro u nn u' nn' visits h
    simp [NeuralNetwork.forward_pass] at h
    obtain ⟨_, _, rfl⟩ := h
    simp
  | cons i rest ih =>
    intro u nn u' nn' visits h
    simp only [NeuralNetwork.forward_pass] at h
    cases hg : nn.heap[i]? with
    | none => simp [hg] at h
    | some neuron =>
      simp only [hg, hact, if_true] at h
      have hw1 : Graph.wiring (nn.heap.set i (neuron.set_in_update_queue false)) =
          Graph.wiring nn.heap :=
        Graph.wiring_set hg (Neuron.wiring_set_forward neuron false).1
          (Neuron.wiring_set_forward neuron false).2
      cases h1 : (neuron.propagator i).first_synapse S
          (S.activate u (nn.heap.set i (neuron.set_in_update_queue false)) i).1 with
      | none => simp [h1] at h
      | some t1 =>
        obtain ⟨u1, p1, n⟩ := t1
        simp only [h1] at h
        cases h2 : NeuralNetwork.fire_synapses S (p1.synapses.numof + 1) u1
            { nn with heap := nn.heap.set i (neuron.set_in_update_queue false) } p1 n with
        | none => simp [h2] at h
        | some t2 =>
          obtain ⟨u2, nn2, p2, peers⟩ := t2
          simp only [h2] at h
          have hp := propagator_peers S _ _ h1 h2
          have hpeers : peers = neuron.synapses.filterMap Connector.neuron := by
            rw [hp]
            exact active_slots_all S hout _ _ _ _
          have e2 := fire_synapses_enqueues S _ _ _ _ _ _ _ _ _ h2
          have hw2 : Graph.wiring nn2.heap = Graph.wiring nn.heap :=
            (enqueue_all_frame _ _ _ e2).1.trans hw1
          have htail : ∀ (ub : U) (nnb : NeuralNetwork) (vs : List Visit),
              Graph.wiring nnb.heap = Graph.wiring nn.heap →
              NeuralNetwork.forward_pass S ub nnb rest = some (u', nn', vs) →
              ∀ v ∈ vs, v.fired = true ∧ ∃ me, nn.heap[v.neuron]? = some me ∧
                v.peers = me.synapses.filterMap Connector.neuron := by
            intro ub nnb vs hwb hr v hv
            obtain ⟨k1, me', k2, k3⟩ := ih _ _ _ _ _ hr v hv
            obtain ⟨me, k4, _, k5⟩ := Graph.wiring_getElem? hwb k2
            exact ⟨k1, me, k4, by rw [k3, k5]⟩
          split at h
          · cases h3 : p2.first_dendrite S (S.should_backpropagate u2 i).1 with
            | none => simp [h3] at h
            | some t3 =>
              obtain ⟨u3, p3, m⟩ := t3
              simp only [h3] at h
              cases h4 : NeuralNetwork.fire_dendrites S (p3.dendrites.numof + 1) u3 nn2 p3 m with
              | none => simp [h4] at h
              | some t4 =>
                obtain ⟨u4, nn4, p4, back⟩ := t4
                simp only [h4] at h
                have e4 := fire_dendrites_enqueues S _ _ _ _ _ _ _ _ _ h4
                have hw4 : Graph.wiring nn4.heap = Graph.wiring nn.heap :=
                  (enqueue_all_bp_frame _ _ _ e4).1.trans hw2
                cases hr : NeuralNetwork.forward_pass S u4 nn4 rest with
                | none => simp [hr] at h
                | some o =>
                  obtain ⟨u5, nn5, vs⟩ := o
                  simp only [hr, Option.some.injEq, Prod.mk.injEq] at h
                  obtain ⟨rfl, rfl, rfl⟩ := h
                  intro v hv
                  rcases List.mem_cons.mp hv with rfl | hv
                  · exact ⟨rfl, neuron, hg, hpeers⟩
                  · exact htail _ _ _ hw4 hr v hv
          · cases hr : NeuralNetwork.forward_pass S (S.should_backpropagate u2 i).1 nn2 rest with
            | none => simp [hr] at h
            | some o =>
              obtain ⟨u5, nn5, vs⟩ := o
              simp only [hr, Option.some.injEq, Prod.mk.injEq] at h
              obtain ⟨rfl, rfl, rfl⟩ := h
              intro v hv
              rcases List.mem_cons.mp hv with rfl | hv
              · exact ⟨rfl, neuron, hg, hpeers⟩
              · exact htail _ _ _ hw2 hr v hv


/-! ## Activity that circulates -/

theorem replay_peers_on (R : Nat → Prop) : ∀ (visits : List Visit) (nn nn' : NeuralNetwork),
    nn.replay visits = some nn' →
    (∀ x, R x → nn.forward_flag x = true →
      x ∈ visits.map Visit.neuron ∨ x ∈ nn.next_queue) →
    (∀ (k : Nat) (v : Visit), visits[k]? = some v → ∀ x ∈ v.peers, R x →
      x ∈ nn'.next_queue ∨ x ∈ (visits.map Visit.neuron).drop (k + 1)) ∧
    (∀ x, R x → nn'.forward_flag x = true → x ∈ nn'.next_queue) := by
  intro visits
  induction visits with
  | nil =>
    intro nn nn' h hfl
    simp [NeuralNetwork.replay] at h
    subst h
    refine ⟨fun k v hk => by simp at hk, fun x hR hx => ?_⟩
    rcases hfl x hR hx with hm | hm
    · simp at hm
    · exact hm
  | cons w ws ih =>
    intro nn nn' h hfl
    simp only [NeuralNetwork.replay] at h
    cases h1 : nn.replay_visit w with
    | none => simp [h1] at h
    | some nn1 =>
      simp only [h1] at h
      obtain ⟨⟨added, ha, _⟩, e2, e3, _⟩ := replay_visit_effect h1
      obtain ⟨_, _, _, _, added', ha', _⟩ := replay_frame _ _ _ h
      have hfl1 : ∀ y, R y → nn1.forward_flag y = true →
          y ∈ ws.map Visit.neuron ∨ y ∈ nn1.next_queue := by
        intro y hR hy
        rcases e2 y hy with ⟨hne, hold⟩ | hin
        · rcases hfl y hR hold with hm | hm
          · simp only [List.map_cons, List.mem_cons] at hm
            rcases hm with hm | hm
            · exact absurd hm hne
            · exact Or.inl hm
          · right
            rw [ha]
            exact List.mem_append_left _ hm
        · exact Or.inr hin
      obtain ⟨i1, i2⟩ := ih nn1 nn' h hfl1
      refine ⟨?_, i2⟩
      intro k v hk x hx hR
      cases k with
      | zero =>
        simp only [List.getElem?_cons_zero, Option.some.injEq] at hk
        subst hk
        rcases hfl1 x hR (e3 x hx) with hm | hm
        · right
          simpa using hm
        · left
          rw [ha']
          exact List.mem_append_left _ hm
      | succ k =>
        simp only [List.getElem?_cons_succ] at hk
        rcases i1 k v hk x hx hR with hm | hm
        · exact Or.inl hm
        · right
          simpa using hm

theorem exists_last_in (R : Nat → Prop) : ∀ (l : List Nat), (∃ x ∈ l, R x) →
    ∃ k x, l[k]? = some x ∧ R x ∧ ∀ y ∈ l.drop (k + 1), ¬ R y := by
  intro l
  induction l with
  | nil =>
    rintro ⟨x, hx, _⟩
    simp at hx
  | cons a t ih =>
    intro h
    by_cases ht : ∃ x ∈ t, R x
    · obtain ⟨k, x, h1, h2, h3⟩ := ih ht
      exact ⟨k + 1, x, by simpa using h1, h2, by simpa using h3⟩
    · obtain ⟨x, hx, hR⟩ := h
      rcases List.mem_cons.mp hx with rfl | hx
      · refine ⟨0, x, by simp, hR, ?_⟩
        intro y hy hRy
        exact ht ⟨y, by simpa using hy, hRy⟩
      · exact absurd ⟨x, hx, hR⟩ ht

theorem circulating_run {U : Type} (S : Strategy U)
    (hact : ∀ u g a, (S.activate u g a).2 = true)
    (hout : ∀ u a i, (S.process_output u a i).2 = true) (R : Nat → Prop)
    (nn : NeuralNetwork) (h : nn.Circulating R) (u : U) :
    ∃ r, NeuralNetwork.run S u nn = some r ∧ r.net.Circulating R := by
  obtain ⟨hpe, hq, hnq, hbp, hfl, hring, hin⟩ := h
  have hv : nn.Valid := ⟨hpe, hq, fun x hx => by rw [hbp] at hx; simp at hx⟩
  obtain ⟨r, u1, nn1, h1, h2, h3, h4, _, h6, h7, h8, h9, h10⟩ := run_spec S u nn hv
  have hne : nn.current_queue ≠ [] := by
    obtain ⟨x, hx, _⟩ := hin
    intro he
    rw [he] at hx
    simp at hx
  rw [if_neg hne] at h6 h7
  obtain ⟨p1, p2⟩ := replay_peers_on R r.forward nn nn1 h3 (by
    intro x hR hx
    rw [h4]
    exact hfl x hR hx)
  obtain ⟨_, _, _, _, added, ha, hadded⟩ := replay_frame _ _ _ h3
  have hpeers := forward_pass_peers S hact hout _ _ _ _ _ _ h2
  have hlen : r.net.heap.length = nn.heap.length := Graph.wiring_length h9
  refine ⟨r, h1, peersExist_of_wiring h9 hpe, ?_, ?_, h10 hbp, ?_, ?_, ?_⟩
  · intro x hx
    rw [h6, ha] at hx
    rw [hlen]
    rcases List.mem_append.mp hx with hx | hx
    · exact hnq x hx
    · obtain ⟨v, hv1, hv2⟩ := hadded x hx
      obtain ⟨_, me, hme, hp⟩ := hpeers v hv1
      rw [hp] at hv2
      obtain ⟨c, hc1, hc2⟩ := List.mem_filterMap.mp hv2
      exact (hpe me (List.mem_iff_getElem?.mpr ⟨_, hme⟩)).1 c hc1 x hc2
  · intro x hx
    rw [h7] at hx
    simp at hx
  · intro x hR hx
    rw [h8 x] at hx
    left
    rw [h6]
    exact p2 x hR hx
  · intro x hR
    obtain ⟨cs, y, k1, k2, k3⟩ := hring x hR
    exact ⟨cs, y, (synapses_of_wiring h9 x).trans k1, k2, k3⟩
  · obtain ⟨k, x, k1, k2, k3⟩ := exists_last_in R nn.current_queue hin
    rw [← h4] at k1 k3
    obtain ⟨v, hv1, hv2⟩ : ∃ v, r.forward[k]? = some v ∧ v.neuron = x := by
      rw [List.getElem?_map] at k1
      exact Option.map_eq_some'.mp k1
    obtain ⟨cs, y, c1, c2, c3⟩ := hring x k2
    obtain ⟨_, me, hme, hp⟩ := hpeers v (List.mem_iff_getElem?.mpr ⟨k, hv1⟩)
    rw [hv2] at hme
    rw [hme] at c1
    simp only [Option.map_some', Option.some.injEq] at c1
    have hy : y ∈ v.peers := by
      rw [hp, c1]
      exact c3
    rcases p1 k v hv1 y hy c2 with hm | hm
    · exact ⟨y, by rw [h6]; exact hm, c2⟩
    · exact absurd c2 (k3 y hm)


/-- Activity in a ring goes on as long as no flag is stale. With a strategy whose
activation always reports a change and whose outbound predicate always holds, let `R`
be a set of neurons each of which has a connected outbound slot whose peer is in `R` (a
neuron wired to itself, a ring), let a neuron of `R` be in the forward current queue,
and let no neuron of `R` have its forward-queued flag set while being in neither
forward queue. Then any number `k` of `run ()` calls returns and `is_firing ()` is true
afterwards. -/
theorem circulating_never_idle {U : Type} (S : Strategy U)
    (hact : ∀ u g a, (S.activate u g a).2 = true)
    (hout : ∀ u a i, (S.process_output u a i).2 = true) (R : Nat → Prop) (k : Nat)
    (nn : NeuralNetwork) (u : U) (h : nn.Circulating R) :
    ∃ u' nn', NeuralNetwork.run_times S k u nn = some (u', nn') ∧ nn'.is_firing = true ∧
      nn'.Circulating R := by
  induction k generalizing nn u with
  | zero =>
    refine ⟨u, nn, rfl, ?_, h⟩
    obtain ⟨x, hx, _⟩ := h.2.2.2.2.2.2
    unfold NeuralNetwork.is_firing
    cases hc : nn.current_queue with
    | nil =>
      rw [hc] at hx
      simp at hx
    | cons a t => rfl
  | succ k ih =>
    obtain ⟨r, h1, h2⟩ := circulating_run S hact hout R nn h u
    obtain ⟨u', nn', h3, h4, h5⟩ := ih r.net r.user h2
    exact ⟨u', nn', by simp only [NeuralNetwork.run_times, h1, h3], h4, h5⟩

theorem circulating_never_idle_witness :
    loopSeeded.current_queue = [1] ∧
    (loopSeeded.heap[1]?).map Neuron.synapses = some [⟨some 1, 0⟩] ∧
    ∃ u' nn', NeuralNetwork.run_times alwaysStrategy 3 () loopSeeded = some (u', nn') ∧
      nn'.is_firing = true ∧ nn'.Circulating (fun x => x = 1) :=
  ⟨by decide, by decide,
    circulating_never_idle alwaysStrategy (fun _ _ _ => rfl) (fun _ _ _ => rfl)
      (fun x => x = 1) 3 loopSeeded ()
      ⟨by decide, by decide, by decide, by decide,
        fun x hx _ => Or.inl (by rw [hx]; decide),
        fun x hx => ⟨[⟨some 1, 0⟩], 1, by rw [hx]; decide, rfl, by decide⟩,
        ⟨1, by decide, rfl⟩⟩⟩

/-- Claim C25 fails in the code: in the ring 0 -> 1 -> 0 of `ringCreated`, `start ()`
with all draws 1 seeds neuron 1, and a second `start ()` that draws neuron 0 leaves the
forward current queue `[0]` and neuron 1 with its forward-queued flag set in no queue,
because the swap drops the old current queue without clearing the flags; the `run ()`
that follows with the strategy `alwaysStrategy` visits neuron 0, whose fan-out yields
neuron 1 without enqueuing it, and `is_firing ()` is false afterwards although a
neuron of the ring was in the forward current queue. -/
theorem ring_idle_after_restart :
    ∃ n1 n2 r, ringCreated.start drawOnes = some n1 ∧
      n1.start drawOneThenZero = some n2 ∧ n2.current_queue = [0] ∧
      (n2.heap[0]?).map Neuron.synapses = some [⟨some 1, 0⟩] ∧
      (n2.heap[1]?).map Neuron.synapses = some [⟨some 0, 0⟩] ∧
      NeuralNetwork.run alwaysStrategy () n2 = some r ∧
      r.forward.map Visit.peers = [[1]] ∧ r.net.current_queue = [] ∧
      r.net.is_firing = false := by
  refine ⟨_, _, _, rfl, rfl, rfl, rfl, rfl, rfl, rfl, rfl, rfl⟩


/-! ## The order of the current queue -/

theorem run_next_set {U : Type} (S : Strategy U)
    (hact : ∀ u g a, (S.activate u g a).2 = true)
    (hout : ∀ u a i, (S.process_output u a i).2 = true) (nn : NeuralNetwork) (u : U)
    (hv : nn.Valid) (hfl : nn.FlagsQueued) (hnd : nn.current_queue.Nodup)
    (hn : nn.next_queue = []) (hind : nn.QueueUnlinked) :
    ∃ r, NeuralNetwork.run S u nn = some r ∧
      ∀ x, x ∈ r.net.current_queue ↔
        ∃ y ∈ nn.current_queue, ∃ me, nn.heap[y]? = some me ∧
          x ∈ me.synapses.filterMap Connector.neuron := by
  obtain ⟨r, u1, nn1, h1, h2, h3, h4, _, h6, _, _, _, _⟩ := run_spec S u nn hv
  refine ⟨r, h1, fun x => ?_⟩
  by_cases hc : nn.current_queue = []
  · rw [if_pos hc] at h6
    rw [h6, hc]
    simp
  · rw [if_neg hc] at h6
    have hpeers := forward_pass_peers S hact hout _ _ _ _ _ _ h2
    obtain ⟨_, _, _, _, added, ha, hadded⟩ := replay_frame _ _ _ h3
    have hp := replay_peers r.forward nn nn1 h3 (by
      intro y hy
      rw [h4]
      exact hfl y (NeuralNetwork.forward_flag_valid hy) hy)
    rw [h6]
    constructor
    · intro hx
      rw [ha, hn, List.nil_append] at hx
      obtain ⟨v, hv1, hv2⟩ := hadded x hx
      obtain ⟨_, me, hme, hpv⟩ := hpeers v hv1
      refine ⟨v.neuron, ?_, me, hme, by rw [← hpv]; exact hv2⟩
      rw [← h4]
      exact List.mem_map.mpr ⟨v, hv1, rfl⟩
    · rintro ⟨y, hy, me, hme, hx⟩
      rw [← h4] at hy
      obtain ⟨v, hv1, rfl⟩ := List.mem_map.mp hy
      obtain ⟨k, hk⟩ := List.mem_iff_getElem?.mp hv1
      obtain ⟨_, me', hme', hpv⟩ := hpeers v hv1
      rw [hme] at hme'
      simp only [Option.some.injEq] at hme'
      subst hme'
      rcases hp k v hk x (by rw [hpv]; exact hx) with hm | hm
      · exact hm
      · exfalso
        rw [h4] at hm
        have hxq : x ∈ nn.current_queue := List.mem_of_mem_drop hm
        have hkq : nn.current_queue[k]? = some v.neuron := by
          rw [← h4, List.getElem?_map, hk]
          rfl
        have hvq : v.neuron ∈ nn.current_queue := List.mem_iff_getElem?.mpr ⟨k, hkq⟩
        by_cases hxy : x = v.neuron
        · subst hxy
          have hsplit : nn.current_queue =
              nn.current_queue.take (k + 1) ++ nn.current_queue.drop (k + 1) :=
            (List.take_append_drop _ _).symm
          have hin1 : v.neuron ∈ nn.current_queue.take (k + 1) := by
            apply List.mem_iff_getElem?.mpr
            refine ⟨k, ?_⟩
            rw [List.getElem?_take_of_lt (by omega)]
            exact hkq
          rw [hsplit] at hnd
          exact (List.nodup_append.mp hnd).2.2 hin1 hm
        · exact hind v.neuron hvq x hxq hxy me (Option.mem_def.mpr hme) hx


theorem perm_set_swap {α : Type} : ∀ (l : List α) (i : Nat) (x y : α), l[i]? = some x →
    (x :: l.set i y).Perm (y :: l) := by
  intro l
  induction l with
  | nil =>
    intro i x y h
    simp at h
  | cons a t ih =>
    intro i x y h
    cases i with
    | zero =>
      simp only [List.getElem?_cons_zero, Option.some.injEq] at h
      subst h
      exact List.Perm.swap _ _ _
    | succ i =>
      simp only [List.getElem?_cons_succ] at h
      simp only [List.set_cons_succ]
      exact ((List.Perm.swap a x _).trans ((ih i x y h).cons a)).trans (List.Perm.swap y a t)

theorem take_succ_of_getElem? {α : Type} {l : List α} {n : Nat} {x : α} (h : l[n]? = some x) :
    l.take (n + 1) = l.take n ++ [x] := by
  rw [List.take_succ, h]
  rfl

theorem take_set_last_perm (pool : List ncounter) (i m : Nat) (hm : m < pool.length)
    (him : i ≤ m) :
    ((pool.set i (pool.get ⟨m, hm⟩)).take m).Perm
      ((pool.take (m + 1)).erase (pool.get ⟨i, by omega⟩)) := by
  have hil : i < pool.length := by omega
  have hx : pool[i]? = some pool[i] := List.getElem?_eq_getElem hil
  have hl : pool[m]? = some pool[m] := List.getElem?_eq_getElem hm
  show ((pool.set i pool[m]).take m).Perm ((pool.take (m + 1)).erase pool[i])
  have hgoal : (pool[i] :: (pool.set i pool[m]).take m).Perm (pool.take (m + 1)) := by
    rw [take_succ_of_getElem? hl]
    by_cases him : i = m
    · subst him
      rw [List.set_take, List.set_eq_of_length_le (by simp)]
      exact (List.perm_append_singleton _ _).symm
    · have hlt : i < m := by omega
      have hti : (pool.take m)[i]? = some pool[i] := by
        rw [List.getElem?_take_of_lt hlt]
        exact hx
      rw [List.set_take]
      exact (perm_set_swap (pool.take m) i pool[i] pool[m] hti).trans
        (List.perm_append_singleton _ _).symm
  have := hgoal.erase pool[i]
  rw [List.erase_cons_head] at this
  exact this

theorem delete_neuron_available (p : neuron_pool) (i : Nat)
    (hle : p.n_available ≤ p.pool.length) (h32 : p.n_available < 2 ^ 32)
    (hi : i < p.n_available) :
    ∃ p' x, p.delete_neuron i = some p' ∧ p.pool[i]? = some x ∧
      p'.n_available + 1 = p.n_available ∧ p'.pool.length = p.pool.length ∧
      p'.available.Perm (p.available.erase x) := by
  obtain ⟨pool, nn, n⟩ := p
  simp only at hle h32 hi
  obtain ⟨m, rfl⟩ : ∃ m, n = m + 1 := ⟨n - 1, by omega⟩
  have hdec : (m + 1 + 2 ^ 32 - 1) % 2 ^ 32 = m := by
    rw [show m + 1 + 2 ^ 32 - 1 = m + 2 ^ 32 by omega, Nat.add_mod_right]
    exact Nat.mod_eq_of_lt (by omega)
  have hm : m < pool.length := by omega
  have hil : i < pool.length := by omega
  refine ⟨⟨pool.set i pool[m], nn, m⟩, pool[i], ?_, List.getElem?_eq_getElem hil, rfl,
    by simp, take_set_last_perm pool i m hm (by omega)⟩
  simp only [neuron_pool.delete_neuron, neuron_pool.get, neuron_pool.put, hdec,
    List.getElem?_eq_getElem hm]
  rw [if_pos hil]

/-- Claim C30. For every pool whose `n_available` is at least 1 and within the array,
and every index `i` below `n_available`, `delete_neuron (i)` returns; it decreases
`n_available` by exactly one, leaves `n_neurons` unchanged, puts the last available
entry at position `i` and changes no other position; the available entries afterwards
are, as a multiset, the available entries before with the entry at position `i`
removed. -/
theorem delete_neuron_retires (p : neuron_pool) (i : Nat) (h1 : 1 ≤ p.n_available)
    (hle : p.n_available ≤ p.pool.length) (h32 : p.n_available < 2 ^ 32)
    (hi : i < p.n_available) :
    ∃ p' x last, p.delete_neuron i = some p' ∧ p.pool[i]? = some x ∧
      p.pool[p.n_available - 1]? = some last ∧
      p'.n_available = p.n_available - 1 ∧ p'.n_neurons = p.n_neurons ∧
      p'.pool[i]? = some last ∧ (∀ j, j ≠ i → p'.pool[j]? = p.pool[j]?) ∧
      p'.pool.length = p.pool.length ∧
      p'.available.Perm (p.available.erase x) := by
  obtain ⟨pool, nn, n⟩ := p
  simp only at h1 hle h32 hi
  obtain ⟨m, rfl⟩ : ∃ m, n = m + 1 := ⟨n - 1, by omega⟩
  have hdec : (m + 1 + 2 ^ 32 - 1) % 2 ^ 32 = m := by
    rw [show m + 1 + 2 ^ 32 - 1 = m + 2 ^ 32 by omega, Nat.add_mod_right]
    exact Nat.mod_eq_of_lt (by omega)
  have hm : m < pool.length := by omega
  have hil : i < pool.length := by omega
  have hx : pool[i]? = some pool[i] := List.getElem?_eq_getElem hil
  have hl : pool[m]? = some pool[m] := List.getElem?_eq_getElem hm
  refine ⟨⟨pool.set i pool[m], nn, m⟩, pool[i], pool[m], ?_, hx, by simp [hl], rfl, rfl,
    ?_, ?_, by simp, take_set_last_perm pool i m hm (by omega)⟩
  · simp only [neuron_pool.delete_neuron, neuron_pool.get, neuron_pool.put, hdec, hl]
    rw [if_pos hil]
  · simp [List.getElem?_set, hil]
  · intro j hj
    simp [List.getElem?_set, Ne.symm hj]

theorem delete_neuron_retires_witness :
    1 ≤ samplePool.n_available ∧ samplePool.available = [⟨0, 2⟩, ⟨1, 1⟩, ⟨2, 3⟩] ∧
    ∃ p' x last, samplePool.delete_neuron 0 = some p' ∧ samplePool.pool[0]? = some x ∧
      samplePool.pool[samplePool.n_available - 1]? = some last ∧
      p'.n_available = samplePool.n_available - 1 ∧ p'.n_neurons = samplePool.n_neurons ∧
      p'.pool[0]? = some last ∧ (∀ j, j ≠ 0 → p'.pool[j]? = samplePool.pool[j]?) ∧
      p'.pool.length = samplePool.pool.length ∧
      p'.available.Perm (samplePool.available.erase x) :=
  ⟨by decide, by decide,
    delete_neuron_retires samplePool 0 (by decide) (by decide) (by decide) (by decide)⟩


/-! ## The slot counts of generated neurons -/

theorem generate_loop_bounds (rand : Nat → Nat) (factory : NeuronFactory)
    (lo_d hi_d lo_s hi_s : Nat) (hd : lo_d ≤ hi_d) (hs : lo_s ≤ hi_s)
    (hd32 : hi_d < 2 ^ 32) (hs32 : hi_s < 2 ^ 32) :
    ∀ (remaining k : Nat) (nn : NeuralNetwork),
    ∃ nn' created, NeuralNetwork.generate_loop rand factory lo_d (hi_d - lo_d + 1) lo_s
        (hi_s - lo_s + 1) remaining k nn = some nn' ∧
      nn'.heap = nn.heap ++ created ∧ created.length = remaining ∧
      nn'.neurons = nn.neurons ++ List.range' nn.heap.length remaining ∧
      ∀ me ∈ created, (lo_d ≤ me.n_dendrites ∧ me.n_dendrites ≤ hi_d) ∧
        (lo_s ≤ me.n_synapses ∧ me.n_synapses ≤ hi_s) := by
  intro remaining
  induction remaining with
  | zero =>
    intro k nn
    exact ⟨nn, [], rfl, by simp, rfl, by simp, by simp⟩
  | succ r ih =>
    intro k nn
    have hmd : ¬ hi_d - lo_d + 1 = 0 := by omega
    have hms : ¬ hi_s - lo_s + 1 = 0 := by omega
    have hrd : rand k % (hi_d - lo_d + 1) < hi_d - lo_d + 1 := Nat.mod_lt _ (by omega)
    have hrs : rand (k + 1) % (hi_s - lo_s + 1) < hi_s - lo_s + 1 := Nat.mod_lt _ (by omega)
    have hdv : (lo_d + rand k % (hi_d - lo_d + 1)) % 2 ^ 32 =
        lo_d + rand k % (hi_d - lo_d + 1) := Nat.mod_eq_of_lt (by omega)
    have hsv : (lo_s + rand (k + 1) % (hi_s - lo_s + 1)) % 2 ^ 32 =
        lo_s + rand (k + 1) % (hi_s - lo_s + 1) := Nat.mod_eq_of_lt (by omega)
    obtain ⟨nn', created, h1, h2, h3, h4, h5⟩ := ih (k + 2)
      (nn.create_neuron factory (lo_d + rand k % (hi_d - lo_d + 1))
        (lo_s + rand (k + 1) % (hi_s - lo_s + 1)))
    refine ⟨nn', Neuron.mk0 (NeuronBase.construct nn.neuron_counter).1
      (lo_d + rand k % (hi_d - lo_d + 1)) (lo_s + rand (k + 1) % (hi_s - lo_s + 1)) :: created,
      ?_, ?_, by simp [h3], ?_, ?_⟩
    · simp only [NeuralNetwork.generate_loop, if_neg hmd, if_neg hms, hdv, hsv]
      exact h1
    · rw [h2]
      simp [NeuralNetwork.create_neuron]
    · rw [h4]
      simp [NeuralNetwork.create_neuron, List.range'_succ]
    · intro me hme
      rcases List.mem_cons.mp hme with rfl | hme
      · simp only [Neuron.n_dendrites, Neuron.n_synapses, Neuron.mk0, List.length_replicate]
        omega
      · exact h5 me hme

/-- For `unsigned int` parameters whose sorted ranges are not the full range of the
type, `generate_random_core_neurons` returns for every sequence of values of
`rand ()`; it appends `n_neurons` neurons, each with a number of dendrites and a number
of synapses within the sorted ranges. -/
theorem generated_within_bounds (rand : Nat → Nat) (nn : NeuralNetwork)
    (factory : NeuronFactory) (n_neurons min_d max_d min_s max_s : Nat)
    (h1 : min_d < 2 ^ 32) (h2 : max_d < 2 ^ 32) (h3 : min_s < 2 ^ 32) (h4 : max_s < 2 ^ 32)
    (hd : max max_d min_d - min min_d max_d < 2 ^ 32 - 1)
    (hs : max max_s min_s - min min_s max_s < 2 ^ 32 - 1) :
    ∃ nn' created, nn.generate_random_core_neurons rand factory n_neurons min_d max_d min_s
        max_s = some nn' ∧
      nn'.heap = nn.heap ++ created ∧ created.length = n_neurons ∧
      ∀ me ∈ created,
        (min min_d max_d ≤ me.n_dendrites ∧ me.n_dendrites ≤ max max_d min_d) ∧
        (min min_s max_s ≤ me.n_synapses ∧ me.n_synapses ≤ max max_s min_s) := by
  have key : ∀ (lo hi : Nat), lo < 2 ^ 32 → hi < 2 ^ 32 →
      max hi lo - min lo hi < 2 ^ 32 - 1 →
      ((if lo > hi then swap lo hi else (lo, hi)).1 = min lo hi) ∧
      ((if lo > hi then swap lo hi else (lo, hi)).2 = max hi lo) ∧
      (((if lo > hi then swap lo hi else (lo, hi)).2 + 2 ^ 32 -
        (if lo > hi then swap lo hi else (lo, hi)).1 + 1) % 2 ^ 32 =
          max hi lo - min lo hi + 1) := by
    intro lo hi hlo hhi hw
    by_cases hc : lo > hi
    · rw [if_pos hc]
      simp only [swap]
      have e1 : min lo hi = hi := by omega
      have e2 : max hi lo = lo := by omega
      rw [e1, e2] at hw ⊢
      refine ⟨rfl, rfl, ?_⟩
      rw [show lo + 2 ^ 32 - hi + 1 = (lo - hi + 1) + 2 ^ 32 by omega, Nat.add_mod_right]
      exact Nat.mod_eq_of_lt (by omega)
    · rw [if_neg hc]
      have e1 : min lo hi = lo := by omega
      have e2 : max hi lo = hi := by omega
      rw [e1, e2] at hw ⊢
      refine ⟨rfl, rfl, ?_⟩
      rw [show hi + 2 ^ 32 - lo + 1 = (hi - lo + 1) + 2 ^ 32 by omega, Nat.add_mod_right]
      exact Nat.mod_eq_of_lt (by omega)
  obtain ⟨d1, d2, d3⟩ := key min_d max_d h1 h2 hd
  obtain ⟨s1, s2, s3⟩ := key min_s max_s h3 h4 hs
  obtain ⟨nn', created, g1, g2, g3, _, g5⟩ := generate_loop_bounds rand factory
    (min min_d max_d) (max max_d min_d) (min min_s max_s) (max max_s min_s)
    (by omega) (by omega) (by omega) (by omega) n_neurons 0 nn
  refine ⟨nn', created, ?_, g2, g3, g5⟩
  simp only [NeuralNetwork.generate_random_core_neurons]
  rw [d3, s3, d1, s1]
  exact g1

/-- Claim C22: with `min_dendrites = 0` and `max_dendrites = 4294967295` the width
`max_dendrites - min_dendrites + 1` of the range wraps to 0 in `unsigned int`, and the
first `rand () % md` of `generate_random_core_neurons` is a remainder by zero: the
call has no defined result, whatever `rand ()` returns, the factory and the network;
the same holds with the two bounds exchanged and for the range of the synapses. -/
theorem full_range_divides_by_zero (rand : Nat → Nat) (nn : NeuralNetwork)
    (factory : NeuronFactory) (n lo hi : Nat) :
    nn.generate_random_core_neurons rand factory (n + 1) 0 4294967295 lo hi = none ∧
    nn.generate_random_core_neurons rand factory (n + 1) 4294967295 0 lo hi = none ∧
    nn.generate_random_core_neurons rand factory (n + 1) 1 1 0 4294967295 = none := by
  refine ⟨?_, ?_, ?_⟩ <;>
    simp [NeuralNetwork.generate_random_core_neurons, NeuralNetwork.generate_loop, swap]


/-! ## The forward activation of a propagator -/

theorem activate_from_scan {U Sig : Type} (F : Functors U Sig) (g : Graph) :
    ∀ (cs : List Connector) (fuel : Nat) (u : U) (p : Propagator) (s : Nat),
    p.dendrites.container.drop s = cs → p.dendrites.itr = s → cs.length ≤ fuel →
    (∀ c ∈ cs, ∀ a, c.neuron = some a → (g.synapse a c.nth).isSome) →
    ∃ p', Propagator.activate_from F g fuel u p
        (if s < p.dendrites.container.length then some s else none) s =
      some ((accepted_inputs F p.neuron u s cs).1, p',
        (accepted_inputs F p.neuron u s cs).2.map (fun i => NodeCall.process_input i i)) ∧
      p'.neuron = p.neuron ∧ p'.synapses = p.synapses := by
  intro cs
  induction cs with
  | nil =>
    intro fuel u p s hd hi _ _
    have hs : ¬ s < p.dendrites.container.length := by
      intro hlt
      have := List.drop_eq_nil_iff.mp hd
      omega
    rw [if_neg hs]
    refine ⟨p, ?_, rfl, rfl⟩
    cases fuel <;> simp [Propagator.activate_from, accepted_inputs]
  | cons c cs ih =>
    intro fuel u p s hd hi hf hwf
    obtain ⟨pn, ⟨cont, itr⟩, ps⟩ := p
    simp only at hi hd
    subst hi
    have hs : itr < cont.length := by
      by_contra hge
      rw [List.drop_eq_nil_iff.mpr (Nat.le_of_not_lt hge)] at hd
      cases hd
    have hget : cont[itr]? = some c := by
      have := congrArg List.head? hd
      simpa [List.head?_drop] using this
    have hd1 : cont.drop (itr + 1) = cs := by
      have := congrArg List.tail hd
      simpa [List.tail_drop] using this
    obtain ⟨f, rfl⟩ : ∃ f, fuel = f + 1 := ⟨fuel - 1, by simp at hf; omega⟩
    have hf1 : cs.length ≤ f := by simp at hf; omega
    have hwf1 : ∀ c' ∈ cs, ∀ a, c'.neuron = some a → (g.synapse a c'.nth).isSome :=
      fun c' hc' => hwf c' (List.mem_cons_of_mem _ hc')
    have hrec := fun (u1 : U) => ih f u1 ⟨pn, ⟨cont, itr + 1⟩, ps⟩ (itr + 1) hd1 rfl hf1 hwf1
    have hnext : (ConnectorIterator.next ⟨cont, itr⟩ : Option (ConnectorIterator Connector × Option Nat)) =
        some (⟨cont, itr + 1⟩, if itr + 1 < cont.length then some (itr + 1) else none) := by
      simp only [ConnectorIterator.next, if_pos hs, ConnectorIterator.null]
      by_cases he : itr + 1 = cont.length
      · rw [if_pos he, if_neg (by omega)]
      · rw [if_neg he, if_pos (by omega)]
    simp only [if_pos hs, Propagator.activate_from, ConnectorIterator.deref, hget, hnext]
    obtain ⟨n, nth⟩ := c
    cases n with
    | none =>
      simp only [Connector.is_connected, accepted_inputs]
      simpa using hrec u
    | some source =>
      obtain ⟨slot, hslot⟩ := Option.isSome_iff_exists.mp
        (hwf ⟨some source, nth⟩ (List.mem_cons_self _ _) source rfl)
      simp only at hslot
      simp only [Connector.is_connected, Connector.get_neuron, Connector.get_nth, hslot,
        accepted_inputs]
      by_cases hb : (F.dendrite_process_input (F.synapse_propagate u source nth).1 pn itr
          (F.synapse_propagate u source nth).2).2 = true
      · obtain ⟨p', h1, h2, h3⟩ := hrec (F.process_input
          (F.dendrite_propagate (F.dendrite_process_input (F.synapse_propagate u source nth).1
            pn itr (F.synapse_propagate u source nth).2).1 pn itr).1 pn itr
          (F.dendrite_propagate (F.dendrite_process_input (F.synapse_propagate u source nth).1
            pn itr (F.synapse_propagate u source nth).2).1 pn itr).2)
        refine ⟨p', ?_, h2, h3⟩
        simp [hb, h1]
      · obtain ⟨p', h1, h2, h3⟩ := hrec (F.dendrite_process_input
          (F.synapse_propagate u source nth).1 pn itr (F.synapse_propagate u source nth).2).1
        refine ⟨p', ?_, h2, h3⟩
        simp [hb, h1]

theorem accepted_inputs_sound {U Sig : Type} (F : Functors U Sig) (self : Nat)
    (cont : List Connector) : ∀ (cs : List Connector) (u : U) (s : Nat), cont.drop s = cs →
    ∀ i ∈ (accepted_inputs F self u s cs).2,
      s ≤ i ∧ ∃ a nth, cont[i]? = some ⟨some a, nth⟩ := by
  intro cs
  induction cs with
  | nil =>
    intro u s _ i hi
    simp [accepted_inputs] at hi
  | cons c cs ih =>
    intro u s hd i hi
    have hget : cont[s]? = some c := by
      have := congrArg List.head? hd
      simpa [List.head?_drop] using this
    have hd1 : cont.drop (s + 1) = cs := by
      have := congrArg List.tail hd
      simpa [List.tail_drop] using this
    obtain ⟨n, nth⟩ := c
    cases n with
    | none =>
      simp only [accepted_inputs] at hi
      obtain ⟨h1, h2⟩ := ih u (s + 1) hd1 i hi
      exact ⟨by omega, h2⟩
    | some source =>
      simp only [accepted_inputs] at hi
      split at hi
      · rcases List.mem_cons.mp hi with rfl | hi
        · exact ⟨Nat.le_refl _, source, nth, hget⟩
        · obtain ⟨h1, h2⟩ := ih _ (s + 1) hd1 i hi
          exact ⟨by omega, h2⟩
      · obtain ⟨h1, h2⟩ := ih _ (s + 1) hd1 i hi
        exact ⟨by omega, h2⟩

theorem accepted_inputs_ascending {U Sig : Type} (F : Functors U Sig) (self : Nat) :
    ∀ (cs : List Connector) (u : U) (s : Nat),
    (accepted_inputs F self u s cs).2.Pairwise (fun i j => i < j) := by
  intro cs
  induction cs with
  | nil =>
    intro u s
    simp [accepted_inputs]
  | cons c cs ih =>
    intro u s
    obtain ⟨n, nth⟩ := c
    cases n with
    | none =>
      simp only [accepted_inputs]
      exact ih u (s + 1)
    | some source =>
      simp only [accepted_inputs]
      split
      · simp only [List.pairwise_cons]
        refine ⟨?_, ih _ (s + 1)⟩
        intro j hj
        have := (accepted_inputs_sound F self (List.replicate (s + 1) ⟨none, 0⟩ ++ cs) cs _
          (s + 1) (by simp [List.drop_append]) j hj).1
        omega
      · exact ih _ (s + 1)

theorem accepted_inputs_pure {U Sig : Type} (F : Functors U Sig) (self : Nat)
    (acc : Nat → Nat → Bool)
    (hacc : ∀ u a i sig, (F.dendrite_process_input u a i sig).2 = acc a i)
    (cont : List Connector) : ∀ (cs : List Connector) (u : U) (s : Nat), cont.drop s = cs →
    ∀ i, i ∈ (accepted_inputs F self u s cs).2 ↔
      s ≤ i ∧ (∃ a nth, cont[i]? = some ⟨some a, nth⟩) ∧ acc self i = true := by
  intro cs
  induction cs with
  | nil =>
    intro u s hd i
    simp only [accepted_inputs, List.not_mem_nil, false_iff]
    rintro ⟨h1, ⟨a, nth, h2⟩, _⟩
    have hlen := List.drop_eq_nil_iff.mp hd
    have := (List.getElem?_eq_some.mp h2).1
    omega
  | cons c cs ih =>
    intro u s hd i
    have hget : cont[s]? = some c := by
      have := congrArg List.head? hd
      simpa [List.head?_drop] using this
    have hd1 : cont.drop (s + 1) = cs := by
      have := congrArg List.tail hd
      simpa [List.tail_drop] using this
    have hsplit : s ≤ i ↔ i = s ∨ s + 1 ≤ i := by omega
    obtain ⟨n, nth⟩ := c
    cases n with
    | none =>
      simp only [accepted_inputs]
      rw [ih u (s + 1) hd1 i, hsplit]
      constructor
      · rintro ⟨h1, h2⟩
        exact ⟨Or.inr h1, h2⟩
      · rintro ⟨h1 | h1, ⟨a, nth', h2⟩, h3⟩
        · subst h1
          rw [hget] at h2
          simp at h2
        · exact ⟨h1, ⟨a, nth', h2⟩, h3⟩
    | some source =>
      simp only [accepted_inputs, hacc]
      by_cases hr : acc self s = true
      · simp only [hr, if_true]
        rw [List.mem_cons, ih _ (s + 1) hd1 i, hsplit]
        constructor
        · rintro (h | ⟨h1, h2⟩)
          · subst h
            exact ⟨Or.inl rfl, ⟨source, nth, hget⟩, hr⟩
          · exact ⟨Or.inr h1, h2⟩
        · rintro ⟨h1 | h1, h2, h3⟩
          · exact Or.inl h1
          · exact Or.inr ⟨h1, h2, h3⟩
      · simp only [hr, if_false, Bool.false_eq_true]
        rw [ih _ (s + 1) hd1 i, hsplit]
        constructor
        · rintro ⟨h1, h2⟩
          exact ⟨Or.inr h1, h2⟩
        · rintro ⟨h1 | h1, h2, h3⟩
          · subst h1
            exact absurd h3 hr
          · exact ⟨h1, h2, h3⟩

/-- Claim C28. For every neuron, every strategy and every state of the user's data,
when each connected inbound slot references an existing outbound slot of its peer,
`Propagator::operator ()` returns (with any fuel from the number of inbound slots on)
what the forward activation of the spec gives: the node strategy's `process_input` is
called for the accepted slots, in order, each time with the position of the slot,
then `propagate` is called, and its boolean result is returned. The accepted positions
are strictly ascending and are positions of connected slots; when the inbound
strategy's answer is a predicate `acc` of the neuron and the slot, they are exactly
the connected slots for which `acc` holds; and `propagate` is called exactly once,
after all calls of `process_input`. -/
theorem operator_call_protocol {U Sig : Type} (F : Functors U Sig) (g : Graph) (u : U)
    (p : Propagator) (k : Nat)
    (hwf : ∀ c ∈ p.dendrites.container, ∀ a, c.neuron = some a →
      (g.synapse a c.nth).isSome) :
    (∃ p', p.call F g (p.dendrites.numof + k) u =
      some ((forward_activation F p.neuron u p.dendrites.container).1, p',
        (forward_activation F p.neuron u p.dendrites.container).2.1,
        (forward_activation F p.neuron u p.dendrites.container).2.2)) ∧
    (accepted_inputs F p.neuron u 0 p.dendrites.container).2.Pairwise (fun i j => i < j) ∧
    (∀ i ∈ (accepted_inputs F p.neuron u 0 p.dendrites.container).2,
      ∃ a nth, p.dendrites.container[i]? = some ⟨some a, nth⟩) ∧
    (∀ acc : Nat → Nat → Bool,
      (∀ v a i sig, (F.dendrite_process_input v a i sig).2 = acc a i) →
      ∀ i, i ∈ (accepted_inputs F p.neuron u 0 p.dendrites.container).2 ↔
        (∃ a nth, p.dendrites.container[i]? = some ⟨some a, nth⟩) ∧ acc p.neuron i = true) ∧
    (forward_activation F p.neuron u p.dendrites.container).2.2.count NodeCall.propagate = 1 ∧
    (forward_activation F p.neuron u p.dendrites.container).2.2.getLast? =
      some NodeCall.propagate := by
  refine ⟨?_, accepted_inputs_ascending F _ _ _ _, ?_, ?_, ?_, ?_⟩
  · obtain ⟨pn, ⟨cont, itr⟩, ps⟩ := p
    obtain ⟨p', h1, _⟩ := activate_from_scan F g cont (cont.length + k) u
      ⟨pn, ⟨cont, 0⟩, ps⟩ 0 rfl rfl (by omega) hwf
    refine ⟨p', ?_⟩
    simp only [Propagator.call, ConnectorIterator.first_fst, ConnectorIterator.first_snd,
      ConnectorIterator.numof, forward_activation]
    have hptr : (if 0 = cont.length then none else some 0) =
        (if 0 < cont.length then some 0 else none) := by
      by_cases he : 0 = cont.length
      · rw [if_pos he, if_neg (by omega)]
      · rw [if_neg he, if_pos (by omega)]
    rw [hptr]
    simp only at h1
    rw [h1]
  · intro i hi
    exact (accepted_inputs_sound F _ p.dendrites.container _ u 0 rfl i hi).2
  · intro acc hacc i
    have h := accepted_inputs_pure F p.neuron acc hacc p.dendrites.container
      p.dendrites.container u 0 (List.drop_zero _) i
    rw [h]
    simp
  · simp only [forward_activation, List.count_append]
    have h0 : ∀ l : List Nat,
        (l.map (fun i => NodeCall.process_input i i)).count NodeCall.propagate = 0 := by
      intro l
      induction l with
      | nil => rfl
      | cons a t ih => simp [List.count_cons, ih]
    rw [h0]
    rfl
  · simp [forward_activation]

theorem operator_call_protocol_witness :
    (forward_activation countingFunctors 1 0 sampleInbound.dendrites.container).2.2 =
      [NodeCall.process_input 0 0, NodeCall.process_input 2 2, NodeCall.propagate] ∧
    ∃ p', sampleInbound.call countingFunctors twoNeuronsSkewed
        (sampleInbound.dendrites.numof + 0) 0 =
      some ((forward_activation countingFunctors sampleInbound.neuron 0
          sampleInbound.dendrites.container).1, p',
        (forward_activation countingFunctors sampleInbound.neuron 0
          sampleInbound.dendrites.container).2.1,
        (forward_activation countingFunctors sampleInbound.neuron 0
          sampleInbound.dendrites.container).2.2) :=
  ⟨by decide,
    (operator_call_protocol countingFunctors twoNeuronsSkewed 0 sampleInbound 0
      (by decide)).1⟩


/-! ## The pools during the wiring loop -/

theorem nodup_map_inj {α β : Type} {f : α → β} {l : List α} (h : (l.map f).Nodup) {a b : α}
    (ha : a ∈ l) (hb : b ∈ l) (hab : f a = f b) : a = b :=
  List.inj_on_of_nodup_map h ha hb hab

theorem slotsAccounted_step (slot : Graph → Nat → Nat → Option Connector) (g g' : Graph)
    (l l' : List ncounter) (e : ncounter) (hinv : SlotsAccounted slot g l) (he : e ∈ l)
    (hperm : l'.Perm ((if e.k = 1 then [] else [⟨e.neuron, e.k - 1⟩]) ++ l.erase e))
    (hconn : ∃ c, slot g' e.neuron (e.k - 1) = some c ∧ c.is_connected = true)
    (hframe : ∀ x j, (x, j) ≠ (e.neuron, e.k - 1) → slot g' x j = slot g x j) :
    SlotsAccounted slot g' l' ∧
    (l'.map ncounter.k).sum + 1 = (l.map ncounter.k).sum := by
  obtain ⟨hnd, hc, hd⟩ := hinv
  obtain ⟨hk1, hk32, hfree⟩ := hc e he
  have hother : ∀ x ∈ l.erase e, x ∈ l ∧ x.neuron ≠ e.neuron := by
    intro x hx
    have hxl : x ∈ l := List.mem_of_mem_erase hx
    refine ⟨hxl, fun hn => ?_⟩
    have hxe : x = e := nodup_map_inj hnd hxl he hn
    subst hxe
    have hndl : l.Nodup := List.Nodup.of_map _ hnd
    exact (List.Nodup.not_mem_erase hndl) hx
  have hmem : ∀ x, x ∈ l' ↔
      (x ∈ (if e.k = 1 then [] else [(⟨e.neuron, e.k - 1⟩ : ncounter)]) ∨ x ∈ l.erase e) := by
    intro x
    rw [hperm.mem_iff, List.mem_append]
  have hsum : (l.map ncounter.k).sum = e.k + ((l.erase e).map ncounter.k).sum :=
    (List.sum_map_erase ncounter.k he).symm
  refine ⟨⟨?_, ?_, ?_⟩, ?_⟩
  · rw [(hperm.map ncounter.neuron).nodup_iff, List.map_append]
    have hsub : ((l.erase e).map ncounter.neuron).Nodup :=
      List.Nodup.sublist ((List.erase_sublist e l).map _) hnd
    by_cases h1 : e.k = 1
    · rw [if_pos h1]
      simpa using hsub
    · rw [if_neg h1]
      simp only [List.map_cons, List.map_nil, List.singleton_append, List.nodup_cons]
      refine ⟨?_, hsub⟩
      intro hin
      obtain ⟨x, hx, hxn⟩ := List.mem_map.mp hin
      exact (hother x hx).2 hxn
  · intro x hx
    rcases (hmem x).mp hx with hx | hx
    · by_cases h1 : e.k = 1
      · rw [if_pos h1] at hx
        simp at hx
      · rw [if_neg h1] at hx
        simp only [List.mem_singleton] at hx
        subst hx
        refine ⟨by simp only; omega, by simp only; omega, fun j hj => ?_⟩
        simp only at hj
        obtain ⟨c, hc1, hc2⟩ := hfree j (by omega)
        refine ⟨c, ?_, hc2⟩
        show slot g' e.neuron j = some c
        rw [hframe e.neuron j (by
          intro heq
          simp only [Prod.mk.injEq] at heq
          omega)]
        exact hc1
    · obtain ⟨hxl, hxn⟩ := hother x hx
      obtain ⟨k1, k2, k3⟩ := hc x hxl
      refine ⟨k1, k2, fun j hj => ?_⟩
      obtain ⟨c, hc1, hc2⟩ := k3 j hj
      refine ⟨c, ?_, hc2⟩
      rw [hframe x.neuron j (by
        intro heq
        simp only [Prod.mk.injEq] at heq
        exact hxn heq.1)]
      exact hc1
  · intro x j c hs hfr
    have hne : (x, j) ≠ (e.neuron, e.k - 1) := by
      intro heq
      simp only [Prod.mk.injEq] at heq
      obtain ⟨c', hc1, hc2⟩ := hconn
      rw [heq.1, heq.2, hc1] at hs
      simp only [Option.some.injEq] at hs
      rw [hs] at hc2
      rw [hc2] at hfr
      cases hfr
    rw [hframe x j hne] at hs
    obtain ⟨e2, he2, hn2, hj2⟩ := hd x j c hs hfr
    by_cases hee : e2 = e
    · subst hee
      have hjk : j < e2.k - 1 := by
        have : j ≠ e2.k - 1 := by
          intro hj
          exact hne (by rw [← hn2, hj])
        omega
      refine ⟨⟨e2.neuron, e2.k - 1⟩, (hmem _).mpr (Or.inl ?_), hn2, hjk⟩
      rw [if_neg (by omega)]
      simp
    · refine ⟨e2, (hmem _).mpr (Or.inr ?_), hn2, hj2⟩
      exact (List.mem_erase_of_ne hee).mpr he2
  · rw [(hperm.map ncounter.k).sum_eq, hsum, List.map_append, List.sum_append]
    by_cases h1 : e.k = 1
    · rw [if_pos h1, h1]
      simp
      omega
    · rw [if_neg h1]
      simp
      omega


theorem set_perm_cons_erase {α : Type} [DecidableEq α] {l : List α} {i : Nat} {x y : α}
    (h : l[i]? = some x) : (l.set i y).Perm (y :: l.erase x) := by
  have hx : x ∈ l := List.mem_iff_getElem?.mpr ⟨i, h⟩
  have h1 : (x :: l.set i y).Perm (y :: l) := perm_set_swap l i x y h
  have h2 : (y :: l).Perm (x :: y :: l.erase x) :=
    ((List.perm_cons_erase hx).cons y).trans (List.Perm.swap x y _)
  exact (h1.trans h2).cons_inv

theorem pool_entry (slot : Graph → Nat → Nat → Option Connector) (g : Graph)
    (p : neuron_pool) (i : Nat) (hinv : PoolInv slot g p) (hi : i < p.n_available) :
    ∃ e, p.get i = some e ∧ p.available[i]? = some e ∧ 1 ≤ e.k ∧ e.k < 2 ^ 32 ∧
      e.decr = ⟨e.neuron, e.k - 1⟩ ∧
      ∃ c, slot g e.neuron (e.k - 1) = some c ∧ c.is_connected = false := by
  obtain ⟨hle, _, _, hc, _⟩ := hinv
  have hil : i < p.pool.length := by omega
  have hav : p.available[i]? = some p.pool[i] := by
    show (p.pool.take p.n_available)[i]? = _
    rw [List.getElem?_take_of_lt hi]
    exact List.getElem?_eq_getElem hil
  obtain ⟨k1, k2, k3⟩ := hc p.pool[i] (List.mem_iff_getElem?.mpr ⟨i, hav⟩)
  refine ⟨p.pool[i], List.getElem?_eq_getElem hil, hav, k1, k2, ?_, k3 _ (by omega)⟩
  have hk : (p.pool[i].k + 2 ^ 32 - 1) % 2 ^ 32 = p.pool[i].k - 1 := by
    rw [show p.pool[i].k + 2 ^ 32 - 1 = (p.pool[i].k - 1) + 2 ^ 32 by omega, Nat.add_mod_right]
    exact Nat.mod_eq_of_lt (by omega)
  simp only [ncounter.decr, hk]

theorem pool_step (slot : Graph → Nat → Nat → Option Connector) (g g' : Graph)
    (p : neuron_pool) (i : Nat) (e : ncounter) (hinv : PoolInv slot g p)
    (hi : i < p.n_available) (he : p.available[i]? = some e)
    (hdecr : e.decr = ⟨e.neuron, e.k - 1⟩)
    (hconn : ∃ c, slot g' e.neuron (e.k - 1) = some c ∧ c.is_connected = true)
    (hframe : ∀ x j, (x, j) ≠ (e.neuron, e.k - 1) → slot g' x j = slot g x j) :
    ∃ p1 p2, p.put i e.decr = some p1 ∧ NeuralNetwork.retire_if_zero p1 i = some p2 ∧
      PoolInv slot g' p2 ∧
      (p2.available.map ncounter.k).sum + 1 = (p.available.map ncounter.k).sum := by
  obtain ⟨hle, h32, hacc⟩ := hinv
  have hil : i < p.pool.length := by omega
  have hmem : e ∈ p.available := List.mem_iff_getElem?.mpr ⟨i, he⟩
  have hk1 : 1 ≤ e.k := (hacc.2.1 e hmem).1
  have hav1 : (p.pool.set i e.decr).take p.n_available = p.available.set i e.decr := by
    show _ = (p.pool.take p.n_available).set i e.decr
    rw [List.set_take]
  have hperm1 : (p.available.set i e.decr).Perm (e.decr :: p.available.erase e) :=
    set_perm_cons_erase he
  have hget1 : (p.pool.set i e.decr)[i]? = some e.decr := by
    simp [List.getElem?_set, hil]
  refine ⟨⟨p.pool.set i e.decr, p.n_neurons, p.n_available⟩, ?_⟩
  by_cases hz : e.k = 1
  · obtain ⟨p2, x, d1, d2, d3, d4, d5⟩ := delete_neuron_available
      ⟨p.pool.set i e.decr, p.n_neurons, p.n_available⟩ i (by simp; exact hle)
      (by simp only; omega) hi
    simp only at d2 d3 d4
    rw [hget1] at d2
    simp only [Option.some.injEq] at d2
    subst d2
    have hperm2 : p2.available.Perm
        ((if e.k = 1 then [] else [(⟨e.neuron, e.k - 1⟩ : ncounter)]) ++
          p.available.erase e) := by
      rw [if_pos hz, List.nil_append]
      refine d5.trans ?_
      show ((p.pool.set i e.decr).take p.n_available).erase e.decr |>.Perm _
      rw [hav1]
      have := hperm1.erase e.decr
      rw [List.erase_cons_head] at this
      exact this
    obtain ⟨s1, s2⟩ := slotsAccounted_step slot g g' p.available p2.available e hacc hmem
      hperm2 hconn hframe
    refine ⟨p2, ?_, ?_, ⟨by simp at d4; omega, by simp at d4; omega, s1⟩, s2⟩
    · simp only [neuron_pool.put, if_pos hil]
    · have hk0 : (e.decr.k == 0) = true := by
        rw [hdecr]
        simp only [beq_iff_eq]
        omega
      simp only [NeuralNetwork.retire_if_zero, neuron_pool.get, hget1, ncounter.eq, hk0, if_true]
      exact d1
  · have hperm2 : (neuron_pool.available ⟨p.pool.set i e.decr, p.n_neurons, p.n_available⟩).Perm
        ((if e.k = 1 then [] else [(⟨e.neuron, e.k - 1⟩ : ncounter)]) ++
          p.available.erase e) := by
      rw [if_neg hz]
      show ((p.pool.set i e.decr).take p.n_available).Perm _
      rw [hav1, ← hdecr]
      exact hperm1
    obtain ⟨s1, s2⟩ := slotsAccounted_step slot g g' p.available _ e hacc hmem
      hperm2 hconn hframe
    refine ⟨⟨p.pool.set i e.decr, p.n_neurons, p.n_available⟩, ?_, ?_,
      ⟨by simp; exact hle, by simp; exact h32, s1⟩, s2⟩
    · simp only [neuron_pool.put, if_pos hil]
    · have hk0 : (e.decr.k == 0) = false := by
        rw [hdecr]
        simp only [beq_eq_false_iff_ne, ne_eq]
        omega
      simp only [NeuralNetwork.retire_if_zero, neuron_pool.get, hget1, ncounter.eq, hk0,
        Bool.false_eq_true, if_false]


/-! ## Connecting two free slots: the graph afterwards -/

theorem connect_free_result (g : Graph) (A s B d : Nat) (cs cd : Connector) (fuel : Nat)
    (hfuel : 3 ≤ fuel)
    (hs : g.synapse A s = some cs) (hsfree : cs.is_connected = false)
    (hd : g.dendrite B d = some cd) (hdfree : cd.is_connected = false) :
    NeuralNetwork.connect fuel g (some A) s (some B) d =
      Outcome.done ((g.setSynapse A s ⟨some B, d⟩).setDendrite B d ⟨some A, s⟩) := by
  obtain ⟨f, rfl⟩ : ∃ f, fuel = f + 3 := ⟨fuel - 3, by omega⟩
  have hsn := Connector.neuron_of_not_connected hsfree
  have hdn := Connector.neuron_of_not_connected hdfree
  have h2 : (g.setSynapse A s ⟨some B, d⟩).dendrite B d = some cd := by simp [hd]
  have h3 : ((g.setSynapse A s ⟨some B, d⟩).setDendrite B d ⟨some A, s⟩).synapse A s
      = some ⟨some B, d⟩ := by simp [Graph.synapse_setSynapse, hs]
  unfold NeuralNetwork.connect
  simp only []
  rw [connect_synapse_step (f + 2) d hs (by simp [hsn]) (disconnect_synapse_free (f + 1) hs hsn) hs,
    connect_dendrite_step (f + 1) s h2 (by simp [hdn]) (disconnect_dendrite_free f h2 hdn) h2,
    connect_synapse_same f d h3 rfl]

theorem sum_map_set_same {α : Type} (f : α → Nat) (l : List α) (i : Nat) (x y : α)
    (h : l[i]? = some y) (hf : f x = f y) : ((l.set i x).map f).sum = (l.map f).sum := by
  have := List.sum_map_set_add f x l i y h
  omega

theorem Graph.connected_synapses_setSynapse {g : Graph} {a i : Nat} {c0 : Connector}
    (c : Connector) (h : g.synapse a i = some c0) :
    (g.setSynapse a i c).connected_synapses + c0.weight = g.connected_synapses + c.weight := by
  obtain ⟨me, hg, hs⟩ := Graph.synapse_eq_some h
  have h1 := List.sum_map_set_add (fun me => (me.synapses.map Connector.weight).sum)
    { me with synapses := me.synapses.set i c } g a me hg
  have h2 := List.sum_map_set_add Connector.weight c me.synapses i c0 hs
  simp only [Graph.connected_synapses, Graph.setSynapse, hg] at h1 ⊢
  omega

theorem Graph.connected_dendrites_setDendrite {g : Graph} {a i : Nat} {c0 : Connector}
    (c : Connector) (h : g.dendrite a i = some c0) :
    (g.setDendrite a i c).connected_dendrites + c0.weight =
      g.connected_dendrites + c.weight := by
  obtain ⟨me, hg, hs⟩ := Graph.dendrite_eq_some h
  have h1 := List.sum_map_set_add (fun me => (me.dendrites.map Connector.weight).sum)
    { me with dendrites := me.dendrites.set i c } g a me hg
  have h2 := List.sum_map_set_add Connector.weight c me.dendrites i c0 hs
  simp only [Graph.connected_dendrites, Graph.setDendrite, hg] at h1 ⊢
  omega

theorem Graph.connected_synapses_setDendrite (g : Graph) (a i : Nat) (c : Connector) :
    (g.setDendrite a i c).connected_synapses = g.connected_synapses := by
  unfold Graph.setDendrite
  cases hg : g[a]? with
  | none => rfl
  | some me =>
    have h := sum_map_set_same (fun x : Neuron => (x.synapses.map Connector.weight).sum) g a
      { me with dendrites := me.dendrites.set i c } me hg rfl
    exact h

theorem Graph.connected_dendrites_setSynapse (g : Graph) (a i : Nat) (c : Connector) :
    (g.setSynapse a i c).connected_dendrites = g.connected_dendrites := by
  unfold Graph.setSynapse
  cases hg : g[a]? with
  | none => rfl
  | some me =>
    have h := sum_map_set_same (fun x : Neuron => (x.dendrites.map Connector.weight).sum) g a
      { me with synapses := me.synapses.set i c } me hg rfl
    exact h

theorem Graph.totals_setSynapse (g : Graph) (a i : Nat) (c : Connector) :
    (g.setSynapse a i c).total_synapses = g.total_synapses ∧
    (g.setSynapse a i c).total_dendrites = g.total_dendrites := by
  unfold Graph.setSynapse
  cases hg : g[a]? with
  | none => exact ⟨rfl, rfl⟩
  | some me =>
    exact ⟨sum_map_set_same Neuron.n_synapses g a _ me hg (by simp [Neuron.n_synapses]),
      sum_map_set_same Neuron.n_dendrites g a _ me hg rfl⟩

theorem Graph.totals_setDendrite (g : Graph) (a i : Nat) (c : Connector) :
    (g.setDendrite a i c).total_synapses = g.total_synapses ∧
    (g.setDendrite a i c).total_dendrites = g.total_dendrites := by
  unfold Graph.setDendrite
  cases hg : g[a]? with
  | none => exact ⟨rfl, rfl⟩
  | some me =>
    exact ⟨sum_map_set_same Neuron.n_synapses g a _ me hg rfl,
      sum_map_set_same Neuron.n_dendrites g a _ me hg (by simp [Neuron.n_dendrites])⟩

theorem sum_weight_le (l : List Connector) : (l.map Connector.weight).sum ≤ l.length := by
  induction l with
  | nil => simp
  | cons c t ih =>
    have := Connector.weight_le_one c
    simp only [List.map_cons, List.sum_cons, List.length_cons]
    omega

theorem sum_weight_all (l : List Connector) (h : ∀ c ∈ l, c.is_connected = true) :
    (l.map Connector.weight).sum = l.length := by
  induction l with
  | nil => simp
  | cons c t ih =>
    have h1 : c.weight = 1 := by simp [Connector.weight, h c (List.mem_cons_self _ _)]
    have h2 := ih (fun x hx => h x (List.mem_cons_of_mem _ hx))
    simp only [List.map_cons, List.sum_cons, List.length_cons, h1, h2]
    omega

theorem sum_weight_none (l : List Connector) (h : ∀ c ∈ l, c.is_connected = false) :
    (l.map Connector.weight).sum = 0 := by
  induction l with
  | nil => simp
  | cons c t ih =>
    have h1 : c.weight = 0 := by simp [Connector.weight, h c (List.mem_cons_self _ _)]
    have h2 := ih (fun x hx => h x (List.mem_cons_of_mem _ hx))
    simp only [List.map_cons, List.sum_cons, h1, h2]

theorem sum_map_le_sum_map {α : Type} (f k : α → Nat) (l : List α) (h : ∀ x ∈ l, f x ≤ k x) :
    (l.map f).sum ≤ (l.map k).sum := by
  induction l with
  | nil => simp
  | cons a t ih =>
    have h1 := h a (List.mem_cons_self _ _)
    have h2 := ih (fun x hx => h x (List.mem_cons_of_mem _ hx))
    simp only [List.map_cons, List.sum_cons]
    omega

theorem sum_map_eq_sum_map {α : Type} (f k : α → Nat) (l : List α) (h : ∀ x ∈ l, f x = k x) :
    (l.map f).sum = (l.map k).sum := by
  rw [List.map_congr_left h]

theorem Graph.connected_le_total (g : Graph) :
    g.connected_synapses ≤ g.total_synapses ∧ g.connected_dendrites ≤ g.total_dendrites :=
  ⟨sum_map_le_sum_map _ _ g (fun me _ => sum_weight_le me.synapses),
    sum_map_le_sum_map _ _ g (fun me _ => sum_weight_le me.dendrites)⟩

theorem Graph.connected_of_unwired {g : Graph} (h : Unwired g) :
    g.connected_synapses = 0 ∧ g.connected_dendrites = 0 := by
  constructor
  · unfold Graph.connected_synapses
    rw [sum_map_eq_sum_map _ (fun _ => 0) g (fun me hme => sum_weight_none _ (h me hme).2)]
    simp
  · unfold Graph.connected_dendrites
    rw [sum_map_eq_sum_map _ (fun _ => 0) g (fun me hme => sum_weight_none _ (h me hme).1)]
    simp

theorem Graph.all_synapses_connected {g : Graph}
    (h : ∀ x j c, g.synapse x j = some c → c.is_connected = true) :
    g.connected_synapses = g.total_synapses := by
  apply sum_map_eq_sum_map
  intro me hme
  apply sum_weight_all
  intro c hc
  obtain ⟨x, hx⟩ := List.mem_iff_getElem?.mp hme
  obtain ⟨j, hj⟩ := List.mem_iff_getElem?.mp hc
  exact h x j c (by simp [Graph.synapse, hx, hj])

theorem Graph.all_dendrites_connected {g : Graph}
    (h : ∀ x j c, g.dendrite x j = some c → c.is_connected = true) :
    g.connected_dendrites = g.total_dendrites := by
  apply sum_map_eq_sum_map
  intro me hme
  apply sum_weight_all
  intro c hc
  obtain ⟨x, hx⟩ := List.mem_iff_getElem?.mp hme
  obtain ⟨j, hj⟩ := List.mem_iff_getElem?.mp hc
  exact h x j c (by simp [Graph.dendrite, hx, hj])


theorem linked_slots (g : Graph) (A s B d : Nat) (cs cd : Connector)
    (hs : g.synapse A s = some cs) (hd : g.dendrite B d = some cd) :
    (∀ a i, ((g.setSynapse A s ⟨some B, d⟩).setDendrite B d ⟨some A, s⟩).synapse a i =
      if a = A ∧ i = s then some ⟨some B, d⟩ else g.synapse a i) ∧
    (∀ a i, ((g.setSynapse A s ⟨some B, d⟩).setDendrite B d ⟨some A, s⟩).dendrite a i =
      if a = B ∧ i = d then some ⟨some A, s⟩ else g.dendrite a i) := by
  refine ⟨fun a i => ?_, fun a i => ?_⟩
  · rw [Graph.synapse_setDendrite, Graph.synapse_setSynapse, hs]
    rfl
  · rw [Graph.dendrite_setDendrite, Graph.dendrite_setSynapse, Graph.dendrite_setSynapse, hd]
    rfl

theorem linked_graph (g : Graph) (A s B d : Nat) (cs cd : Connector)
    (hs : g.synapse A s = some cs) (hsfree : cs.is_connected = false)
    (hd : g.dendrite B d = some cd) (hdfree : cd.is_connected = false)
    (hrec : Reciprocal g) (hcount : g.connected_synapses = g.connected_dendrites) :
    Reciprocal ((g.setSynapse A s ⟨some B, d⟩).setDendrite B d ⟨some A, s⟩) ∧
    ((g.setSynapse A s ⟨some B, d⟩).setDendrite B d ⟨some A, s⟩).connected_synapses =
      ((g.setSynapse A s ⟨some B, d⟩).setDendrite B d ⟨some A, s⟩).connected_dendrites ∧
    ((g.setSynapse A s ⟨some B, d⟩).setDendrite B d ⟨some A, s⟩).total_synapses =
      g.total_synapses ∧
    ((g.setSynapse A s ⟨some B, d⟩).setDendrite B d ⟨some A, s⟩).total_dendrites =
      g.total_dendrites := by
  obtain ⟨ls, ld⟩ := linked_slots g A s B d cs cd hs hd
  have hsn := Connector.neuron_of_not_connected hsfree
  have hdn := Connector.neuron_of_not_connected hdfree
  refine ⟨⟨?_, ?_⟩, ?_, ?_, ?_⟩
  · intro a i b j h
    rw [ls] at h
    rw [ld]
    by_cases hc : a = A ∧ i = s
    · rw [if_pos hc] at h
      simp only [Option.some.injEq, Connector.mk.injEq] at h
      obtain ⟨h1, h2⟩ := h
      subst h1 h2
      rw [if_pos ⟨rfl, rfl⟩, hc.1, hc.2]
    · rw [if_neg hc] at h
      have h2 := hrec.1 a i b j h
      have hne : ¬ (b = B ∧ j = d) := by
        rintro ⟨rfl, rfl⟩
        rw [hd] at h2
        simp only [Option.some.injEq] at h2
        rw [h2] at hdn
        simp at hdn
      rw [if_neg hne]
      exact h2
  · intro b j a i h
    rw [ld] at h
    rw [ls]
    by_cases hc : b = B ∧ j = d
    · rw [if_pos hc] at h
      simp only [Option.some.injEq, Connector.mk.injEq] at h
      obtain ⟨h1, h2⟩ := h
      subst h1 h2
      rw [if_pos ⟨rfl, rfl⟩, hc.1, hc.2]
    · rw [if_neg hc] at h
      have h2 := hrec.2 b j a i h
      have hne : ¬ (a = A ∧ i = s) := by
        rintro ⟨rfl, rfl⟩
        rw [hs] at h2
        simp only [Option.some.injEq] at h2
        rw [h2] at hsn
        simp at hsn
      rw [if_neg hne]
      exact h2
  · have h1 := Graph.connected_synapses_setSynapse (⟨some B, d⟩ : Connector) hs
    have h2 : (g.setSynapse A s ⟨some B, d⟩).dendrite B d = some cd := by simp [hd]
    have h3 := Graph.connected_dendrites_setDendrite (⟨some A, s⟩ : Connector) h2
    rw [Graph.connected_synapses_setDendrite]
    rw [Graph.connected_dendrites_setSynapse] at h3
    have w1 : cs.weight = 0 := by simp [Connector.weight, hsfree]
    have w2 : cd.weight = 0 := by simp [Connector.weight, hdfree]
    have w3 : (⟨some B, d⟩ : Connector).weight = 1 := Connector.weight_of_neuron rfl
    have w4 : (⟨some A, s⟩ : Connector).weight = 1 := Connector.weight_of_neuron rfl
    omega
  · rw [(Graph.totals_setDendrite _ _ _ _).1, (Graph.totals_setSynapse _ _ _ _).1]
  · rw [(Graph.totals_setDendrite _ _ _ _).2, (Graph.totals_setSynapse _ _ _ _).2]


/-! ## The wiring loop -/

theorem pool_exhausted (slot : Graph → Nat → Nat → Option Connector) (g : Graph)
    (p : neuron_pool) (hinv : PoolInv slot g p) (hsum : (p.available.map ncounter.k).sum = 0) :
    p.n_available = 0 := by
  obtain ⟨hle, _, _, hc, _⟩ := hinv
  have hnil : p.available = [] := by
    cases hav : p.available with
    | nil => rfl
    | cons e t =>
      rw [hav] at hsum hc
      have := (hc e (List.mem_cons_self _ _)).1
      simp only [List.map_cons, List.sum_cons] at hsum
      omega
  have hlen : p.available.length = p.n_available := by
    show (p.pool.take p.n_available).length = _
    rw [List.length_take]
    omega
  rw [hnil] at hlen
  exact hlen.symm

theorem wire_spec (rand : Nat → Nat) (fuel : Nat) (hfuel : 3 ≤ fuel) :
    ∀ (remaining k : Nat) (g : Graph) (dp sp : neuron_pool),
    PoolInv Graph.dendrite g dp → PoolInv Graph.synapse g sp → Reciprocal g →
    g.connected_synapses = g.connected_dendrites →
    (dp.available.map ncounter.k).sum = remaining →
    ∃ g' dp' sp', NeuralNetwork.wire rand fuel remaining k g dp sp = some (g', dp', sp') ∧
      (dp'.n_available = 0 ∨ sp'.n_available = 0) ∧
      PoolInv Graph.dendrite g' dp' ∧ PoolInv Graph.synapse g' sp' ∧ Reciprocal g' ∧
      g'.connected_synapses = g'.connected_dendrites ∧
      g'.total_synapses = g.total_synapses ∧ g'.total_dendrites = g.total_dendrites := by
  intro remaining
  induction remaining with
  | zero =>
    intro k g dp sp hdp hsp hrec hcount hsum
    exact ⟨g, dp, sp, rfl, Or.inl (pool_exhausted _ g dp hdp hsum), hdp, hsp, hrec, hcount,
      rfl, rfl⟩
  | succ r ih =>
    intro k g dp sp hdp hsp hrec hcount hsum
    by_cases hbreak : dp.n_available = 0 ∨ sp.n_available = 0
    · refine ⟨g, dp, sp, ?_, hbreak, hdp, hsp, hrec, hcount, rfl, rfl⟩
      simp only [NeuralNetwork.wire, if_pos hbreak]
    · have hd0 : 0 < dp.n_available := by omega
      have hs0 : 0 < sp.n_available := by omega
      have hid : rand k % dp.n_available < dp.n_available := Nat.mod_lt _ hd0
      have his : rand (k + 1) % sp.n_available < sp.n_available := Nat.mod_lt _ hs0
      obtain ⟨es, s1, s2, s3, s4, s5, cs, s6, s7⟩ := pool_entry _ g sp _ hsp his
      obtain ⟨ed, d1, d2, d3, d4, d5, cd, d6, d7⟩ := pool_entry _ g dp _ hdp hid
      have hconn := connect_free_result g es.neuron (es.k - 1) ed.neuron (ed.k - 1) cs cd fuel
        hfuel s6 s7 d6 d7
      obtain ⟨ls, ld⟩ := linked_slots g es.neuron (es.k - 1) ed.neuron (ed.k - 1) cs cd s6 d6
      obtain ⟨g1, g2, g3, g4⟩ := linked_graph g es.neuron (es.k - 1) ed.neuron (ed.k - 1) cs cd
        s6 s7 d6 d7 hrec hcount
      obtain ⟨sp1, sp2, a1, a2, a3, _⟩ := pool_step Graph.synapse g
        ((g.setSynapse es.neuron (es.k - 1) ⟨some ed.neuron, ed.k - 1⟩).setDendrite ed.neuron
          (ed.k - 1) ⟨some es.neuron, es.k - 1⟩) sp _ es hsp his s2 s5
        ⟨⟨some ed.neuron, ed.k - 1⟩, by rw [ls, if_pos ⟨rfl, rfl⟩], rfl⟩
        (fun x j hne => by
          rw [ls, if_neg (fun h => hne (by rw [h.1, h.2]))])
      obtain ⟨dp1, dp2, b1, b2, b3, b4⟩ := pool_step Graph.dendrite g
        ((g.setSynapse es.neuron (es.k - 1) ⟨some ed.neuron, ed.k - 1⟩).setDendrite ed.neuron
          (ed.k - 1) ⟨some es.neuron, es.k - 1⟩) dp _ ed hdp hid d2 d5
        ⟨⟨some es.neuron, es.k - 1⟩, by rw [ld, if_pos ⟨rfl, rfl⟩], rfl⟩
        (fun x j hne => by
          rw [ld, if_neg (fun h => hne (by rw [h.1, h.2]))])
      obtain ⟨g', dp', sp', w1, w2, w3, w4, w5, w6, w7, w8⟩ := ih (k + 2) _ dp2 sp2 b3 a3 g1 g2
        (by omega)
      refine ⟨g', dp', sp', ?_, w2, w3, w4, w5, w6, w7.trans g3, w8.trans g4⟩
      have hks : es.decr.k = es.k - 1 := by rw [s5]
      have hkd : ed.decr.k = ed.k - 1 := by rw [d5]
      simp only [NeuralNetwork.wire, if_neg hbreak, s1, d1, a1, b1, hks, hkd, hconn, a2, b2]
      exact w1


/-! ## Filling the pools -/

theorem fill_pools_spec (g : Graph)
    (hcount : ∀ me ∈ g, me.n_dendrites < 2 ^ 32 ∧ me.n_synapses < 2 ^ 32) :
    ∀ (m i : Nat) (dp sp : neuron_pool) (nd ns : Nat), i + m = g.length →
    dp.pool.length = g.length → sp.pool.length = g.length →
    nd + ((List.range' i m).map g.n_dendrites).sum < 2 ^ 64 →
    ∃ dp' sp' ns', NeuralNetwork.fill_pools g (List.range' i m) i dp sp nd ns =
        some (dp', sp', nd + ((List.range' i m).map g.n_dendrites).sum, ns') ∧
      dp'.n_available = dp.n_available ∧ sp'.n_available = sp.n_available ∧
      dp'.pool.length = g.length ∧ sp'.pool.length = g.length ∧
      (∀ x, x < i → dp'.pool[x]? = dp.pool[x]? ∧ sp'.pool[x]? = sp.pool[x]?) ∧
      (∀ x, i ≤ x → x < i + m → dp'.pool[x]? = some ⟨x, g.n_dendrites x⟩ ∧
        sp'.pool[x]? = some ⟨x, g.n_synapses x⟩) := by
  intro m
  induction m with
  | zero =>
    intro i dp sp nd ns _ hdl hsl _
    refine ⟨dp, sp, ns, by simp [NeuralNetwork.fill_pools], rfl, rfl, hdl, hsl,
      fun x _ => ⟨rfl, rfl⟩, fun x h1 h2 => by omega⟩
  | succ m ih =>
    intro i dp sp nd ns him hdl hsl hnd
    have hi : i < g.length := by omega
    have hgi : g[i]? = some g[i] := List.getElem?_eq_getElem hi
    have hmem : g[i] ∈ g := List.mem_iff_getElem?.mpr ⟨i, hgi⟩
    obtain ⟨c1, c2⟩ := hcount g[i] hmem
    have hd : g.n_dendrites i = g[i].n_dendrites := by simp [Graph.n_dendrites, hgi]
    have hs : g.n_synapses i = g[i].n_synapses := by simp [Graph.n_synapses, hgi]
    have hdm : g[i].n_dendrites % 2 ^ 32 = g.n_dendrites i := by
      rw [hd]
      exact Nat.mod_eq_of_lt c1
    have hsm : g[i].n_synapses % 2 ^ 32 = g.n_synapses i := by
      rw [hs]
      exact Nat.mod_eq_of_lt c2
    simp only [List.range'_succ, List.map_cons, List.sum_cons] at hnd ⊢
    have hndm : (nd + g.n_dendrites i) % 2 ^ 64 = nd + g.n_dendrites i :=
      Nat.mod_eq_of_lt (by omega)
    obtain ⟨dp', sp', ns', h1, h2, h3, h4, h5, h6, h7⟩ := ih (i + 1)
      ⟨dp.pool.set i ⟨i, g.n_dendrites i⟩, dp.n_neurons, dp.n_available⟩
      ⟨sp.pool.set i ⟨i, g.n_synapses i⟩, sp.n_neurons, sp.n_available⟩
      (nd + g.n_dendrites i) ((ns + g.n_synapses i) % 2 ^ 64) (by omega) (by simp [hdl])
      (by simp [hsl]) (by omega)
    refine ⟨dp', sp', ns', ?_, h2, h3, h4, h5, ?_, ?_⟩
    · simp only [NeuralNetwork.fill_pools, hgi, hdm, hsm, neuron_pool.put,
        if_pos (show i < dp.pool.length by omega), if_pos (show i < sp.pool.length by omega),
        hndm]
      rw [h1]
      simp only [Option.some.injEq, Prod.mk.injEq, true_and, and_true]
      omega
    · intro x hx
      obtain ⟨k1, k2⟩ := h6 x (by omega)
      rw [k1, k2]
      simp only [List.getElem?_set, show ¬ i = x by omega, if_false]
      exact ⟨trivial, trivial⟩
    · intro x hx1 hx2
      by_cases hxi : x = i
      · subst hxi
        obtain ⟨k1, k2⟩ := h6 x (by omega)
        rw [k1, k2]
        simp [List.getElem?_set, hdl, hsl, hi]
      · exact h7 x (by omega) (by omega)


/-! ## make_randomly_connected_network -/

theorem slotsAccounted_initial (slot : Graph → Nat → Nat → Option Connector)
    (cnt : Nat → Nat) (g : Graph) (N : Nat)
    (hlt : ∀ x j c, slot g x j = some c → x < N ∧ j < cnt x)
    (hsome : ∀ x j, x < N → j < cnt x → ∃ c, slot g x j = some c)
    (hfree : ∀ x j c, slot g x j = some c → c.is_connected = false)
    (hcnt : ∀ x, x < N → 1 ≤ cnt x ∧ cnt x < 2 ^ 32) :
    SlotsAccounted slot g ((List.range N).map (fun x => (⟨x, cnt x⟩ : ncounter))) := by
  refine ⟨?_, ?_, ?_⟩
  · rw [List.map_map]
    have : (ncounter.neuron ∘ fun x => (⟨x, cnt x⟩ : ncounter)) = id := rfl
    rw [this, List.map_id]
    exact List.nodup_range N
  · intro e he
    obtain ⟨x, hx, rfl⟩ := List.mem_map.mp he
    have hxN : x < N := List.mem_range.mp hx
    refine ⟨(hcnt x hxN).1, (hcnt x hxN).2, fun j hj => ?_⟩
    obtain ⟨c, hc⟩ := hsome x j hxN hj
    exact ⟨c, hc, hfree x j c hc⟩
  · intro x j c hc _
    obtain ⟨h1, h2⟩ := hlt x j c hc
    exact ⟨⟨x, cnt x⟩, List.mem_map.mpr ⟨x, List.mem_range.mpr h1, rfl⟩, rfl, h2⟩

theorem sum_map_lt_bound {α : Type} (f : α → Nat) (B : Nat) (l : List α)
    (h : ∀ x ∈ l, f x ≤ B) : (l.map f).sum ≤ l.length * B := by
  induction l with
  | nil => simp
  | cons a t ih =>
    have h1 := h a (List.mem_cons_self _ _)
    have h2 := ih (fun x hx => h x (List.mem_cons_of_mem _ hx))
    simp only [List.map_cons, List.sum_cons, List.length_cons]
    rw [Nat.succ_mul]
    omega

theorem sum_range_n_dendrites (g : Graph) :
    ((List.range g.length).map g.n_dendrites).sum = g.total_dendrites ∧
    ((List.range g.length).map g.n_synapses).sum = g.total_synapses := by
  have key : ∀ (f : Neuron → Nat) (k : Nat → Nat),
      (∀ x me, g[x]? = some me → k x = f me) →
      (List.range g.length).map k = g.map f := by
    intro f k hk
    apply List.ext_getElem?
    intro x
    by_cases hx : x < g.length
    · rw [List.getElem?_map, List.getElem?_map, List.getElem?_range hx,
        List.getElem?_eq_getElem hx]
      simp only [Option.map_some']
      rw [hk x g[x] (List.getElem?_eq_getElem hx)]
    · rw [List.getElem?_eq_none (by simp; omega), List.getElem?_eq_none (by simp; omega)]
  constructor
  · rw [key Neuron.n_dendrites g.n_dendrites (fun x me h => by simp [Graph.n_dendrites, h])]
    rfl
  · rw [key Neuron.n_synapses g.n_synapses (fun x me h => by simp [Graph.n_synapses, h])]
    rfl

theorem make_network_spec (rand : Nat → Nat) (fuel : Nat) (hfuel : 3 ≤ fuel)
    (nn : NeuralNetwork) (hpop : nn.Population) :
    ∃ nn' dp sp, nn.make_randomly_connected_network rand fuel = some (nn', dp, sp) ∧
      (dp.n_available = 0 ∨ sp.n_available = 0) ∧ Reciprocal nn'.heap ∧
      nn'.heap.connected_synapses = nn'.heap.connected_dendrites ∧
      nn'.heap.connected_synapses = min nn.heap.total_dendrites nn.heap.total_synapses ∧
      nn'.heap.total_synapses = nn.heap.total_synapses ∧
      nn'.heap.total_dendrites = nn.heap.total_dendrites := by
  obtain ⟨hneu, hN, hunw, hcnt⟩ := hpop
  have hcount : ∀ me ∈ nn.heap, me.n_dendrites < 2 ^ 32 ∧ me.n_synapses < 2 ^ 32 :=
    fun me hme => ⟨(hcnt me hme).1.2, (hcnt me hme).2.2⟩
  obtain ⟨sd, ss⟩ := sum_range_n_dendrites nn.heap
  have hof : ∀ x, x < nn.heap.length → ∃ me, nn.heap[x]? = some me ∧ me ∈ nn.heap ∧
      nn.heap.n_dendrites x = me.n_dendrites ∧ nn.heap.n_synapses x = me.n_synapses := by
    intro x hx
    have hg := List.getElem?_eq_getElem hx
    exact ⟨nn.heap[x], hg, List.mem_iff_getElem?.mpr ⟨x, hg⟩,
      by simp [Graph.n_dendrites, hg], by simp [Graph.n_synapses, hg]⟩
  have hbound : ((List.range nn.heap.length).map nn.heap.n_dendrites).sum < 2 ^ 64 := by
    have h1 := sum_map_lt_bound nn.heap.n_dendrites (2 ^ 32) (List.range nn.heap.length)
      (fun x hx => by
        obtain ⟨me, _, hme, hd, _⟩ := hof x (List.mem_range.mp hx)
        rw [hd]
        exact Nat.le_of_lt (hcount me hme).1)
    rw [List.length_range] at h1
    have h2 : nn.heap.length * 2 ^ 32 < 2 ^ 32 * 2 ^ 32 :=
      Nat.mul_lt_mul_of_pos_right hN (by norm_num)
    have h3 : (2 : Nat) ^ 32 * 2 ^ 32 = 2 ^ 64 := by norm_num
    omega
  have hmod : nn.heap.length % 2 ^ 32 = nn.heap.length := Nat.mod_eq_of_lt hN
  obtain ⟨dp, sp, ns, f1, f2, f3, f4, f5, _, f7⟩ := fill_pools_spec nn.heap hcount
    nn.heap.length 0 (neuron_pool.new nn.heap.length) (neuron_pool.new nn.heap.length) 0 0
    (by omega) (by simp [neuron_pool.new]) (by simp [neuron_pool.new])
    (by rw [← List.range_eq_range']; omega)
  rw [← List.range_eq_range'] at f1
  have hdpool : dp.pool = (List.range nn.heap.length).map
      (fun x => (⟨x, nn.heap.n_dendrites x⟩ : ncounter)) := by
    apply List.ext_getElem?
    intro x
    by_cases hx : x < nn.heap.length
    · rw [(f7 x (by omega) (by omega)).1, List.getElem?_map, List.getElem?_range hx]
      rfl
    · rw [List.getElem?_eq_none (by omega), List.getElem?_eq_none (by simp; omega)]
  have hspool : sp.pool = (List.range nn.heap.length).map
      (fun x => (⟨x, nn.heap.n_synapses x⟩ : ncounter)) := by
    apply List.ext_getElem?
    intro x
    by_cases hx : x < nn.heap.length
    · rw [(f7 x (by omega) (by omega)).2, List.getElem?_map, List.getElem?_range hx]
      rfl
    · rw [List.getElem?_eq_none (by omega), List.getElem?_eq_none (by simp; omega)]
  have hdav : dp.available = dp.pool := by
    show dp.pool.take dp.n_available = dp.pool
    rw [f2]
    exact List.take_of_length_le (by simp [neuron_pool.new, f4])
  have hsav : sp.available = sp.pool := by
    show sp.pool.take sp.n_available = sp.pool
    rw [f3]
    exact List.take_of_length_le (by simp [neuron_pool.new, f5])
  have hdinv : PoolInv Graph.dendrite nn.heap dp := by
    refine ⟨by rw [f2, f4]; simp [neuron_pool.new], by rw [f4]; exact hN, ?_⟩
    rw [hdav, hdpool]
    apply slotsAccounted_initial
    · intro x j c hc
      exact Graph.dendrite_lt hc
    · intro x j _ hj
      exact Graph.dendrite_isSome_of_lt hj
    · intro x j c hc
      obtain ⟨me, hg, hs⟩ := Graph.dendrite_eq_some hc
      exact (hunw me (List.mem_iff_getElem?.mpr ⟨x, hg⟩)).1 c
        (List.mem_iff_getElem?.mpr ⟨j, hs⟩)
    · intro x hx
      obtain ⟨me, _, hme, hd, _⟩ := hof x hx
      rw [hd]
      exact (hcnt me hme).1
  have hsinv : PoolInv Graph.synapse nn.heap sp := by
    refine ⟨by rw [f3, f5]; simp [neuron_pool.new], by rw [f5]; exact hN, ?_⟩
    rw [hsav, hspool]
    apply slotsAccounted_initial
    · intro x j c hc
      exact Graph.synapse_lt hc
    · intro x j _ hj
      exact Graph.synapse_isSome_of_lt hj
    · intro x j c hc
      obtain ⟨me, hg, hs⟩ := Graph.synapse_eq_some hc
      exact (hunw me (List.mem_iff_getElem?.mpr ⟨x, hg⟩)).2 c
        (List.mem_iff_getElem?.mpr ⟨j, hs⟩)
    · intro x hx
      obtain ⟨me, _, hme, _, hs⟩ := hof x hx
      rw [hs]
      exact (hcnt me hme).2
  have hsum : (dp.available.map ncounter.k).sum =
      0 + ((List.range nn.heap.length).map nn.heap.n_dendrites).sum := by
    rw [hdav, hdpool, List.map_map, Nat.zero_add]
    rfl
  have hrec0 : Reciprocal nn.heap := by
    refine ⟨fun a s b d h => ?_, fun b d a s h => ?_⟩
    · obtain ⟨me, hg, hs⟩ := Graph.synapse_eq_some h
      have := (hunw me (List.mem_iff_getElem?.mpr ⟨a, hg⟩)).2 _
        (List.mem_iff_getElem?.mpr ⟨s, hs⟩)
      simp [Connector.is_connected] at this
    · obtain ⟨me, hg, hs⟩ := Graph.dendrite_eq_some h
      have := (hunw me (List.mem_iff_getElem?.mpr ⟨b, hg⟩)).1 _
        (List.mem_iff_getElem?.mpr ⟨d, hs⟩)
      simp [Connector.is_connected] at this
  have hc0 : nn.heap.connected_synapses = nn.heap.connected_dendrites := by
    rw [(Graph.connected_of_unwired hunw).1, (Graph.connected_of_unwired hunw).2]
  obtain ⟨g', dp', sp', w1, w2, w3, w4, w5, w6, w7, w8⟩ := wire_spec rand fuel hfuel _ 0 nn.heap
    dp sp hdinv hsinv hrec0 hc0 hsum
  refine ⟨{ nn with heap := g' }, dp', sp', ?_, w2, w5, w6, ?_, w7, w8⟩
  · simp only [NeuralNetwork.make_randomly_connected_network, hneu, List.length_range, hmod,
      f1, w1]
  · show g'.connected_synapses = _
    have hle := Graph.connected_le_total g'
    rcases w2 with h0 | h0
    · have hall : g'.connected_dendrites = g'.total_dendrites := by
        apply Graph.all_dendrites_connected
        intro x j c hc
        by_contra hfr
        obtain ⟨e, he, _⟩ := w3.2.2.2.2 x j c hc (by simpa using hfr)
        have hnil : dp'.available = [] := by
          show dp'.pool.take dp'.n_available = []
          rw [h0]
          rfl
        rw [hnil] at he
        simp at he
      omega
    · have hall : g'.connected_synapses = g'.total_synapses := by
        apply Graph.all_synapses_connected
        intro x j c hc
        by_contra hfr
        obtain ⟨e, he, _⟩ := w4.2.2.2.2 x j c hc (by simpa using hfr)
        have hnil : sp'.available = [] := by
          show sp'.pool.take sp'.n_available = []
          rw [h0]
          rfl
        rw [hnil] at he
        simp at he
      omega


/-- Claim C23. For every population in which every neuron has at least one inbound and
one outbound slot and no slot is connected, and every sequence of values of `rand ()`,
`make_randomly_connected_network` returns (each `connect` with any fuel from 3 on), and
when its wiring loop ends `dendrites_pool.n_available` or `synapses_pool.n_available`
is 0. -/
theorem wiring_exhausts_a_pool (rand : Nat → Nat) (k : Nat) (nn : NeuralNetwork)
    (hpop : nn.Population) :
    ∃ nn' dendrites_pool synapses_pool,
      nn.make_randomly_connected_network rand (3 + k) =
        some (nn', dendrites_pool, synapses_pool) ∧
      (dendrites_pool.n_available = 0 ∨ synapses_pool.n_available = 0) := by
  obtain ⟨nn', dp, sp, h1, h2, _⟩ := make_network_spec rand (3 + k) (by omega) nn hpop
  exact ⟨nn', dp, sp, h1, h2⟩

theorem wiring_exhausts_a_pool_witness :
    unevenCreated.Population ∧
    ∃ nn' dendrites_pool synapses_pool,
      unevenCreated.make_randomly_connected_network drawOnes (3 + 0) =
        some (nn', dendrites_pool, synapses_pool) ∧
      (dendrites_pool.n_available = 0 ∨ synapses_pool.n_available = 0) :=
  ⟨by decide, wiring_exhausts_a_pool drawOnes 0 unevenCreated (by decide)⟩

/-- Claim C24. For every population in which every neuron has at least one slot of each
kind and no slot is connected, and every sequence of values of `rand ()`,
`make_randomly_connected_network` returns a graph that satisfies reciprocity (every
connected outbound slot references one inbound slot, which references it back, and
conversely), in which the number of connected outbound slots equals the number of
connected inbound slots and equals the smaller of the total numbers of inbound and
outbound slots; no slot is added or removed. -/
theorem wiring_is_a_matching (rand : Nat → Nat) (k : Nat) (nn : NeuralNetwork)
    (hpop : nn.Population) :
    ∃ nn' dendrites_pool synapses_pool,
      nn.make_randomly_connected_network rand (3 + k) =
        some (nn', dendrites_pool, synapses_pool) ∧
      Reciprocal nn'.heap ∧
      nn'.heap.connected_synapses = nn'.heap.connected_dendrites ∧
      nn'.heap.connected_synapses = min nn.heap.total_dendrites nn.heap.total_synapses ∧
      nn'.heap.total_synapses = nn.heap.total_synapses ∧
      nn'.heap.total_dendrites = nn.heap.total_dendrites := by
  obtain ⟨nn', dp, sp, h1, _, h3, h4, h5, h6, h7⟩ :=
    make_network_spec rand (3 + k) (by omega) nn hpop
  exact ⟨nn', dp, sp, h1, h3, h4, h5, h6, h7⟩

theorem wiring_is_a_matching_witness :
    unevenCreated.Population ∧ unevenCreated.heap.total_dendrites = 3 ∧
    unevenCreated.heap.total_synapses = 2 ∧
    ∃ nn' dendrites_pool synapses_pool,
      unevenCreated.make_randomly_connected_network drawZeros (3 + 0) =
        some (nn', dendrites_pool, synapses_pool) ∧
      Reciprocal nn'.heap ∧
      nn'.heap.connected_synapses = nn'.heap.connected_dendrites ∧
      nn'.heap.connected_synapses =
        min unevenCreated.heap.total_dendrites unevenCreated.heap.total_synapses ∧
      nn'.heap.total_synapses = unevenCreated.heap.total_synapses ∧
      nn'.heap.total_dendrites = unevenCreated.heap.total_dendrites :=
  ⟨by decide, by decide, by decide,
    wiring_is_a_matching drawZeros 0 unevenCreated (by decide)⟩

/-! ## create_neuron -/

/-- Claim C35. For every scheduler state and all `d` and `s`,
`create_neuron (factory, d, s)` increases `neurons_count ()` by one and appends the new
neuron after all existing nodes; the new neuron has `d` inbound and `s` outbound slots,
none of them connected, and both queued flags clear; the neurons that existed, with
their slots, and the four queues are unchanged. -/
theorem create_neuron_appends_unconnected (nn : NeuralNetwork) (factory : NeuronFactory)
    (d s : Nat) :
    (nn.create_neuron factory d s).neurons_count = nn.neurons_count + 1 ∧
    (nn.create_neuron factory d s).neurons = nn.neurons ++ [nn.heap.length] ∧
    (nn.create_neuron factory d s).heap.length = nn.heap.length + 1 ∧
    (∃ me, (nn.create_neuron factory d s).heap[nn.heap.length]? = some me ∧
      me.n_dendrites = d ∧ me.n_synapses = s ∧
      (∀ c ∈ me.dendrites, c.is_connected = false) ∧
      (∀ c ∈ me.synapses, c.is_connected = false) ∧
      me.in_update_queue_already = false ∧ me.in_bp_update_queue_already = false) ∧
    (∀ x, x < nn.heap.length → (nn.create_neuron factory d s).heap[x]? = nn.heap[x]?) ∧
    (nn.create_neuron factory d s).current_queue = nn.current_queue ∧
    (nn.create_neuron factory d s).next_queue = nn.next_queue ∧
    (nn.create_neuron factory d s).bp_current_queue = nn.bp_current_queue ∧
    (nn.create_neuron factory d s).bp_next_queue = nn.bp_next_queue := by
  refine ⟨?_, rfl, ?_, ⟨Neuron.mk0 (NeuronBase.construct nn.neuron_counter).1 d s, ?_, ?_, ?_,
    ?_, ?_, ?_, ?_⟩, ?_, rfl, rfl, rfl, rfl⟩
  · simp [NeuralNetwork.neurons_count, NeuralNetwork.create_neuron]
  · simp [NeuralNetwork.create_neuron]
  · simp [NeuralNetwork.create_neuron]
  · simp [Neuron.mk0, Neuron.n_dendrites]
  · simp [Neuron.mk0, Neuron.n_synapses]
  · intro c hc
    simp only [Neuron.mk0] at hc
    rw [List.eq_of_mem_replicate hc]
    rfl
  · intro c hc
    simp only [Neuron.mk0] at hc
    rw [List.eq_of_mem_replicate hc]
    rfl
  · simp [Neuron.mk0, Neuron.in_update_queue_already]
  · simp [Neuron.mk0, Neuron.in_bp_update_queue_already]
  · intro x hx
    simp only [NeuralNetwork.create_neuron]
    exact List.getElem?_append_left hx

/-- Claim C36. The one-argument overload `create_neuron (factory)` does nothing: for
every scheduler state the network afterwards is the network before, so
`neurons_count ()`, the size of the propagator store, the heap of neurons and the four
queues are unchanged, and no call of the factory is made. -/
theorem create_neuron_only_does_nothing (nn : NeuralNetwork) (factory : NeuronFactory) :
    (nn.create_neuron_only factory).1 = nn ∧
    (nn.create_neuron_only factory).1.neurons_count = nn.neurons_count ∧
    (nn.create_neuron_only factory).1.propagator_store_size = nn.propagator_store_size ∧
    (nn.create_neuron_only factory).1.heap = nn.heap ∧
    (nn.create_neuron_only factory).1.neuron_counter = nn.neuron_counter ∧
    (nn.create_neuron_only factory).1.current_queue = nn.current_queue ∧
    (nn.create_neuron_only factory).1.next_queue = nn.next_queue ∧
    (nn.create_neuron_only factory).1.bp_current_queue = nn.bp_current_queue ∧
    (nn.create_neuron_only factory).1.bp_next_queue = nn.bp_next_queue ∧
    (nn.create_neuron_only factory).2 = [] :=
  ⟨rfl, rfl, rfl, rfl, rfl, rfl, rfl, rfl, rfl, rfl⟩

/-! ## start (): how many nodes it seeds -/

theorem seed_appends (rand : Nat → Nat) : ∀ (remaining : Nat) (nn nn' : NeuralNetwork)
    (k : Nat), NeuralNetwork.seed rand nn k remaining = some nn' →
    ∃ added, nn'.next_queue = nn.next_queue ++ added ∧ added.length ≤ remaining ∧
      (∀ x ∈ added, x ∈ nn.neurons) ∧ nn'.bp_current_queue = nn.bp_current_queue ∧
      nn'.neurons = nn.neurons := by
  intro remaining
  induction remaining with
  | zero =>
    intro nn nn' k h
    simp only [NeuralNetwork.seed, Option.some.injEq] at h
    subst h
    exact ⟨[], by simp, by simp, by simp, rfl, rfl⟩
  | succ r ih =>
    intro nn nn' k h
    simp only [NeuralNetwork.seed] at h
    cases hget : nn.neurons[rand k % nn.neurons.length]? with
    | none => simp [hget] at h
    | some n =>
      simp only [hget] at h
      cases hadd : nn.add_to_update_queue n with
      | none => simp [hadd] at h
      | some nn1 =>
        simp only [hadd] at h
        obtain ⟨_, _, e3, _, e5, _, _, _, e9⟩ := add_to_update_queue_effect hadd
        obtain ⟨added, a1, a2, a3, a4, a5⟩ := ih nn1 nn' (k + 1) h
        have hmem : n ∈ nn.neurons := List.mem_iff_getElem?.mpr ⟨_, hget⟩
        rw [e5] at a3 a5
        by_cases hf : nn.forward_flag n = true
        · rw [if_pos hf] at e9
          rw [e9] at a1
          exact ⟨added, a1, by omega, a3, a4.trans e3, a5⟩
        · rw [if_neg hf] at e9
          rw [e9, List.append_assoc] at a1
          refine ⟨[n] ++ added, a1, by simp; omega, ?_, a4.trans e3, a5⟩
          intro x hx
          rcases List.mem_append.mp hx with hx | hx
          · rw [List.mem_singleton.mp hx]
            exact hmem
          · exact a3 x hx

theorem start_returns (rand : Nat → Nat) (nn : NeuralNetwork)
    (hval : ∀ x ∈ nn.neurons, x < nn.heap.length) (hne : nn.neurons ≠ []) :
    ∃ nn1, NeuralNetwork.seed rand nn 1 (rand 0 % nn.neurons.length) = some nn1 ∧
      nn.start rand = some nn1.swap_update_queues := by
  obtain ⟨nn1, h1, _⟩ := seed_spec rand (rand 0 % nn.neurons.length) nn 1 hval hne
  refine ⟨nn1, h1, ?_⟩
  have hlen : ¬ nn.neurons.length = 0 := by
    intro h0
    exact hne (List.length_eq_zero.mp h0)
  simp only [NeuralNetwork.start, if_neg hlen, h1]

/-- Claim C34. In a network whose node set addresses neurons, `start ()` returns exactly
when the node set is non-empty: with at least one node the divisor `neurons.size ()` of
both remainders is not zero and every `neurons[rand () % neurons.size ()]` is an element
of the node set that addresses a neuron; on an empty node set `start ()` takes a
remainder by zero and does not return. -/
theorem start_defined_iff_nonempty (rand : Nat → Nat) (nn : NeuralNetwork)
    (hval : ∀ x ∈ nn.neurons, x < nn.heap.length) :
    ((nn.start rand).isSome = true ↔ nn.neurons ≠ []) ∧
    (nn.neurons ≠ [] → nn.neurons.length ≠ 0 ∧
      ∀ k, ∃ n, nn.neurons[rand k % nn.neurons.length]? = some n ∧ n < nn.heap.length) ∧
    (nn.neurons = [] → nn.neurons.length = 0 ∧ nn.start rand = none) := by
  refine ⟨⟨fun h hnil => ?_, fun hne => ?_⟩, fun hne => ⟨?_, fun k => ?_⟩, fun hnil => ⟨?_, ?_⟩⟩
  · simp [NeuralNetwork.start, hnil] at h
  · obtain ⟨nn1, _, h2⟩ := start_returns rand nn hval hne
    rw [h2]
    rfl
  · intro h0
    exact hne (List.length_eq_zero.mp h0)
  · have hlt : rand k % nn.neurons.length < nn.neurons.length :=
      Nat.mod_lt _ (List.length_pos.mpr hne)
    have hget := List.getElem?_eq_getElem hlt
    exact ⟨_, hget, hval _ (List.mem_iff_getElem?.mpr ⟨_, hget⟩)⟩
  · rw [hnil]
    rfl
  · simp [NeuralNetwork.start, hnil]

theorem start_defined_iff_nonempty_witness :
    (∀ x ∈ twoCreated.neurons, x < twoCreated.heap.length) ∧
    ((twoCreated.start drawOnes).isSome = true ↔ twoCreated.neurons ≠ []) ∧
    (twoCreated.neurons ≠ [] → twoCreated.neurons.length ≠ 0 ∧
      ∀ k, ∃ n, twoCreated.neurons[drawOnes k % twoCreated.neurons.length]? = some n ∧
        n < twoCreated.heap.length) ∧
    (twoCreated.neurons = [] →
      twoCreated.neurons.length = 0 ∧ twoCreated.start drawOnes = none) :=
  ⟨by decide, start_defined_iff_nonempty drawOnes twoCreated (by decide)⟩

/-- Counterexample to C33 as stated: a network of one node whose forward next queue
holds that node when `start ()` is called. The sample count is `rand () % 1 = 0`, yet
the swap makes the node current: the forward current queue has one node, more than
`n - 1 = 0`, and `is_firing ()` is true. -/
theorem start_promotes_pending_node :
    Scheduled oneQueued ∧ oneQueued.neurons_count = 1 ∧ oneQueued.next_queue = [0] ∧
    ∃ nn', oneQueued.start drawZeros = some nn' ∧ nn'.current_queue = [0] ∧
      ¬ nn'.current_queue.length ≤ oneQueued.neurons_count - 1 ∧ nn'.is_firing = true :=
  ⟨Scheduled.add_to_update_queue _ oneQueued 0
      (Scheduled.create_neuron _ sampleFactory 1 1 Scheduled.new) rfl,
    by decide, by decide, _, rfl, by decide, by decide, by decide⟩

/-- Claim C33, amended. For every network with `n >= 1` nodes that address neurons and
every sequence of values of `rand ()`, `start ()` returns and the forward current queue
afterwards is the forward next queue from before the call followed by the nodes the
loop enqueued, which are at most `rand () % n`, hence at most `n - 1`, nodes of the node
set. So when the forward next queue was empty the forward current queue holds at most
`n - 1` nodes; and in a network of a single node whose forward next queue was empty the
forward current queue is empty afterwards, and `is_firing ()` is false when the
backward current queue is empty as well. -/
theorem start_places_fewer_than_all (rand : Nat → Nat) (nn : NeuralNetwork)
    (hval : ∀ x ∈ nn.neurons, x < nn.heap.length) (hne : nn.neurons ≠ []) :
    ∃ nn' added, nn.start rand = some nn' ∧
      nn'.current_queue = nn.next_queue ++ added ∧
      added.length ≤ rand 0 % nn.neurons_count ∧
      rand 0 % nn.neurons_count ≤ nn.neurons_count - 1 ∧
      (∀ x ∈ added, x ∈ nn.neurons) ∧
      nn'.bp_current_queue = nn.bp_current_queue ∧
      (nn.next_queue = [] → nn'.current_queue.length ≤ nn.neurons_count - 1) ∧
      (nn.neurons_count = 1 → nn.next_queue = [] →
        nn'.current_queue = [] ∧ (nn.bp_current_queue = [] → nn'.is_firing = false)) := by
  obtain ⟨nn1, h1, h2⟩ := start_returns rand nn hval hne
  obtain ⟨added, a1, a2, a3, a4, _⟩ := seed_appends rand _ nn nn1 1 h1
  have hpos : 0 < nn.neurons.length := List.length_pos.mpr hne
  have hlt : rand 0 % nn.neurons.length < nn.neurons.length := Nat.mod_lt _ hpos
  have hcur : nn1.swap_update_queues.current_queue = nn.next_queue ++ added := a1
  refine ⟨nn1.swap_update_queues, added, h2, hcur, a2, ?_, a3, a4, ?_, ?_⟩
  · show rand 0 % nn.neurons.length ≤ nn.neurons.length - 1
    omega
  · intro hq
    rw [hcur, hq, List.nil_append]
    show added.length ≤ nn.neurons.length - 1
    omega
  · intro hone hq
    have hone1 : nn.neurons.length = 1 := hone
    have hnil : added = [] := by
      rw [hone1, Nat.mod_one] at a2
      exact List.length_eq_zero.mp (by omega)
    have hc : nn1.swap_update_queues.current_queue = [] := by
      rw [hcur, hq, hnil]
      rfl
    refine ⟨hc, fun hbp => ?_⟩
    have hb : nn1.swap_update_queues.bp_current_queue = [] := a4.trans hbp
    simp [NeuralNetwork.is_firing, hc, hb]

theorem start_places_fewer_than_all_witness :
    (∀ x ∈ threeCreated.neurons, x < threeCreated.heap.length) ∧ threeCreated.neurons ≠ [] ∧
    ∃ nn' added, threeCreated.start drawTwoThenCount = some nn' ∧
      nn'.current_queue = threeCreated.next_queue ++ added ∧
      added.length ≤ drawTwoThenCount 0 % threeCreated.neurons_count ∧
      drawTwoThenCount 0 % threeCreated.neurons_count ≤ threeCreated.neurons_count - 1 ∧
      (∀ x ∈ added, x ∈ threeCreated.neurons) ∧
      nn'.bp_current_queue = threeCreated.bp_current_queue ∧
      (threeCreated.next_queue = [] →
        nn'.current_queue.length ≤ threeCreated.neurons_count - 1) ∧
      (threeCreated.neurons_count = 1 → threeCreated.next_queue = [] →
        nn'.current_queue = [] ∧
          (threeCreated.bp_current_queue = [] → nn'.is_firing = false)) :=
  ⟨by decide, by decide,
    start_places_fewer_than_all drawTwoThenCount threeCreated (by decide) (by decide)⟩

/-! ## The growth of the two vectors on append -/

theorem add_dendrite_with_capacity (me : Neuron) (d : Connector) :
    (me.add_dendrite_with d).dendrites_capacity =
      vector_push_back_capacity me.dendrites.length
        (match Neuron.reserve_request me.dendrites.length me.dendrites_capacity with
          | some n => vector_reserve me.dendrites_capacity n
          | none => me.dendrites_capacity) := by
  unfold Neuron.add_dendrite_with Neuron.reserve_request
  by_cases h0 : me.dendrites.length = 0
  · simp only [if_pos h0]
  · by_cases h1 : me.dendrites.length = me.dendrites_capacity
    · simp only [if_neg h0, if_pos h1]
    · simp only [if_neg h0, if_neg h1]

theorem add_synapse_with_capacity (me : Neuron) (s : Connector) :
    (me.add_synapse_with s).synapses_capacity =
      vector_push_back_capacity me.synapses.length
        (match Neuron.reserve_request me.synapses.length me.synapses_capacity with
          | some n => vector_reserve me.synapses_capacity n
          | none => me.synapses_capacity) := by
  unfold Neuron.add_synapse_with Neuron.reserve_request
  by_cases h0 : me.synapses.length = 0
  · simp only [if_pos h0]
  · by_cases h1 : me.synapses.length = me.synapses_capacity
    · simp only [if_neg h0, if_pos h1]
    · simp only [if_neg h0, if_neg h1]

theorem reserve_request_cases (l capacity : Nat) :
    (l = 0 → Neuron.reserve_request l capacity = some 64) ∧
    (l ≠ 0 → l = capacity → Neuron.reserve_request l capacity = some (l + l / 2)) ∧
    (l ≠ 0 → l ≠ capacity → Neuron.reserve_request l capacity = none) := by
  refine ⟨fun h0 => ?_, fun h0 h1 => ?_, fun h0 h1 => ?_⟩
  · simp only [Neuron.reserve_request, if_pos h0]
  · simp only [Neuron.reserve_request, if_neg h0, if_pos h1, Nat.shiftRight_eq_div_pow,
      Nat.pow_one]
  · simp only [Neuron.reserve_request, if_neg h0, if_neg h1]

theorem grown_capacity (l capacity : Nat) :
    (l = 0 → 64 ≤ vector_push_back_capacity l (vector_reserve capacity 64)) ∧
    (l ≠ 0 → l = capacity →
      l < vector_push_back_capacity l (vector_reserve capacity (l + l / 2)) ∧
      (2 ≤ l → vector_push_back_capacity l (vector_reserve capacity (l + l / 2)) = l + l / 2)) := by
  refine ⟨fun h0 => ?_, fun h0 h1 => ⟨?_, fun h2 => ?_⟩⟩
  · subst h0
    unfold vector_push_back_capacity vector_reserve
    split <;> split <;> omega
  · subst h1
    unfold vector_push_back_capacity vector_reserve
    split <;> split <;> omega
  · subst h1
    unfold vector_push_back_capacity vector_reserve
    split <;> split <;> omega

/-- Counterexample to C37 as stated: a neuron whose two vectors hold 4 slots and have
capacity 4. `add_dendrite ()` and `add_synapse ()` call `reserve (4 + (4 >> 1))`, that
is `reserve (6)`, and the capacity afterwards is 6, not `2 * 4 = 8`. -/
theorem full_vector_requests_half_more :
    (Neuron.mk0 0 4 4).dendrites.length = 4 ∧ (Neuron.mk0 0 4 4).dendrites_capacity = 4 ∧
    Neuron.reserve_request (Neuron.mk0 0 4 4).dendrites.length
      (Neuron.mk0 0 4 4).dendrites_capacity = some 6 ∧
    Neuron.reserve_request (Neuron.mk0 0 4 4).synapses.length
      (Neuron.mk0 0 4 4).synapses_capacity = some 6 ∧
    (6 : Nat) ≠ 2 * 4 ∧
    (Neuron.mk0 0 4 4).add_dendrite.dendrites_capacity = 6 ∧
    (Neuron.mk0 0 4 4).add_synapse.synapses_capacity = 6 := by
  decide

/-- Claim C37, amended. Append growth policy: when `add_dendrite` or `add_synapse` is
called on an empty collection, `reserve (64)` is called before the push and the capacity
afterwards is at least 64; when it is called on a non-empty collection whose size `l`
equals its capacity, the capacity requested before the push is `l + (l >> 1)`, one and
a half times the size rounded down, and this is the capacity afterwards when `l >= 2`
(for `l = 1` the request changes nothing and the push itself grows the vector); in
every other case nothing is requested. -/
theorem append_growth_policy (me : Neuron) :
    ((me.add_dendrite.dendrites_capacity =
        vector_push_back_capacity me.n_dendrites
          (match Neuron.reserve_request me.n_dendrites me.dendrites_capacity with
            | some n => vector_reserve me.dendrites_capacity n
            | none => me.dendrites_capacity)) ∧
      (me.n_dendrites = 0 →
        Neuron.reserve_request me.n_dendrites me.dendrites_capacity = some 64 ∧
        64 ≤ me.add_dendrite.dendrites_capacity) ∧
      (me.n_dendrites ≠ 0 → me.n_dendrites = me.dendrites_capacity →
        Neuron.reserve_request me.n_dendrites me.dendrites_capacity =
          some (me.n_dendrites + me.n_dendrites / 2) ∧
        me.n_dendrites < me.add_dendrite.dendrites_capacity ∧
        (2 ≤ me.n_dendrites →
          me.add_dendrite.dendrites_capacity = me.n_dendrites + me.n_dendrites / 2)) ∧
      (me.n_dendrites ≠ 0 → me.n_dendrites ≠ me.dendrites_capacity →
        Neuron.reserve_request me.n_dendrites me.dendrites_capacity = none)) ∧
    ((me.add_synapse.synapses_capacity =
        vector_push_back_capacity me.n_synapses
          (match Neuron.reserve_request me.n_synapses me.synapses_capacity with
            | some n => vector_reserve me.synapses_capacity n
            | none => me.synapses_capacity)) ∧
      (me.n_synapses = 0 →
        Neuron.reserve_request me.n_synapses me.synapses_capacity = some 64 ∧
        64 ≤ me.add_synapse.synapses_capacity) ∧
      (me.n_synapses ≠ 0 → me.n_synapses = me.synapses_capacity →
        Neuron.reserve_request me.n_synapses me.synapses_capacity =
          some (me.n_synapses + me.n_synapses / 2) ∧
        me.n_synapses < me.add_synapse.synapses_capacity ∧
        (2 ≤ me.n_synapses →
          me.add_synapse.synapses_capacity = me.n_synapses + me.n_synapses / 2)) ∧
      (me.n_synapses ≠ 0 → me.n_synapses ≠ me.synapses_capacity →
        Neuron.reserve_request me.n_synapses me.synapses_capacity = none)) := by
  have hd := add_dendrite_with_capacity me Connector.new
  have hs := add_synapse_with_capacity me Connector.new
  obtain ⟨r1, r2, r3⟩ := reserve_request_cases me.dendrites.length me.dendrites_capacity
  obtain ⟨q1, q2, q3⟩ := reserve_request_cases me.synapses.length me.synapses_capacity
  obtain ⟨g1, g2⟩ := grown_capacity me.dendrites.length me.dendrites_capacity
  obtain ⟨k1, k2⟩ := grown_capacity me.synapses.length me.synapses_capacity
  refine ⟨⟨hd, fun h0 => ⟨r1 h0, ?_⟩, fun h0 h1 => ⟨r2 h0 h1, ?_, fun h2 => ?_⟩, r3⟩,
    ⟨hs, fun h0 => ⟨q1 h0, ?_⟩, fun h0 h1 => ⟨q2 h0 h1, ?_, fun h2 => ?_⟩, q3⟩⟩
  · show 64 ≤ (me.add_dendrite_with Connector.new).dendrites_capacity
    rw [hd, r1 h0]
    exact g1 h0
  · show me.dendrites.length < (me.add_dendrite_with Connector.new).dendrites_capacity
    rw [hd, r2 h0 h1]
    exact (g2 h0 h1).1
  · show (me.add_dendrite_with Connector.new).dendrites_capacity = _
    rw [hd, r2 h0 h1]
    exact (g2 h0 h1).2 h2
  · show 64 ≤ (me.add_synapse_with Connector.new).synapses_capacity
    rw [hs, q1 h0]
    exact k1 h0
  · show me.synapses.length < (me.add_synapse_with Connector.new).synapses_capacity
    rw [hs, q2 h0 h1]
    exact (k2 h0 h1).1
  · show (me.add_synapse_with Connector.new).synapses_capacity = _
    rw [hs, q2 h0 h1]
    exact (k2 h0 h1).2 h2

/-! ## Reciprocity of the generated graph -/

/-- Claim C32. For every population in which every neuron has at least one slot of each
kind and no slot is connected, and every sequence of values of `rand ()`,
`make_randomly_connected_network` returns (each `connect` with any fuel from 3 on) and
the graph satisfies reciprocity: outbound slot `s` of `A` references `(B, d)` if and
only if inbound slot `d` of `B` references `(A, s)`. This includes `A = B`, a neuron
wired to itself; and when two neurons are joined by several edges, the edges use
different slots on both sides. -/
theorem generated_graph_reciprocal (rand : Nat → Nat) (k : Nat) (nn : NeuralNetwork)
    (hpop : nn.Population) :
    ∃ nn' dendrites_pool synapses_pool,
      nn.make_randomly_connected_network rand (3 + k) =
        some (nn', dendrites_pool, synapses_pool) ∧
      (∀ A s B d, nn'.heap.synapse A s = some ⟨some B, d⟩ ↔
        nn'.heap.dendrite B d = some ⟨some A, s⟩) ∧
      (∀ A s d, nn'.heap.synapse A s = some ⟨some A, d⟩ ↔
        nn'.heap.dendrite A d = some ⟨some A, s⟩) ∧
      (∀ A B s1 s2 d, nn'.heap.synapse A s1 = some ⟨some B, d⟩ →
        nn'.heap.synapse A s2 = some ⟨some B, d⟩ → s1 = s2) ∧
      (∀ A B s d1 d2, nn'.heap.dendrite B d1 = some ⟨some A, s⟩ →
        nn'.heap.dendrite B d2 = some ⟨some A, s⟩ → d1 = d2) := by
  obtain ⟨nn', dp, sp, h1, _, ⟨r1, r2⟩, _⟩ :=
    make_network_spec rand (3 + k) (by omega) nn hpop
  refine ⟨nn', dp, sp, h1, fun A s B d => ⟨r1 A s B d, r2 B d A s⟩,
    fun A s d => ⟨r1 A s A d, r2 A d A s⟩, fun A B s1 s2 d e1 e2 => ?_,
    fun A B s d1 d2 e1 e2 => ?_⟩
  · have k1 := r1 A s1 B d e1
    have k2 := r1 A s2 B d e2
    rw [k1] at k2
    simp only [Option.some.injEq, Connector.mk.injEq, true_and] at k2
    exact k2
  · have k1 := r2 B d1 A s e1
    have k2 := r2 B d2 A s e2
    rw [k1] at k2
    simp only [Option.some.injEq, Connector.mk.injEq, true_and] at k2
    exact k2

theorem mixed_wiring_links :
    (mixedCreated.make_randomly_connected_network drawZeros (3 + 0)).map
      (fun r => (r.1.heap.synapse 0 2, r.1.heap.synapse 0 1, r.1.heap.synapse 0 0)) =
        some (some ⟨some 0, 0⟩, some ⟨some 1, 1⟩, some ⟨some 1, 0⟩) := by
  decide!

theorem generated_graph_reciprocal_witness :
    mixedCreated.Population ∧
    (mixedCreated.make_randomly_connected_network drawZeros (3 + 0)).map
      (fun r => (r.1.heap.synapse 0 2, r.1.heap.synapse 0 1, r.1.heap.synapse 0 0)) =
        some (some ⟨some 0, 0⟩, some ⟨some 1, 1⟩, some ⟨some 1, 0⟩) ∧
    ∃ nn' dendrites_pool synapses_pool,
      mixedCreated.make_randomly_connected_network drawZeros (3 + 0) =
        some (nn', dendrites_pool, synapses_pool) ∧
      (∀ A s B d, nn'.heap.synapse A s = some ⟨some B, d⟩ ↔
        nn'.heap.dendrite B d = some ⟨some A, s⟩) ∧
      (∀ A s d, nn'.heap.synapse A s = some ⟨some A, d⟩ ↔
        nn'.heap.dendrite A d = some ⟨some A, s⟩) ∧
      (∀ A B s1 s2 d, nn'.heap.synapse A s1 = some ⟨some B, d⟩ →
        nn'.heap.synapse A s2 = some ⟨some B, d⟩ → s1 = s2) ∧
      (∀ A B s d1 d2, nn'.heap.dendrite B d1 = some ⟨some A, s⟩ →
        nn'.heap.dendrite B d2 = some ⟨some A, s⟩ → d1 = d2) :=
  ⟨by decide, mixed_wiring_links,
    generated_graph_reciprocal drawZeros 0 mixedCreated (by decide)⟩

/-! ## What connect and disconnect keep of every neuron -/

theorem Graph.map_setSynapse {α : Type} (f : Neuron → α)
    (keepS : ∀ (me : Neuron) (i : Nat) (c : Connector),
      f { me with synapses := me.synapses.set i c } = f me)
    (g : Graph) (a i : Nat) (c : Connector) (x : Nat) :
    ((g.setSynapse a i c)[x]?).map f = (g[x]?).map f := by
  unfold Graph.setSynapse
  cases hg : g[a]? with
  | none => rfl
  | some me =>
    simp only [Graph.getElem?_set_node]
    by_cases hx : a = x
    · subst hx
      simp [hg, keepS]
    · simp [hx]

theorem Graph.map_setDendrite {α : Type} (f : Neuron → α)
    (keepD : ∀ (me : Neuron) (i : Nat) (c : Connector),
      f { me with dendrites := me.dendrites.set i c } = f me)
    (g : Graph) (a i : Nat) (c : Connector) (x : Nat) :
    ((g.setDendrite a i c)[x]?).map f = (g[x]?).map f := by
  unfold Graph.setDendrite
  cases hg : g[a]? with
  | none => rfl
  | some me =>
    simp only [Graph.getElem?_set_node]
    by_cases hx : a = x
    · subst hx
      simp [hg, keepD]
    · simp [hx]

theorem disconnect_keeps {α : Type} (f : Neuron → α)
    (keepS : ∀ (me : Neuron) (i : Nat) (c : Connector),
      f { me with synapses := me.synapses.set i c } = f me)
    (keepD : ∀ (me : Neuron) (i : Nat) (c : Connector),
      f { me with dendrites := me.dendrites.set i c } = f me) : ∀ (fuel : Nat),
    (∀ (g g' : Graph) (a i : Nat), disconnect_synapse fuel g a i = Outcome.done g' →
      ∀ x : Nat, (g'[x]?).map f = (g[x]?).map f) ∧
    (∀ (g g' : Graph) (a i : Nat), disconnect_dendrite fuel g a i = Outcome.done g' →
      ∀ x : Nat, (g'[x]?).map f = (g[x]?).map f) := by
  intro fuel
  induction fuel with
  | zero =>
    exact ⟨fun g g' a i h => by simp [disconnect_synapse] at h,
      fun g g' a i h => by simp [disconnect_dendrite] at h⟩
  | succ f0 ih =>
    refine ⟨fun g g' a i h x => ?_, fun g g' a i h x => ?_⟩
    · simp only [disconnect_synapse] at h
      cases hg : g[a]? with
      | none => simp [hg] at h
      | some me =>
        simp only [hg] at h
        by_cases hgt : i > me.synapses.length
        · simp only [hgt, if_true, Outcome.done.injEq] at h
          rw [h]
        · simp only [hgt, if_false] at h
          cases hs : me.synapses[i]? with
          | none => simp [hs] at h
          | some c =>
            simp only [hs] at h
            cases hc : c.is_connected with
            | false =>
              simp only [hc, Bool.false_eq_true, if_false, Outcome.done.injEq] at h
              rw [h]
            | true =>
              simp only [hc, if_true] at h
              cases hn : c.get_neuron with
              | none => simp [hn] at h
              | some p =>
                simp only [hn] at h
                rw [ih.2 _ _ _ _ h x, Graph.map_setSynapse f keepS]
    · simp only [disconnect_dendrite] at h
      cases hg : g[a]? with
      | none => simp [hg] at h
      | some me =>
        simp only [hg] at h
        by_cases hgt : i > me.dendrites.length
        · simp only [hgt, if_true, Outcome.done.injEq] at h
          rw [h]
        · simp only [hgt, if_false] at h
          cases hs : me.dendrites[i]? with
          | none => simp [hs] at h
          | some c =>
            simp only [hs] at h
            cases hc : c.is_connected with
            | false =>
              simp only [hc, Bool.false_eq_true, if_false, Outcome.done.injEq] at h
              rw [h]
            | true =>
              simp only [hc, if_true] at h
              cases hn : c.get_neuron with
              | none => simp [hn] at h
              | some p =>
                simp only [hn] at h
                rw [ih.1 _ _ _ _ h x, Graph.map_setDendrite f keepD]

theorem connect_keeps {α : Type} (f : Neuron → α)
    (keepS : ∀ (me : Neuron) (i : Nat) (c : Connector),
      f { me with synapses := me.synapses.set i c } = f me)
    (keepD : ∀ (me : Neuron) (i : Nat) (c : Connector),
      f { me with dendrites := me.dendrites.set i c } = f me) : ∀ (fuel : Nat),
    (∀ (g g' : Graph) (a i : Nat) (n : Option Nat) (k : Nat),
      connect_synapse fuel g a i n k = Outcome.done g' →
      ∀ x : Nat, (g'[x]?).map f = (g[x]?).map f) ∧
    (∀ (g g' : Graph) (a i : Nat) (n : Option Nat) (k : Nat),
      connect_dendrite fuel g a i n k = Outcome.done g' →
      ∀ x : Nat, (g'[x]?).map f = (g[x]?).map f) := by
  intro fuel
  induction fuel with
  | zero =>
    exact ⟨fun g g' a i n k h => by simp [connect_synapse] at h,
      fun g g' a i n k h => by simp [connect_dendrite] at h⟩
  | succ f0 ih =>
    refine ⟨fun g g' a i n k h x => ?_, fun g g' a i n k h x => ?_⟩
    · simp only [connect_synapse] at h
      cases hg : g[a]? with
      | none => simp [hg] at h
      | some me =>
        simp only [hg] at h
        cases n with
        | none =>
          simp only [Outcome.done.injEq] at h
          rw [h]
        | some p =>
          simp only at h
          cases hs : me.synapses[i]? with
          | none => simp [hs] at h
          | some c =>
            simp only [hs] at h
            by_cases hc : c.get_neuron = some p
            · simp only [hc, if_true, Outcome.done.injEq] at h
              rw [h]
            · simp only [hc, if_false] at h
              cases hd : disconnect_synapse f0 g a i with
              | undefined => simp [hd] at h
              | outOfFuel => simp [hd] at h
              | done g1 =>
                simp only [hd] at h
                cases h1 : g1.synapse a i with
                | none => simp [h1] at h
                | some c1 =>
                  simp only [h1] at h
                  rw [ih.2 _ _ _ _ _ _ h x, Graph.map_setSynapse f keepS,
                    (disconnect_keeps f keepS keepD f0).1 _ _ _ _ hd x]
    · simp only [connect_dendrite] at h
      cases hg : g[a]? with
      | none => simp [hg] at h
      | some me =>
        simp only [hg] at h
        cases n with
        | none =>
          simp only [Outcome.done.injEq] at h
          rw [h]
        | some p =>
          simp only at h
          cases hs : me.dendrites[i]? with
          | none => simp [hs] at h
          | some c =>
            simp only [hs] at h
            by_cases hc : c.get_neuron = some p
            · simp only [hc, if_true, Outcome.done.injEq] at h
              rw [h]
            · simp only [hc, if_false] at h
              cases hd : disconnect_dendrite f0 g a i with
              | undefined => simp [hd] at h
              | outOfFuel => simp [hd] at h
              | done g1 =>
                simp only [hd] at h
                cases h1 : g1.dendrite a i with
                | none => simp [h1] at h
                | some c1 =>
                  simp only [h1] at h
                  rw [ih.1 _ _ _ _ _ _ h x, Graph.map_setDendrite f keepD,
                    (disconnect_keeps f keepS keepD f0).2 _ _ _ _ hd x]

theorem sizes_of_map {g g' : Graph} {x : Nat}
    (hs : (g'[x]?).map Neuron.n_synapses = (g[x]?).map Neuron.n_synapses)
    (hd : (g'[x]?).map Neuron.n_dendrites = (g[x]?).map Neuron.n_dendrites) :
    g'.n_synapses x = g.n_synapses x ∧ g'.n_dendrites x = g.n_dendrites x := by
  unfold Graph.n_synapses Graph.n_dendrites
  cases h1 : g'[x]? with
  | none =>
    cases h2 : g[x]? with
    | none => exact ⟨rfl, rfl⟩
    | some me => simp [h1, h2] at hs
  | some me' =>
    cases h2 : g[x]? with
    | none => simp [h1, h2] at hs
    | some me =>
      simp only [h1, h2, Option.map_some', Option.some.injEq] at hs hd
      exact ⟨hs, hd⟩

theorem connect_keeps_sizes {fuel : Nat} {g g' : Graph} {a : Option Nat} {s : Nat}
    {b : Option Nat} {d : Nat} (h : NeuralNetwork.connect fuel g a s b d = Outcome.done g')
    (x : Nat) : g'.n_synapses x = g.n_synapses x ∧ g'.n_dendrites x = g.n_dendrites x := by
  unfold NeuralNetwork.connect at h
  cases a with
  | none => simp at h
  | some p =>
    simp only at h
    exact sizes_of_map
      ((connect_keeps Neuron.n_synapses (fun me i c => by simp [Neuron.n_synapses])
        (fun me i c => rfl) fuel).1 _ _ _ _ _ _ h x)
      ((connect_keeps Neuron.n_dendrites (fun me i c => rfl)
        (fun me i c => by simp [Neuron.n_dendrites]) fuel).1 _ _ _ _ _ _ h x)

theorem setSlots_keep_sizes (g : Graph) (A s B d : Nat) (cs cd : Connector) (x : Nat) :
    ((g.setSynapse A s cs).setDendrite B d cd).n_synapses x = g.n_synapses x ∧
    ((g.setSynapse A s cs).setDendrite B d cd).n_dendrites x = g.n_dendrites x :=
  sizes_of_map
    ((Graph.map_setDendrite Neuron.n_synapses (fun me i c => rfl) _ B d cd x).trans
      (Graph.map_setSynapse Neuron.n_synapses (fun me i c => by simp [Neuron.n_synapses])
        g A s cs x))
    ((Graph.map_setDendrite Neuron.n_dendrites (fun me i c => by simp [Neuron.n_dendrites])
        _ B d cd x).trans
      (Graph.map_setSynapse Neuron.n_dendrites (fun me i c => rfl) g A s cs x))

/-! ## The calls of connect made by the wiring loop -/

theorem wire_of_trace (rand : Nat → Nat) (fuel : Nat) :
    ∀ (remaining k : Nat) (g : Graph) (dp sp : neuron_pool),
    NeuralNetwork.wire rand fuel remaining k g dp sp =
      match (NeuralNetwork.wire_trace rand fuel remaining k g dp sp).2 with
      | WireEnd.finished g' dp' sp' => some (g', dp', sp')
      | _ => none := by
  intro remaining
  induction remaining with
  | zero =>
    intro k g dp sp
    rfl
  | succ r ih =>
    intro k g dp sp
    by_cases hbreak : dp.n_available = 0 ∨ sp.n_available = 0
    · simp only [NeuralNetwork.wire, NeuralNetwork.wire_trace, if_pos hbreak]
    · simp only [NeuralNetwork.wire, NeuralNetwork.wire_trace, if_neg hbreak]
      cases h1 : sp.get (rand (k + 1) % sp.n_available) with
      | none => rfl
      | some cs =>
        dsimp only
        cases h2 : dp.get (rand k % dp.n_available) with
        | none => rfl
        | some cd =>
          dsimp only
          cases h3 : sp.put (rand (k + 1) % sp.n_available) cs.decr with
          | none => rfl
          | some sp1 =>
            dsimp only
            cases h4 : dp.put (rand k % dp.n_available) cd.decr with
            | none => rfl
            | some dp1 =>
              dsimp only
              cases h5 : NeuralNetwork.connect fuel g (some cs.neuron) cs.decr.k
                  (some cd.neuron) cd.decr.k with
              | undefined => rfl
              | outOfFuel => rfl
              | done g1 =>
                dsimp only
                cases h6 : NeuralNetwork.retire_if_zero sp1 (rand (k + 1) % sp.n_available) with
                | none => rfl
                | some sp2 =>
                  dsimp only
                  cases h7 : NeuralNetwork.retire_if_zero dp1 (rand k % dp.n_available) with
                  | none => rfl
                  | some dp2 => exact ih (k + 2) g1 dp2 sp2

theorem free_before_link (h : Graph) (A s B d : Nat) (cs cd : Connector)
    (hs : h.synapse A s = some cs) (hd : h.dendrite B d = some cd) :
    (∀ a i x, ((h.setSynapse A s ⟨some B, d⟩).setDendrite B d ⟨some A, s⟩).synapse a i = some x →
      x.is_connected = false → (a, i) ≠ (A, s) ∧ h.synapse a i = some x) ∧
    (∀ a i x, ((h.setSynapse A s ⟨some B, d⟩).setDendrite B d ⟨some A, s⟩).dendrite a i = some x →
      x.is_connected = false → (a, i) ≠ (B, d) ∧ h.dendrite a i = some x) := by
  obtain ⟨ls, ld⟩ := linked_slots h A s B d cs cd hs hd
  refine ⟨fun a i x hx hfree => ?_, fun a i x hx hfree => ?_⟩
  · rw [ls] at hx
    by_cases hc : a = A ∧ i = s
    · rw [if_pos hc] at hx
      simp only [Option.some.injEq] at hx
      subst hx
      simp [Connector.is_connected] at hfree
    · rw [if_neg hc] at hx
      refine ⟨fun heq => hc ?_, hx⟩
      simp only [Prod.mk.injEq] at heq
      exact heq
  · rw [ld] at hx
    by_cases hc : a = B ∧ i = d
    · rw [if_pos hc] at hx
      simp only [Option.some.injEq] at hx
      subst hx
      simp [Connector.is_connected] at hfree
    · rw [if_neg hc] at hx
      refine ⟨fun heq => hc ?_, hx⟩
      simp only [Prod.mk.injEq] at heq
      exact heq

theorem wire_trace_safe (rand : Nat → Nat) (fuel : Nat) :
    ∀ (remaining k : Nat) (g h : Graph) (dp sp : neuron_pool),
    PoolInv Graph.dendrite h dp → PoolInv Graph.synapse h sp →
    (∀ x, g.n_synapses x = h.n_synapses x ∧ g.n_dendrites x = h.n_dendrites x) →
    ∀ t, NeuralNetwork.wire_trace rand fuel remaining k g dp sp = t →
      t.2 ≠ WireEnd.outside_pool ∧
      (∀ c ∈ t.1, c.Safe ∧
        (∃ x, h.synapse c.a c.synapse = some x ∧ x.is_connected = false) ∧
        (∃ x, h.dendrite c.b c.dendrite = some x ∧ x.is_connected = false)) ∧
      (t.1.map (fun c => (c.a, c.synapse))).Nodup ∧
      (t.1.map (fun c => (c.b, c.dendrite))).Nodup ∧
      (∀ g' dp' sp', t.2 = WireEnd.finished g' dp' sp' →
        (∀ e ∈ dp'.available, 1 ≤ e.k) ∧ (∀ e ∈ sp'.available, 1 ≤ e.k)) := by
  intro remaining
  induction remaining with
  | zero =>
    intro k g h dp sp hdp hsp _ t ht
    simp only [NeuralNetwork.wire_trace] at ht
    subst ht
    refine ⟨by simp, by simp, by simp, by simp, ?_⟩
    intro g' dp' sp' he
    simp only [WireEnd.finished.injEq] at he
    obtain ⟨_, rfl, rfl⟩ := he
    exact ⟨fun e he => (hdp.2.2.2.1 e he).1, fun e he => (hsp.2.2.2.1 e he).1⟩
  | succ r ih =>
    intro k g h dp sp hdp hsp hsz t ht
    have hkd1 : ∀ e ∈ dp.available, 1 ≤ e.k := fun e he => (hdp.2.2.2.1 e he).1
    have hks1 : ∀ e ∈ sp.available, 1 ≤ e.k := fun e he => (hsp.2.2.2.1 e he).1
    by_cases hbreak : dp.n_available = 0 ∨ sp.n_available = 0
    · simp only [NeuralNetwork.wire_trace, if_pos hbreak] at ht
      subst ht
      refine ⟨by simp, by simp, by simp, by simp, ?_⟩
      intro g' dp' sp' he
      simp only [WireEnd.finished.injEq] at he
      obtain ⟨_, rfl, rfl⟩ := he
      exact ⟨hkd1, hks1⟩
    · have hd0 : 0 < dp.n_available := by omega
      have hs0 : 0 < sp.n_available := by omega
      have hid : rand k % dp.n_available < dp.n_available := Nat.mod_lt _ hd0
      have his : rand (k + 1) % sp.n_available < sp.n_available := Nat.mod_lt _ hs0
      obtain ⟨es, s1, s2, s3, s4, s5, cs, s6, s7⟩ := pool_entry _ h sp _ hsp his
      obtain ⟨ed, d1, d2, d3, d4, d5, cd, d6, d7⟩ := pool_entry _ h dp _ hdp hid
      obtain ⟨ls, ld⟩ := linked_slots h es.neuron (es.k - 1) ed.neuron (ed.k - 1) cs cd s6 d6
      obtain ⟨fs, fd⟩ := free_before_link h es.neuron (es.k - 1) ed.neuron (ed.k - 1) cs cd s6 d6
      obtain ⟨sp1, sp2, a1, a2, a3, _⟩ := pool_step Graph.synapse h
        ((h.setSynapse es.neuron (es.k - 1) ⟨some ed.neuron, ed.k - 1⟩).setDendrite ed.neuron
          (ed.k - 1) ⟨some es.neuron, es.k - 1⟩) sp _ es hsp his s2 s5
        ⟨⟨some ed.neuron, ed.k - 1⟩, by rw [ls, if_pos ⟨rfl, rfl⟩], rfl⟩
        (fun x j hne => by
          rw [ls, if_neg (fun h => hne (by rw [h.1, h.2]))])
      obtain ⟨dp1, dp2, b1, b2, b3, _⟩ := pool_step Graph.dendrite h
        ((h.setSynapse es.neuron (es.k - 1) ⟨some ed.neuron, ed.k - 1⟩).setDendrite ed.neuron
          (ed.k - 1) ⟨some es.neuron, es.k - 1⟩) dp _ ed hdp hid d2 d5
        ⟨⟨some es.neuron, es.k - 1⟩, by rw [ld, if_pos ⟨rfl, rfl⟩], rfl⟩
        (fun x j hne => by
          rw [ld, if_neg (fun h => hne (by rw [h.1, h.2]))])
      have hks : es.decr.k = es.k - 1 := by rw [s5]
      have hkd : ed.decr.k = ed.k - 1 := by rw [d5]
      have hcall : (⟨g, dp, sp, es, ed, es.neuron, es.k - 1, ed.neuron, ed.k - 1⟩ :
            WireCall).Safe ∧
          (∃ x, h.synapse es.neuron (es.k - 1) = some x ∧ x.is_connected = false) ∧
          (∃ x, h.dendrite ed.neuron (ed.k - 1) = some x ∧ x.is_connected = false) := by
        refine ⟨⟨hkd1, hks1, List.mem_iff_getElem?.mpr ⟨_, s2⟩,
          List.mem_iff_getElem?.mpr ⟨_, d2⟩, rfl, rfl, ?_, ?_, hks, hkd, ?_, ?_⟩,
          ⟨cs, s6, s7⟩, ⟨cd, d6, d7⟩⟩
        · show es.k - 1 + 1 = es.k
          omega
        · show ed.k - 1 + 1 = ed.k
          omega
        · show es.k - 1 < g.n_synapses es.neuron
          rw [(hsz es.neuron).1]
          exact (Graph.synapse_lt s6).2
        · show ed.k - 1 < g.n_dendrites ed.neuron
          rw [(hsz ed.neuron).2]
          exact (Graph.dendrite_lt d6).2
      simp only [NeuralNetwork.wire_trace, if_neg hbreak, s1, d1, a1, b1, hks, hkd] at ht
      cases hc : NeuralNetwork.connect fuel g (some es.neuron) (es.k - 1) (some ed.neuron)
          (ed.k - 1) with
      | done g1 =>
        simp only [hc, a2, b2] at ht
        obtain ⟨i1, i2, i3, i4, i5⟩ := ih (k + 2) g1 _ dp2 sp2 b3 a3 (fun x => by
          obtain ⟨c1, c2⟩ := connect_keeps_sizes hc x
          obtain ⟨c3, c4⟩ := setSlots_keep_sizes h es.neuron (es.k - 1) ed.neuron (ed.k - 1)
            ⟨some ed.neuron, ed.k - 1⟩ ⟨some es.neuron, es.k - 1⟩ x
          rw [c1, c2, c3, c4]
          exact hsz x) _ rfl
        subst ht
        refine ⟨i1, ?_, ?_, ?_, i5⟩
        · intro c hcm
          rcases List.mem_cons.mp hcm with rfl | hcm
          · exact hcall
          · obtain ⟨q1, ⟨x, q2, q3⟩, ⟨y, q4, q5⟩⟩ := i2 c hcm
            exact ⟨q1, ⟨x, (fs _ _ x q2 q3).2, q3⟩, ⟨y, (fd _ _ y q4 q5).2, q5⟩⟩
        · simp only [List.map_cons, List.nodup_cons]
          refine ⟨fun hin => ?_, i3⟩
          obtain ⟨c, hcm, heq⟩ := List.mem_map.mp hin
          obtain ⟨_, ⟨x, q2, q3⟩, _⟩ := i2 c hcm
          exact (fs _ _ x q2 q3).1 heq
        · simp only [List.map_cons, List.nodup_cons]
          refine ⟨fun hin => ?_, i4⟩
          obtain ⟨c, hcm, heq⟩ := List.mem_map.mp hin
          obtain ⟨_, _, ⟨y, q4, q5⟩⟩ := i2 c hcm
          exact (fd _ _ y q4 q5).1 heq
      | undefined =>
        simp only [hc] at ht
        subst ht
        refine ⟨by simp, ?_, by simp, by simp, by simp⟩
        intro c hcm
        rw [List.mem_singleton.mp hcm]
        exact hcall
      | outOfFuel =>
        simp only [hc] at ht
        subst ht
        refine ⟨by simp, ?_, by simp, by simp, by simp⟩
        intro c hcm
        rw [List.mem_singleton.mp hcm]
        exact hcall

theorem initial_pools (nn : NeuralNetwork) (hpop : nn.Populated) :
    ∃ dp sp nd ns,
      NeuralNetwork.fill_pools nn.heap nn.neurons 0
        (neuron_pool.new (nn.neurons.length % 2 ^ 32))
        (neuron_pool.new (nn.neurons.length % 2 ^ 32)) 0 0 = some (dp, sp, nd, ns) ∧
      dp.n_available = nn.heap.length ∧ sp.n_available = nn.heap.length ∧
      dp.pool.length = nn.heap.length ∧ sp.pool.length = nn.heap.length ∧
      dp.available = (List.range nn.heap.length).map
        (fun x => (⟨x, nn.heap.n_dendrites x⟩ : ncounter)) ∧
      sp.available = (List.range nn.heap.length).map
        (fun x => (⟨x, nn.heap.n_synapses x⟩ : ncounter)) := by
  obtain ⟨hneu, hN, hcnt⟩ := hpop
  have hcount : ∀ me ∈ nn.heap, me.n_dendrites < 2 ^ 32 ∧ me.n_synapses < 2 ^ 32 :=
    fun me hme => ⟨(hcnt me hme).1.2, (hcnt me hme).2.2⟩
  have hbound : ((List.range nn.heap.length).map nn.heap.n_dendrites).sum < 2 ^ 64 := by
    have h1 := sum_map_lt_bound nn.heap.n_dendrites (2 ^ 32) (List.range nn.heap.length)
      (fun x hx => by
        have hxl : x < nn.heap.length := List.mem_range.mp hx
        have hg := List.getElem?_eq_getElem hxl
        have hme : nn.heap[x] ∈ nn.heap := List.mem_iff_getElem?.mpr ⟨x, hg⟩
        have hd : nn.heap.n_dendrites x = nn.heap[x].n_dendrites := by
          simp [Graph.n_dendrites, hg]
        rw [hd]
        exact Nat.le_of_lt (hcount _ hme).1)
    rw [List.length_range] at h1
    have h2 : nn.heap.length * 2 ^ 32 < 2 ^ 32 * 2 ^ 32 :=
      Nat.mul_lt_mul_of_pos_right hN (by norm_num)
    have h3 : (2 : Nat) ^ 32 * 2 ^ 32 = 2 ^ 64 := by norm_num
    omega
  have hmod : nn.heap.length % 2 ^ 32 = nn.heap.length := Nat.mod_eq_of_lt hN
  obtain ⟨dp, sp, ns, f1, f2, f3, f4, f5, _, f7⟩ := fill_pools_spec nn.heap hcount
    nn.heap.length 0 (neuron_pool.new nn.heap.length) (neuron_pool.new nn.heap.length) 0 0
    (by omega) (by simp [neuron_pool.new]) (by simp [neuron_pool.new])
    (by rw [← List.range_eq_range']; omega)
  rw [← List.range_eq_range'] at f1
  have hdpool : dp.pool = (List.range nn.heap.length).map
      (fun x => (⟨x, nn.heap.n_dendrites x⟩ : ncounter)) := by
    apply List.ext_getElem?
    intro x
    by_cases hx : x < nn.heap.length
    · rw [(f7 x (by omega) (by omega)).1, List.getElem?_map, List.getElem?_range hx]
      rfl
    · rw [List.getElem?_eq_none (by omega), List.getElem?_eq_none (by simp; omega)]
  have hspool : sp.pool = (List.range nn.heap.length).map
      (fun x => (⟨x, nn.heap.n_synapses x⟩ : ncounter)) := by
    apply List.ext_getElem?
    intro x
    by_cases hx : x < nn.heap.length
    · rw [(f7 x (by omega) (by omega)).2, List.getElem?_map, List.getElem?_range hx]
      rfl
    · rw [List.getElem?_eq_none (by omega), List.getElem?_eq_none (by simp; omega)]
  have hdn : dp.n_available = nn.heap.length := by
    rw [f2]
    rfl
  have hsn : sp.n_available = nn.heap.length := by
    rw [f3]
    rfl
  have hdav : dp.available = dp.pool := by
    show dp.pool.take dp.n_available = dp.pool
    rw [hdn]
    exact List.take_of_length_le (by omega)
  have hsav : sp.available = sp.pool := by
    show sp.pool.take sp.n_available = sp.pool
    rw [hsn]
    exact List.take_of_length_le (by omega)
  refine ⟨dp, sp, 0 + ((List.range nn.heap.length).map nn.heap.n_dendrites).sum, ns, ?_, hdn,
    hsn, f4, f5, hdav.trans hdpool, hsav.trans hspool⟩
  rw [hneu, List.length_range, hmod]
  exact f1

theorem blank_graph (g : Graph) :
    ∃ h : Graph, h.length = g.length ∧ Unwired h ∧
      ∀ x, h.n_synapses x = g.n_synapses x ∧ h.n_dendrites x = g.n_dendrites x := by
  refine ⟨g.map (fun me => Neuron.mk0 me.neuron_id me.n_dendrites me.n_synapses),
    List.length_map _ _, ?_, fun x => ?_⟩
  · intro me' hme'
    obtain ⟨me, _, rfl⟩ := List.mem_map.mp hme'
    refine ⟨fun c hc => ?_, fun c hc => ?_⟩
    · simp only [Neuron.mk0] at hc
      rw [List.eq_of_mem_replicate hc]
      rfl
    · simp only [Neuron.mk0] at hc
      rw [List.eq_of_mem_replicate hc]
      rfl
  · unfold Graph.n_synapses Graph.n_dendrites
    rw [List.getElem?_map]
    cases g[x]? with
    | none => exact ⟨rfl, rfl⟩
    | some me => simp [Neuron.mk0, Neuron.n_synapses, Neuron.n_dendrites]

theorem initial_poolInv (nn : NeuralNetwork) (hpop : nn.Populated) (h : Graph)
    (hlen : h.length = nn.heap.length) (hunw : Unwired h)
    (hsz : ∀ x, h.n_synapses x = nn.heap.n_synapses x ∧
      h.n_dendrites x = nn.heap.n_dendrites x)
    (dp sp : neuron_pool)
    (hdn : dp.n_available = nn.heap.length) (hsn : sp.n_available = nn.heap.length)
    (hdl : dp.pool.length = nn.heap.length) (hsl : sp.pool.length = nn.heap.length)
    (hdav : dp.available = (List.range nn.heap.length).map
      (fun x => (⟨x, nn.heap.n_dendrites x⟩ : ncounter)))
    (hsav : sp.available = (List.range nn.heap.length).map
      (fun x => (⟨x, nn.heap.n_synapses x⟩ : ncounter))) :
    PoolInv Graph.dendrite h dp ∧ PoolInv Graph.synapse h sp := by
  obtain ⟨_, hN, hcnt⟩ := hpop
  have hof : ∀ x, x < nn.heap.length →
      (1 ≤ nn.heap.n_dendrites x ∧ nn.heap.n_dendrites x < 2 ^ 32) ∧
      (1 ≤ nn.heap.n_synapses x ∧ nn.heap.n_synapses x < 2 ^ 32) := by
    intro x hx
    have hg := List.getElem?_eq_getElem hx
    have hme : nn.heap[x] ∈ nn.heap := List.mem_iff_getElem?.mpr ⟨x, hg⟩
    have hd : nn.heap.n_dendrites x = nn.heap[x].n_dendrites := by
      simp [Graph.n_dendrites, hg]
    have hs : nn.heap.n_synapses x = nn.heap[x].n_synapses := by
      simp [Graph.n_synapses, hg]
    rw [hd, hs]
    exact hcnt _ hme
  constructor
  · refine ⟨by omega, by omega, ?_⟩
    rw [hdav]
    apply slotsAccounted_initial
    · intro x j c hc
      obtain ⟨k1, k2⟩ := Graph.dendrite_lt hc
      rw [(hsz x).2] at k2
      exact ⟨by omega, k2⟩
    · intro x j _ hj
      rw [← (hsz x).2] at hj
      exact Graph.dendrite_isSome_of_lt hj
    · intro x j c hc
      obtain ⟨me, hg, hs⟩ := Graph.dendrite_eq_some hc
      exact (hunw me (List.mem_iff_getElem?.mpr ⟨x, hg⟩)).1 c
        (List.mem_iff_getElem?.mpr ⟨j, hs⟩)
    · intro x hx
      exact (hof x hx).1
  · refine ⟨by omega, by omega, ?_⟩
    rw [hsav]
    apply slotsAccounted_initial
    · intro x j c hc
      obtain ⟨k1, k2⟩ := Graph.synapse_lt hc
      rw [(hsz x).1] at k2
      exact ⟨by omega, k2⟩
    · intro x j _ hj
      rw [← (hsz x).1] at hj
      exact Graph.synapse_isSome_of_lt hj
    · intro x j c hc
      obtain ⟨me, hg, hs⟩ := Graph.synapse_eq_some hc
      exact (hunw me (List.mem_iff_getElem?.mpr ⟨x, hg⟩)).2 c
        (List.mem_iff_getElem?.mpr ⟨j, hs⟩)
    · intro x hx
      exact (hof x hx).2

theorem network_of_trace (rand : Nat → Nat) (fuel : Nat) (nn : NeuralNetwork) :
    nn.make_randomly_connected_network rand fuel =
      match nn.make_randomly_connected_network_trace rand fuel with
      | some (_, WireEnd.finished g dp sp) => some ({ nn with heap := g }, dp, sp)
      | _ => none := by
  simp only [NeuralNetwork.make_randomly_connected_network,
    NeuralNetwork.make_randomly_connected_network_trace]
  cases hf : NeuralNetwork.fill_pools nn.heap nn.neurons 0
      (neuron_pool.new (nn.neurons.length % 2 ^ 32))
      (neuron_pool.new (nn.neurons.length % 2 ^ 32)) 0 0 with
  | none => rfl
  | some r =>
    obtain ⟨dp, sp, nd, ns⟩ := r
    dsimp only
    rw [wire_of_trace]
    cases NeuralNetwork.wire_trace rand fuel nd 0 nn.heap dp sp with
    | mk calls ending =>
      cases ending <;> rfl

/-- Claim C31. Wiring index safety: for every population in which every neuron has at
least one inbound and one outbound slot (whatever its slots are connected to), every
sequence of values of `rand ()` and any fuel of `connect`, the wiring loop of
`make_randomly_connected_network` never indexes a pool outside its array, and every
call of `connect` it makes is within bounds: at the top of the iteration every available
entry of both pools has a count `k >= 1`, the slot index passed is the count of the
entry drawn less one (no decrement wraps) and is below the number of slots of the neuron
it addresses. No outbound slot and no inbound slot is passed twice. When the loop ends,
the available entries still have counts of at least 1. The calls are those of
`make_randomly_connected_network`, which returns when no slot was connected before
and the fuel is 3 or more. -/
theorem wiring_indices_in_range (rand : Nat → Nat) (fuel : Nat) (nn : NeuralNetwork)
    (hpop : nn.Populated) :
    ∃ calls ending,
      nn.make_randomly_connected_network_trace rand fuel = some (calls, ending) ∧
      ending ≠ WireEnd.outside_pool ∧
      (∀ c ∈ calls, c.Safe) ∧
      (calls.map (fun c => (c.a, c.synapse))).Nodup ∧
      (calls.map (fun c => (c.b, c.dendrite))).Nodup ∧
      (∀ g dp sp, ending = WireEnd.finished g dp sp →
        (∀ e ∈ dp.available, 1 ≤ e.k) ∧ (∀ e ∈ sp.available, 1 ≤ e.k) ∧
        nn.make_randomly_connected_network rand fuel = some ({ nn with heap := g }, dp, sp)) ∧
      (Unwired nn.heap → 3 ≤ fuel → ∃ g dp sp, ending = WireEnd.finished g dp sp) := by
  obtain ⟨dp, sp, nd, ns, f1, f2, f3, f4, f5, f6, f7⟩ := initial_pools nn hpop
  obtain ⟨h, hlen, hunw, hsz⟩ := blank_graph nn.heap
  obtain ⟨hdp, hsp⟩ := initial_poolInv nn hpop h hlen hunw hsz dp sp f2 f3 f4 f5 f6 f7
  obtain ⟨t1, t2, t3, t4, t5⟩ := wire_trace_safe rand fuel nd 0 nn.heap h dp sp hdp hsp
    (fun x => ⟨(hsz x).1.symm, (hsz x).2.symm⟩) _ rfl
  have htrace : nn.make_randomly_connected_network_trace rand fuel =
      some (NeuralNetwork.wire_trace rand fuel nd 0 nn.heap dp sp) := by
    simp only [NeuralNetwork.make_randomly_connected_network_trace, f1]
  have hnet := network_of_trace rand fuel nn
  rw [htrace] at hnet
  refine ⟨_, _, htrace, t1, fun c hc => (t2 c hc).1, t3, t4, ?_, ?_⟩
  · intro g dp' sp' he
    obtain ⟨k1, k2⟩ := t5 g dp' sp' he
    refine ⟨k1, k2, ?_⟩
    rw [hnet]
    generalize NeuralNetwork.wire_trace rand fuel nd 0 nn.heap dp sp = t at he
    obtain ⟨calls, ending⟩ := t
    simp only at he
    subst he
    rfl
  · intro hu hfuel
    obtain ⟨nn', dp', sp', m1, _⟩ := make_network_spec rand fuel hfuel nn
      ⟨hpop.1, hpop.2.1, hu, hpop.2.2⟩
    rw [m1] at hnet
    generalize NeuralNetwork.wire_trace rand fuel nd 0 nn.heap dp sp = t at hnet
    obtain ⟨calls, ending⟩ := t
    cases ending with
    | finished g dp2 sp2 => exact ⟨g, dp2, sp2, rfl⟩
    | not_connected => simp at hnet
    | outside_pool => simp at hnet

theorem wiring_indices_in_range_witness :
    linkedCreated.Populated ∧ ¬ Unwired linkedCreated.heap ∧
    ∃ calls ending,
      linkedCreated.make_randomly_connected_network_trace drawOnes 5 = some (calls, ending) ∧
      ending ≠ WireEnd.outside_pool ∧
      (∀ c ∈ calls, c.Safe) ∧
      (calls.map (fun c => (c.a, c.synapse))).Nodup ∧
      (calls.map (fun c => (c.b, c.dendrite))).Nodup ∧
      (∀ g dp sp, ending = WireEnd.finished g dp sp →
        (∀ e ∈ dp.available, 1 ≤ e.k) ∧ (∀ e ∈ sp.available, 1 ≤ e.k) ∧
        linkedCreated.make_randomly_connected_network drawOnes 5 =
          some ({ linkedCreated with heap := g }, dp, sp)) ∧
      (Unwired linkedCreated.heap → 3 ≤ 5 → ∃ g dp sp, ending = WireEnd.finished g dp sp) :=
  ⟨by decide, by decide, wiring_indices_in_range drawOnes 5 linkedCreated (by decide)⟩

end Libnn
